import Mathlib

/-!
# Incremental pair counting over a merging partition of role nodes (`src/e.cpp`)

Shallow embedding of the union-find / overlap-graph / inclusion-exclusion engine of
`src/e.cpp`, followed by the properties of it that the specification states.

Modelling conventions.
* The global arrays `Parent`, `clique_size` and the vector `overlaps` are total
  functions on `Nat` (zero-initialised globals read as `0`, unallocated maps as empty).
  The source arrays have `MAX_NODES + 1 = 400011` slots.  For `N ≤ MAXN = 200005` every
  index the program uses lies in `1 .. 2N`, inside the arrays, and the functions are the
  arrays; for `N > MAXN` the initialisation of `Solve` would write outside them and the
  program has no defined behaviour.  The properties of complete runs of `Solve` and of
  the initial state `init N` therefore carry the hypothesis `N ≤ MAXN`.
* Node indices are `Nat`; the `int` / `long long` quantities (clique sizes, overlap
  weights, `E_C`, `E_O`) are exact integers `Int`.
* A `std::unordered_map<int,int,custom_hash>` is an association list with distinct keys.
  The order in which a range-`for` visits its entries depends on the hash salt
  `FIXED_RANDOM` and on the history of the table; it is a parameter (`Enumeration`) of
  every call of `Union`, and a run of `Solve` takes one such order per request.
* The recursion of `Find` is bounded by fuel; `Union` calls it with fuel `2 * N + 1`,
  the number of array slots in use.  Running out of fuel is the result `none`.
* Resource and safety properties are stated over instrumented copies of the calls: the
  lists `FindIndices`, `UnionIndices`, `UnionStores` record the array indices used and the
  values written to `Parent`, the lists `absorbLongs`, `absorbInts`, `requestLongs`,
  `requestInts` the `long long` and `int` values computed, in program order, and
  `loopIterations` counts the iterations of the step-5 loop.
-/

namespace RoleGraph

/-! ## The hash map -/

/-- The type `HashMap` of the source: a finite map from node ids to `int` weights. -/
abbrev HashMap := List (Nat × Int)

namespace HashMap

/-- Lookup `m.find(k)`: `none` stands for `end()`, `some v` for an iterator at `(k, v)`. -/
def find (m : HashMap) (k : Nat) : Option Int :=
  match m with
  | [] => none
  | (k', v) :: t => if k' = k then some v else find t k

/-- Removal `m.erase(k)`. -/
def erase (m : HashMap) (k : Nat) : HashMap :=
  match m with
  | [] => []
  | (k', v) :: t => if k' = k then erase t k else (k', v) :: erase t k

/-- Number of entries `m.size()`. -/
def size (m : HashMap) : Nat := m.length

/-- Write through `operator[]`: `m[k] = v`, updating the entry of `k` or inserting one. -/
def assign (m : HashMap) (k : Nat) (v : Int) : HashMap :=
  match m with
  | [] => [(k, v)]
  | (k', v') :: t => if k' = k then (k, v) :: t else (k', v') :: assign t k v

/-- Keys of a map, in storage order. -/
def keys (m : HashMap) : List Nat := m.map Prod.fst

end HashMap

/-- An iteration order for hash maps, as fixed by the salt `FIXED_RANDOM`: the entries of
the map, each once, in some order. -/
structure Enumeration where
  /-- Entries in the order the range-for visits them. -/
  run : HashMap → List (Nat × Int)
  /-- Every entry is visited exactly once. -/
  perm : ∀ m, (run m).Perm m

/-- Enumeration in storage order. -/
def Enumeration.storage : Enumeration := ⟨fun m => m, fun _ => List.Perm.refl _⟩

/-- Enumeration in reverse storage order. -/
def Enumeration.reversed : Enumeration := ⟨fun m => m.reverse, fun m => List.reverse_perm m⟩

/-! ## Global state -/

/-- The globals of `src/e.cpp`.  The arrays `Parent` and `clique_size` (`MAX_NODES + 1`
slots each in the source) are functions on all of `Nat`; they stand for the arrays as
long as only the slots `0 .. MAX_NODES` are addressed, which is the case for `N ≤ MAXN`. -/
structure State where
  /-- Entity count `N`. -/
  N : Nat
  /-- DSU parent array `int Parent[MAX_NODES + 1]`. -/
  Parent : Nat → Nat
  /-- Clique size per representative, `int clique_size[MAX_NODES + 1]`. -/
  clique_size : Nat → Int
  /-- Component graph adjacency maps. -/
  overlaps : Nat → HashMap
  /-- Accumulator `T1`. -/
  E_C : Int
  /-- Accumulator `T2`. -/
  E_O : Int

/-- Array write `a[i] = v`. -/
def setAt {α : Type} (a : Nat → α) (i : Nat) (v : α) : Nat → α :=
  fun j => if j = i then v else a j

/-- The helper `binom2`: `n` choose 2 (C++ division truncates). -/
def binom2 (n : Int) : Int :=
  if n < 2 then 0 else Int.tdiv (n * (n - 1)) 2

/-- The function `Find` with path compression; returns the representative and the
updated `Parent` array, or `none` when the recursion exceeds the fuel. -/
def Find : Nat → (Nat → Nat) → Nat → Option (Nat × (Nat → Nat))
  | 0, _, _ => none
  | fuel + 1, P, i =>
    if P i = i then some (i, P)
    else
      match Find fuel P (P i) with
      | none => none
      | some (r, P') => some (r, setAt P' i r)

/-- Body of the step-5 loop of `Union` for one entry `pair_AC` of `overlaps[R_A]`,
acting on the overlap maps and `E_O`. -/
def mergeStep (R_A R_B : Nat) (acc : (Nat → HashMap) × Int) (pair_AC : Nat × Int) :
    (Nat → HashMap) × Int :=
  let R_C := pair_AC.1
  let k_AC := pair_AC.2
  let k_BC := ((acc.1 R_B).find R_C).getD 0
  let E_O := acc.2 + k_AC * k_BC
  let k_new := k_BC + k_AC
  let ov1 := setAt acc.1 R_B ((acc.1 R_B).assign R_C k_new)
  let ov2 := setAt ov1 R_C ((ov1 R_C).erase R_A)
  let ov3 := setAt ov2 R_C ((ov2 R_C).assign R_B k_new)
  (ov3, E_O)

/-- Step 3 of `Union`: when `k_AB > 0` the mutual entries of `R_A` and `R_B` are erased. -/
def unlink (ov : Nat → HashMap) (R_A R_B : Nat) (k_AB : Int) : Nat → HashMap :=
  if k_AB > 0 then
    let ovA := setAt ov R_A ((ov R_A).erase R_B)
    setAt ovA R_B ((ovA R_B).erase R_A)
  else ov

/-- Steps 1 to 6 of `Union` once the representatives are ordered: `R_A` is merged into
`R_B`.  `P` is the `Parent` array left by the two `Find` calls.  The range-for of step 5
runs over the entries of `overlaps[R_A]` in the order given by `en`; its body writes to
`overlaps[R_B]` and `overlaps[R_C]` only, so the entries visited are those present when
the loop starts. -/
def absorb (en : Enumeration) (s : State) (P : Nat → Nat) (R_A R_B : Nat) : State :=
  let it_AB := (s.overlaps R_A).find R_B
  let k_AB : Int := it_AB.getD 0
  let E_O1 := s.E_O - binom2 k_AB
  let ov0 := unlink s.overlaps R_A R_B k_AB
  let V_A := s.clique_size R_A
  let V_B := s.clique_size R_B
  let V_new := V_A + V_B - k_AB
  let E_C3 := s.E_C - binom2 V_A - binom2 V_B + binom2 V_new
  let cs := setAt s.clique_size R_B V_new
  let res := (en.run (ov0 R_A)).foldl (mergeStep R_A R_B) (ov0, E_O1)
  { N := s.N, Parent := setAt P R_A R_B, clique_size := cs, overlaps := res.1,
    E_C := E_C3, E_O := res.2 }

/-- The function `Union`, for the enumeration order `en`: two `Find` calls, the early
return on equal representatives, the small-to-large swap, then steps 1 to 6. -/
def Union (en : Enumeration) (s : State) (A B : Nat) : Option State :=
  match Find (2 * s.N + 1) s.Parent A with
  | none => none
  | some (rA, P1) =>
    match Find (2 * s.N + 1) P1 B with
    | none => none
    | some (rB, P2) =>
      if rA = rB then some { s with Parent := P2 }
      else if (s.overlaps rA).size > (s.overlaps rB).size then some (absorb en s P2 rB rA)
      else some (absorb en s P2 rA rB)

/-- The zero-initialised globals before `Solve` runs, with `N` already read. -/
def zeroState (N : Nat) : State :=
  { N := N, Parent := fun _ => 0, clique_size := fun _ => 0, overlaps := fun _ => [],
    E_C := 0, E_O := 0 }

/-- Body of the first initialisation loop: `Parent[i] = i; clique_size[i] = 1`. -/
def initNodeStep (st : State) (i : Nat) : State :=
  { st with Parent := setAt st.Parent i i, clique_size := setAt st.clique_size i 1 }

/-- First initialisation loop of `Solve`, over `i = 1 .. 2N`. -/
def initNodes (s : State) : State :=
  (List.range' 1 (2 * s.N)).foldl initNodeStep s

/-- Body of the second initialisation loop: the bridge between `H = i` and `D = N + i`,
`overlaps[H][D] = 1; overlaps[D][H] = 1`. -/
def initOverlapStep (st : State) (i : Nat) : State :=
  let H := i
  let D := st.N + i
  let ov1 := setAt st.overlaps H ((st.overlaps H).assign D 1)
  let ov2 := setAt ov1 D ((ov1 D).assign H 1)
  { st with overlaps := ov2 }

/-- Second initialisation loop of `Solve`, over `i = 1 .. N`. -/
def initOverlaps (s : State) : State :=
  (List.range' 1 s.N).foldl initOverlapStep s

/-- State of `Solve` after initialisation for `N` entities, before any request.  It is
the state of the program for `N ≤ MAXN`; for larger `N` the first loop of the source
writes beyond slot `MAX_NODES` of `Parent` and `clique_size`, and `init N` describes no
state of the program. -/
def init (N : Nat) : State := initOverlaps (initNodes (zeroState N))

/-- The request loop of `Solve`: for every courier `(A, B)` call `Union(A, N + B)` and
print `E_C - E_O`.  Returns the final state and the printed answers.  The call for request
number `t` (counted from 0) iterates in the order `en t`. -/
def process (en : Nat → Enumeration) :
    Nat → State → List (Nat × Nat) → Option (State × List Int)
  | _, s, [] => some (s, [])
  | t, s, (A, B) :: rest =>
    match Union (en t) s A (s.N + B) with
    | none => none
    | some s1 =>
      match process en (t + 1) s1 rest with
      | none => none
      | some (s2, out) => some (s2, (s1.E_C - s1.E_O) :: out)

/-- The program `Solve` on input `N` and the list of couriers: the printed answers. -/
def Solve (en : Nat → Enumeration) (N : Nat) (reqs : List (Nat × Nat)) : Option (List Int) :=
  (process en 0 (init N) reqs).map Prod.snd

/-- State of the globals after `Solve` has processed `reqs`. -/
def finalState (en : Nat → Enumeration) (N : Nat) (reqs : List (Nat × Nat)) : Option State :=
  (process en 0 (init N) reqs).map Prod.fst

/-- The same iteration order at every call: storage order. -/
def storageOrder : Nat → Enumeration := fun _ => Enumeration.storage

/-- Iteration orders alternating between reverse storage order and storage order. -/
def mixedOrder : Nat → Enumeration :=
  fun t => if t % 2 = 0 then Enumeration.reversed else Enumeration.storage

/-! ## Specification-level notions -/

/-- Stored overlap weight of `c` in the map of `r` (0 when absent). -/
def weight (ov : Nat → HashMap) (r c : Nat) : Int := ((ov r).find c).getD 0

/-- Node ids in use: `1 .. 2N`. -/
def inRange (N i : Nat) : Prop := 1 ≤ i ∧ i ≤ 2 * N

instance (N i : Nat) : Decidable (inRange N i) := by
  unfold inRange
  infer_instance

/-- Number of nodes in `1 .. 2N` that are not their own parent. -/
def nonroots (N : Nat) (P : Nat → Nat) : Nat :=
  ((Finset.Icc 1 (2 * N)).filter (fun i => P i ≠ i)).card

/-- The array `P` is a forest on `1 .. 2N` whose trees have the roots given by `root`,
with `d` a height function bounded by the number of non-root nodes. -/
structure Forest (N : Nat) (P root d : Nat → Nat) : Prop where
  root_range : ∀ i, inRange N i → inRange N (root i)
  root_fix : ∀ i, inRange N i → P (root i) = root i
  root_self : ∀ i, inRange N i → P i = i → root i = i
  parent_range : ∀ i, inRange N i → inRange N (P i)
  root_parent : ∀ i, inRange N i → root (P i) = root i
  d_parent : ∀ i, inRange N i → P i ≠ i → d (P i) < d i
  d_root : ∀ i, inRange N i → P i = i → d i = 0
  d_le : ∀ i, inRange N i → d i ≤ nonroots N P

/-- Clique `V(r)`: entities with at least one role node in the component of `r`. -/
def clique (N : Nat) (root : Nat → Nat) (r : Nat) : Finset Nat :=
  (Finset.Icc 1 N).filter (fun i => root i = r ∨ root (N + i) = r)

/-- Entities with one role node in the component of `r` and the other in that of `c`. -/
def bridge (N : Nat) (root : Nat → Nat) (r c : Nat) : Finset Nat :=
  (Finset.Icc 1 N).filter
    (fun i => (root i = r ∧ root (N + i) = c) ∨ (root i = c ∧ root (N + i) = r))

/-- The stored clique sizes, overlap maps and accumulators agree with the partition
described by `root`. -/
structure Sem (s : State) (root : Nat → Nat) : Prop where
  cs : ∀ r, inRange s.N r → s.Parent r = r →
    s.clique_size r = ((clique s.N root r).card : Int)
  nodup : ∀ r, (s.overlaps r).keys.Nodup
  find : ∀ r c, inRange s.N r → s.Parent r = r →
    (s.overlaps r).find c =
      if c ≠ r ∧ 0 < (bridge s.N root r c).card then
        some ((bridge s.N root r c).card : Int) else none
  eC : s.E_C = ∑ r in Finset.Icc 1 (2 * s.N), binom2 ((clique s.N root r).card : Int)
  eO : 2 * s.E_O = ∑ r in Finset.Icc 1 (2 * s.N), ∑ c in Finset.Icc 1 (2 * s.N),
    if r = c then 0 else binom2 ((bridge s.N root r c).card : Int)

/-- Two nodes are joined by one of the edges in `E`. -/
def joined (E : List (Nat × Nat)) (x y : Nat) : Prop := (x, y) ∈ E

/-- Two nodes lie in the same connected component of the graph with edge list `E`. -/
def connected (E : List (Nat × Nat)) (x y : Nat) : Prop := Relation.EqvGen (joined E) x y

/-- The partition described by `root` is the partition into connected components of the
graph with edge list `E`. -/
structure Conn (E : List (Nat × Nat)) (N : Nat) (root : Nat → Nat) : Prop where
  edge : ∀ p ∈ E, root p.1 = root p.2
  path : ∀ x, inRange N x → connected E x (root x)

/-- Entities `i` and `j` are related under the partition `root`: some component holds a
role node of each. -/
def related (N : Nat) (root : Nat → Nat) (i j : Nat) : Prop :=
  root i = root j ∨ root i = root (N + j) ∨ root (N + i) = root j ∨
    root (N + i) = root (N + j)

instance (N : Nat) (root : Nat → Nat) (i j : Nat) : Decidable (related N root i j) := by
  unfold related
  infer_instance

/-- All pairs `(i, j)` of entities with `i < j`. -/
def entityPairs (N : Nat) : Finset (Nat × Nat) :=
  ((Finset.Icc 1 N) ×ˢ (Finset.Icc 1 N)).filter (fun p => p.1 < p.2)

/-- The pairs of entities related under the partition `root`. -/
def relatedPairs (N : Nat) (root : Nat → Nat) : Finset (Nat × Nat) :=
  (entityPairs N).filter (fun p => related N root p.1 p.2)

/-- Invariant of the engine after the unions listed in `E`. -/
def Inv (E : List (Nat × Nat)) (s : State) : Prop :=
  ∃ root d : Nat → Nat, Forest s.N s.Parent root d ∧ Sem s root ∧ Conn E s.N root

/-- The requests are well formed for `N` entities: `1 ≤ a, b ≤ N`. -/
def validReqs (N : Nat) (reqs : List (Nat × Nat)) : Prop :=
  ∀ p ∈ reqs, 1 ≤ p.1 ∧ p.1 ≤ N ∧ 1 ≤ p.2 ∧ p.2 ≤ N

instance (N : Nat) (reqs : List (Nat × Nat)) : Decidable (validReqs N reqs) := by
  unfold validReqs
  infer_instance

/-- Edges of the role graph: one edge `{a, N + b}` per request `(a, b)`. -/
def roleEdges (N : Nat) (reqs : List (Nat × Nat)) : List (Nat × Nat) :=
  reqs.map (fun p => (p.1, N + p.2))

/-- Entities `i` and `j` are directly related in the graph `E`: some connected component
of `E` contains a role node of `i` (`i` or `N + i`) and a role node of `j`. -/
def shareComponent (N : Nat) (E : List (Nat × Nat)) (i j : Nat) : Prop :=
  ∃ x y, (x = i ∨ x = N + i) ∧ (y = j ∨ y = N + j) ∧ connected E x y

/-- The value `a` is the number of pairs of distinct entities directly related in `E`. -/
def IsPairCount (N : Nat) (E : List (Nat × Nat)) (a : Int) : Prop :=
  ∃ S : Finset (Nat × Nat),
    (∀ i j, (i, j) ∈ S ↔ (1 ≤ i ∧ i < j ∧ j ≤ N ∧ shareComponent N E i j)) ∧
    a = (S.card : Int)

/-- States reachable from the initial state of `Solve` for `N` entities by calls
`Union(a, N + b)` with `1 ≤ a, b ≤ N`, under any iteration orders. -/
inductive Reachable (N : Nat) : State → Prop
  | init : Reachable N (init N)
  | step (en : Enumeration) (s s' : State) (a b : Nat) :
      Reachable N s → 1 ≤ a → a ≤ N → 1 ≤ b → b ≤ N →
      Union en s a (N + b) = some s' → Reachable N s'

/-- Two states hold the same data: equal scalars and arrays, and overlap maps with the
same lookups (the storage order inside a map is not observable). -/
def SameData (s1 s2 : State) : Prop :=
  s1.N = s2.N ∧ s1.Parent = s2.Parent ∧ s1.clique_size = s2.clique_size ∧
  s1.E_C = s2.E_C ∧ s1.E_O = s2.E_O ∧
  ∀ r c, (s1.overlaps r).find c = (s2.overlaps r).find c

/-- The value `a` is the number of pairs of distinct entities connected, directly or
transitively, in the graph on the entities `1 .. N` with one edge `{a, b}` per request. -/
def IsEntityPairCount (N : Nat) (reqs : List (Nat × Nat)) (a : Int) : Prop :=
  ∃ S : Finset (Nat × Nat),
    (∀ i j, (i, j) ∈ S ↔ (1 ≤ i ∧ i < j ∧ j ≤ N ∧ connected reqs i j)) ∧
    a = (S.card : Int)

/-- The representative `Find(i)` computed in state `s` (the value returned, if any). -/
def findRep (s : State) (i : Nat) : Option Nat :=
  (Find (2 * s.N + 1) s.Parent i).map Prod.fst

/-- Node `r` is a live representative: a node in `1 .. 2N` with `Parent[r] = r`. -/
def isRep (s : State) (r : Nat) : Prop := inRange s.N r ∧ s.Parent r = r

instance (s : State) (r : Nat) : Decidable (isRep s r) := by
  unfold isRep
  infer_instance

/-- The live representatives of a state. -/
def liveReps (s : State) : Finset Nat :=
  (Finset.Icc 1 (2 * s.N)).filter (fun r => s.Parent r = r)

/-- The overlap edges of a state, each once: pairs `(B, C)` of live representatives with
`B < C` such that `overlaps[B]` has an entry for `C`. -/
def edgePairs (s : State) : Finset (Nat × Nat) :=
  ((liveReps s) ×ˢ (liveReps s)).filter
    (fun p => p.1 < p.2 ∧ ((s.overlaps p.1).find p.2).isSome = true)

/-- Entities with one role node in the component of `R` and the other in the component
of `R'`, the components being those computed by `Find`. -/
def straddlers (s : State) (R R' : Nat) : Finset Nat :=
  (Finset.Icc 1 s.N).filter
    (fun i => (findRep s i = some R ∧ findRep s (s.N + i) = some R') ∨
              (findRep s i = some R' ∧ findRep s (s.N + i) = some R))

/-- Entities with both role nodes in the component of `r`. -/
def insiders (s : State) (r : Nat) : Finset Nat :=
  (Finset.Icc 1 s.N).filter
    (fun i => findRep s i = some r ∧ findRep s (s.N + i) = some r)

/-- Entities with exactly one role node in the component of `r`. -/
def halfInsiders (s : State) (r : Nat) : Finset Nat :=
  (Finset.Icc 1 s.N).filter
    (fun i => (findRep s i = some r ∧ findRep s (s.N + i) ≠ some r) ∨
              (findRep s i ≠ some r ∧ findRep s (s.N + i) = some r))

/-- The state for `N = 2` after the single request `(1, 2)`, that is after
`Union(1, 4)` from the initial state. -/
def stateAfterOne : State :=
  (Union Enumeration.storage (init 2) 1 (2 + 2)).getD (init 2)

/-- States reached from `s` by further calls `Union(a, N + b)` with `1 ≤ a, b ≤ N`:
the later states of an execution that passes through `s`. -/
inductive ReachableFrom (N : Nat) (s : State) : State → Prop
  | refl : ReachableFrom N s s
  | step (en : Enumeration) (t t' : State) (a b : Nat) :
      ReachableFrom N s t → 1 ≤ a → a ≤ N → 1 ≤ b → b ≤ N →
      Union en t a (N + b) = some t' → ReachableFrom N s t'

/-- The state for `N = 2` after the requests `(1, 2)` and `(2, 1)`, that is after
`Union(1, 4)` and `Union(2, 3)` from the initial state. -/
def stateAfterTwo : State :=
  (Union Enumeration.storage stateAfterOne 2 (2 + 1)).getD stateAfterOne

/-! ## Merge counts and neighbour counts -/

/-- Number of requests of the request loop that are effective merges: requests `(A, B)`
for which `Find(A)` and `Find(N + B)` differ when the request is processed. -/
def effectiveCount (en : Nat → Enumeration) : Nat → State → List (Nat × Nat) → Nat
  | _, _, [] => 0
  | t, s, (A, B) :: rest =>
    match Union (en t) s A (s.N + B) with
    | none => 0
    | some s1 =>
      (if findRep s A = findRep s (s.N + B) then 0 else 1) + effectiveCount en (t + 1) s1 rest

/-- Number of overlap-graph neighbours of `r`: `overlaps[r].size()`. -/
def degree (s : State) (r : Nat) : Nat := (s.overlaps r).size

/-- The overlap-graph neighbours of `r`: the keys of `overlaps[r]`. -/
def neighbours (s : State) (r : Nat) : Finset Nat := (s.overlaps r).keys.toFinset

/-- The nodes that are neighbours of both `X` and `Y`. -/
def commonNeighbours (s : State) (X Y : Nat) : Finset Nat := neighbours s X ∩ neighbours s Y

/-- One when `overlaps[X]` has an entry for `Y`, zero otherwise. -/
def adjacency (s : State) (X Y : Nat) : Nat := if Y ∈ neighbours s X then 1 else 0

/-- Number of iterations of the step-5 loop when `R_A` is merged into `R_B`: the number of
entries of `overlaps[R_A]` left after step 3. -/
def absorbIterations (en : Enumeration) (s : State) (R_A R_B : Nat) : Nat :=
  let k_AB : Int := ((s.overlaps R_A).find R_B).getD 0
  let ov0 := unlink s.overlaps R_A R_B k_AB
  (en.run (ov0 R_A)).length

/-- Number of iterations of the step-5 loop in the call `Union(A, B)`; zero on the early
return. -/
def loopIterations (en : Enumeration) (s : State) (A B : Nat) : Nat :=
  match Find (2 * s.N + 1) s.Parent A with
  | none => 0
  | some (rA, P1) =>
    match Find (2 * s.N + 1) P1 B with
    | none => 0
    | some (rB, _) =>
      if rA = rB then 0
      else if (s.overlaps rA).size > (s.overlaps rB).size then absorbIterations en s rB rA
      else absorbIterations en s rA rB

/-- Number of iterations of the step-5 loop summed over the calls of `Union` made by the
request loop. -/
def totalIterations (en : Nat → Enumeration) : Nat → State → List (Nat × Nat) → Nat
  | _, _, [] => 0
  | t, s, (A, B) :: rest =>
    match Union (en t) s A (s.N + B) with
    | none => 0
    | some s1 => loopIterations (en t) s A (s.N + B) + totalIterations en (t + 1) s1 rest

/-- The sum of `log2 j + 1` over `j = 1 .. n` (logarithm rounded down). -/
def logSum (n : Nat) : Nat := ∑ j in Finset.Icc 1 n, (Nat.log 2 j + 1)

/-- Potential of a state: the sum of `logSum` of the neighbour counts of the live
representatives. -/
def potential (s : State) : Nat := ∑ r in liveReps s, logSum (degree s r)

/-- Sum of the neighbour counts of the live representatives. -/
def totalDegree (s : State) : Nat := ∑ r in liveReps s, degree s r

/-! ## Array accesses -/

/-- The constant `MAXN`. -/
def MAXN : Nat := 200005

/-- The constant `MAX_NODES`; the arrays `Parent` and `clique_size` have `MAX_NODES + 1`
slots. -/
def MAX_NODES : Nat := 2 * MAXN

/-- Index `i` is inside `Parent` and `clique_size` (slots `0 .. MAX_NODES`) and inside the
vector `overlaps` after `overlaps.resize(2 * N + 1)`. -/
def inBounds (N i : Nat) : Prop := i < MAX_NODES + 1 ∧ i < 2 * N + 1

instance (N i : Nat) : Decidable (inBounds N i) := by
  unfold inBounds
  infer_instance

/-- Indices used by the two initialisation loops of `Solve`: `i` for `i = 1 .. 2N`
(`Parent[i]`, `clique_size[i]`), then `H = i` and `D = N + i` for `i = 1 .. N`
(`overlaps[H]`, `overlaps[D]`). -/
def initIndices (N : Nat) : List Nat :=
  List.range' 1 (2 * N) ++ (List.range' 1 N).flatMap (fun i => [i, N + i])

/-- Values stored into `Parent` by the initialisation: `Parent[i] = i`. -/
def initStores (N : Nat) : List Nat := List.range' 1 (2 * N)

/-- Indices at which the call `Find(i)` addresses `Parent`: `i` itself, then the indices
of the recursive call `Find(Parent[i])`. -/
def FindIndices : Nat → (Nat → Nat) → Nat → List Nat
  | 0, _, _ => []
  | fuel + 1, P, i => if P i = i then [i] else i :: FindIndices fuel P (P i)

/-- Values stored into `Parent` by the call `Find(i)`: the result of the recursive call,
at every node of the path that is not the root. -/
def FindStores : Nat → (Nat → Nat) → Nat → List Nat
  | 0, _, _ => []
  | fuel + 1, P, i =>
    if P i = i then []
    else
      match Find fuel P (P i) with
      | none => FindStores fuel P (P i)
      | some (r, _) => r :: FindStores fuel P (P i)

/-- Indices used by steps 1 to 6 of `Union` to address `overlaps`, `clique_size` and
`Parent`: `R_A` and `R_B`, and in every iteration of the loop `R_B` and the key `R_C`
read from the map. -/
def absorbIndices (en : Enumeration) (s : State) (R_A R_B : Nat) : List Nat :=
  let k_AB : Int := ((s.overlaps R_A).find R_B).getD 0
  let ov0 := unlink s.overlaps R_A R_B k_AB
  [R_A, R_B] ++ (en.run (ov0 R_A)).flatMap (fun pair_AC => [R_B, pair_AC.1])

/-- Indices used by the call `Union(A, B)`: those of the two `Find` calls, the two
representatives (size test), and those of steps 1 to 6. -/
def UnionIndices (en : Enumeration) (s : State) (A B : Nat) : List Nat :=
  FindIndices (2 * s.N + 1) s.Parent A ++
  match Find (2 * s.N + 1) s.Parent A with
  | none => []
  | some (rA, P1) =>
    FindIndices (2 * s.N + 1) P1 B ++
    match Find (2 * s.N + 1) P1 B with
    | none => []
    | some (rB, _) =>
      if rA = rB then []
      else if (s.overlaps rA).size > (s.overlaps rB).size then
        rA :: rB :: absorbIndices en s rB rA
      else rA :: rB :: absorbIndices en s rA rB

/-- Values stored into `Parent` by the call `Union(A, B)`: those of the two `Find` calls
and the `R_B` of step 6. -/
def UnionStores (s : State) (A B : Nat) : List Nat :=
  FindStores (2 * s.N + 1) s.Parent A ++
  match Find (2 * s.N + 1) s.Parent A with
  | none => []
  | some (rA, P1) =>
    FindStores (2 * s.N + 1) P1 B ++
    match Find (2 * s.N + 1) P1 B with
    | none => []
    | some (rB, _) =>
      if rA = rB then []
      else if (s.overlaps rA).size > (s.overlaps rB).size then [rA]
      else [rB]

/-! ## Machine integers -/

/-- The value fits a signed 32-bit `int`. -/
def fitsInt (x : Int) : Prop := -2 ^ 31 ≤ x ∧ x ≤ 2 ^ 31 - 1

/-- The value fits a signed 64-bit `long long`. -/
def fitsLong (x : Int) : Prop := -2 ^ 63 ≤ x ∧ x ≤ 2 ^ 63 - 1

instance (x : Int) : Decidable (fitsInt x) := by
  unfold fitsInt
  infer_instance

instance (x : Int) : Decidable (fitsLong x) := by
  unfold fitsLong
  infer_instance

/-- The `long long` values computed by a call `binom2(n)`: the argument, and when
`n ≥ 2` also `n - 1`, the product `n * (n - 1)` and the quotient returned. -/
def binom2Longs (n : Int) : List Int :=
  if n < 2 then [n, 0] else [n, n - 1, n * (n - 1), Int.tdiv (n * (n - 1)) 2]

/-- The `long long` values computed by the iterations of the step-5 loop: the product
`(long long)k_AC * k_BC` and the new value of `E_O`. -/
def loopLongs (R_A R_B : Nat) : (Nat → HashMap) × Int → List (Nat × Int) → List Int
  | _, [] => []
  | acc, pair_AC :: rest =>
    let k_AC := pair_AC.2
    let k_BC := ((acc.1 R_B).find pair_AC.1).getD 0
    [k_AC * k_BC, acc.2 + k_AC * k_BC] ++ loopLongs R_A R_B (mergeStep R_A R_B acc pair_AC) rest

/-- The `int` values of the iterations of the step-5 loop: `k_AC`, `k_BC`, and the sum
`k_BC + k_AC` stored through `k_BC_ref` and as `k_new`. -/
def loopInts (R_A R_B : Nat) : (Nat → HashMap) × Int → List (Nat × Int) → List Int
  | _, [] => []
  | acc, pair_AC :: rest =>
    let k_AC := pair_AC.2
    let k_BC := ((acc.1 R_B).find pair_AC.1).getD 0
    [k_AC, k_BC, k_BC + k_AC] ++ loopInts R_A R_B (mergeStep R_A R_B acc pair_AC) rest

/-- The `long long` values computed by steps 1 to 6 of `Union`: those of the three
`binom2` calls, `E_O` after step 2, `V_A`, `V_B`, `V_A + V_B`, `V_new`, `E_C` after each
of its three updates, and the values of the loop. -/
def absorbLongs (en : Enumeration) (s : State) (R_A R_B : Nat) : List Int :=
  let k_AB : Int := ((s.overlaps R_A).find R_B).getD 0
  let E_O1 := s.E_O - binom2 k_AB
  let ov0 := unlink s.overlaps R_A R_B k_AB
  let V_A := s.clique_size R_A
  let V_B := s.clique_size R_B
  let V_new := V_A + V_B - k_AB
  let E_C1 := s.E_C - binom2 V_A
  let E_C2 := E_C1 - binom2 V_B
  let E_C3 := E_C2 + binom2 V_new
  binom2Longs k_AB ++ [E_O1, V_A, V_B, V_A + V_B, V_new] ++
    binom2Longs V_A ++ [E_C1] ++ binom2Longs V_B ++ [E_C2] ++ binom2Longs V_new ++ [E_C3] ++
    loopLongs R_A R_B (ov0, E_O1) (en.run (ov0 R_A))

/-- The `int` values of steps 1 to 6 of `Union`: `k_AB`, the clique sizes read, the
clique size `(int)V_new` stored, and the values of the loop. -/
def absorbInts (en : Enumeration) (s : State) (R_A R_B : Nat) : List Int :=
  let k_AB : Int := ((s.overlaps R_A).find R_B).getD 0
  let ov0 := unlink s.overlaps R_A R_B k_AB
  let V_A := s.clique_size R_A
  let V_B := s.clique_size R_B
  let V_new := V_A + V_B - k_AB
  [k_AB, V_A, V_B, V_new] ++ loopInts R_A R_B (ov0, s.E_O - binom2 k_AB) (en.run (ov0 R_A))

/-- The `long long` values computed by the call `Union(A, B)`. -/
def UnionLongs (en : Enumeration) (s : State) (A B : Nat) : List Int :=
  match Find (2 * s.N + 1) s.Parent A with
  | none => []
  | some (rA, P1) =>
    match Find (2 * s.N + 1) P1 B with
    | none => []
    | some (rB, _) =>
      if rA = rB then []
      else if (s.overlaps rA).size > (s.overlaps rB).size then absorbLongs en s rB rA
      else absorbLongs en s rA rB

/-- The `int` values of the call `Union(A, B)`: the arguments, the representatives, and
the values of steps 1 to 6. -/
def UnionInts (en : Enumeration) (s : State) (A B : Nat) : List Int :=
  [(A : Int), (B : Int)] ++
  match Find (2 * s.N + 1) s.Parent A with
  | none => []
  | some (rA, P1) =>
    match Find (2 * s.N + 1) P1 B with
    | none => []
    | some (rB, _) =>
      if rA = rB then [(rA : Int), (rB : Int)]
      else if (s.overlaps rA).size > (s.overlaps rB).size then
        [(rA : Int), (rB : Int)] ++ absorbInts en s rB rA
      else [(rA : Int), (rB : Int)] ++ absorbInts en s rA rB

/-- The `long long` values computed by `Solve` for the courier `(A, B)`: those of
`Union(A, N + B)`, then `E_C`, `E_O` and the difference `E_C - E_O` printed. -/
def requestLongs (en : Enumeration) (s : State) (A B : Nat) : List Int :=
  UnionLongs en s A (s.N + B) ++
  match Union en s A (s.N + B) with
  | none => []
  | some s1 => [s1.E_C, s1.E_O, s1.E_C - s1.E_O]

/-- The `int` values of `Solve` for the courier `(A, B)`: `num_nodes = 2 * N`, the bound
`num_nodes + 1` of the slots, `A`, `B`, `N + B`, and the values of `Union(A, N + B)`. -/
def requestInts (en : Enumeration) (s : State) (A B : Nat) : List Int :=
  [2 * (s.N : Int), 2 * (s.N : Int) + 1, (A : Int), (B : Int), (s.N : Int) + (B : Int)] ++
  UnionInts en s A (s.N + B)

/-! ## Further notions for the invariants -/

/-- Entities with at least one role node in the component of `r`, the components being
those computed by `Find`. -/
def touching (s : State) (r : Nat) : Finset Nat :=
  (Finset.Icc 1 s.N).filter (fun i => findRep s i = some r ∨ findRep s (s.N + i) = some r)

/-- The keys `R_C` visited by the step-5 loop when `R_A` is merged into `R_B`, in the order
of the visits. -/
def loopKeys (en : Enumeration) (s : State) (R_A R_B : Nat) : List Nat :=
  let k_AB : Int := ((s.overlaps R_A).find R_B).getD 0
  let ov0 := unlink s.overlaps R_A R_B k_AB
  (en.run (ov0 R_A)).map Prod.fst

/-- The overlap maps after the first `n` iterations of the step-5 loop when `R_A` is merged
into `R_B`. -/
def loopPrefix (en : Enumeration) (s : State) (R_A R_B : Nat) (n : Nat) : Nat → HashMap :=
  let k_AB : Int := ((s.overlaps R_A).find R_B).getD 0
  let ov0 := unlink s.overlaps R_A R_B k_AB
  (((en.run (ov0 R_A)).take n).foldl (mergeStep R_A R_B) (ov0, s.E_O - binom2 k_AB)).1

end RoleGraph

/-!
# Subset sums of odd numbers (`src/j.cpp`)

Shallow embedding of the helpers `IsAchievable` and `SSO_indices` of `src/j.cpp`.  The
`int` and `long long` quantities are exact integers; the loop of `SSO_indices`, which
counts `i` down from `K` to 1, is a recursion on the number of indices left.
-/

namespace OddSubsetSum

/-- The function `IsAchievable`: whether `T` is taken to be a sum of distinct numbers among
the first `K` odd numbers. -/
def IsAchievable (K : Int) (T : Int) : Bool :=
  if K < 0 ∨ T < 0 then false
  else
    let K2 := K * K
    if T > K2 then false
    else if K = 0 then decide (T = 0)
    else if T = 2 then false
    else if K ≥ 2 then (if T = K2 - 2 then false else true)
    else true

/-- The loop of `SSO_indices` for the indices `i, i - 1, .., 1`, acting on the vector `S`
and the local `T`. -/
def SSO_loop : Nat → List Int × Int → List Int × Int
  | 0, st => st
  | i + 1, (S, T) =>
    let idx : Int := ((i + 1 : Nat) : Int)
    let L := 2 * idx - 1
    if T ≥ L then
      if IsAchievable (idx - 1) (T - L) then SSO_loop i (S ++ [idx], T - L)
      else SSO_loop i (S, T)
    else SSO_loop i (S, T)

/-- The function `SSO_indices`: the vector `S` returned. -/
def SSO_indices (K : Int) (T : Int) : List Int := (SSO_loop K.toNat ([], T)).1

/-- The value of the local `T` of `SSO_indices` when the loop has ended. -/
def SSO_remainder (K : Int) (T : Int) : Int := (SSO_loop K.toNat ([], T)).2

/-- The sum of the heights `2 i - 1` of a list of indices. -/
def heightSum (S : List Int) : Int := (S.map (fun i => 2 * i - 1)).sum

/-- The value `T` is the sum of a subset of the first `K` odd numbers `1, 3, .., 2K - 1`,
each used at most once: the sum of `2 i - 1` over a set of indices `i` in `1 .. K`. -/
def IsOddSubsetSum (K : Nat) (T : Int) : Prop :=
  ∃ S : Finset Nat, S ⊆ Finset.Icc 1 K ∧ ∑ i in S, (2 * (i : Int) - 1) = T

/-- The closed form of the achievable values: `0 ≤ T ≤ K²`, `T ≠ 2` and `T ≠ K² - 2`. -/
def inClosedForm (K : Nat) (T : Int) : Prop :=
  0 ≤ T ∧ T ≤ (K : Int) * K ∧ T ≠ 2 ∧ T ≠ (K : Int) * K - 2

instance (K : Nat) (T : Int) : Decidable (inClosedForm K T) := by
  unfold inClosedForm
  infer_instance

end OddSubsetSum

namespace RoleGraph

/-! ## Association-list facts -/

namespace HashMap

theorem find_nil (k : Nat) : find [] k = none := rfl

theorem find_cons (k' : Nat) (v : Int) (t : HashMap) (k : Nat) :
    find ((k', v) :: t) k = if k' = k then some v else find t k := rfl

theorem find_erase (m : HashMap) (k c : Nat) :
    (m.erase k).find c = if c = k then none else m.find c := by
  induction m with
  | nil => simp [erase, find]
  | cons hd t ih =>
    obtain ⟨k', v⟩ := hd
    by_cases h : k' = k
    · subst h
      simp only [erase, if_true, ih, find_cons]
      by_cases hc : c = k'
      · simp [hc]
      · have : ¬ k' = c := fun e => hc e.symm
        simp [hc, this]
    · simp only [erase, h, if_false, find_cons, ih]
      by_cases hc : c = k
      · subst hc; simp [h]
      · simp [hc]

theorem find_assign (m : HashMap) (k : Nat) (v : Int) (c : Nat) :
    (m.assign k v).find c = if c = k then some v else m.find c := by
  induction m with
  | nil =>
    by_cases hc : c = k
    · simp [assign, find, hc]
    · have : ¬ k = c := fun e => hc e.symm
      simp [assign, find, hc, this]
  | cons hd t ih =>
    obtain ⟨k', v'⟩ := hd
    by_cases h : k' = k
    · subst h
      simp only [assign, if_true, find_cons]
      by_cases hc : c = k'
      · simp [hc]
      · have : ¬ k' = c := fun e => hc e.symm
        simp [hc, this]
    · simp only [assign, h, if_false, find_cons, ih]
      by_cases hc : c = k
      · subst hc; simp [h]
      · simp [hc]

theorem find_eq_none_iff (m : HashMap) (k : Nat) : m.find k = none ↔ k ∉ m.keys := by
  induction m with
  | nil => simp [find, keys]
  | cons hd t ih =>
    obtain ⟨k', v⟩ := hd
    by_cases h : k' = k
    · simp [find_cons, h, keys]
    · have h' : ¬ k = k' := fun e => h e.symm
      simp only [find_cons, h, if_false, ih]
      simp [keys, h']

theorem mem_of_find (m : HashMap) (k : Nat) (v : Int) (h : m.find k = some v) : (k, v) ∈ m := by
  induction m with
  | nil => simp [find] at h
  | cons hd t ih =>
    obtain ⟨k', v'⟩ := hd
    by_cases hk : k' = k
    · simp [find_cons, hk] at h
      simp [hk, h]
    · simp [find_cons, hk] at h
      exact List.mem_cons_of_mem _ (ih h)

theorem find_of_mem (m : HashMap) (hn : m.keys.Nodup) (k : Nat) (v : Int) (h : (k, v) ∈ m) :
    m.find k = some v := by
  induction m with
  | nil => simp at h
  | cons hd t ih =>
    obtain ⟨k', v'⟩ := hd
    simp only [keys, List.map_cons, List.nodup_cons] at hn
    rcases List.mem_cons.1 h with e | e
    · injection e with e1 e2
      simp [find_cons, e1, e2]
    · have hk : k ∈ t.map Prod.fst := List.mem_map.2 ⟨(k, v), e, rfl⟩
      have : ¬ k' = k := fun e' => hn.1 (e' ▸ hk)
      simp only [find_cons, this, if_false]
      exact ih hn.2 e

theorem keys_erase_sub (m : HashMap) (k c : Nat) (h : c ∈ (m.erase k).keys) : c ∈ m.keys := by
  by_contra hc
  have h1 := (find_eq_none_iff m c).2 hc
  have h2 : (m.erase k).find c = none := by rw [find_erase]; split <;> simp [h1]
  exact (find_eq_none_iff _ c).1 h2 h

theorem nodup_erase (m : HashMap) (k : Nat) (hn : m.keys.Nodup) : (m.erase k).keys.Nodup := by
  induction m with
  | nil => simp [erase, keys]
  | cons hd t ih =>
    obtain ⟨k', v⟩ := hd
    simp only [keys, List.map_cons, List.nodup_cons] at hn
    by_cases h : k' = k
    · simp only [erase, h, if_true]; exact ih hn.2
    · simp only [erase, h, if_false, keys, List.map_cons, List.nodup_cons]
      exact ⟨fun hc => hn.1 (keys_erase_sub t k k' hc), ih hn.2⟩

theorem keys_assign_sub (m : HashMap) (k : Nat) (v : Int) (c : Nat)
    (h : c ∈ (m.assign k v).keys) : c = k ∨ c ∈ m.keys := by
  by_cases hc : c = k
  · exact Or.inl hc
  · right
    by_contra hm
    have h1 := (find_eq_none_iff m c).2 hm
    have h2 : (m.assign k v).find c = none := by rw [find_assign]; simp [hc, h1]
    exact (find_eq_none_iff _ c).1 h2 h

theorem nodup_assign (m : HashMap) (k : Nat) (v : Int) (hn : m.keys.Nodup) :
    (m.assign k v).keys.Nodup := by
  induction m with
  | nil => simp [assign, keys]
  | cons hd t ih =>
    obtain ⟨k', v'⟩ := hd
    simp only [keys, List.map_cons, List.nodup_cons] at hn
    by_cases h : k' = k
    · subst h
      simp only [assign, if_true, keys, List.map_cons, List.nodup_cons]
      exact hn
    · simp only [assign, h, if_false, keys, List.map_cons, List.nodup_cons]
      refine ⟨fun hc => ?_, ih hn.2⟩
      rcases keys_assign_sub t k v k' hc with e | e
      · exact h e
      · exact hn.1 e

/-- Two maps with distinct keys and the same lookups hold the same entries. -/
theorem perm_of_find_eq (m1 m2 : HashMap) (h1 : m1.keys.Nodup) (h2 : m2.keys.Nodup)
    (h : ∀ k, m1.find k = m2.find k) : m1.Perm m2 := by
  have n1 : m1.Nodup := List.Nodup.of_map _ h1
  have n2 : m2.Nodup := List.Nodup.of_map _ h2
  refine (List.perm_ext_iff_of_nodup n1 n2).2 ?_
  rintro ⟨k, v⟩
  constructor
  · intro hm
    exact mem_of_find m2 k v ((h k) ▸ find_of_mem m1 h1 k v hm)
  · intro hm
    exact mem_of_find m1 k v ((h k).symm ▸ find_of_mem m2 h2 k v hm)

/-- Maps holding the same entries have the same lookups. -/
theorem find_eq_of_perm (m1 m2 : HashMap) (h1 : m1.keys.Nodup) (hp : m1.Perm m2) (k : Nat) :
    m1.find k = m2.find k := by
  have h2 : m2.keys.Nodup := (List.Perm.nodup_iff (hp.map Prod.fst)).1 h1
  cases hf : m1.find k with
  | none =>
    have : k ∉ m2.keys := fun hk =>
      (find_eq_none_iff m1 k).1 hf ((hp.map Prod.fst).mem_iff.2 hk)
    exact ((find_eq_none_iff m2 k).2 this).symm
  | some v =>
    exact (find_of_mem m2 h2 k v (hp.mem_iff.1 (mem_of_find m1 k v hf))).symm

end HashMap

open HashMap

/-! ## The step-5 loop -/

theorem setAt_same {α : Type} (a : Nat → α) (i : Nat) (v : α) : setAt a i v i = v := by
  simp [setAt]

theorem setAt_other {α : Type} (a : Nat → α) (i j : Nat) (v : α) (h : j ≠ i) :
    setAt a i v j = a j := by
  simp [setAt, h]

theorem mergeStep_snd (A B : Nat) (ov : Nat → HashMap) (e : Int) (c : Nat) (k : Int) :
    (mergeStep A B (ov, e) (c, k)).2 = e + k * weight ov B c := rfl

theorem mergeStep_find (A B : Nat) (ov : Nat → HashMap) (e : Int) (c : Nat) (k : Int)
    (hcB : c ≠ B) (r x : Nat) :
    ((mergeStep A B (ov, e) (c, k)).1 r).find x =
      if r = c then
        (if x = B then some (weight ov B c + k) else if x = A then none else (ov c).find x)
      else if r = B then (if x = c then some (weight ov B c + k) else (ov B).find x)
      else (ov r).find x := by
  simp only [mergeStep, weight]
  by_cases hrc : r = c
  · subst hrc
    simp only [setAt_same, if_true, find_assign, setAt_other _ _ _ _ hcB, find_erase]
  · simp only [setAt_other _ _ _ _ hrc, hrc, if_false]
    by_cases hrB : r = B
    · subst hrB
      simp only [setAt_same, if_true, find_assign]
    · simp only [setAt_other _ _ _ _ hrB, hrB, if_false]

theorem mergeStep_nodup (A B : Nat) (ov : Nat → HashMap) (e : Int) (p : Nat × Int)
    (h : ∀ r, (ov r).keys.Nodup) (r : Nat) : ((mergeStep A B (ov, e) p).1 r).keys.Nodup := by
  simp only [mergeStep, setAt]
  split
  · apply nodup_assign; split
    · apply nodup_erase; split
      · apply nodup_assign; exact h _
      · exact h _
    · split
      · apply nodup_assign; exact h _
      · exact h _
  · split
    · apply nodup_assign; exact h _
    · exact h _

theorem mergeLoop_nodup (A B : Nat) (l : List (Nat × Int)) :
    ∀ (ov : Nat → HashMap) (e : Int), (∀ r, (ov r).keys.Nodup) →
      ∀ r, ((l.foldl (mergeStep A B) (ov, e)).1 r).keys.Nodup := by
  induction l with
  | nil => intro ov e h r; exact h r
  | cons p t ih =>
    intro ov e h r
    simp only [List.foldl_cons]
    exact ih _ _ (fun r => mergeStep_nodup A B ov e p h r) r

theorem mergeLoop_spec (A B : Nat) (l : HashMap) :
    ∀ (ov : Nat → HashMap) (e : Int), l.keys.Nodup → B ∉ l.keys →
      (l.foldl (mergeStep A B) (ov, e)).2 = e + (l.map (fun p => p.2 * weight ov B p.1)).sum ∧
      ∀ r x, ((l.foldl (mergeStep A B) (ov, e)).1 r).find x =
        if r = B then
          (match l.find x with
            | some k => some (weight ov B x + k)
            | none => (ov B).find x)
        else
          (match l.find r with
            | some k => if x = B then some (weight ov B r + k)
                        else if x = A then none else (ov r).find x
            | none => (ov r).find x) := by
  induction l with
  | nil =>
    intro ov e _ _
    refine ⟨by simp, fun r x => ?_⟩
    by_cases hrB : r = B
    · subst hrB; simp [find_nil]
    · simp [find_nil, hrB]
  | cons p t ih =>
    obtain ⟨c, k⟩ := p
    intro ov e hn hB
    simp only [keys, List.map_cons, List.nodup_cons, List.mem_cons, not_or] at hn hB
    obtain ⟨hct, hnt⟩ := hn
    obtain ⟨hBc, hBt⟩ := hB
    have hcB : c ≠ B := fun h => hBc h.symm
    have key := ih (mergeStep A B (ov, e) (c, k)).1 (mergeStep A B (ov, e) (c, k)).2 hnt hBt
    simp only [List.foldl_cons]
    have hw : ∀ y, y ≠ c → weight (mergeStep A B (ov, e) (c, k)).1 B y = weight ov B y := by
      intro y hy
      simp only [weight, mergeStep_find A B ov e c k hcB]
      simp [hcB.symm, hy]
    obtain ⟨k1, k2⟩ := key
    constructor
    · rw [k1, mergeStep_snd]
      have : t.map (fun p => p.2 * weight (mergeStep A B (ov, e) (c, k)).1 B p.1)
          = t.map (fun p => p.2 * weight ov B p.1) := by
        apply List.map_congr_left
        intro p hp
        have : p.1 ≠ c := fun h => hct (h ▸ List.mem_map.2 ⟨p, hp, rfl⟩)
        rw [hw _ this]
      rw [this]
      simp only [List.map_cons, List.sum_cons]
      ring
    · intro r x
      rw [k2 r x]
      by_cases hrB : r = B
      · subst hrB
        simp only [if_true, find_cons]
        by_cases hxc : c = x
        · subst hxc
          have : find t c = none := (find_eq_none_iff t c).2 hct
          simp only [this, if_true, mergeStep_find A r ov e c k hcB]
          simp [hcB.symm]
        · simp only [hxc, if_false]
          have hxc' : x ≠ c := fun h => hxc h.symm
          rw [hw x hxc', mergeStep_find A r ov e c k hcB]
          simp [hcB.symm, hxc']
      · simp only [hrB, if_false, find_cons]
        by_cases hrc : c = r
        · subst hrc
          have : find t c = none := (find_eq_none_iff t c).2 hct
          simp only [this, if_true, mergeStep_find A B ov e c k hcB]
        · simp only [hrc, if_false]
          have hrc' : r ≠ c := fun h => hrc h.symm
          rw [hw r hrc', mergeStep_find A B ov e c k hcB]
          simp [hrc', hrB]

/-! ## The parent forest and `Find` -/

theorem nonroots_congr (N : Nat) (P1 P2 : Nat → Nat) (h : ∀ j, P1 j = j ↔ P2 j = j) :
    nonroots N P1 = nonroots N P2 := by
  unfold nonroots
  congr 1
  apply Finset.filter_congr
  intro j _
  rw [not_iff_not]
  exact h j

theorem nonroots_setAt (N : Nat) (P : Nat → Nat) (A B : Nat) (hA : inRange N A) (hPA : P A = A)
    (hAB : A ≠ B) : nonroots N (setAt P A B) = nonroots N P + 1 := by
  unfold nonroots
  have h1 : (Finset.Icc 1 (2 * N)).filter (fun i => setAt P A B i ≠ i)
      = insert A ((Finset.Icc 1 (2 * N)).filter (fun i => P i ≠ i)) := by
    ext j
    simp only [Finset.mem_filter, Finset.mem_insert, Finset.mem_Icc]
    by_cases hj : j = A
    · subst hj
      simp only [setAt_same, true_or, iff_true]
      exact ⟨hA, fun e => hAB e.symm⟩
    · simp [setAt_other _ _ _ _ hj, hj]
  rw [h1, Finset.card_insert_of_not_mem]
  simp [hPA]

theorem Forest.root_idem {N : Nat} {P root d : Nat → Nat} (F : Forest N P root d) (i : Nat)
    (hi : inRange N i) : root (root i) = root i :=
  F.root_self (root i) (F.root_range i hi) (F.root_fix i hi)

theorem Forest.root_eq_iff {N : Nat} {P root d : Nat → Nat} (F : Forest N P root d) (i : Nat)
    (hi : inRange N i) : root i = i ↔ P i = i :=
  ⟨fun h => by have := F.root_fix i hi; rwa [h] at this, F.root_self i hi⟩

/-- With fuel above the height of `i`, `Find` returns the root of `i`; the compressed
array is a forest with the same roots and the same root nodes. -/
theorem Find_spec {N : Nat} {root d : Nat → Nat} :
    ∀ (fuel : Nat) (P : Nat → Nat) (i : Nat), Forest N P root d → inRange N i → d i < fuel →
      ∃ P', Find fuel P i = some (root i, P') ∧ Forest N P' root d ∧
        (∀ j, P' j = j ↔ P j = j) := by
  intro fuel
  induction fuel with
  | zero => intro P i _ _ h; exact absurd h (Nat.not_lt_zero _)
  | succ fuel ih =>
    intro P i F hi hd
    by_cases hP : P i = i
    · refine ⟨P, ?_, F, fun j => Iff.rfl⟩
      simp [Find, hP, F.root_self i hi hP]
    · have hlt := F.d_parent i hi hP
      obtain ⟨P', hF, F', hfix⟩ := ih P (P i) F (F.parent_range i hi) (by omega)
      have hri : root i ≠ i := fun h => hP ((F.root_eq_iff i hi).1 h)
      have hne : ∀ j, inRange N j → root j ≠ i := by
        intro j hj h
        have := F.root_fix j hj
        rw [h] at this
        exact hP this
      have hfix2 : ∀ j, setAt P' i (root i) j = j ↔ P j = j := by
        intro j
        by_cases hj : j = i
        · subst hj
          simp only [setAt_same]
          exact ⟨fun h => absurd h hri, fun h => absurd h hP⟩
        · rw [setAt_other _ _ _ _ hj]; exact hfix j
      refine ⟨setAt P' i (root i), ?_, ?_, hfix2⟩
      · simp only [Find, hP, if_false, hF, F.root_parent i hi]
      · refine ⟨F.root_range, ?_, ?_, ?_, ?_, ?_, ?_, ?_⟩
        · intro j hj
          rw [setAt_other _ _ _ _ (hne j hj)]
          exact F'.root_fix j hj
        · intro j hj h
          exact F.root_self j hj ((hfix2 j).1 h)
        · intro j hj
          by_cases hji : j = i
          · subst hji; rw [setAt_same]; exact F.root_range j hj
          · rw [setAt_other _ _ _ _ hji]; exact F'.parent_range j hj
        · intro j hj
          by_cases hji : j = i
          · subst hji; rw [setAt_same]; exact F.root_idem j hj
          · rw [setAt_other _ _ _ _ hji]; exact F'.root_parent j hj
        · intro j hj h
          by_cases hji : j = i
          · subst hji
            rw [setAt_same]
            have h0 := F.d_root (root j) (F.root_range j hj) (F.root_fix j hj)
            omega
          · rw [setAt_other _ _ _ _ hji] at h ⊢; exact F'.d_parent j hj h
        · intro j hj h
          exact F.d_root j hj ((hfix2 j).1 h)
        · intro j hj
          rw [nonroots_congr N _ P hfix2]
          exact F.d_le j hj

theorem nonroots_le (N : Nat) (P : Nat → Nat) : nonroots N P ≤ 2 * N := by
  unfold nonroots
  calc ((Finset.Icc 1 (2 * N)).filter (fun i => P i ≠ i)).card
      ≤ (Finset.Icc 1 (2 * N)).card := Finset.card_filter_le _ _
    _ = 2 * N := by simp

/-- In a forest the fuel `2 * N + 1` used by `Union` is enough for every node. -/
theorem Find_total {N : Nat} {P root d : Nat → Nat} (F : Forest N P root d) (i : Nat)
    (hi : inRange N i) :
    ∃ P', Find (2 * N + 1) P i = some (root i, P') ∧ Forest N P' root d ∧
      (∀ j, P' j = j ↔ P j = j) := by
  apply Find_spec (2 * N + 1) P i F hi
  have := F.d_le i hi
  have := nonroots_le N P
  omega

/-- Linking root `A` below root `B` keeps the forest; the component of `A` joins the one
of `B`. -/
theorem Forest.link_roots {N : Nat} {P root d : Nat → Nat} (F : Forest N P root d) (A B : Nat)
    (hA : inRange N A) (hB : inRange N B) (hPA : P A = A) (hPB : P B = B) (hAB : A ≠ B) :
    Forest N (setAt P A B) (fun x => if root x = A then B else root x)
      (fun x => if root x = A then d x + 1 else d x) := by
  have hrA : root A = A := F.root_self A hA hPA
  have hrB : root B = B := F.root_self B hB hPB
  have hBA : B ≠ A := fun h => hAB h.symm
  refine ⟨?_, ?_, ?_, ?_, ?_, ?_, ?_, ?_⟩
  · intro i hi
    show inRange N (if root i = A then B else root i)
    split
    · exact hB
    · exact F.root_range i hi
  · intro i hi
    show setAt P A B (if root i = A then B else root i) = (if root i = A then B else root i)
    split
    · rw [setAt_other _ _ _ _ hBA]; exact hPB
    · rename_i h; rw [setAt_other _ _ _ _ h]; exact F.root_fix i hi
  · intro i hi h
    show (if root i = A then B else root i) = i
    by_cases hiA : i = A
    · subst hiA; rw [setAt_same] at h; exact absurd h hBA
    · rw [setAt_other _ _ _ _ hiA] at h
      have := F.root_self i hi h
      rw [this, if_neg hiA]
  · intro i hi
    by_cases hiA : i = A
    · subst hiA; rw [setAt_same]; exact hB
    · rw [setAt_other _ _ _ _ hiA]; exact F.parent_range i hi
  · intro i hi
    show (if root (setAt P A B i) = A then B else root (setAt P A B i))
      = (if root i = A then B else root i)
    by_cases hiA : i = A
    · subst hiA; rw [setAt_same, hrB, hrA, if_neg hBA, if_pos rfl]
    · rw [setAt_other _ _ _ _ hiA, F.root_parent i hi]
  · intro i hi h
    show (if root (setAt P A B i) = A then d (setAt P A B i) + 1 else d (setAt P A B i))
      < (if root i = A then d i + 1 else d i)
    by_cases hiA : i = A
    · subst hiA
      rw [setAt_same, hrB, hrA, if_neg hBA, if_pos rfl, F.d_root B hB hPB]
      omega
    · rw [setAt_other _ _ _ _ hiA] at h ⊢
      rw [F.root_parent i hi]
      have := F.d_parent i hi h
      split <;> omega
  · intro i hi h
    show (if root i = A then d i + 1 else d i) = 0
    by_cases hiA : i = A
    · subst hiA; rw [setAt_same] at h; exact absurd h hBA
    · rw [setAt_other _ _ _ _ hiA] at h
      rw [F.root_self i hi h, if_neg hiA]
      exact F.d_root i hi h
  · intro i hi
    show (if root i = A then d i + 1 else d i) ≤ nonroots N (setAt P A B)
    rw [nonroots_setAt N P A B hA hPA hAB]
    have := F.d_le i hi
    split <;> omega

/-! ## Cliques and bridges under a merge of two components -/

/-- After the component of `A` is absorbed into that of `B` no node has representative
`A`. -/
theorem merged_ne (root : Nat → Nat) (A B : Nat) (hAB : A ≠ B) (x : Nat) :
    (if root x = A then B else root x) ≠ A := by
  split
  · exact fun h => hAB h.symm
  · assumption

theorem bridge_comm (N : Nat) (root : Nat → Nat) (r c : Nat) :
    bridge N root r c = bridge N root c r := by
  unfold bridge
  apply Finset.filter_congr
  intro i _
  exact Or.comm

theorem clique_merged_A (N : Nat) (root : Nat → Nat) (A B : Nat) (hAB : A ≠ B) :
    clique N (fun x => if root x = A then B else root x) A = ∅ := by
  unfold clique
  apply Finset.filter_false_of_mem
  intro i _ h
  rcases h with h | h
  · exact merged_ne root A B hAB _ h
  · exact merged_ne root A B hAB _ h

theorem clique_merged_B (N : Nat) (root : Nat → Nat) (A B : Nat) :
    clique N (fun x => if root x = A then B else root x) B
      = clique N root A ∪ clique N root B := by
  unfold clique
  ext i
  simp only [Finset.mem_filter, Finset.mem_union, Finset.mem_Icc]
  by_cases h1 : root i = A <;> by_cases h2 : root (N + i) = A <;> simp [h1, h2] <;> tauto

theorem clique_merged_other (N : Nat) (root : Nat → Nat) (A B r : Nat) (hA : r ≠ A)
    (hB : r ≠ B) : clique N (fun x => if root x = A then B else root x) r = clique N root r := by
  unfold clique
  apply Finset.filter_congr
  intro i _
  have hA' : A ≠ r := fun h => hA h.symm
  have hB' : B ≠ r := fun h => hB h.symm
  by_cases h1 : root i = A <;> by_cases h2 : root (N + i) = A <;> simp [h1, h2, hA', hB']

theorem clique_inter (N : Nat) (root : Nat → Nat) (A B : Nat) (hAB : A ≠ B) :
    clique N root A ∩ clique N root B = bridge N root A B := by
  unfold clique bridge
  ext i
  simp only [Finset.mem_filter, Finset.mem_inter, Finset.mem_Icc]
  constructor
  · rintro ⟨⟨hi, h1⟩, ⟨_, h2⟩⟩
    refine ⟨hi, ?_⟩
    rcases h1 with h1 | h1 <;> rcases h2 with h2 | h2
    · exact absurd (h1.symm.trans h2) hAB
    · exact Or.inl ⟨h1, h2⟩
    · exact Or.inr ⟨h2, h1⟩
    · exact absurd (h1.symm.trans h2) hAB
  · rintro ⟨hi, h⟩
    rcases h with ⟨h1, h2⟩ | ⟨h1, h2⟩
    · exact ⟨⟨hi, Or.inl h1⟩, ⟨hi, Or.inr h2⟩⟩
    · exact ⟨⟨hi, Or.inr h2⟩, ⟨hi, Or.inl h1⟩⟩

theorem clique_merged_card (N : Nat) (root : Nat → Nat) (A B : Nat) (hAB : A ≠ B) :
    ((clique N (fun x => if root x = A then B else root x) B).card : Int)
      = (clique N root A).card + (clique N root B).card - (bridge N root A B).card := by
  rw [clique_merged_B, ← clique_inter N root A B hAB]
  have := Finset.card_union_add_card_inter (clique N root A) (clique N root B)
  omega

theorem bridge_merged_A (N : Nat) (root : Nat → Nat) (A B c : Nat) (hAB : A ≠ B) :
    bridge N (fun x => if root x = A then B else root x) A c = ∅ := by
  unfold bridge
  apply Finset.filter_false_of_mem
  intro i _ h
  rcases h with h | h
  · exact merged_ne root A B hAB _ h.1
  · exact merged_ne root A B hAB _ h.2

theorem bridge_merged_B (N : Nat) (root : Nat → Nat) (A B c : Nat) (hAB : A ≠ B)
    (hcA : c ≠ A) (hcB : c ≠ B) :
    ((bridge N (fun x => if root x = A then B else root x) B c).card : Int)
      = (bridge N root A c).card + (bridge N root B c).card := by
  have h1 : bridge N (fun x => if root x = A then B else root x) B c
      = bridge N root A c ∪ bridge N root B c := by
    unfold bridge
    ext i
    simp only [Finset.mem_filter, Finset.mem_union, Finset.mem_Icc]
    have hA' : A ≠ c := fun h => hcA h.symm
    have hB' : B ≠ c := fun h => hcB h.symm
    by_cases h1 : root i = A <;> by_cases h2 : root (N + i) = A <;>
      simp [h1, h2, hA', hB', hcA, hcB, hAB]
  have h2 : Disjoint (bridge N root A c) (bridge N root B c) := by
    rw [Finset.disjoint_left]
    intro i hi hj
    simp only [bridge, Finset.mem_filter] at hi hj
    rcases hi.2 with ⟨a1, a2⟩ | ⟨a1, a2⟩ <;> rcases hj.2 with ⟨b1, b2⟩ | ⟨b1, b2⟩
    · exact hAB (a1.symm.trans b1)
    · exact hcA (b1.symm.trans a1)
    · exact hcB (a1.symm.trans b1)
    · exact hAB (a2.symm.trans b2)
  rw [h1, Finset.card_union_of_disjoint h2]
  push_cast
  rfl

theorem bridge_merged_other (N : Nat) (root : Nat → Nat) (A B r c : Nat)
    (hrA : r ≠ A) (hrB : r ≠ B) (hcA : c ≠ A) (hcB : c ≠ B) :
    bridge N (fun x => if root x = A then B else root x) r c = bridge N root r c := by
  unfold bridge
  apply Finset.filter_congr
  intro i _
  have hA' : A ≠ c := fun h => hcA h.symm
  have hB' : B ≠ c := fun h => hcB h.symm
  have hAr : A ≠ r := fun h => hrA h.symm
  have hBr : B ≠ r := fun h => hrB h.symm
  by_cases h1 : root i = A <;> by_cases h2 : root (N + i) = A <;>
    simp [h1, h2, hA', hB', hAr, hBr]

/-! ## Arithmetic of `binom2` -/

theorem binom2_eq (n : Nat) : binom2 (n : Int) = ((n * (n - 1) / 2 : Nat) : Int) := by
  unfold binom2
  split
  · rename_i h
    have : n = 0 ∨ n = 1 := by omega
    rcases this with h | h <;> simp [h]
  · rename_i h
    have h2 : 2 ≤ n := by omega
    have h3 : ((n : Int) - 1) = ((n - 1 : Nat) : Int) := by omega
    rw [h3, Int.tdiv_eq_ediv (by positivity) (by norm_num)]
    norm_cast

theorem binom2_nonneg (n : Nat) : 0 ≤ binom2 (n : Int) := by
  rw [binom2_eq]; positivity

theorem two_mul_binom2 (n : Nat) : 2 * binom2 (n : Int) = (n : Int) * ((n : Int) - 1) := by
  rw [binom2_eq]
  have h : 2 * (n * (n - 1) / 2) = n * (n - 1) := by
    apply Nat.mul_div_cancel'
    rcases Nat.even_or_odd n with h | h
    · exact Dvd.dvd.mul_right h.two_dvd _
    · apply Dvd.dvd.mul_left
      rcases h with ⟨k, hk⟩
      exact ⟨k, by omega⟩
  rcases n with _ | n
  · simp
  · have : ((n + 1 : Nat) : Int) - 1 = ((n + 1 - 1 : Nat) : Int) := by simp
    rw [this]
    exact_mod_cast h

theorem binom2_add (a b : Nat) :
    binom2 ((a : Int) + b) = binom2 a + binom2 b + (a : Int) * b := by
  have h1 := two_mul_binom2 (a + b)
  have h2 := two_mul_binom2 a
  have h3 := two_mul_binom2 b
  push_cast at h1
  nlinarith

theorem binom2_zero : binom2 0 = 0 := by decide

/-! ## Sums over the node range -/

theorem sum_split_two (S : Finset Nat) (A B : Nat) (hA : A ∈ S) (hB : B ∈ S) (hAB : A ≠ B)
    (F : Nat → Int) :
    ∑ r in S, F r = F A + F B + ∑ r in (S.erase A).erase B, F r := by
  have hB' : B ∈ S.erase A := Finset.mem_erase.2 ⟨fun h => hAB h.symm, hB⟩
  rw [← Finset.add_sum_erase S F hA, ← Finset.add_sum_erase (S.erase A) F hB']
  ring

theorem mem_erase_two (S : Finset Nat) (A B c : Nat) (h : c ∈ (S.erase A).erase B) :
    c ≠ A ∧ c ≠ B ∧ c ∈ S := by
  have h1 := Finset.mem_erase.1 h
  have h2 := Finset.mem_erase.1 h1.2
  exact ⟨h2.1, h1.1, h2.2⟩

/-- A single sum whose summand changes only at `A` and `B`. -/
theorem sum_update_two (S : Finset Nat) (A B : Nat) (hA : A ∈ S) (hB : B ∈ S) (hAB : A ≠ B)
    (f f' : Nat → Int) (hoff : ∀ r, r ≠ A → r ≠ B → f' r = f r) :
    ∑ r in S, f' r = ∑ r in S, f r - f A - f B + f' A + f' B := by
  rw [sum_split_two S A B hA hB hAB f', sum_split_two S A B hA hB hAB f]
  have : ∑ r in (S.erase A).erase B, f' r = ∑ r in (S.erase A).erase B, f r := by
    apply Finset.sum_congr rfl
    intro r hr
    obtain ⟨h1, h2, _⟩ := mem_erase_two S A B r hr
    exact hoff r h1 h2
  rw [this]
  ring

/-- A symmetric double sum after rows and columns `A` and `B` are fused into `B`. -/
theorem sum2_merge (S : Finset Nat) (A B : Nat) (hA : A ∈ S) (hB : B ∈ S) (hAB : A ≠ B)
    (g g' : Nat → Nat → Int) (hs : ∀ r c, g r c = g c r) (hs' : ∀ r c, g' r c = g' c r)
    (hgA : ∀ c, g' A c = 0) (hBB' : g' B B = 0) (hAA : g A A = 0) (hBB : g B B = 0)
    (hoff : ∀ r c, r ≠ A → r ≠ B → c ≠ A → c ≠ B → g' r c = g r c) :
    ∑ r in S, ∑ c in S, g' r c
      = ∑ r in S, ∑ c in S, g r c - 2 * g A B
        + 2 * ∑ c in S, (if c = A ∨ c = B then 0 else g' B c - g B c - g A c) := by
  set S2 := (S.erase A).erase B with hS2
  have sp := fun F => sum_split_two S A B hA hB hAB F
  have e1 : ∑ c in S, (if c = A ∨ c = B then 0 else g' B c - g B c - g A c)
      = ∑ c in S2, (g' B c - g B c - g A c) := by
    rw [sp]
    simp only [true_or, or_true, if_true, zero_add]
    apply Finset.sum_congr rfl
    intro c hc
    obtain ⟨h1, h2, _⟩ := mem_erase_two S A B c hc
    simp [h1, h2]
  have l1 : ∑ r in S, ∑ c in S, g' r c
      = ∑ r in S2, ∑ c in S2, g r c + 2 * ∑ c in S2, g' B c := by
    rw [sp (fun r => ∑ c in S, g' r c)]
    have a1 : ∑ c in S, g' A c = 0 := Finset.sum_eq_zero (fun c _ => hgA c)
    have a2 : ∑ c in S, g' B c = ∑ c in S2, g' B c := by
      rw [sp (fun c => g' B c)]
      simp only [hs' B A, hgA, hBB', zero_add]
    have a3 : ∑ r in S2, ∑ c in S, g' r c
        = ∑ r in S2, g' B r + ∑ r in S2, ∑ c in S2, g r c := by
      rw [← Finset.sum_add_distrib]
      apply Finset.sum_congr rfl
      intro r hr
      obtain ⟨h1, h2, _⟩ := mem_erase_two S A B r hr
      rw [sp (fun c => g' r c)]
      simp only [hs' r A, hgA, zero_add, hs' r B]
      congr 1
      apply Finset.sum_congr rfl
      intro c hc
      obtain ⟨h3, h4, _⟩ := mem_erase_two S A B c hc
      exact hoff r c h1 h2 h3 h4
    simp only [a1, a2, a3]
    ring
  have l2 : ∑ r in S, ∑ c in S, g r c
      = ∑ r in S2, ∑ c in S2, g r c + 2 * g A B + 2 * ∑ c in S2, g A c
        + 2 * ∑ c in S2, g B c := by
    rw [sp (fun r => ∑ c in S, g r c)]
    have a1 : ∑ c in S, g A c = g A B + ∑ c in S2, g A c := by
      rw [sp (fun c => g A c)]
      simp only [hAA, zero_add]
    have a2 : ∑ c in S, g B c = g A B + ∑ c in S2, g B c := by
      rw [sp (fun c => g B c)]
      simp only [hBB, hs B A, add_zero]
    have a3 : ∑ r in S2, ∑ c in S, g r c
        = ∑ r in S2, g A r + ∑ r in S2, g B r + ∑ r in S2, ∑ c in S2, g r c := by
      rw [← Finset.sum_add_distrib, ← Finset.sum_add_distrib]
      apply Finset.sum_congr rfl
      intro r _
      rw [sp (fun c => g r c)]
      simp only [hs r A, hs r B]
    simp only [a1, a2, a3]
    ring
  rw [l1, l2, e1, Finset.sum_sub_distrib, Finset.sum_sub_distrib]
  ring

/-- A sum over the entries of a map as a sum over a set of candidate keys. -/
theorem map_sum_eq (S : Finset Nat) (w : Nat → Int) (l : HashMap) (hn : l.keys.Nodup)
    (hS : ∀ c ∈ l.keys, c ∈ S) :
    (l.map (fun p => p.2 * w p.1)).sum
      = ∑ c in S, (match l.find c with
          | some k => k * w c
          | none => 0) := by
  induction l with
  | nil => simp [find_nil]
  | cons p t ih =>
    obtain ⟨c, k⟩ := p
    simp only [keys, List.map_cons, List.nodup_cons, List.mem_cons] at hn hS
    have hc : c ∈ S := hS c (Or.inl rfl)
    have ht := ih hn.2 (fun x hx => hS x (Or.inr hx))
    have hnone : find t c = none := (find_eq_none_iff t c).2 hn.1
    simp only [List.map_cons, List.sum_cons, ht]
    have : ∀ x ∈ S, (match find ((c, k) :: t) x with
          | some k => k * w x
          | none => 0)
        = (if x = c then k * w c else 0) + (match find t x with
          | some k => k * w x
          | none => 0) := by
      intro x _
      by_cases hx : x = c
      · subst hx; simp [find_cons, hnone]
      · have hx' : ¬ c = x := fun h => hx h.symm
        simp [find_cons, hx, hx']
    rw [Finset.sum_congr rfl this, Finset.sum_add_distrib, Finset.sum_ite_eq' S c, if_pos hc]

/-! ## Step 3: unlinking the two representatives -/

theorem unlink_find_A (ov : Nat → HashMap) (A B : Nat) (k : Int)
    (h : k > 0 ∨ (ov A).find B = none) (c : Nat) :
    (unlink ov A B k A).find c = if c = B then none else (ov A).find c := by
  unfold unlink
  by_cases hk : k > 0
  · simp only [hk, if_true]
    by_cases hAB : A = B
    · subst hAB; simp only [setAt_same, find_erase]; split <;> simp
    · rw [setAt_other _ _ _ _ hAB, setAt_same, find_erase]
  · simp only [hk, if_false]
    have hn := h.resolve_left hk
    by_cases hc : c = B
    · subst hc; simp [hn]
    · simp [hc]

theorem unlink_find_B (ov : Nat → HashMap) (A B : Nat) (hAB : A ≠ B) (k : Int)
    (h : k > 0 ∨ (ov B).find A = none) (c : Nat) :
    (unlink ov A B k B).find c = if c = A then none else (ov B).find c := by
  unfold unlink
  have hBA : B ≠ A := fun e => hAB e.symm
  by_cases hk : k > 0
  · simp only [hk, if_true]
    rw [setAt_same, setAt_other _ _ _ _ hBA, find_erase]
  · simp only [hk, if_false]
    have hn := h.resolve_left hk
    by_cases hc : c = A
    · subst hc; simp [hn]
    · simp [hc]

theorem unlink_other (ov : Nat → HashMap) (A B : Nat) (k : Int) (r : Nat) (hA : r ≠ A)
    (hB : r ≠ B) : unlink ov A B k r = ov r := by
  unfold unlink
  split
  · simp only [setAt_other _ _ _ _ hB, setAt_other _ _ _ _ hA]
  · rfl

theorem unlink_nodup (ov : Nat → HashMap) (A B : Nat) (k : Int) (h : ∀ r, (ov r).keys.Nodup)
    (r : Nat) : (unlink ov A B k r).keys.Nodup := by
  unfold unlink
  split
  · simp only [setAt]
    split
    · apply nodup_erase; split
      · apply nodup_erase; exact h _
      · exact h _
    · split
      · apply nodup_erase; exact h _
      · exact h _
  · exact h r

/-! ## Reading the stored data through the invariant -/

theorem ent_range (N i : Nat) (hi : i ∈ Finset.Icc 1 N) : inRange N i ∧ inRange N (N + i) := by
  simp only [Finset.mem_Icc] at hi
  unfold inRange
  omega

theorem mem_nodes (N i : Nat) : i ∈ Finset.Icc 1 (2 * N) ↔ inRange N i := by
  simp [inRange]

theorem bridge_pos_range {N : Nat} {P root d : Nat → Nat} (F : Forest N P root d) (r c : Nat)
    (h : 0 < (bridge N root r c).card) : inRange N r ∧ inRange N c := by
  obtain ⟨i, hi⟩ := Finset.card_pos.1 h
  simp only [bridge, Finset.mem_filter] at hi
  obtain ⟨h1, h2⟩ := ent_range N i hi.1
  rcases hi.2 with ⟨a, b⟩ | ⟨a, b⟩
  · exact ⟨a ▸ F.root_range i h1, b ▸ F.root_range _ h2⟩
  · exact ⟨b ▸ F.root_range _ h2, a ▸ F.root_range i h1⟩

theorem Sem.weight_eq {s : State} {root : Nat → Nat} (S : Sem s root) (r c : Nat)
    (hr : inRange s.N r) (hP : s.Parent r = r) (hc : c ≠ r) :
    weight s.overlaps r c = ((bridge s.N root r c).card : Int) := by
  unfold weight
  rw [S.find r c hr hP]
  by_cases h : 0 < (bridge s.N root r c).card
  · simp [hc, h]
  · have : (bridge s.N root r c).card = 0 := by omega
    simp [this]

theorem Sem.find_none {s : State} {root : Nat → Nat} (S : Sem s root) (r c : Nat)
    (hr : inRange s.N r) (hP : s.Parent r = r) (h : (bridge s.N root r c).card = 0) :
    (s.overlaps r).find c = none := by
  rw [S.find r c hr hP]
  simp [h]

/-! ## Steps 1 to 6 preserve the invariant -/

theorem absorb_N (en : Enumeration) (s : State) (P : Nat → Nat) (A B : Nat) :
    (absorb en s P A B).N = s.N := rfl

theorem absorb_Parent (en : Enumeration) (s : State) (P : Nat → Nat) (A B : Nat) :
    (absorb en s P A B).Parent = setAt P A B := rfl

theorem absorb_clique_size (en : Enumeration) (s : State) (P : Nat → Nat) (A B : Nat) :
    (absorb en s P A B).clique_size
      = setAt s.clique_size B (s.clique_size A + s.clique_size B - weight s.overlaps A B) := rfl

theorem absorb_E_C (en : Enumeration) (s : State) (P : Nat → Nat) (A B : Nat) :
    (absorb en s P A B).E_C
      = s.E_C - binom2 (s.clique_size A) - binom2 (s.clique_size B)
        + binom2 (s.clique_size A + s.clique_size B - weight s.overlaps A B) := rfl

theorem absorb_overlaps (en : Enumeration) (s : State) (P : Nat → Nat) (A B : Nat) :
    (absorb en s P A B).overlaps
      = ((en.run (unlink s.overlaps A B (weight s.overlaps A B) A)).foldl (mergeStep A B)
          (unlink s.overlaps A B (weight s.overlaps A B),
            s.E_O - binom2 (weight s.overlaps A B))).1 := rfl

theorem absorb_E_O (en : Enumeration) (s : State) (P : Nat → Nat) (A B : Nat) :
    (absorb en s P A B).E_O
      = ((en.run (unlink s.overlaps A B (weight s.overlaps A B) A)).foldl (mergeStep A B)
          (unlink s.overlaps A B (weight s.overlaps A B),
            s.E_O - binom2 (weight s.overlaps A B))).2 := rfl

/-- What the step-5 loop of `absorb` leaves in the maps and in `E_O`, in terms of the
bridge counts of the partition before the merge. -/
theorem absorb_loop (en : Enumeration) (s : State) (P root d : Nat → Nat)
    (F : Forest s.N P root d) (hfix : ∀ j, P j = j ↔ s.Parent j = j) (S : Sem s root)
    (A B : Nat) (hA : inRange s.N A) (hB : inRange s.N B) (hPA : P A = A) (hPB : P B = B)
    (hAB : A ≠ B) :
    (absorb en s P A B).E_O = s.E_O - binom2 ((bridge s.N root A B).card : Int)
        + ∑ c in Finset.Icc 1 (2 * s.N), (if c = A ∨ c = B then 0
            else ((bridge s.N root A c).card : Int) * ((bridge s.N root B c).card : Int)) ∧
    (∀ x, ((absorb en s P A B).overlaps B).find x =
      if x ≠ A ∧ x ≠ B ∧ 0 < (bridge s.N root A x).card + (bridge s.N root B x).card then
        some (((bridge s.N root A x).card : Int) + ((bridge s.N root B x).card : Int))
      else none) ∧
    (∀ r x, r ≠ A → r ≠ B → s.Parent r = r → inRange s.N r →
      ((absorb en s P A B).overlaps r).find x =
        if x = A then none
        else if x = B then
          (if 0 < (bridge s.N root r A).card + (bridge s.N root r B).card then
            some (((bridge s.N root r A).card : Int) + ((bridge s.N root r B).card : Int))
          else none)
        else (s.overlaps r).find x) ∧
    (∀ r, ((absorb en s P A B).overlaps r).keys.Nodup) := by
  have hBA : B ≠ A := fun e => hAB e.symm
  have hsA : s.Parent A = A := (hfix A).1 hPA
  have hsB : s.Parent B = B := (hfix B).1 hPB
  have hk : weight s.overlaps A B = ((bridge s.N root A B).card : Int) :=
    S.weight_eq A B hA hsA hBA
  have hcA : weight s.overlaps A B > 0 ∨ (s.overlaps A).find B = none := by
    by_cases h : 0 < (bridge s.N root A B).card
    · left; rw [hk]; exact_mod_cast h
    · right; exact S.find_none A B hA hsA (by omega)
  have hcB : weight s.overlaps A B > 0 ∨ (s.overlaps B).find A = none := by
    by_cases h : 0 < (bridge s.N root A B).card
    · left; rw [hk]; exact_mod_cast h
    · right; exact S.find_none B A hB hsB (by rw [bridge_comm]; omega)
  have f0A := unlink_find_A s.overlaps A B (weight s.overlaps A B) hcA
  have f0B := unlink_find_B s.overlaps A B hAB (weight s.overlaps A B) hcB
  have f0o := unlink_other s.overlaps A B (weight s.overlaps A B)
  have n0 := unlink_nodup s.overlaps A B (weight s.overlaps A B) S.nodup
  rw [absorb_E_O, absorb_overlaps]
  generalize hov : unlink s.overlaps A B (weight s.overlaps A B) = ov0 at f0A f0B f0o n0
  have hp : (en.run (ov0 A)).Perm (ov0 A) := en.perm _
  generalize en.run (ov0 A) = l at hp
  have ln : (HashMap.keys l).Nodup := (List.Perm.nodup_iff (hp.map Prod.fst)).2 (n0 A)
  have lf : ∀ c, HashMap.find l c = (ov0 A).find c := find_eq_of_perm l (ov0 A) ln hp
  have lfx : ∀ c, HashMap.find l c =
      if c ≠ A ∧ c ≠ B ∧ 0 < (bridge s.N root A c).card then
        some ((bridge s.N root A c).card : Int) else none := by
    intro c
    rw [lf, f0A, S.find A c hA hsA]
    by_cases h1 : c = B
    · simp [h1]
    · by_cases h2 : c = A
      · simp [h2]
      · simp [h1, h2]
  have lB : B ∉ HashMap.keys l := (find_eq_none_iff l B).1 (by rw [lfx]; simp)
  have w0B : ∀ c, c ≠ A → c ≠ B → weight ov0 B c = ((bridge s.N root B c).card : Int) := by
    intro c h1 h2
    rw [← S.weight_eq B c hB hsB h2]
    unfold weight
    rw [f0B, if_neg h1]
  have lS : ∀ c ∈ HashMap.keys l, c ∈ Finset.Icc 1 (2 * s.N) := by
    intro c hc
    rw [mem_nodes]
    by_contra hcon
    have : HashMap.find l c = none := by
      rw [lfx]
      by_cases h : 0 < (bridge s.N root A c).card
      · exact absurd (bridge_pos_range F A c h).2 hcon
      · simp [h]
    exact (find_eq_none_iff l c).1 this hc
  obtain ⟨hE, hfind⟩ := mergeLoop_spec A B l ov0 (s.E_O - binom2 (weight s.overlaps A B)) ln lB
  refine ⟨?_, ?_, ?_, ?_⟩
  · rw [hE, hk, map_sum_eq (Finset.Icc 1 (2 * s.N)) (fun c => weight ov0 B c) l ln lS]
    congr 1
    apply Finset.sum_congr rfl
    intro c _
    rw [lfx]
    by_cases h1 : c = A
    · simp [h1]
    · by_cases h2 : c = B
      · simp [h2]
      · by_cases h3 : 0 < (bridge s.N root A c).card
        · simp [h1, h2, h3, w0B c h1 h2]
        · have : (bridge s.N root A c).card = 0 := by omega
          simp [h1, h2, this]
  · intro x
    rw [hfind B x, if_pos rfl, lfx]
    by_cases h1 : x = A
    · simp [h1, f0B]
    · by_cases h2 : x = B
      · simp only [h2, ne_eq, not_true_eq_false, false_and, and_false, if_false]
        rw [f0B, if_neg hBA, S.find B B hB hsB]
        simp
      · by_cases h3 : 0 < (bridge s.N root A x).card
        · have h4 : 0 < (bridge s.N root A x).card + (bridge s.N root B x).card := by omega
          simp only [h1, h2, h3, h4, ne_eq, not_false_eq_true, and_self, if_true, w0B x h1 h2]
          rw [add_comm]
        · have h5 : (bridge s.N root A x).card = 0 := by omega
          simp only [h1, h2, h3, ne_eq, not_false_eq_true, and_false, and_true, if_false, true_and]
          rw [f0B, if_neg h1, S.find B x hB hsB, h5]
          simp [h2]
  · intro r x hrA hrB hPr hr
    rw [hfind r x, if_neg hrB, lfx, f0o r hrA hrB]
    have hbr : (bridge s.N root A r).card = (bridge s.N root r A).card := by
      rw [bridge_comm]
    have hbr2 : (bridge s.N root B r).card = (bridge s.N root r B).card := by
      rw [bridge_comm]
    by_cases h3 : 0 < (bridge s.N root A r).card
    · simp only [hrA, hrB, h3, ne_eq, not_false_eq_true, and_self, if_true]
      by_cases h1 : x = A
      · simp [h1, hAB]
      · by_cases h2 : x = B
        · have h4 : 0 < (bridge s.N root r A).card + (bridge s.N root r B).card := by omega
          simp only [h2, hBA, if_true, if_false, h4, w0B r hrA hrB, hbr, hbr2]
          rw [add_comm]
        · simp [h1, h2]
    · have h5 : (bridge s.N root r A).card = 0 := by omega
      simp only [hrA, hrB, h3, ne_eq, not_false_eq_true, and_false, and_true, if_false]
      by_cases h1 : x = A
      · simp only [h1, if_true]
        exact S.find_none r A hr hPr h5
      · by_cases h2 : x = B
        · simp only [h2, hBA, if_true, if_false, h5, zero_add, Nat.cast_zero]
          rw [S.find r B hr hPr]
          simp [hBA, hrB.symm]
        · simp [h1, h2]
  · intro r
    exact mergeLoop_nodup A B l ov0 _ n0 r

theorem bridge_merged_A' (N : Nat) (root : Nat → Nat) (A B r : Nat) (hAB : A ≠ B) :
    bridge N (fun x => if root x = A then B else root x) r A = ∅ := by
  rw [bridge_comm]; exact bridge_merged_A N root A B r hAB

/-- Merging root `A` into root `B` keeps the stored data in agreement with the merged
partition. -/
theorem absorb_sem (en : Enumeration) (s : State) (P root d : Nat → Nat)
    (F : Forest s.N P root d) (hfix : ∀ j, P j = j ↔ s.Parent j = j) (S : Sem s root)
    (A B : Nat) (hA : inRange s.N A) (hB : inRange s.N B) (hPA : P A = A) (hPB : P B = B)
    (hAB : A ≠ B) :
    Sem (absorb en s P A B) (fun x => if root x = A then B else root x) := by
  obtain ⟨hEO, hfB, hfr, hnd⟩ := absorb_loop en s P root d F hfix S A B hA hB hPA hPB hAB
  have hBA : B ≠ A := fun e => hAB e.symm
  have hsA : s.Parent A = A := (hfix A).1 hPA
  have hsB : s.Parent B = B := (hfix B).1 hPB
  have hk : weight s.overlaps A B = ((bridge s.N root A B).card : Int) :=
    S.weight_eq A B hA hsA hBA
  have live : ∀ r, (absorb en s P A B).Parent r = r → r ≠ A ∧ s.Parent r = r := by
    intro r h
    rw [absorb_Parent] at h
    by_cases hr : r = A
    · subst hr; rw [setAt_same] at h; exact absurd h hBA
    · rw [setAt_other _ _ _ _ hr] at h; exact ⟨hr, (hfix r).1 h⟩
  have mA := mem_nodes s.N A |>.2 hA
  have mB := mem_nodes s.N B |>.2 hB
  refine ⟨?_, hnd, ?_, ?_, ?_⟩
  · intro r hr hP
    obtain ⟨hrA, hsr⟩ := live r hP
    rw [absorb_clique_size, absorb_N]
    rw [absorb_N] at hr
    by_cases hrB : r = B
    · subst hrB
      rw [setAt_same, clique_merged_card s.N root A r hAB, S.cs A hA hsA, S.cs r hr hsB, hk]
    · rw [setAt_other _ _ _ _ hrB, clique_merged_other s.N root A B r hrA hrB, S.cs r hr hsr]
  · intro r c hr hP
    obtain ⟨hrA, hsr⟩ := live r hP
    rw [absorb_N] at hr ⊢
    by_cases hrB : r = B
    · subst hrB
      rw [hfB c]
      by_cases h1 : c = A
      · subst h1
        simp [bridge_merged_A' s.N root c r r hAB]
      · by_cases h2 : c = r
        · simp [h2]
        · have e := bridge_merged_B s.N root A r c hAB h1 h2
          have e' : (bridge s.N (fun x => if root x = A then r else root x) r c).card
              = (bridge s.N root A c).card + (bridge s.N root r c).card := by exact_mod_cast e
          simp only [h1, h2, ne_eq, not_false_eq_true, true_and, e']
          push_cast
          rfl
    · rw [hfr r c hrA hrB hsr hr]
      by_cases h1 : c = A
      · subst h1
        simp [bridge_merged_A' s.N root c B r hAB]
      · by_cases h2 : c = B
        · subst h2
          have e := bridge_merged_B s.N root A c r hAB hrA hrB
          rw [bridge_comm s.N root A r, bridge_comm s.N root c r, bridge_comm s.N _ c r] at e
          have e' : (bridge s.N (fun x => if root x = A then c else root x) r c).card
              = (bridge s.N root r A).card + (bridge s.N root r c).card := by exact_mod_cast e
          have hcr : c ≠ r := fun h => hrB h.symm
          simp only [h1, if_false, if_true, hcr, ne_eq, not_false_eq_true, true_and, e']
          push_cast
          rfl
        · rw [if_neg h1, if_neg h2, S.find r c hr hsr,
            bridge_merged_other s.N root A B r c hrA hrB h1 h2]
  · rw [absorb_E_C, absorb_N, S.eC, S.cs A hA hsA, S.cs B hB hsB, hk]
    rw [sum_update_two (Finset.Icc 1 (2 * s.N)) A B mA mB hAB
      (fun r => binom2 ((clique s.N root r).card : Int))
      (fun r => binom2 ((clique s.N (fun x => if root x = A then B else root x) r).card : Int))
      (fun r h1 h2 => by
        show binom2 _ = binom2 _
        rw [clique_merged_other s.N root A B r h1 h2])]
    simp only [clique_merged_A s.N root A B hAB, Finset.card_empty, Nat.cast_zero, binom2_zero,
      clique_merged_card s.N root A B hAB]
    ring
  · rw [hEO, absorb_N]
    have key := sum2_merge (Finset.Icc 1 (2 * s.N)) A B mA mB hAB
      (fun r c => if r = c then 0 else binom2 ((bridge s.N root r c).card : Int))
      (fun r c => if r = c then 0 else
        binom2 ((bridge s.N (fun x => if root x = A then B else root x) r c).card : Int))
      (fun r c => by
        show (if r = c then 0 else _) = (if c = r then 0 else _)
        by_cases h : r = c
        · simp [h]
        · have h' : ¬ c = r := fun e => h e.symm
          rw [if_neg h, if_neg h', bridge_comm])
      (fun r c => by
        show (if r = c then 0 else _) = (if c = r then 0 else _)
        by_cases h : r = c
        · simp [h]
        · have h' : ¬ c = r := fun e => h e.symm
          rw [if_neg h, if_neg h', bridge_comm])
      (fun c => by
        show (if A = c then 0 else _) = (0 : Int)
        rw [bridge_merged_A s.N root A B c hAB]
        simp [binom2_zero])
      (by simp) (by simp) (by simp)
      (fun r c h1 h2 h3 h4 => by
        show (if r = c then 0 else _) = (if r = c then 0 else _)
        rw [bridge_merged_other s.N root A B r c h1 h2 h3 h4])
    beta_reduce at key
    rw [key, ← S.eO]
    have e2 : ∑ c in Finset.Icc 1 (2 * s.N), (if c = A ∨ c = B then (0 : Int) else
          (if B = c then 0 else
            binom2 ((bridge s.N (fun x => if root x = A then B else root x) B c).card : Int))
          - (if B = c then 0 else binom2 ((bridge s.N root B c).card : Int))
          - (if A = c then 0 else binom2 ((bridge s.N root A c).card : Int)))
        = ∑ c in Finset.Icc 1 (2 * s.N), (if c = A ∨ c = B then 0
            else ((bridge s.N root A c).card : Int) * ((bridge s.N root B c).card : Int)) := by
      apply Finset.sum_congr rfl
      intro c _
      by_cases h1 : c = A
      · simp [h1]
      · by_cases h2 : c = B
        · simp [h2]
        · have h1' : ¬ A = c := fun e => h1 e.symm
          have h2' : ¬ B = c := fun e => h2 e.symm
          simp only [h1, h2, or_self, if_false, h1', h2']
          rw [bridge_merged_B s.N root A B c hAB h1 h2, binom2_add]
          ring
    rw [e2, if_neg hAB]
    ring

/-! ## Connectivity of the role graph -/

theorem connected_cons (p : Nat × Nat) (E : List (Nat × Nat)) (x y : Nat)
    (h : connected E x y) : connected (p :: E) x y :=
  Relation.EqvGen.mono (fun _ _ hab => List.mem_cons_of_mem _ hab) h

theorem connected_head (u v : Nat) (E : List (Nat × Nat)) : connected ((u, v) :: E) u v :=
  Relation.EqvGen.rel _ _ (List.mem_cons_self _ _)

theorem Conn.same (E : List (Nat × Nat)) (N : Nat) (root : Nat → Nat) (C : Conn E N root)
    (u v : Nat) (h : root u = root v) : Conn ((u, v) :: E) N root := by
  refine ⟨?_, fun x hx => connected_cons _ _ _ _ (C.path x hx)⟩
  intro p hp
  rcases List.mem_cons.1 hp with e | e
  · subst e; exact h
  · exact C.edge p e

theorem Conn.add_edge (E : List (Nat × Nat)) (N : Nat) (root : Nat → Nat) (C : Conn E N root)
    (u v A B : Nat) (hu : inRange N u) (hv : inRange N v) (hAB : A ≠ B)
    (h : (A = root u ∧ B = root v) ∨ (A = root v ∧ B = root u)) :
    Conn ((u, v) :: E) N (fun x => if root x = A then B else root x) := by
  have hBA : B ≠ A := fun e => hAB e.symm
  have huv : connected ((u, v) :: E) (root u) (root v) :=
    Relation.EqvGen.trans _ _ _
      (Relation.EqvGen.symm _ _ (connected_cons _ _ _ _ (C.path u hu)))
      (Relation.EqvGen.trans _ _ _ (connected_head u v E) (connected_cons _ _ _ _ (C.path v hv)))
  have hABc : connected ((u, v) :: E) A B := by
    rcases h with ⟨h1, h2⟩ | ⟨h1, h2⟩
    · rw [h1, h2]; exact huv
    · rw [h1, h2]; exact Relation.EqvGen.symm _ _ huv
  constructor
  · intro p hp
    show (if root p.1 = A then B else root p.1) = (if root p.2 = A then B else root p.2)
    rcases List.mem_cons.1 hp with e | e
    · subst e
      rcases h with ⟨h1, h2⟩ | ⟨h1, h2⟩
      · simp only [← h1, ← h2, if_true, if_neg hBA]
      · simp only [← h1, ← h2, if_true, if_neg hBA]
    · rw [C.edge p e]
  · intro x hx
    show connected ((u, v) :: E) x (if root x = A then B else root x)
    have hx' := connected_cons (u, v) E _ _ (C.path x hx)
    split
    · rename_i hxA
      rw [hxA] at hx'
      exact Relation.EqvGen.trans _ _ _ hx' hABc
    · exact hx'

/-- Under the connectivity invariant two nodes have the same representative exactly when
they are connected. -/
theorem Conn.iff {E : List (Nat × Nat)} {N : Nat} {root : Nat → Nat} (C : Conn E N root)
    (x y : Nat) (hx : inRange N x) (hy : inRange N y) :
    root x = root y ↔ connected E x y := by
  constructor
  · intro h
    have h1 := C.path x hx
    have h2 := C.path y hy
    rw [h] at h1
    exact Relation.EqvGen.trans _ _ _ h1 (Relation.EqvGen.symm _ _ h2)
  · intro h
    clear hx hy
    induction h with
    | rel a b hab => exact C.edge (a, b) hab
    | refl a => rfl
    | symm a b _ ih => exact ih.symm
    | trans a b c _ _ ih1 ih2 => exact ih1.trans ih2

/-! ## One call of `Union` -/

/-- A call of `Union` on nodes in range terminates and keeps the invariant, with the new
edge added to the graph. -/
theorem Union_inv (en : Enumeration) (E : List (Nat × Nat)) (s : State) (u v : Nat)
    (hI : Inv E s) (hu : inRange s.N u) (hv : inRange s.N v) :
    ∃ s', Union en s u v = some s' ∧ Inv ((u, v) :: E) s' ∧ s'.N = s.N := by
  obtain ⟨root, d, F, S, C⟩ := hI
  obtain ⟨P1, hF1, F1, fix1⟩ := Find_total F u hu
  obtain ⟨P2, hF2, F2, fix2⟩ := Find_total F1 v hv
  have fix : ∀ j, P2 j = j ↔ s.Parent j = j := fun j => (fix2 j).trans (fix1 j)
  have hru := F.root_range u hu
  have hrv := F.root_range v hv
  have hPu : P2 (root u) = root u := F2.root_fix u hu
  have hPv : P2 (root v) = root v := F2.root_fix v hv
  unfold Union
  simp only [hF1, hF2]
  by_cases heq : root u = root v
  · refine ⟨{ s with Parent := P2 }, by simp [heq], ⟨root, d, F2, ?_, C.same E s.N root u v heq⟩,
      rfl⟩
    exact ⟨fun r hr hP => S.cs r hr ((fix r).1 hP), S.nodup,
      fun r c hr hP => S.find r c hr ((fix r).1 hP), S.eC, S.eO⟩
  · simp only [heq, if_false]
    have heq' : root v ≠ root u := fun e => heq e.symm
    by_cases hsz : (s.overlaps (root u)).size > (s.overlaps (root v)).size
    · simp only [hsz, if_true]
      refine ⟨_, rfl, ⟨fun x => if root x = root v then root u else root x,
        fun x => if root x = root v then d x + 1 else d x, ?_, ?_, ?_⟩, rfl⟩
      · exact F2.link_roots (root v) (root u) hrv hru hPv hPu heq'
      · exact absorb_sem en s P2 root d F2 fix S (root v) (root u) hrv hru hPv hPu heq'
      · exact C.add_edge E s.N root u v (root v) (root u) hu hv heq' (Or.inr ⟨rfl, rfl⟩)
    · simp only [hsz, if_false]
      refine ⟨_, rfl, ⟨fun x => if root x = root u then root v else root x,
        fun x => if root x = root u then d x + 1 else d x, ?_, ?_, ?_⟩, rfl⟩
      · exact F2.link_roots (root u) (root v) hru hrv hPu hPv heq
      · exact absorb_sem en s P2 root d F2 fix S (root u) (root v) hru hrv hPu hPv heq
      · exact C.add_edge E s.N root u v (root u) (root v) hu hv heq (Or.inl ⟨rfl, rfl⟩)

/-! ## Initialisation -/

/-- Loop body of `initNodes`. -/
theorem initNodes_fold (L : List Nat) :
    ∀ st : State,
      let r := L.foldl initNodeStep st
      r.N = st.N ∧ r.overlaps = st.overlaps ∧ r.E_C = st.E_C ∧ r.E_O = st.E_O ∧
      (∀ j, r.Parent j = if j ∈ L then j else st.Parent j) ∧
      (∀ j, r.clique_size j = if j ∈ L then 1 else st.clique_size j) := by
  induction L with
  | nil => intro st; simp
  | cons a t ih =>
    intro st
    simp only [List.foldl_cons]
    obtain ⟨h1, h2, h3, h4, h5, h6⟩ := ih (initNodeStep st a)
    refine ⟨h1, h2, h3, h4, fun j => ?_, fun j => ?_⟩
    · rw [h5 j]
      show (if j ∈ t then j else setAt st.Parent a a j) = _
      by_cases hj : j ∈ t
      · simp [hj]
      · by_cases hja : j = a
        · subst hja; simp [setAt_same]
        · simp [hj, hja, setAt_other _ _ _ _ hja]
    · rw [h6 j]
      show (if j ∈ t then 1 else setAt st.clique_size a 1 j) = _
      by_cases hj : j ∈ t
      · simp [hj]
      · by_cases hja : j = a
        · subst hja; simp [setAt_same]
        · simp [hj, hja, setAt_other _ _ _ _ hja]

theorem initOverlaps_fold (N : Nat) (L : List Nat) :
    ∀ st : State, st.N = N → L.Nodup → (∀ i ∈ L, 1 ≤ i ∧ i ≤ N) →
      let r := L.foldl initOverlapStep st
      r.N = st.N ∧ r.Parent = st.Parent ∧ r.clique_size = st.clique_size ∧
      r.E_C = st.E_C ∧ r.E_O = st.E_O ∧
      (∀ j, r.overlaps j =
        if j ∈ L then (st.overlaps j).assign (N + j) 1
        else if N < j ∧ j - N ∈ L then (st.overlaps j).assign (j - N) 1
        else st.overlaps j) := by
  induction L with
  | nil => intro st _ _ _; simp
  | cons a t ih =>
    intro st hN hnd hr
    simp only [List.foldl_cons]
    have ha := hr a (List.mem_cons_self _ _)
    rw [List.nodup_cons] at hnd
    obtain ⟨h1, h2, h3, h4, h5, h6⟩ := ih (initOverlapStep st a) hN hnd.2
      (fun i hi => hr i (List.mem_cons_of_mem _ hi))
    refine ⟨h1, h2, h3, h4, h5, fun j => ?_⟩
    rw [h6 j]
    have eo : (initOverlapStep st a).overlaps
        = setAt (setAt st.overlaps a ((st.overlaps a).assign (N + a) 1)) (N + a)
            ((setAt st.overlaps a ((st.overlaps a).assign (N + a) 1) (N + a)).assign a 1) := by
      subst hN; rfl
    rw [eo]
    have hne : N + a ≠ a := by omega
    by_cases hj : j ∈ t
    · have hja : j ≠ a := fun e => hnd.1 (e ▸ hj)
      have hjN : j ≠ N + a := by have := (hr j (List.mem_cons_of_mem _ hj)).2; omega
      simp [hj, hja, setAt_other _ _ _ _ hja, setAt_other _ _ _ _ hjN]
    · by_cases hj2 : N < j ∧ j - N ∈ t
      · have hja : j ≠ a := by omega
        have hjN : j ≠ N + a := by
          intro e
          apply hnd.1
          have : j - N = a := by omega
          rw [← this]; exact hj2.2
        simp [hj, hj2, hja, setAt_other _ _ _ _ hja, setAt_other _ _ _ _ hjN]
      · simp only [hj, hj2, if_false, List.mem_cons]
        by_cases hjN : j = N + a
        · subst hjN
          have e1 : N + a - N = a := by omega
          have e2 : N < N + a := by omega
          simp [setAt_same, setAt_other _ _ _ _ hne, hne, e1, e2]
        · by_cases hja : j = a
          · subst hja
            simp [setAt_same, setAt_other _ _ _ _ hjN]
          · have : ¬ (N < j ∧ (j - N = a ∨ j - N ∈ t)) := by
              rintro ⟨q1, q2 | q2⟩
              · exact hjN (by omega)
              · exact hj2 ⟨q1, q2⟩
            simp [hja, this, setAt_other _ _ _ _ hja, setAt_other _ _ _ _ hjN]

/-- The state built by the two initialisation loops, field by field. -/
theorem init_fields (N : Nat) :
    (init N).N = N ∧ (init N).E_C = 0 ∧ (init N).E_O = 0 ∧
    (∀ j, (init N).Parent j = if inRange N j then j else 0) ∧
    (∀ j, (init N).clique_size j = if inRange N j then 1 else 0) ∧
    (∀ j, (init N).overlaps j =
      if 1 ≤ j ∧ j ≤ N then [(N + j, 1)]
      else if N < j ∧ j ≤ 2 * N then [(j - N, 1)] else []) := by
  obtain ⟨a1, a2, a3, a4, a5, a6⟩ := initNodes_fold (List.range' 1 (2 * N)) (zeroState N)
  have hN : (initNodes (zeroState N)).N = N := a1
  obtain ⟨b1, b2, b3, b4, b5, b6⟩ := initOverlaps_fold N (List.range' 1 N)
    (initNodes (zeroState N)) hN (List.nodup_range' 1 N)
    (fun i hi => by rw [List.mem_range'_1] at hi; omega)
  have e : init N = (List.range' 1 (initNodes (zeroState N)).N).foldl initOverlapStep
      (initNodes (zeroState N)) := rfl
  rw [hN] at e
  rw [e]
  refine ⟨b1.trans hN, b4.trans a3, b5.trans a4, fun j => ?_, fun j => ?_, fun j => ?_⟩
  · rw [b2]
    refine (a5 j).trans ?_
    have z : (zeroState N).Parent j = 0 := rfl
    rw [z]
    simp only [List.mem_range'_1, inRange]
    by_cases h : 1 ≤ j ∧ j ≤ 2 * N
    · have h' : 1 ≤ j ∧ j < 1 + 2 * N := by omega
      rw [if_pos h, if_pos h']
    · have h' : ¬ (1 ≤ j ∧ j < 1 + 2 * N) := by omega
      rw [if_neg h, if_neg h']
  · rw [b3]
    refine (a6 j).trans ?_
    have z : (zeroState N).clique_size j = 0 := rfl
    rw [z]
    simp only [List.mem_range'_1, inRange]
    by_cases h : 1 ≤ j ∧ j ≤ 2 * N
    · have h' : 1 ≤ j ∧ j < 1 + 2 * N := by omega
      rw [if_pos h, if_pos h']
    · have h' : ¬ (1 ≤ j ∧ j < 1 + 2 * N) := by omega
      rw [if_neg h, if_neg h']
  · rw [b6 j]
    have ov0 : ∀ k, (initNodes (zeroState N)).overlaps k = [] := by
      intro k
      have : (initNodes (zeroState N)).overlaps = (zeroState N).overlaps := a2
      rw [this]
      rfl
    simp only [ov0, List.mem_range'_1, assign]
    have e1 : (1 ≤ j ∧ j < 1 + N) ↔ (1 ≤ j ∧ j ≤ N) := by omega
    have e2 : (N < j ∧ 1 ≤ j - N ∧ j - N < 1 + N) ↔ (N < j ∧ j ≤ 2 * N) := by omega
    simp only [e1, e2]

theorem clique_init (N r : Nat) (hr : inRange N r) : (clique N id r).card = 1 := by
  unfold inRange at hr
  rw [Finset.card_eq_one]
  by_cases h : r ≤ N
  · refine ⟨r, ?_⟩
    ext i
    simp only [clique, Finset.mem_filter, Finset.mem_Icc, Finset.mem_singleton, id]
    omega
  · refine ⟨r - N, ?_⟩
    ext i
    simp only [clique, Finset.mem_filter, Finset.mem_Icc, Finset.mem_singleton, id]
    omega

theorem bridge_init (N r c : Nat) :
    (bridge N id r c).card =
      if (1 ≤ r ∧ r ≤ N ∧ c = N + r) ∨ (1 ≤ c ∧ c ≤ N ∧ r = N + c) then 1 else 0 := by
  by_cases h1 : 1 ≤ r ∧ r ≤ N ∧ c = N + r
  · rw [if_pos (Or.inl h1), Finset.card_eq_one]
    refine ⟨r, ?_⟩
    ext i
    simp only [bridge, Finset.mem_filter, Finset.mem_Icc, Finset.mem_singleton, id]
    omega
  · by_cases h2 : 1 ≤ c ∧ c ≤ N ∧ r = N + c
    · rw [if_pos (Or.inr h2), Finset.card_eq_one]
      refine ⟨c, ?_⟩
      ext i
      simp only [bridge, Finset.mem_filter, Finset.mem_Icc, Finset.mem_singleton, id]
      omega
    · rw [if_neg (by tauto), Finset.card_eq_zero]
      ext i
      simp only [bridge, Finset.mem_filter, Finset.mem_Icc, id, Finset.not_mem_empty, iff_false]
      omega

theorem binom2_one : binom2 1 = 0 := by decide

/-- The initial state satisfies the invariant for the graph without edges. -/
theorem init_inv (N : Nat) : Inv [] (init N) := by
  obtain ⟨hN, hC, hO, hP, hcs, hov⟩ := init_fields N
  have hPr : ∀ j, inRange N j → (init N).Parent j = j := fun j hj => by rw [hP, if_pos hj]
  refine ⟨id, fun _ => 0, ?_, ?_, ?_⟩
  · rw [hN]
    refine ⟨fun i hi => hi, fun i hi => hPr i hi, fun _ _ _ => rfl,
      fun i hi => by rw [hPr i hi]; exact hi, fun i hi => by rw [hPr i hi],
      fun i hi h => absurd (hPr i hi) h, fun _ _ _ => rfl, fun _ _ => Nat.zero_le _⟩
  · refine ⟨?_, ?_, ?_, ?_, ?_⟩
    · intro r hr _
      rw [hN] at hr ⊢
      rw [hcs, if_pos hr, clique_init N r hr]
      rfl
    · intro r
      rw [hov]
      split
      · simp [keys]
      · split <;> simp [keys]
    · intro r c hr _
      rw [hN] at hr ⊢
      rw [hov, bridge_init]
      unfold inRange at hr
      by_cases h : 1 ≤ r ∧ r ≤ N
      · rw [if_pos h]
        by_cases hc : N + r = c
        · have : (1 ≤ r ∧ r ≤ N ∧ c = N + r) ∨ (1 ≤ c ∧ c ≤ N ∧ r = N + c) := by omega
          have hcr : c ≠ r := by omega
          rw [if_pos this]
          simp [find_cons, hc, hcr]
        · have : ¬ ((1 ≤ r ∧ r ≤ N ∧ c = N + r) ∨ (1 ≤ c ∧ c ≤ N ∧ r = N + c)) := by omega
          rw [if_neg this]
          simp [find_cons, find_nil, hc]
      · have h' : N < r ∧ r ≤ 2 * N := by omega
        rw [if_neg h, if_pos h']
        by_cases hc : r - N = c
        · have : (1 ≤ r ∧ r ≤ N ∧ c = N + r) ∨ (1 ≤ c ∧ c ≤ N ∧ r = N + c) := by omega
          have hcr : c ≠ r := by omega
          rw [if_pos this]
          simp [find_cons, hc, hcr]
        · have : ¬ ((1 ≤ r ∧ r ≤ N ∧ c = N + r) ∨ (1 ≤ c ∧ c ≤ N ∧ r = N + c)) := by omega
          rw [if_neg this]
          simp [find_cons, find_nil, hc]
    · rw [hC, hN]
      symm
      apply Finset.sum_eq_zero
      intro r hr
      rw [clique_init N r ((mem_nodes N r).1 hr)]
      exact binom2_one
    · rw [hO, hN]
      symm
      rw [mul_zero]
      apply Finset.sum_eq_zero
      intro r _
      apply Finset.sum_eq_zero
      intro c _
      rw [bridge_init]
      split
      · rfl
      · split
        · exact binom2_one
        · exact binom2_zero
  · rw [hN]
    exact ⟨fun p hp => by simp at hp, fun x _ => Relation.EqvGen.refl x⟩

/-! ## Inclusion-exclusion over pairs of entities -/

/-- The number of increasing pairs inside a finite set. -/
theorem card_pairs_lt (T : Finset Nat) :
    (((T ×ˢ T).filter (fun p => p.1 < p.2)).card : Int) = binom2 (T.card : Int) := by
  induction T using Finset.induction_on_max with
  | h0 => simp [binom2_zero]
  | step a T hmax ih =>
    have ha : a ∉ T := fun h => lt_irrefl a (hmax a h)
    have e : ((insert a T) ×ˢ (insert a T)).filter (fun p => p.1 < p.2)
        = (T ×ˢ T).filter (fun p => p.1 < p.2) ∪ T.image (fun x => (x, a)) := by
      ext ⟨x, y⟩
      simp only [Finset.mem_filter, Finset.mem_product, Finset.mem_insert, Finset.mem_union,
        Finset.mem_image, Prod.mk.injEq]
      constructor
      · rintro ⟨⟨hx | hx, hy | hy⟩, hlt⟩
        · subst hx; subst hy; exact absurd hlt (lt_irrefl _)
        · subst hx; exact absurd hlt (lt_asymm (hmax y hy))
        · subst hy; exact Or.inr ⟨x, hx, rfl, rfl⟩
        · exact Or.inl ⟨⟨hx, hy⟩, hlt⟩
      · rintro (⟨⟨hx, hy⟩, hlt⟩ | ⟨z, hz, h1, h2⟩)
        · exact ⟨⟨Or.inr hx, Or.inr hy⟩, hlt⟩
        · subst h1; subst h2; exact ⟨⟨Or.inr hz, Or.inl rfl⟩, hmax z hz⟩
    have hd : Disjoint ((T ×ˢ T).filter (fun p => p.1 < p.2)) (T.image (fun x => (x, a))) := by
      rw [Finset.disjoint_left]
      rintro ⟨x, y⟩ h1 h2
      simp only [Finset.mem_filter, Finset.mem_product, Finset.mem_image, Prod.mk.injEq] at h1 h2
      obtain ⟨z, _, _, h3⟩ := h2
      exact ha (h3 ▸ h1.1.2)
    have hi : (T.image (fun x => (x, a))).card = T.card := by
      apply Finset.card_image_of_injective
      intro x y h
      exact (Prod.mk.inj h).1
    rw [e, Finset.card_union_of_disjoint hd, hi, Finset.card_insert_of_not_mem ha]
    push_cast
    rw [ih]
    have := binom2_add T.card 1
    simp only [Nat.cast_one, binom2_one, mul_one, add_zero] at this
    rw [this]

/-- A sum whose summand vanishes off two points. -/
theorem sum_two_points (S : Finset Nat) (a b : Nat) (ha : a ∈ S) (hb : b ∈ S) (f : Nat → Int)
    (h : ∀ r, r ≠ a → r ≠ b → f r = 0) :
    ∑ r in S, f r = f a + (if a = b then 0 else f b) := by
  by_cases hab : a = b
  · subst hab
    rw [if_pos rfl, add_zero]
    apply Finset.sum_eq_single_of_mem a ha
    intro r _ hr
    exact h r hr hr
  · rw [if_neg hab, sum_split_two S a b ha hb hab f]
    have : ∑ r in (S.erase a).erase b, f r = 0 := by
      apply Finset.sum_eq_zero
      intro r hr
      obtain ⟨h1, h2, _⟩ := mem_erase_two S a b r hr
      exact h r h1 h2
    rw [this, add_zero]

/-- For one pair of entities with role representatives `a, b` and `c, e`: twice the number
of shared components minus the number of ordered bridges carrying both entities is two
when the entities share a component and zero otherwise. -/
theorem pair_count (S : Finset Nat) (a b c e : Nat) (ha : a ∈ S) (hb : b ∈ S) :
    2 * (∑ r in S, if (a = r ∨ b = r) ∧ (c = r ∨ e = r) then (1 : Int) else 0)
      - ∑ r in S, ∑ x in S, (if r = x then (0 : Int) else
          if ((a = r ∧ b = x) ∨ (a = x ∧ b = r)) ∧ ((c = r ∧ e = x) ∨ (c = x ∧ e = r))
          then 1 else 0)
      = 2 * (if a = c ∨ a = e ∨ b = c ∨ b = e then 1 else 0) := by
  have inner : ∀ r, ∑ x in S, (if r = x then (0 : Int) else
          if ((a = r ∧ b = x) ∨ (a = x ∧ b = r)) ∧ ((c = r ∧ e = x) ∨ (c = x ∧ e = r))
          then 1 else 0)
      = (if r = a then (0 : Int) else
          if ((a = r ∧ b = a) ∨ (a = a ∧ b = r)) ∧ ((c = r ∧ e = a) ∨ (c = a ∧ e = r))
          then 1 else 0)
        + (if a = b then 0 else (if r = b then (0 : Int) else
          if ((a = r ∧ b = b) ∨ (a = b ∧ b = r)) ∧ ((c = r ∧ e = b) ∨ (c = b ∧ e = r))
          then 1 else 0)) := by
    intro r
    apply sum_two_points S a b ha hb
    intro x hxa hxb
    have h1 : ¬ a = x := fun h => hxa h.symm
    have h2 : ¬ b = x := fun h => hxb h.symm
    simp [h1, h2]
  rw [sum_two_points S a b ha hb _ (fun r hra hrb => by
    have h1 : ¬ a = r := fun h => hra h.symm
    have h2 : ¬ b = r := fun h => hrb h.symm
    simp [h1, h2])]
  rw [sum_two_points S a b ha hb _ (fun r hra hrb => by
    rw [inner r]
    have h1 : ¬ a = r := fun h => hra h.symm
    have h2 : ¬ b = r := fun h => hrb h.symm
    simp [h1, h2])]
  rw [inner a, inner b]
  clear inner
  by_cases hab : a = b
  · subst hab
    by_cases hac : a = c
    · subst hac; simp
    · have hca : ¬ c = a := fun h => hac h.symm
      by_cases hae : a = e
      · subst hae; simp [hac, hca]
      · have hea : ¬ e = a := fun h => hae h.symm
        simp [hac, hae, hca, hea]
  · have hba : ¬ b = a := fun h => hab h.symm
    by_cases hac : a = c
    · subst hac
      by_cases hbe : b = e
      · subst hbe; simp [hab, hba]
      · have heb : ¬ e = b := fun h => hbe h.symm
        by_cases hae : a = e
        · subst hae; simp [hab, hba]
        · have hea : ¬ e = a := fun h => hae h.symm
          simp [hab, hba, hbe, heb, hae, hea]
    · have hca : ¬ c = a := fun h => hac h.symm
      by_cases hae : a = e
      · subst hae
        by_cases hbc : b = c
        · subst hbc; simp [hab, hba]
        · have hcb : ¬ c = b := fun h => hbc h.symm
          simp [hab, hba, hac, hca, hbc, hcb]
      · have hea : ¬ e = a := fun h => hae h.symm
        by_cases hbc : b = c
        · subst hbc
          by_cases hbe : b = e
          · subst hbe; simp [hab, hba]
          · have heb : ¬ e = b := fun h => hbe h.symm
            simp [hab, hba, hae, hea, hbe, heb]
        · have hcb : ¬ c = b := fun h => hbc h.symm
          by_cases hbe : b = e
          · subst hbe; simp [hab, hba, hbc, hcb, hac, hca]
          · have heb : ¬ e = b := fun h => hbe h.symm
            simp [hab, hba, hac, hca, hae, hea, hbc, hcb, hbe, heb]

/-- Pairs inside a filtered set of entities, counted over all entity pairs. -/
theorem binom2_filter (N : Nat) (q : Nat → Prop) [DecidablePred q] :
    binom2 (((Finset.Icc 1 N).filter q).card : Int)
      = ∑ p in entityPairs N, (if q p.1 ∧ q p.2 then (1 : Int) else 0) := by
  rw [← card_pairs_lt]
  have e : (((Finset.Icc 1 N).filter q) ×ˢ ((Finset.Icc 1 N).filter q)).filter
        (fun p => p.1 < p.2)
      = (entityPairs N).filter (fun p => q p.1 ∧ q p.2) := by
    ext ⟨x, y⟩
    simp only [entityPairs, Finset.mem_filter, Finset.mem_product, Finset.mem_Icc]
    tauto
  rw [e, Finset.card_filter]
  push_cast
  rfl

theorem mem_entityPairs (N : Nat) (p : Nat × Nat) :
    p ∈ entityPairs N ↔ (1 ≤ p.1 ∧ p.1 < p.2 ∧ p.2 ≤ N) := by
  simp only [entityPairs, Finset.mem_filter, Finset.mem_product, Finset.mem_Icc]
  omega

/-- Inclusion-exclusion: under the invariant `E_C - E_O` counts the related pairs. -/
theorem answer_eq_card (s : State) (root d : Nat → Nat) (F : Forest s.N s.Parent root d)
    (S : Sem s root) : s.E_C - s.E_O = ((relatedPairs s.N root).card : Int) := by
  have hC : s.E_C = ∑ p in entityPairs s.N, ∑ r in Finset.Icc 1 (2 * s.N),
      (if (root p.1 = r ∨ root (s.N + p.1) = r) ∧ (root p.2 = r ∨ root (s.N + p.2) = r)
        then (1 : Int) else 0) := by
    rw [S.eC, Finset.sum_comm]
    apply Finset.sum_congr rfl
    intro r _
    exact binom2_filter s.N (fun i => root i = r ∨ root (s.N + i) = r)
  have hO : 2 * s.E_O = ∑ p in entityPairs s.N, ∑ r in Finset.Icc 1 (2 * s.N),
      ∑ x in Finset.Icc 1 (2 * s.N), (if r = x then (0 : Int) else
        if ((root p.1 = r ∧ root (s.N + p.1) = x) ∨ (root p.1 = x ∧ root (s.N + p.1) = r)) ∧
           ((root p.2 = r ∧ root (s.N + p.2) = x) ∨ (root p.2 = x ∧ root (s.N + p.2) = r))
        then 1 else 0) := by
    rw [S.eO]
    refine Eq.symm (Eq.trans Finset.sum_comm ?_)
    apply Finset.sum_congr rfl
    intro r _
    refine Eq.trans Finset.sum_comm ?_
    apply Finset.sum_congr rfl
    intro x _
    by_cases h : r = x
    · simp [h]
    · simp only [h, if_false]
      exact (binom2_filter s.N
        (fun i => (root i = r ∧ root (s.N + i) = x) ∨ (root i = x ∧ root (s.N + i) = r))).symm
  have key : 2 * s.E_C - 2 * s.E_O
      = ∑ p in entityPairs s.N, 2 * (if related s.N root p.1 p.2 then (1 : Int) else 0) := by
    rw [hC, hO, Finset.mul_sum, ← Finset.sum_sub_distrib]
    apply Finset.sum_congr rfl
    intro p hp
    rw [mem_entityPairs] at hp
    have h1 : p.1 ∈ Finset.Icc 1 s.N := by rw [Finset.mem_Icc]; omega
    have ha := (mem_nodes _ _).2 (F.root_range _ (ent_range s.N p.1 h1).1)
    have hb := (mem_nodes _ _).2 (F.root_range _ (ent_range s.N p.1 h1).2)
    exact pair_count (Finset.Icc 1 (2 * s.N)) (root p.1) (root (s.N + p.1)) (root p.2)
      (root (s.N + p.2)) ha hb
  have hcard : ((relatedPairs s.N root).card : Int)
      = ∑ p in entityPairs s.N, (if related s.N root p.1 p.2 then (1 : Int) else 0) := by
    unfold relatedPairs
    rw [Finset.card_filter]
    push_cast
    rfl
  rw [← Finset.mul_sum, ← hcard] at key
  linarith

/-! ## Runs of `Solve` -/

theorem connected_mono {E E' : List (Nat × Nat)} (h : ∀ p, p ∈ E → p ∈ E') (x y : Nat)
    (hc : connected E x y) : connected E' x y :=
  Relation.EqvGen.mono (fun a b hab => h (a, b) hab) hc

theorem shareComponent_mono {N : Nat} {E E' : List (Nat × Nat)} (h : ∀ p, p ∈ E → p ∈ E')
    (i j : Nat) (hs : shareComponent N E i j) : shareComponent N E' i j := by
  obtain ⟨x, y, hx, hy, hc⟩ := hs
  exact ⟨x, y, hx, hy, connected_mono h x y hc⟩

/-- Under the connectivity invariant, related entities are those sharing a component of
the graph. -/
theorem related_iff {E : List (Nat × Nat)} {N : Nat} {root : Nat → Nat} (C : Conn E N root)
    (i j : Nat) (hi : 1 ≤ i ∧ i ≤ N) (hj : 1 ≤ j ∧ j ≤ N) :
    related N root i j ↔ shareComponent N E i j := by
  have ri : inRange N i := by unfold inRange; omega
  have ri' : inRange N (N + i) := by unfold inRange; omega
  have rj : inRange N j := by unfold inRange; omega
  have rj' : inRange N (N + j) := by unfold inRange; omega
  constructor
  · rintro (h | h | h | h)
    · exact ⟨i, j, Or.inl rfl, Or.inl rfl, (C.iff i j ri rj).1 h⟩
    · exact ⟨i, N + j, Or.inl rfl, Or.inr rfl, (C.iff _ _ ri rj').1 h⟩
    · exact ⟨N + i, j, Or.inr rfl, Or.inl rfl, (C.iff _ _ ri' rj).1 h⟩
    · exact ⟨N + i, N + j, Or.inr rfl, Or.inr rfl, (C.iff _ _ ri' rj').1 h⟩
  · rintro ⟨x, y, hx | hx, hy | hy, hc⟩ <;> subst hx <;> subst hy
    · exact Or.inl ((C.iff _ _ ri rj).2 hc)
    · exact Or.inr (Or.inl ((C.iff _ _ ri rj').2 hc))
    · exact Or.inr (Or.inr (Or.inl ((C.iff _ _ ri' rj).2 hc)))
    · exact Or.inr (Or.inr (Or.inr ((C.iff _ _ ri' rj').2 hc)))

/-- Under the invariant the printed value `E_C - E_O` is the number of pairs of entities
sharing a component of the graph. -/
theorem Inv.answer {E : List (Nat × Nat)} {s : State} (hI : Inv E s) :
    IsPairCount s.N E (s.E_C - s.E_O) := by
  obtain ⟨root, d, F, S, C⟩ := hI
  refine ⟨relatedPairs s.N root, fun i j => ?_, answer_eq_card s root d F S⟩
  simp only [relatedPairs, Finset.mem_filter, mem_entityPairs]
  constructor
  · rintro ⟨⟨h1, h2, h3⟩, hr⟩
    exact ⟨h1, h2, h3, (related_iff C i j (by omega) (by omega)).1 hr⟩
  · rintro ⟨h1, h2, h3, hr⟩
    exact ⟨⟨h1, h2, h3⟩, (related_iff C i j (by omega) (by omega)).2 hr⟩

theorem Inv.congr_edges {E E' : List (Nat × Nat)} {s : State} (h : ∀ p, p ∈ E ↔ p ∈ E')
    (hI : Inv E s) : Inv E' s := by
  obtain ⟨root, d, F, S, C⟩ := hI
  refine ⟨root, d, F, S, ?_, ?_⟩
  · intro p hp; exact C.edge p ((h p).2 hp)
  · intro x hx; exact connected_mono (fun p hp => (h p).1 hp) _ _ (C.path x hx)

theorem Inv.nonneg {E : List (Nat × Nat)} {s : State} (hI : Inv E s) :
    0 ≤ s.E_C ∧ 0 ≤ s.E_O ∧ 0 ≤ s.E_C - s.E_O := by
  obtain ⟨root, d, F, S, C⟩ := hI
  refine ⟨?_, ?_, ?_⟩
  · rw [S.eC]
    exact Finset.sum_nonneg (fun r _ => binom2_nonneg _)
  · have h : 0 ≤ 2 * s.E_O := by
      rw [S.eO]
      apply Finset.sum_nonneg
      intro r _
      apply Finset.sum_nonneg
      intro c _
      split
      · exact le_refl _
      · exact binom2_nonneg _
    omega
  · rw [answer_eq_card s root d F S]
    exact Int.natCast_nonneg _

/-- The request loop terminates on well-formed requests; it prints one answer per
request, and the state after each prefix satisfies the invariant for the role graph of
that prefix. -/
theorem process_inv (en : Nat → Enumeration) (N : Nat) :
    ∀ (reqs : List (Nat × Nat)) (t : Nat) (s : State) (E : List (Nat × Nat)),
      s.N = N → Inv E s → validReqs N reqs →
      ∃ s' out, process en t s reqs = some (s', out) ∧ out.length = reqs.length ∧ s'.N = N ∧
        Inv ((roleEdges N reqs).reverse ++ E) s' ∧
        ∀ k, k < reqs.length → ∃ a, out[k]? = some a ∧
          IsPairCount N ((roleEdges N (reqs.take (k + 1))).reverse ++ E) a := by
  intro reqs
  induction reqs with
  | nil =>
    intro t s E hN hI _
    exact ⟨s, [], rfl, rfl, hN, by simpa [roleEdges] using hI, fun k hk => by simp at hk⟩
  | cons q rest ih =>
    obtain ⟨A, B⟩ := q
    intro t s E hN hI hv
    have hq := hv (A, B) (List.mem_cons_self _ _)
    simp only at hq
    have hA : inRange s.N A := by unfold inRange; omega
    have hB : inRange s.N (s.N + B) := by unfold inRange; omega
    obtain ⟨s1, hU, hI1, hN1⟩ := Union_inv (en t) E s A (s.N + B) hI hA hB
    obtain ⟨s2, out, hP, hlen, hN2, hI2, hans⟩ := ih (t + 1) s1 ((A, s.N + B) :: E)
      (hN1.trans hN) hI1
      (fun p hp => hv p (List.mem_cons_of_mem _ hp))
    refine ⟨s2, (s1.E_C - s1.E_O) :: out, ?_, by simp [hlen], hN2, ?_, ?_⟩
    · simp only [process, hU, hP]
    · rw [hN] at hI2
      simpa [roleEdges, List.append_assoc] using hI2
    · intro k hk
      cases k with
      | zero =>
        refine ⟨s1.E_C - s1.E_O, by simp, ?_⟩
        have := hI1.answer
        rw [hN1, hN] at this
        simpa [roleEdges, hN] using this
      | succ k =>
        obtain ⟨a, ha1, ha2⟩ := hans k (by simpa using hk)
        refine ⟨a, by simpa using ha1, ?_⟩
        rw [hN] at ha2
        simpa [roleEdges, List.append_assoc] using ha2

/-- Every reachable state satisfies the invariant for some graph. -/
theorem Reachable.inv {N : Nat} {s : State} (h : Reachable N s) : s.N = N ∧ ∃ E, Inv E s := by
  induction h with
  | init => exact ⟨(init_fields N).1, [], init_inv N⟩
  | step en s s' a b _ h1 h2 h3 h4 hU ih =>
    obtain ⟨hN, E, hI⟩ := ih
    have hA : inRange s.N a := by unfold inRange; omega
    have hB : inRange s.N (N + b) := by unfold inRange; omega
    obtain ⟨s1, hU1, hI1, hN1⟩ := Union_inv en E s a (N + b) hI hA hB
    rw [hU] at hU1
    injection hU1 with e
    subst e
    exact ⟨hN1.trans hN, _, hI1⟩

/-! ## Independence of the iteration order -/

theorem unlink_congr (ov1 ov2 : Nat → HashMap) (A B : Nat) (k : Int)
    (h : ∀ r c, (ov1 r).find c = (ov2 r).find c) (r c : Nat) :
    (unlink ov1 A B k r).find c = (unlink ov2 A B k r).find c := by
  unfold unlink
  by_cases hk : k > 0
  · simp only [hk, if_true]
    by_cases hrB : r = B
    · subst hrB
      simp only [setAt_same, find_erase]
      by_cases hrA : r = A
      · subst hrA; simp only [setAt_same, find_erase, h]
      · simp only [setAt_other _ _ _ _ hrA, h]
    · simp only [setAt_other _ _ _ _ hrB]
      by_cases hrA : r = A
      · subst hrA; simp only [setAt_same, find_erase, h]
      · simp only [setAt_other _ _ _ _ hrA, h]
  · simp only [hk, if_false, h]

/-- The entries the step-5 loop runs over have distinct keys, none of them `R_B`. -/
theorem absorb_keys (en : Enumeration) (s : State) (P root d : Nat → Nat)
    (_F : Forest s.N P root d) (hfix : ∀ j, P j = j ↔ s.Parent j = j) (S : Sem s root)
    (A B : Nat) (hA : inRange s.N A) (hPA : P A = A) (hAB : A ≠ B) :
    (HashMap.keys (en.run (unlink s.overlaps A B (weight s.overlaps A B) A))).Nodup ∧
    B ∉ HashMap.keys (en.run (unlink s.overlaps A B (weight s.overlaps A B) A)) := by
  have hBA : B ≠ A := fun e => hAB e.symm
  have hsA : s.Parent A = A := (hfix A).1 hPA
  have hk : weight s.overlaps A B = ((bridge s.N root A B).card : Int) :=
    S.weight_eq A B hA hsA hBA
  have hcA : weight s.overlaps A B > 0 ∨ (s.overlaps A).find B = none := by
    by_cases h : 0 < (bridge s.N root A B).card
    · left; rw [hk]; exact_mod_cast h
    · right; exact S.find_none A B hA hsA (by omega)
  have f0A := unlink_find_A s.overlaps A B (weight s.overlaps A B) hcA
  have n0 := unlink_nodup s.overlaps A B (weight s.overlaps A B) S.nodup
  have hp := en.perm (unlink s.overlaps A B (weight s.overlaps A B) A)
  have ln := (List.Perm.nodup_iff (hp.map Prod.fst)).2 (n0 A)
  refine ⟨ln, ?_⟩
  apply (find_eq_none_iff _ B).1
  rw [find_eq_of_perm _ _ ln hp, f0A]
  simp

/-- Steps 1 to 6 under two iteration orders, from states holding the same data, end in
states holding the same data. -/
theorem absorb_same (en1 en2 : Enumeration) (s1 s2 : State) (P : Nat → Nat)
    (h : SameData s1 s2) (A B : Nat)
    (k1 : (HashMap.keys (en1.run (unlink s1.overlaps A B (weight s1.overlaps A B) A))).Nodup ∧
      B ∉ HashMap.keys (en1.run (unlink s1.overlaps A B (weight s1.overlaps A B) A)))
    (k2 : (HashMap.keys (en2.run (unlink s2.overlaps A B (weight s2.overlaps A B) A))).Nodup ∧
      B ∉ HashMap.keys (en2.run (unlink s2.overlaps A B (weight s2.overlaps A B) A))) :
    SameData (absorb en1 s1 P A B) (absorb en2 s2 P A B) := by
  obtain ⟨hN, hP, hcs, hC, hO, hf⟩ := h
  have hw : ∀ r c, weight s1.overlaps r c = weight s2.overlaps r c := by
    intro r c; unfold weight; rw [hf]
  have hu : ∀ r c, (unlink s1.overlaps A B (weight s1.overlaps A B) r).find c
      = (unlink s2.overlaps A B (weight s2.overlaps A B) r).find c := by
    intro r c
    rw [hw A B]
    exact unlink_congr s1.overlaps s2.overlaps A B _ hf r c
  have hp1 := en1.perm (unlink s1.overlaps A B (weight s1.overlaps A B) A)
  have hp2 := en2.perm (unlink s2.overlaps A B (weight s2.overlaps A B) A)
  obtain ⟨e1, f1⟩ := mergeLoop_spec A B _ (unlink s1.overlaps A B (weight s1.overlaps A B))
    (s1.E_O - binom2 (weight s1.overlaps A B)) k1.1 k1.2
  obtain ⟨e2, f2⟩ := mergeLoop_spec A B _ (unlink s2.overlaps A B (weight s2.overlaps A B))
    (s2.E_O - binom2 (weight s2.overlaps A B)) k2.1 k2.2
  have hl : ∀ c, HashMap.find (en1.run (unlink s1.overlaps A B (weight s1.overlaps A B) A)) c
      = HashMap.find (en2.run (unlink s2.overlaps A B (weight s2.overlaps A B) A)) c := by
    intro c
    rw [find_eq_of_perm _ _ k1.1 hp1, find_eq_of_perm _ _ k2.1 hp2]
    exact hu A c
  have hw0 : ∀ r c, weight (unlink s1.overlaps A B (weight s1.overlaps A B)) r c
      = weight (unlink s2.overlaps A B (weight s2.overlaps A B)) r c := by
    intro r c
    exact congrArg (fun o : Option Int => o.getD 0) (hu r c)
  refine ⟨hN, ?_, ?_, ?_, ?_, ?_⟩
  · rw [absorb_Parent, absorb_Parent]
  · rw [absorb_clique_size, absorb_clique_size, hcs, hw A B]
  · rw [absorb_E_C, absorb_E_C, hcs, hC, hw A B]
  · rw [absorb_E_O, absorb_E_O, e1, e2]
    have hperm := perm_of_find_eq _ _ k1.1 k2.1 hl
    have hfun : (fun p : Nat × Int =>
          p.2 * weight (unlink s1.overlaps A B (weight s1.overlaps A B)) B p.1)
        = (fun p : Nat × Int =>
          p.2 * weight (unlink s2.overlaps A B (weight s2.overlaps A B)) B p.1) := by
      funext p; rw [hw0]
    have hsum : (List.map (fun p : Nat × Int =>
          p.2 * weight (unlink s1.overlaps A B (weight s1.overlaps A B)) B p.1)
          (en1.run (unlink s1.overlaps A B (weight s1.overlaps A B) A))).sum
        = (List.map (fun p : Nat × Int =>
          p.2 * weight (unlink s2.overlaps A B (weight s2.overlaps A B)) B p.1)
          (en2.run (unlink s2.overlaps A B (weight s2.overlaps A B) A))).sum := by
      rw [hfun]
      exact (hperm.map _).sum_eq
    rw [hsum, hO, hw A B]
  · intro r c
    rw [absorb_overlaps, absorb_overlaps, f1 r c, f2 r c]
    simp only [hl, hw0, hu]

/-- The roots of a forest are determined by the parent array. -/
theorem Forest.root_unique {N : Nat} {P root d root' d' : Nat → Nat} (F : Forest N P root d)
    (F' : Forest N P root' d') : ∀ n i, d i = n → inRange N i → root' i = root i := by
  intro n
  induction n using Nat.strong_induction_on with
  | _ n ih =>
    intro i hd hi
    by_cases hp : P i = i
    · rw [F.root_self i hi hp, F'.root_self i hi hp]
    · have hlt := F.d_parent i hi hp
      have := ih (d (P i)) (hd ▸ hlt) (P i) rfl (F.parent_range i hi)
      rw [← F.root_parent i hi, ← this, F'.root_parent i hi]

/-- One call of `Union` under two iteration orders, from states holding the same data. -/
theorem Union_same (en1 en2 : Enumeration) (E : List (Nat × Nat)) (s1 s2 : State)
    (u v : Nat) (h : SameData s1 s2) (hI1 : Inv E s1) (hI2 : Inv E s2)
    (hu : inRange s1.N u) (hv : inRange s1.N v) :
    ∃ s1' s2', Union en1 s1 u v = some s1' ∧ Union en2 s2 u v = some s2' ∧
      SameData s1' s2' := by
  obtain ⟨root, d, F, S, C⟩ := hI1
  obtain ⟨root2, d2, F', S', C'⟩ := hI2
  obtain ⟨P1, hF1, F1, fix1⟩ := Find_total F u hu
  obtain ⟨P2, hF2, F2, fix2⟩ := Find_total F1 v hv
  have fix : ∀ j, P2 j = j ↔ s1.Parent j = j := fun j => (fix2 j).trans (fix1 j)
  have hru := F.root_range u hu
  have hrv := F.root_range v hv
  have hPu : P2 (root u) = root u := F2.root_fix u hu
  have hPv : P2 (root v) = root v := F2.root_fix v hv
  have hN := h.1
  have hP := h.2.1
  have hf := h.2.2.2.2.2
  have hsize : ∀ r, (s1.overlaps r).size = (s2.overlaps r).size := by
    intro r
    exact (perm_of_find_eq _ _ (S.nodup r) (S'.nodup r) (hf r)).length_eq
  -- the same forest facts, read in the second state
  have F2' : Forest s2.N P2 root d := hN ▸ F2
  have fix' : ∀ j, P2 j = j ↔ s2.Parent j = j := fun j => hP ▸ fix j
  -- transport the semantic invariant of the second state to the roots of the first
  have F3 : Forest s1.N s1.Parent root2 d2 := by rw [hN, hP]; exact F'
  have hroot : ∀ i, inRange s1.N i → root2 i = root i :=
    fun i hi => Forest.root_unique F F3 (d i) i rfl hi
  have S2 : Sem s2 root := by
    have hcl : ∀ r, clique s2.N root2 r = clique s2.N root r := by
      intro r
      unfold clique
      apply Finset.filter_congr
      intro i hi
      obtain ⟨a, b⟩ := ent_range s2.N i hi
      rw [hroot i (hN ▸ a), hroot _ (hN ▸ b)]
    have hbr : ∀ r c, bridge s2.N root2 r c = bridge s2.N root r c := by
      intro r c
      unfold bridge
      apply Finset.filter_congr
      intro i hi
      obtain ⟨a, b⟩ := ent_range s2.N i hi
      rw [hroot i (hN ▸ a), hroot _ (hN ▸ b)]
    refine ⟨fun r hr hp => ?_, S'.nodup, fun r c hr hp => ?_, ?_, ?_⟩
    · rw [← hcl]; exact S'.cs r hr hp
    · rw [← hbr]; exact S'.find r c hr hp
    · have := S'.eC; simp only [hcl] at this; exact this
    · have := S'.eO; simp only [hbr] at this; exact this
  have hF1' : Find (2 * s2.N + 1) s2.Parent u = some (root u, P1) := by
    rw [← hN, ← hP]; exact hF1
  have hF2' : Find (2 * s2.N + 1) P1 v = some (root v, P2) := by
    rw [← hN]; exact hF2
  unfold Union
  simp only [hF1, hF2, hF1', hF2']
  by_cases heq : root u = root v
  · refine ⟨{ s1 with Parent := P2 }, { s2 with Parent := P2 }, by simp [heq], by simp [heq],
      hN, rfl, h.2.2.1, h.2.2.2.1, h.2.2.2.2.1, hf⟩
  · simp only [heq, if_false]
    have heq' : root v ≠ root u := fun e => heq e.symm
    by_cases hsz : (s1.overlaps (root u)).size > (s1.overlaps (root v)).size
    · have hsz' : (s2.overlaps (root u)).size > (s2.overlaps (root v)).size := by
        rw [← hsize, ← hsize]; exact hsz
      simp only [hsz, hsz', if_true]
      refine ⟨_, _, rfl, rfl, absorb_same en1 en2 s1 s2 P2 h (root v) (root u) ?_ ?_⟩
      · exact absorb_keys en1 s1 P2 root d F2 fix S (root v) (root u) hrv hPv heq'
      · exact absorb_keys en2 s2 P2 root d F2' fix' S2 (root v) (root u) (hN ▸ hrv) hPv heq'
    · have hsz' : ¬ (s2.overlaps (root u)).size > (s2.overlaps (root v)).size := by
        rw [← hsize, ← hsize]; exact hsz
      simp only [hsz, hsz', if_false]
      refine ⟨_, _, rfl, rfl, absorb_same en1 en2 s1 s2 P2 h (root u) (root v) ?_ ?_⟩
      · exact absorb_keys en1 s1 P2 root d F2 fix S (root u) (root v) hru hPu heq
      · exact absorb_keys en2 s2 P2 root d F2' fix' S2 (root u) (root v) (hN ▸ hru) hPu heq

theorem SameData.refl (s : State) : SameData s s :=
  ⟨rfl, rfl, rfl, rfl, rfl, fun _ _ => rfl⟩

/-- The request loop under two iteration orders prints the same answers and ends in
states holding the same data. -/
theorem process_same (en1 en2 : Nat → Enumeration) (N : Nat) :
    ∀ (reqs : List (Nat × Nat)) (t : Nat) (s1 s2 : State) (E : List (Nat × Nat)),
      s1.N = N → SameData s1 s2 → Inv E s1 → Inv E s2 → validReqs N reqs →
      ∃ t1 t2 out, process en1 t s1 reqs = some (t1, out) ∧
        process en2 t s2 reqs = some (t2, out) ∧ SameData t1 t2 := by
  intro reqs
  induction reqs with
  | nil =>
    intro t s1 s2 E _ h _ _ _
    exact ⟨s1, s2, [], rfl, rfl, h⟩
  | cons q rest ih =>
    obtain ⟨A, B⟩ := q
    intro t s1 s2 E hN h hI1 hI2 hv
    have hq := hv (A, B) (List.mem_cons_self _ _)
    simp only at hq
    have hN2 : s2.N = s1.N := h.1.symm
    have hA : inRange s1.N A := by unfold inRange; omega
    have hB : inRange s1.N (s1.N + B) := by unfold inRange; omega
    obtain ⟨u1, u2, hU1, hU2, hs⟩ := Union_same (en1 t) (en2 t) E s1 s2 A (s1.N + B) h hI1 hI2 hA hB
    obtain ⟨u1', hU1', hJ1, hM1⟩ := Union_inv (en1 t) E s1 A (s1.N + B) hI1 hA hB
    obtain ⟨u2', hU2', hJ2, _⟩ := Union_inv (en2 t) E s2 A (s1.N + B) hI2 (hN2 ▸ hA) (hN2 ▸ hB)
    rw [hU1] at hU1'
    rw [hU2] at hU2'
    injection hU1' with e1
    injection hU2' with e2
    subst e1
    subst e2
    obtain ⟨t1, t2, out, hp1, hp2, hst⟩ := ih (t + 1) u1 u2 _ (hM1.trans hN) hs hJ1 hJ2
      (fun p hp => hv p (List.mem_cons_of_mem _ hp))
    refine ⟨t1, t2, (u1.E_C - u1.E_O) :: out, ?_, ?_, hst⟩
    · simp only [process, hU1, hp1]
    · have hU2b : Union (en2 t) s2 A (s2.N + B) = some u2 := by rw [hN2]; exact hU2
      simp only [process, hU2b, hp2, hs.2.2.2.1, hs.2.2.2.2.1]

/-- The printed answers do not depend on the iteration order. -/
theorem Solve_enum_indep (en1 en2 : Nat → Enumeration) (N : Nat) (reqs : List (Nat × Nat))
    (hv : validReqs N reqs) : Solve en1 N reqs = Solve en2 N reqs := by
  obtain ⟨t1, t2, out, h1, h2, _⟩ := process_same en1 en2 N reqs 0 (init N) (init N) []
    (init_fields N).1 (SameData.refl _) (init_inv N) (init_inv N) hv
  simp only [Solve, h1, h2, Option.map]

theorem IsPairCount.congr_edges_count {N : Nat} {E E' : List (Nat × Nat)} {a : Int}
    (h : ∀ p, p ∈ E ↔ p ∈ E') (hc : IsPairCount N E a) : IsPairCount N E' a := by
  obtain ⟨S, hS, ha⟩ := hc
  refine ⟨S, fun i j => ?_, ha⟩
  rw [hS i j]
  constructor
  · rintro ⟨h1, h2, h3, h4⟩
    exact ⟨h1, h2, h3, shareComponent_mono (fun p hp => (h p).1 hp) i j h4⟩
  · rintro ⟨h1, h2, h3, h4⟩
    exact ⟨h1, h2, h3, shareComponent_mono (fun p hp => (h p).2 hp) i j h4⟩

/-- Pair counts grow with the graph. -/
theorem IsPairCount.mono {N : Nat} {E E' : List (Nat × Nat)} {a a' : Int}
    (h : ∀ p, p ∈ E → p ∈ E') (hc : IsPairCount N E a) (hc' : IsPairCount N E' a') :
    a ≤ a' := by
  obtain ⟨S, hS, ha⟩ := hc
  obtain ⟨S', hS', ha'⟩ := hc'
  rw [ha, ha']
  have : S ⊆ S' := by
    rintro ⟨i, j⟩ hp
    rw [hS'] 
    obtain ⟨h1, h2, h3, h4⟩ := (hS i j).1 hp
    exact ⟨h1, h2, h3, shareComponent_mono h i j h4⟩
  exact_mod_cast Finset.card_le_card this

/-- The run of `Solve` on well-formed requests: it terminates with one answer per
request, and the answer after request `k + 1` counts the pairs of entities sharing a
component of the role graph of the first `k + 1` requests. -/
theorem Solve_spec (en : Nat → Enumeration) (N : Nat) (reqs : List (Nat × Nat))
    (hv : validReqs N reqs) :
    ∃ out, Solve en N reqs = some out ∧ out.length = reqs.length ∧
      ∀ k, k < reqs.length → ∃ a, out[k]? = some a ∧
        IsPairCount N (roleEdges N (reqs.take (k + 1))) a := by
  obtain ⟨s', out, hP, hlen, _, _, hans⟩ := process_inv en N reqs 0 (init N) []
    (init_fields N).1 (init_inv N) hv
  refine ⟨out, by simp only [Solve, hP, Option.map], hlen, fun k hk => ?_⟩
  obtain ⟨a, ha, hc⟩ := hans k hk
  exact ⟨a, ha, hc.congr_edges_count (fun p => by simp)⟩

/-! ## Auxiliary facts for the stated properties -/

/-- Role nodes connected in the role graph belong to entities connected in the entity
graph. -/
theorem entity_of_role_connected (N : Nat) (reqs : List (Nat × Nat)) (hv : validReqs N reqs)
    (x y : Nat) (h : connected (roleEdges N reqs) x y) :
    connected reqs (if N < x then x - N else x) (if N < y then y - N else y) := by
  induction h with
  | rel a b hab =>
    obtain ⟨p, hp, e⟩ := List.mem_map.1 hab
    obtain ⟨h1, h2, h3, h4⟩ := hv p hp
    injection e with e1 e2
    subst e1
    subst e2
    have c1 : ¬ N < p.1 := by omega
    have c2 : N < N + p.2 := by omega
    rw [if_neg c1, if_pos c2, Nat.add_sub_cancel_left]
    exact Relation.EqvGen.rel _ _ hp
  | refl a => exact Relation.EqvGen.refl _
  | symm a b _ ih => exact Relation.EqvGen.symm _ _ ih
  | trans a b c _ _ ih1 ih2 => exact Relation.EqvGen.trans _ _ _ ih1 ih2

theorem connected_of_shareComponent (N : Nat) (reqs : List (Nat × Nat))
    (hv : validReqs N reqs) (i j : Nat) (hi : 1 ≤ i ∧ i ≤ N) (hj : 1 ≤ j ∧ j ≤ N)
    (h : shareComponent N (roleEdges N reqs) i j) : connected reqs i j := by
  obtain ⟨x, y, hx, hy, hc⟩ := h
  have key := entity_of_role_connected N reqs hv x y hc
  have ex : (if N < x then x - N else x) = i := by
    rcases hx with e | e
    · subst e; rw [if_neg (by omega)]
    · subst e; rw [if_pos (by omega), Nat.add_sub_cancel_left]
  have ey : (if N < y then y - N else y) = j := by
    rcases hy with e | e
    · subst e; rw [if_neg (by omega)]
    · subst e; rw [if_pos (by omega), Nat.add_sub_cancel_left]
  rw [ex, ey] at key
  exact key

theorem pairCount_le_entityPairCount (N : Nat) (reqs : List (Nat × Nat))
    (hv : validReqs N reqs) (a t : Int) (ha : IsPairCount N (roleEdges N reqs) a)
    (ht : IsEntityPairCount N reqs t) : a ≤ t := by
  obtain ⟨S, hS, rfl⟩ := ha
  obtain ⟨T, hT, rfl⟩ := ht
  have : S ⊆ T := by
    rintro ⟨i, j⟩ hp
    obtain ⟨h1, h2, h3, h4⟩ := (hS i j).1 hp
    exact (hT i j).2 ⟨h1, h2, h3,
      connected_of_shareComponent N reqs hv i j (by omega) (by omega) h4⟩
  exact_mod_cast Finset.card_le_card this

theorem validReqs_take (N : Nat) (reqs : List (Nat × Nat)) (hv : validReqs N reqs) (k : Nat) :
    validReqs N (reqs.take k) :=
  fun p hp => hv p (List.mem_of_mem_take hp)

/-- The final states of two runs under different iteration orders hold the same data. -/
theorem finalState_same (en1 en2 : Nat → Enumeration) (N : Nat) (reqs : List (Nat × Nat))
    (hv : validReqs N reqs) :
    ∃ t1 t2, finalState en1 N reqs = some t1 ∧ finalState en2 N reqs = some t2 ∧
      SameData t1 t2 := by
  obtain ⟨t1, t2, out, h1, h2, hs⟩ := process_same en1 en2 N reqs 0 (init N) (init N) []
    (init_fields N).1 (SameData.refl _) (init_inv N) (init_inv N) hv
  exact ⟨t1, t2, by simp only [finalState, h1, Option.map], by
    simp only [finalState, h2, Option.map], hs⟩

theorem mem_take_succ (l : List (Nat × Nat)) (k : Nat) (p : Nat × Nat)
    (h : p ∈ l.take (k + 1)) : p ∈ l.take (k + 2) := by
  have : l.take (k + 1) = (l.take (k + 2)).take (k + 1) := by
    rw [List.take_take]; congr 1; omega
  rw [this] at h
  exact List.mem_of_mem_take h

/-! ## The stated properties -/

/-- C2, as stated, fails: for `N = 3` and the requests `(1,2), (2,3)` the second printed
answer is 2, while 3 pairs of entities are connected transitively. -/
theorem C2_counterexample :
    Solve storageOrder 3 [(1, 2), (2, 3)] = some [1, 2] ∧
    ¬ IsEntityPairCount 3 [(1, 2), (2, 3)] 2 := by
  refine ⟨by decide, ?_⟩
  rintro ⟨S, hS, hc⟩
  have e12 : connected [(1, 2), (2, 3)] 1 2 := Relation.EqvGen.rel _ _ (by simp [joined])
  have e23 : connected [(1, 2), (2, 3)] 2 3 := Relation.EqvGen.rel _ _ (by simp [joined])
  have e13 : connected [(1, 2), (2, 3)] 1 3 := Relation.EqvGen.trans _ _ _ e12 e23
  have h12 : ((1, 2) : Nat × Nat) ∈ S := (hS 1 2).2 ⟨by omega, by omega, by omega, e12⟩
  have h23 : ((2, 3) : Nat × Nat) ∈ S := (hS 2 3).2 ⟨by omega, by omega, by omega, e23⟩
  have h13 : ((1, 3) : Nat × Nat) ∈ S := (hS 1 3).2 ⟨by omega, by omega, by omega, e13⟩
  have hsub : ({(1, 2), (2, 3), (1, 3)} : Finset (Nat × Nat)) ⊆ S := by
    intro p hp
    simp only [Finset.mem_insert, Finset.mem_singleton] at hp
    rcases hp with e | e | e <;> subst e <;> assumption
  have hcard := Finset.card_le_card hsub
  have h3 : ({(1, 2), (2, 3), (1, 3)} : Finset (Nat × Nat)).card = 3 := by decide
  rw [h3] at hcard
  have : (S.card : Int) = 2 := hc.symm
  omega

/-- C3, as stated, fails: for `N = 3` and the requests `(1,2), (2,3), (1,3)` the printed
answers are not 1, 3, 3. -/
theorem C3_counterexample :
    Solve storageOrder 3 [(1, 2), (2, 3), (1, 3)] ≠ some [1, 3, 3] := by decide

/-- C3, amended: for `N = 3` and the requests `(1,2), (2,3), (1,3)` the three printed
answers are 1, then 2, then 3, under every iteration order. -/
theorem C3_answers_one_two_three (en : Nat → Enumeration) :
    Solve en 3 [(1, 2), (2, 3), (1, 3)] = some [1, 2, 3] := by
  rw [Solve_enum_indep en storageOrder 3 _ (by decide)]
  decide

/-- C4: for `N = 2` and the requests `(1,2), (2,1)` the answer printed after the second
request equals the answer printed after the first (both are 1), under every iteration
order. -/
theorem C4_second_answer_equals_first (en : Nat → Enumeration) :
    ∃ a b, Solve en 2 [(1, 2), (2, 1)] = some [a, b] ∧ b = a := by
  refine ⟨1, 1, ?_, rfl⟩
  rw [Solve_enum_indep en storageOrder 2 _ (by decide)]
  decide

/-- C5, as stated, fails: for `N = 2` and the requests `(1,2), (2,1)` the accumulator
`E_C` is 1 after the first request and 2 after the second. -/
theorem C5_counterexample :
    (finalState storageOrder 2 [(1, 2)]).map State.E_C = some 1 ∧
    (finalState storageOrder 2 [(1, 2), (2, 1)]).map State.E_C = some 2 ∧
    (finalState storageOrder 2 [(1, 2), (2, 1)]).map State.E_C
      ≠ (finalState storageOrder 2 [(1, 2)]).map State.E_C := by decide

/-- C5, amended: for `N = 2` and the requests `(1,2), (2,1)` the second request is an
effective merge (nodes 2 and 3 were their own representatives, afterwards node 2 has
parent 3); it takes `E_C` from 1 to 2 and `E_O` from 0 to 1 and leaves the printed
answer `E_C - E_O` unchanged, under every iteration order. -/
theorem C5_second_request_merges_answer_unchanged (en : Nat → Enumeration) :
    ∃ s1 s2, finalState en 2 [(1, 2)] = some s1 ∧
      finalState en 2 [(1, 2), (2, 1)] = some s2 ∧
      s1.E_C = 1 ∧ s2.E_C = 2 ∧ s1.E_O = 0 ∧ s2.E_O = 1 ∧
      s1.Parent 2 = 2 ∧ s1.Parent 3 = 3 ∧ s2.Parent 2 = 3 ∧
      s2.E_C - s2.E_O = s1.E_C - s1.E_O := by
  obtain ⟨a1, b1, ha1, hb1, h1⟩ := finalState_same en storageOrder 2 [(1, 2)]
    (by decide)
  obtain ⟨a2, b2, ha2, hb2, h2⟩ := finalState_same en storageOrder 2 [(1, 2), (2, 1)]
    (by decide)
  have c1 : (finalState storageOrder 2 [(1, 2)]).map
      (fun s => (s.E_C, s.E_O, s.Parent 2, s.Parent 3)) = some (1, 0, 2, 3) := by decide
  have c2 : (finalState storageOrder 2 [(1, 2), (2, 1)]).map
      (fun s => (s.E_C, s.E_O, s.Parent 2)) = some (2, 1, 3) := by decide
  rw [hb1] at c1
  rw [hb2] at c2
  simp only [Option.map_some', Option.some.injEq, Prod.mk.injEq] at c1 c2
  obtain ⟨_, hP1, _, hC1, hO1, _⟩ := h1
  obtain ⟨_, hP2, _, hC2, hO2, _⟩ := h2
  refine ⟨a1, a2, ha1, ha2, ?_, ?_, ?_, ?_, ?_, ?_, ?_, ?_⟩
  · rw [hC1]; exact c1.1
  · rw [hC2]; exact c2.1
  · rw [hO1]; exact c1.2.1
  · rw [hO2]; exact c2.2.1
  · rw [hP1]; exact c1.2.2.1
  · rw [hP1]; exact c1.2.2.2
  · rw [hP2]; exact c2.2.2
  · rw [hC1, hC2, hO1, hO2, c1.1, c1.2.1, c2.1, c2.2.1]; decide

/-- C6: in every reachable state, for nodes `u, v` in `1 .. 2N` with
`Find(u) = Find(v)`, the call `Union(u, v)` terminates and leaves `E_C`, `E_O`, every
clique size and every overlap map unchanged, so the answer `E_C - E_O` is unchanged;
`Parent` may change by path compression only, and every node keeps its
representative. -/
theorem C6_union_within_component_is_noop (en : Enumeration) (N : Nat) (s : State)
    (u v : Nat) (hR : Reachable N s) (hu : inRange N u) (hv : inRange N v)
    (hfind : findRep s u = findRep s v) :
    ∃ s', Union en s u v = some s' ∧ s'.N = s.N ∧ s'.E_C = s.E_C ∧ s'.E_O = s.E_O ∧
      s'.clique_size = s.clique_size ∧ s'.overlaps = s.overlaps ∧
      s'.E_C - s'.E_O = s.E_C - s.E_O ∧
      ∀ j, inRange N j → ∃ r, findRep s j = some r ∧ findRep s' j = some r := by
  obtain ⟨hN, E, root, d, F, S, C⟩ := hR.inv
  subst hN
  obtain ⟨P1, hF1, F1, fix1⟩ := Find_total F u hu
  obtain ⟨P2, hF2, F2, fix2⟩ := Find_total F1 v hv
  obtain ⟨Pv, hFv, _, _⟩ := Find_total F v hv
  have heq : root u = root v := by
    simp only [findRep, hF1, hFv, Option.map_some', Option.some.injEq] at hfind
    exact hfind
  refine ⟨{ s with Parent := P2 }, ?_, rfl, rfl, rfl, rfl, rfl, rfl, fun j hj => ?_⟩
  · unfold Union
    simp only [hF1, hF2, heq, if_true]
  · obtain ⟨Pj, hFj, _, _⟩ := Find_total F j hj
    obtain ⟨Pj', hFj', _, _⟩ := Find_total F2 j hj
    refine ⟨root j, ?_, ?_⟩
    · simp only [findRep, hFj, Option.map_some']
    · show (Find (2 * s.N + 1) P2 j).map Prod.fst = some (root j)
      simp only [hFj', Option.map_some']

theorem C6_witness :
    Reachable 2 ((Union Enumeration.storage (init 2) 1 (2 + 2)).getD (init 2)) ∧
    inRange 2 1 ∧ inRange 2 4 ∧
    findRep ((Union Enumeration.storage (init 2) 1 (2 + 2)).getD (init 2)) 1
      = findRep ((Union Enumeration.storage (init 2) 1 (2 + 2)).getD (init 2)) 4 ∧
    ∃ s', Union Enumeration.reversed
        ((Union Enumeration.storage (init 2) 1 (2 + 2)).getD (init 2)) 1 4 = some s' ∧
      s'.N = ((Union Enumeration.storage (init 2) 1 (2 + 2)).getD (init 2)).N ∧
      s'.E_C = ((Union Enumeration.storage (init 2) 1 (2 + 2)).getD (init 2)).E_C ∧
      s'.E_O = ((Union Enumeration.storage (init 2) 1 (2 + 2)).getD (init 2)).E_O ∧
      s'.clique_size
        = ((Union Enumeration.storage (init 2) 1 (2 + 2)).getD (init 2)).clique_size ∧
      s'.overlaps = ((Union Enumeration.storage (init 2) 1 (2 + 2)).getD (init 2)).overlaps ∧
      s'.E_C - s'.E_O
        = ((Union Enumeration.storage (init 2) 1 (2 + 2)).getD (init 2)).E_C
          - ((Union Enumeration.storage (init 2) 1 (2 + 2)).getD (init 2)).E_O ∧
      ∀ j, inRange 2 j → ∃ r,
        findRep ((Union Enumeration.storage (init 2) 1 (2 + 2)).getD (init 2)) j = some r ∧
        findRep s' j = some r :=
  have hR : Reachable 2 ((Union Enumeration.storage (init 2) 1 (2 + 2)).getD (init 2)) :=
    Reachable.step Enumeration.storage (init 2) _ 1 2 Reachable.init (by decide) (by decide)
      (by decide) (by decide) rfl
  ⟨hR, by decide, by decide, by decide,
    C6_union_within_component_is_noop Enumeration.reversed 2 _ 1 4 hR
      (by decide) (by decide) (by decide)⟩

/-! ## Live representatives and the partition computed by `Find` -/

theorem findRep_root {s : State} {root d : Nat → Nat} (F : Forest s.N s.Parent root d)
    (i : Nat) (hi : inRange s.N i) : findRep s i = some (root i) := by
  obtain ⟨P1, h1, _, _⟩ := Find_total F i hi
  simp only [findRep, h1, Option.map_some']

theorem mem_liveReps (s : State) (r : Nat) : r ∈ liveReps s ↔ isRep s r := by
  simp only [liveReps, Finset.mem_filter, mem_nodes, isRep]

theorem bridge_pos_live {N : Nat} {P root d : Nat → Nat} (F : Forest N P root d) (r c : Nat)
    (h : 0 < (bridge N root r c).card) :
    (inRange N r ∧ P r = r) ∧ (inRange N c ∧ P c = c) := by
  obtain ⟨i, hi⟩ := Finset.card_pos.1 h
  simp only [bridge, Finset.mem_filter] at hi
  obtain ⟨h1, h2⟩ := ent_range N i hi.1
  have a1 := F.root_range i h1
  have a2 := F.root_range _ h2
  have b1 := F.root_fix i h1
  have b2 := F.root_fix _ h2
  rcases hi.2 with ⟨a, b⟩ | ⟨a, b⟩
  · rw [a] at a1 b1; rw [b] at a2 b2; exact ⟨⟨a1, b1⟩, ⟨a2, b2⟩⟩
  · rw [a] at a1 b1; rw [b] at a2 b2; exact ⟨⟨a2, b2⟩, ⟨a1, b1⟩⟩

theorem clique_pos_live {N : Nat} {P root d : Nat → Nat} (F : Forest N P root d) (r : Nat)
    (h : 0 < (clique N root r).card) : inRange N r ∧ P r = r := by
  obtain ⟨i, hi⟩ := Finset.card_pos.1 h
  simp only [clique, Finset.mem_filter] at hi
  obtain ⟨h1, h2⟩ := ent_range N i hi.1
  rcases hi.2 with a | a
  · rw [← a]; exact ⟨F.root_range i h1, F.root_fix i h1⟩
  · rw [← a]; exact ⟨F.root_range _ h2, F.root_fix _ h2⟩

theorem straddlers_eq {s : State} {root d : Nat → Nat} (F : Forest s.N s.Parent root d)
    (R R' : Nat) : straddlers s R R' = bridge s.N root R R' := by
  unfold straddlers bridge
  apply Finset.filter_congr
  intro i hi
  obtain ⟨h1, h2⟩ := ent_range s.N i hi
  rw [findRep_root F i h1, findRep_root F _ h2]
  simp only [Option.some.injEq]

theorem insiders_union {s : State} {root d : Nat → Nat} (F : Forest s.N s.Parent root d)
    (r : Nat) :
    clique s.N root r = insiders s r ∪ halfInsiders s r ∧
    Disjoint (insiders s r) (halfInsiders s r) := by
  constructor
  · unfold insiders halfInsiders clique
    rw [← Finset.filter_or]
    apply Finset.filter_congr
    intro i hi
    obtain ⟨h1, h2⟩ := ent_range s.N i hi
    rw [findRep_root F i h1, findRep_root F _ h2]
    simp only [Option.some.injEq, ne_eq]
    tauto
  · rw [Finset.disjoint_left]
    intro i h1 h2
    simp only [insiders, halfInsiders, Finset.mem_filter] at h1 h2
    rcases h2.2 with ⟨_, b⟩ | ⟨a, _⟩
    · exact b h1.2.2
    · exact a h1.2.1

/-- Keys of the map of a live representative are live, differ from it and carry the
bridge count, which is positive. -/
theorem Sem.entry {s : State} {root d : Nat → Nat} (F : Forest s.N s.Parent root d)
    (S : Sem s root) (r c : Nat) (w : Int) (hr : isRep s r)
    (h : (s.overlaps r).find c = some w) :
    isRep s c ∧ c ≠ r ∧ w = ((bridge s.N root r c).card : Int) ∧
      0 < (bridge s.N root r c).card := by
  rw [S.find r c hr.1 hr.2] at h
  by_cases hc : c ≠ r ∧ 0 < (bridge s.N root r c).card
  · rw [if_pos hc] at h
    injection h with h
    exact ⟨(bridge_pos_live F r c hc.2).2, hc.1, h.symm, hc.2⟩
  · rw [if_neg hc] at h
    exact Option.noConfusion h

/-! ## The accumulators as sums over live representatives -/

theorem eC_live {s : State} {root d : Nat → Nat} (F : Forest s.N s.Parent root d)
    (S : Sem s root) : s.E_C = ∑ r in liveReps s, binom2 (s.clique_size r) := by
  rw [S.eC, liveReps, Finset.sum_filter]
  apply Finset.sum_congr rfl
  intro r hr
  have hr' := (mem_nodes s.N r).1 hr
  by_cases hP : s.Parent r = r
  · rw [if_pos hP, S.cs r hr' hP]
  · rw [if_neg hP]
    have : (clique s.N root r).card = 0 := by
      by_contra hne
      exact hP (clique_pos_live F r (Nat.pos_of_ne_zero hne)).2
    rw [this]
    exact binom2_zero

/-- A symmetric double sum with zero diagonal is twice its strictly upper part. -/
theorem sum_symm_half (T : Finset Nat) (g : Nat → Nat → Int) (hs : ∀ r c, g r c = g c r)
    (hd : ∀ r, g r r = 0) :
    ∑ r in T, ∑ c in T, g r c = 2 * ∑ r in T, ∑ c in T, (if r < c then g r c else 0) := by
  have h1 : ∑ r in T, ∑ c in T, g r c
      = ∑ r in T, ∑ c in T, ((if r < c then g r c else 0) + (if c < r then g r c else 0)) := by
    apply Finset.sum_congr rfl
    intro r _
    apply Finset.sum_congr rfl
    intro c _
    rcases Nat.lt_trichotomy r c with h | h | h
    · rw [if_pos h, if_neg (by omega), add_zero]
    · subst h; simp [hd]
    · rw [if_neg (by omega), if_pos h, zero_add]
  have h2 : ∑ r in T, ∑ c in T, (if c < r then g r c else 0)
      = ∑ r in T, ∑ c in T, (if r < c then g r c else 0) := by
    rw [Finset.sum_comm]
    apply Finset.sum_congr rfl
    intro r _
    apply Finset.sum_congr rfl
    intro c _
    rw [hs c r]
  rw [h1]
  simp only [Finset.sum_add_distrib]
  rw [h2]
  ring

theorem eO_edges {s : State} {root d : Nat → Nat} (F : Forest s.N s.Parent root d)
    (S : Sem s root) : s.E_O = ∑ p in edgePairs s, binom2 (weight s.overlaps p.1 p.2) := by
  have hsym := sum_symm_half (Finset.Icc 1 (2 * s.N))
    (fun r c => if r = c then 0 else binom2 ((bridge s.N root r c).card : Int))
    (fun r c => by
      show (if r = c then 0 else _) = (if c = r then 0 else _)
      by_cases h : r = c
      · simp [h]
      · have h' : ¬ c = r := fun e => h e.symm
        rw [if_neg h, if_neg h', bridge_comm])
    (fun r => by simp)
  beta_reduce at hsym
  have h2 := S.eO
  rw [hsym] at h2
  have h3 : s.E_O = ∑ r in Finset.Icc 1 (2 * s.N), ∑ c in Finset.Icc 1 (2 * s.N),
      (if r < c then (if r = c then 0 else binom2 ((bridge s.N root r c).card : Int))
        else 0) := by
    linarith
  rw [h3, ← Finset.sum_product']
  symm
  have hsub : edgePairs s ⊆ (Finset.Icc 1 (2 * s.N)) ×ˢ (Finset.Icc 1 (2 * s.N)) := by
    intro p hp
    simp only [edgePairs, Finset.mem_filter, Finset.mem_product, mem_liveReps] at hp
    simp only [Finset.mem_product, mem_nodes]
    exact ⟨hp.1.1.1, hp.1.2.1⟩
  have hcongr : ∑ p in edgePairs s, binom2 (weight s.overlaps p.1 p.2)
      = ∑ p in edgePairs s, (if p.1 < p.2 then
          (if p.1 = p.2 then 0 else binom2 ((bridge s.N root p.1 p.2).card : Int))
        else 0) := by
    apply Finset.sum_congr rfl
    intro p hp
    simp only [edgePairs, Finset.mem_filter, Finset.mem_product, mem_liveReps] at hp
    obtain ⟨⟨hr, _⟩, hlt, _⟩ := hp
    have hne : ¬ p.1 = p.2 := by omega
    rw [if_pos hlt, if_neg hne, S.weight_eq p.1 p.2 hr.1 hr.2 (fun e => hne e.symm)]
  rw [hcongr]
  apply Finset.sum_subset hsub
  intro p hp hnot
  simp only [Finset.mem_product, mem_nodes] at hp
  by_cases hlt : p.1 < p.2
  · have hne : ¬ p.1 = p.2 := by omega
    rw [if_pos hlt, if_neg hne]
    have hz : (bridge s.N root p.1 p.2).card = 0 := by
      by_contra hpos
      have hpos' := Nat.pos_of_ne_zero hpos
      obtain ⟨⟨_, l1⟩, ⟨_, l2⟩⟩ := bridge_pos_live F p.1 p.2 hpos'
      apply hnot
      simp only [edgePairs, Finset.mem_filter, Finset.mem_product, mem_liveReps, isRep]
      refine ⟨⟨⟨hp.1, l1⟩, ⟨hp.2, l2⟩⟩, hlt, ?_⟩
      rw [S.find p.1 p.2 hp.1 l1, if_pos ⟨fun e => hne e.symm, hpos'⟩]
      rfl
    rw [hz]
    exact binom2_zero
  · rw [if_neg hlt]

/-! ## The effect of one call of `Union` -/

/-- The three ways a call of `Union` on nodes in range can go: early return, or a merge
of the root of `u` into the root of `v`, or (after the swap) the other way round. -/
theorem Union_cases (en : Enumeration) (s : State) (root d : Nat → Nat)
    (F : Forest s.N s.Parent root d) (u v : Nat) (hu : inRange s.N u) (hv : inRange s.N v) :
    ∃ P2, Forest s.N P2 root d ∧ (∀ j, P2 j = j ↔ s.Parent j = j) ∧
      ((root u = root v ∧ Union en s u v = some { s with Parent := P2 }) ∨
       (root u ≠ root v ∧ ¬ (s.overlaps (root u)).size > (s.overlaps (root v)).size ∧
          Union en s u v = some (absorb en s P2 (root u) (root v))) ∨
       (root u ≠ root v ∧ (s.overlaps (root u)).size > (s.overlaps (root v)).size ∧
          Union en s u v = some (absorb en s P2 (root v) (root u)))) := by
  obtain ⟨P1, hF1, F1, fix1⟩ := Find_total F u hu
  obtain ⟨P2, hF2, F2, fix2⟩ := Find_total F1 v hv
  refine ⟨P2, F2, fun j => (fix2 j).trans (fix1 j), ?_⟩
  unfold Union
  simp only [hF1, hF2]
  by_cases heq : root u = root v
  · left
    exact ⟨heq, by simp [heq]⟩
  · right
    by_cases hsz : (s.overlaps (root u)).size > (s.overlaps (root v)).size
    · right
      exact ⟨heq, hsz, by simp only [heq, if_false, hsz, if_true]⟩
    · left
      exact ⟨heq, hsz, by simp only [heq, if_false, hsz]⟩

/-- After steps 1 to 6 the state agrees with the merged partition. -/
theorem absorb_post (en : Enumeration) (s : State) (P root d : Nat → Nat)
    (F : Forest s.N P root d) (hfix : ∀ j, P j = j ↔ s.Parent j = j) (S : Sem s root)
    (A B : Nat) (hA : inRange s.N A) (hB : inRange s.N B) (hPA : P A = A) (hPB : P B = B)
    (hAB : A ≠ B) :
    Forest (absorb en s P A B).N (absorb en s P A B).Parent
        (fun x => if root x = A then B else root x)
        (fun x => if root x = A then d x + 1 else d x) ∧
      Sem (absorb en s P A B) (fun x => if root x = A then B else root x) :=
  ⟨F.link_roots A B hA hB hPA hPB hAB, absorb_sem en s P root d F hfix S A B hA hB hPA hPB hAB⟩

theorem merged_eq_iff (root : Nat → Nat) (A B : Nat) (hAB : A ≠ B) (x y : Nat) :
    (if root x = A then B else root x) = (if root y = A then B else root y) ↔
      (root x = root y ∨ (root x = A ∧ root y = B) ∨ (root x = B ∧ root y = A)) := by
  have hBA : B ≠ A := fun e => hAB e.symm
  by_cases hx : root x = A <;> by_cases hy : root y = A
  · simp [hx, hy]
  · rw [if_pos hx, if_neg hy, hx]
    constructor
    · intro h; exact Or.inr (Or.inl ⟨rfl, h.symm⟩)
    · rintro (h | ⟨_, h⟩ | ⟨h, _⟩)
      · exact absurd h.symm hy
      · exact h.symm
      · exact absurd h hAB
  · rw [if_neg hx, if_pos hy, hy]
    constructor
    · intro h; exact Or.inr (Or.inr ⟨h, rfl⟩)
    · rintro (h | ⟨h, _⟩ | ⟨h, _⟩)
      · exact absurd h hx
      · exact absurd h hx
      · exact h
  · rw [if_neg hx, if_neg hy]
    constructor
    · intro h; exact Or.inl h
    · rintro (h | ⟨h, _⟩ | ⟨_, h⟩)
      · exact h
      · exact absurd h hx
      · exact absurd h hy

/-- Following `Parent` from a node in range reaches its root. -/
theorem Forest.root_iterate {N : Nat} {P root d : Nat → Nat} (F : Forest N P root d) :
    ∀ n i, d i = n → inRange N i → ∃ k, P^[k] i = root i := by
  intro n
  induction n using Nat.strong_induction_on with
  | _ n ih =>
    intro i hd hi
    by_cases hp : P i = i
    · exact ⟨0, (F.root_self i hi hp).symm⟩
    · have hlt := F.d_parent i hi hp
      obtain ⟨k, hk⟩ := ih (d (P i)) (hd ▸ hlt) (P i) rfl (F.parent_range i hi)
      refine ⟨k + 1, ?_⟩
      rw [Function.iterate_succ_apply, hk, F.root_parent i hi]

/-- One call of `Union` from a state satisfying the invariant, with the partition after
the call described through the partition before it. -/
theorem Union_partition (en : Enumeration) (s : State) (root d : Nat → Nat)
    (F : Forest s.N s.Parent root d) (S : Sem s root) (u v : Nat)
    (hu : inRange s.N u) (hv : inRange s.N v) :
    ∃ s' root2 d2, Union en s u v = some s' ∧ s'.N = s.N ∧
      Forest s'.N s'.Parent root2 d2 ∧ Sem s' root2 ∧
      ∀ x y, (root2 x = root2 y ↔
        (root x = root y ∨ (root x = root u ∧ root y = root v) ∨
          (root x = root v ∧ root y = root u))) := by
  obtain ⟨P2, F2, fix, h⟩ := Union_cases en s root d F u v hu hv
  have hru := F.root_range u hu
  have hrv := F.root_range v hv
  have hPu : P2 (root u) = root u := F2.root_fix u hu
  have hPv : P2 (root v) = root v := F2.root_fix v hv
  rcases h with ⟨heq, hU⟩ | ⟨hne, _, hU⟩ | ⟨hne, _, hU⟩
  · refine ⟨_, root, d, hU, rfl, F2, ?_, fun x y => ?_⟩
    · exact ⟨fun r hr hP => S.cs r hr ((fix r).1 hP), S.nodup,
        fun r c hr hP => S.find r c hr ((fix r).1 hP), S.eC, S.eO⟩
    · rw [heq]
      constructor
      · intro h; exact Or.inl h
      · rintro (h | ⟨h1, h2⟩ | ⟨h1, h2⟩)
        · exact h
        · exact h1.trans h2.symm
        · exact h1.trans h2.symm
  · obtain ⟨Fp, Sp⟩ := absorb_post en s P2 root d F2 fix S (root u) (root v) hru hrv hPu hPv hne
    exact ⟨_, _, _, hU, rfl, Fp, Sp, fun x y => merged_eq_iff root (root u) (root v) hne x y⟩
  · have hne' : root v ≠ root u := fun e => hne e.symm
    obtain ⟨Fp, Sp⟩ := absorb_post en s P2 root d F2 fix S (root v) (root u) hrv hru hPv hPu hne'
    refine ⟨_, _, _, hU, rfl, Fp, Sp, fun x y => ?_⟩
    rw [merged_eq_iff root (root v) (root u) hne' x y]
    tauto

theorem mem_keys_iff (m : HashMap) (c : Nat) : c ∈ m.keys ↔ ∃ w, m.find c = some w := by
  constructor
  · intro h
    cases hf : m.find c with
    | none => exact absurd h ((find_eq_none_iff m c).1 hf)
    | some w => exact ⟨w, rfl⟩
  · rintro ⟨w, hw⟩
    by_contra hn
    rw [(find_eq_none_iff m c).2 hn] at hw
    exact Option.noConfusion hw

/-- In a state agreeing with a partition, the keys of a live map are live representatives
other than its owner. -/
theorem Sem.keys_live {s : State} {root d : Nat → Nat} (F : Forest s.N s.Parent root d)
    (S : Sem s root) (r c : Nat) (hr : isRep s r) (hc : c ∈ (s.overlaps r).keys) :
    isRep s c ∧ c ≠ r := by
  obtain ⟨w, hw⟩ := (mem_keys_iff _ c).1 hc
  obtain ⟨h1, h2, _, _⟩ := S.entry F r c w hr hw
  exact ⟨h1, h2⟩

/-- An effective merge: `X` is absorbed into `Y`; the edge between them is gone, `X` is
no key of a live map any more, and the neighbours of `X` are neighbours of `Y`. -/
theorem absorb_edges (en : Enumeration) (s : State) (P root d : Nat → Nat)
    (F : Forest s.N P root d) (hfix : ∀ j, P j = j ↔ s.Parent j = j) (S : Sem s root)
    (X Y : Nat) (hX : inRange s.N X) (hY : inRange s.N Y) (hPX : P X = X) (hPY : P Y = Y)
    (hXY : X ≠ Y) :
    (absorb en s P X Y).Parent X = Y ∧ isRep (absorb en s P X Y) Y ∧
    ¬ isRep (absorb en s P X Y) X ∧
    X ∉ ((absorb en s P X Y).overlaps Y).keys ∧ Y ∉ ((absorb en s P X Y).overlaps Y).keys ∧
    (∀ r, isRep (absorb en s P X Y) r → X ∉ ((absorb en s P X Y).overlaps r).keys) ∧
    (∀ c, c ∈ (s.overlaps X).keys → c ≠ Y →
      c ∈ ((absorb en s P X Y).overlaps Y).keys ∧
      Y ∈ ((absorb en s P X Y).overlaps c).keys) := by
  have hYX : Y ≠ X := fun e => hXY e.symm
  have hsX : s.Parent X = X := (hfix X).1 hPX
  obtain ⟨Fp, Sp⟩ := absorb_post en s P root d F hfix S X Y hX hY hPX hPY hXY
  obtain ⟨_, hfB, hfr, _⟩ := absorb_loop en s P root d F hfix S X Y hX hY hPX hPY hXY
  have pX : (absorb en s P X Y).Parent X = Y := by rw [absorb_Parent, setAt_same]
  have pY : (absorb en s P X Y).Parent Y = Y := by
    rw [absorb_Parent, setAt_other _ _ _ _ hYX]; exact hPY
  have rY : isRep (absorb en s P X Y) Y := ⟨hY, pY⟩
  have nX : ¬ isRep (absorb en s P X Y) X := fun h => hYX (pX.symm.trans h.2)
  have keyX : ∀ r, isRep (absorb en s P X Y) r → X ∉ ((absorb en s P X Y).overlaps r).keys :=
    fun r hr hk => nX (Sp.keys_live Fp r X hr hk).1
  refine ⟨pX, rY, nX, keyX Y rY, ?_, keyX, ?_⟩
  · intro hk
    exact (Sp.keys_live Fp Y Y rY hk).2 rfl
  · intro c hc hcY
    obtain ⟨w, hw⟩ := (mem_keys_iff _ c).1 hc
    rw [S.find X c hX hsX] at hw
    by_cases hcond : c ≠ X ∧ 0 < (bridge s.N root X c).card
    · obtain ⟨hcX, hpos⟩ := hcond
      obtain ⟨_, hcr, hcP⟩ := bridge_pos_live F X c hpos
      have hsc : s.Parent c = c := (hfix c).1 hcP
      constructor
      · rw [mem_keys_iff]
        exact ⟨_, by rw [hfB c, if_pos ⟨hcX, hcY, by omega⟩]⟩
      · rw [mem_keys_iff]
        have hpos2 : 0 < (bridge s.N root c X).card + (bridge s.N root c Y).card := by
          rw [bridge_comm s.N root c X]; omega
        exact ⟨_, by rw [hfr c Y hcX hcY hsc hcr, if_neg hYX, if_pos rfl, if_pos hpos2]⟩
    · rw [if_neg hcond] at hw
      exact Option.noConfusion hw

/-- An effective call of `Union` from a state agreeing with a partition. -/
theorem Union_effective (en : Enumeration) (s : State) (root d : Nat → Nat)
    (F : Forest s.N s.Parent root d) (S : Sem s root) (u v : Nat)
    (hu : inRange s.N u) (hv : inRange s.N v) (hne : root u ≠ root v) :
    ∃ s' X Y, Union en s u v = some s' ∧
      ((X = root u ∧ Y = root v) ∨ (X = root v ∧ Y = root u)) ∧
      s'.N = s.N ∧ s'.Parent X = Y ∧ isRep s' Y ∧ ¬ isRep s' X ∧
      X ∉ (s'.overlaps Y).keys ∧ Y ∉ (s'.overlaps Y).keys ∧
      (∀ r, isRep s' r → X ∉ (s'.overlaps r).keys) ∧
      (∀ c, c ∈ (s.overlaps X).keys → c ≠ Y →
        c ∈ (s'.overlaps Y).keys ∧ Y ∈ (s'.overlaps c).keys) := by
  obtain ⟨P2, F2, fix, h⟩ := Union_cases en s root d F u v hu hv
  have hru := F.root_range u hu
  have hrv := F.root_range v hv
  have hPu : P2 (root u) = root u := F2.root_fix u hu
  have hPv : P2 (root v) = root v := F2.root_fix v hv
  rcases h with ⟨heq, _⟩ | ⟨_, _, hU⟩ | ⟨_, _, hU⟩
  · exact absurd heq hne
  · obtain ⟨a1, a2, a3, a4, a5, a6, a7⟩ :=
      absorb_edges en s P2 root d F2 fix S (root u) (root v) hru hrv hPu hPv hne
    exact ⟨_, root u, root v, hU, Or.inl ⟨rfl, rfl⟩, rfl, a1, a2, a3, a4, a5, a6, a7⟩
  · have hne' : root v ≠ root u := fun e => hne e.symm
    obtain ⟨a1, a2, a3, a4, a5, a6, a7⟩ :=
      absorb_edges en s P2 root d F2 fix S (root v) (root u) hrv hru hPv hPu hne'
    exact ⟨_, root v, root u, hU, Or.inr ⟨rfl, rfl⟩, rfl, a1, a2, a3, a4, a5, a6, a7⟩

/-! ## Invariants of the reachable states -/

theorem stateAfterOne_reachable : Reachable 2 stateAfterOne :=
  Reachable.step Enumeration.storage (init 2) _ 1 2 Reachable.init (by decide) (by decide)
    (by decide) (by decide) rfl

/-- C11: in every state reachable from initialisation, `E_C` equals the sum, over all
live representatives `r` (nodes in `1 .. 2N` with `Parent[r] = r`), of
`binom2 (clique_size[r])`. -/
theorem C11_E_C_sums_live_cliques (N : Nat) (s : State) (hR : Reachable N s) :
    s.E_C = ∑ r in liveReps s, binom2 (s.clique_size r) := by
  obtain ⟨_, E, root, d, F, S, _⟩ := hR.inv
  exact eC_live F S

theorem C11_witness :
    Reachable 2 stateAfterOne ∧
    stateAfterOne.E_C = ∑ r in liveReps stateAfterOne, binom2 (stateAfterOne.clique_size r) :=
  ⟨stateAfterOne_reachable, C11_E_C_sums_live_cliques 2 stateAfterOne stateAfterOne_reachable⟩

/-- C12: in every state reachable from initialisation, `E_O` equals the sum, over all
unordered pairs of distinct live representatives joined by an overlap entry (each edge
once, as the pair `(B, C)` with `B < C`), of `binom2 w` for the stored weight `w` of
the edge. -/
theorem C12_E_O_sums_overlap_edges (N : Nat) (s : State) (hR : Reachable N s) :
    s.E_O = ∑ p in edgePairs s, binom2 (weight s.overlaps p.1 p.2) := by
  obtain ⟨_, E, root, d, F, S, _⟩ := hR.inv
  exact eO_edges F S

theorem C12_witness :
    Reachable 2 stateAfterOne ∧
    stateAfterOne.E_O
      = ∑ p in edgePairs stateAfterOne, binom2 (weight stateAfterOne.overlaps p.1 p.2) :=
  ⟨stateAfterOne_reachable, C12_E_O_sums_overlap_edges 2 stateAfterOne stateAfterOne_reachable⟩

/-- C13: in every state reachable from initialisation the overlap graph on the live
representatives is symmetric: for live `B`, `C` and every `w`, `overlaps[B]` maps `C`
to `w` if and only if `overlaps[C]` maps `B` to `w`. -/
theorem C13_overlaps_symmetric (N : Nat) (s : State) (hR : Reachable N s) :
    ∀ B C w, isRep s B → isRep s C →
      ((s.overlaps B).find C = some w ↔ (s.overlaps C).find B = some w) := by
  obtain ⟨_, E, root, d, F, S, _⟩ := hR.inv
  intro B C w hB hC
  by_cases hBC : B = C
  · subst hBC; exact Iff.rfl
  · have hCB : C ≠ B := fun e => hBC e.symm
    rw [S.find B C hB.1 hB.2, S.find C B hC.1 hC.2, bridge_comm s.N root C B]
    simp only [ne_eq, hBC, hCB, not_false_eq_true, true_and]

theorem C13_witness :
    Reachable 2 stateAfterOne ∧
    ∀ B C w, isRep stateAfterOne B → isRep stateAfterOne C →
      ((stateAfterOne.overlaps B).find C = some w ↔
        (stateAfterOne.overlaps C).find B = some w) :=
  ⟨stateAfterOne_reachable, C13_overlaps_symmetric 2 stateAfterOne stateAfterOne_reachable⟩

/-- C14: in every state reachable from initialisation no live representative is a key
of its own overlap map; and after every effective `Union` (the two nodes have distinct
representatives `a`, `b`) one of them, `X`, has been absorbed into the other, `Y`, and
neither `X` nor `Y` is a key of the map of the survivor `Y`. -/
theorem C14_no_self_loops (N : Nat) (s : State) (hR : Reachable N s) :
    (∀ r, isRep s r → r ∉ (s.overlaps r).keys) ∧
    ∀ (en : Enumeration) (u v a b : Nat), inRange N u → inRange N v →
      findRep s u = some a → findRep s v = some b → a ≠ b →
      ∃ s' X Y, Union en s u v = some s' ∧ ((X = a ∧ Y = b) ∨ (X = b ∧ Y = a)) ∧
        s'.Parent X = Y ∧ isRep s' Y ∧
        X ∉ (s'.overlaps Y).keys ∧ Y ∉ (s'.overlaps Y).keys := by
  obtain ⟨hN, E, root, d, F, S, _⟩ := hR.inv
  subst hN
  constructor
  · intro r hr hk
    exact (S.keys_live F r r hr hk).2 rfl
  · intro en u v a b hu hv ha hb hab
    rw [findRep_root F u hu] at ha
    rw [findRep_root F v hv] at hb
    injection ha with ha
    injection hb with hb
    subst ha
    subst hb
    obtain ⟨s', X, Y, hU, hXY, _, h1, h2, _, h4, h5, _, _⟩ :=
      Union_effective en s root d F S u v hu hv hab
    exact ⟨s', X, Y, hU, hXY, h1, h2, h4, h5⟩

theorem C14_witness :
    Reachable 2 stateAfterOne ∧
    ((∀ r, isRep stateAfterOne r → r ∉ (stateAfterOne.overlaps r).keys) ∧
    ∀ (en : Enumeration) (u v a b : Nat), inRange 2 u → inRange 2 v →
      findRep stateAfterOne u = some a → findRep stateAfterOne v = some b → a ≠ b →
      ∃ s' X Y, Union en stateAfterOne u v = some s' ∧
        ((X = a ∧ Y = b) ∨ (X = b ∧ Y = a)) ∧
        s'.Parent X = Y ∧ isRep s' Y ∧
        X ∉ (s'.overlaps Y).keys ∧ Y ∉ (s'.overlaps Y).keys) :=
  ⟨stateAfterOne_reachable, C14_no_self_loops 2 stateAfterOne stateAfterOne_reachable⟩

/-- C15: after initialisation and after every `Union` call, every entry stored in the
overlap map of a live representative has value at least 1; hence a key is absent from
the map exactly when the weight read from it is 0. -/
theorem C15_stored_weights_positive (N : Nat) (s : State) (hR : Reachable N s) :
    (∀ r, isRep s r → ∀ p ∈ s.overlaps r, 1 ≤ p.2) ∧
    (∀ r c, isRep s r → (c ∉ (s.overlaps r).keys ↔ weight s.overlaps r c = 0)) := by
  obtain ⟨_, E, root, d, F, S, _⟩ := hR.inv
  constructor
  · rintro r hr ⟨c, w⟩ hp
    have hf := find_of_mem (s.overlaps r) (S.nodup r) c w hp
    obtain ⟨_, _, hw, hpos⟩ := S.entry F r c w hr hf
    show 1 ≤ w
    rw [hw]
    exact_mod_cast hpos
  · intro r c hr
    constructor
    · intro hk
      unfold weight
      rw [(find_eq_none_iff _ c).2 hk]
      rfl
    · intro hw hk
      obtain ⟨w, hf⟩ := (mem_keys_iff _ c).1 hk
      obtain ⟨_, _, hw', hpos⟩ := S.entry F r c w hr hf
      unfold weight at hw
      rw [hf] at hw
      simp only [Option.getD_some] at hw
      rw [hw] at hw'
      have : (0 : Int) < ((bridge s.N root r c).card : Int) := by exact_mod_cast hpos
      omega

theorem C15_witness :
    Reachable 2 stateAfterOne ∧
    ((∀ r, isRep stateAfterOne r → ∀ p ∈ stateAfterOne.overlaps r, 1 ≤ p.2) ∧
    (∀ r c, isRep stateAfterOne r →
      (c ∉ (stateAfterOne.overlaps r).keys ↔ weight stateAfterOne.overlaps r c = 0))) :=
  ⟨stateAfterOne_reachable, C15_stored_weights_positive 2 stateAfterOne stateAfterOne_reachable⟩

/-- C16: in every state reachable from initialisation every key stored in the overlap
map of a live representative is itself a live representative; and after an effective
`Union` that retires `X` into the survivor `Y`, `X` is no longer live, no live
representative has `X` as a key, and every edge `X` had to a third component `c` (the
edge to `Y` itself is internalised) is an edge of `Y`: `c` is a key of `overlaps[Y]` and
`Y` a key of `overlaps[c]`. -/
theorem C16_keys_are_live (N : Nat) (s : State) (hR : Reachable N s) :
    (∀ r c, isRep s r → c ∈ (s.overlaps r).keys → isRep s c) ∧
    ∀ (en : Enumeration) (u v a b : Nat), inRange N u → inRange N v →
      findRep s u = some a → findRep s v = some b → a ≠ b →
      ∃ s' X Y, Union en s u v = some s' ∧ ((X = a ∧ Y = b) ∨ (X = b ∧ Y = a)) ∧
        s'.Parent X = Y ∧ isRep s' Y ∧ ¬ isRep s' X ∧
        (∀ r, isRep s' r → X ∉ (s'.overlaps r).keys) ∧
        (∀ c, c ∈ (s.overlaps X).keys → c ≠ Y →
          c ∈ (s'.overlaps Y).keys ∧ Y ∈ (s'.overlaps c).keys) := by
  obtain ⟨hN, E, root, d, F, S, _⟩ := hR.inv
  subst hN
  constructor
  · intro r c hr hk
    exact (S.keys_live F r c hr hk).1
  · intro en u v a b hu hv ha hb hab
    rw [findRep_root F u hu] at ha
    rw [findRep_root F v hv] at hb
    injection ha with ha
    injection hb with hb
    subst ha
    subst hb
    obtain ⟨s', X, Y, hU, hXY, _, h1, h2, h3, _, _, h6, h7⟩ :=
      Union_effective en s root d F S u v hu hv hab
    exact ⟨s', X, Y, hU, hXY, h1, h2, h3, h6, h7⟩

theorem C16_witness :
    Reachable 2 stateAfterOne ∧
    ((∀ r c, isRep stateAfterOne r → c ∈ (stateAfterOne.overlaps r).keys →
        isRep stateAfterOne c) ∧
    ∀ (en : Enumeration) (u v a b : Nat), inRange 2 u → inRange 2 v →
      findRep stateAfterOne u = some a → findRep stateAfterOne v = some b → a ≠ b →
      ∃ s' X Y, Union en stateAfterOne u v = some s' ∧
        ((X = a ∧ Y = b) ∨ (X = b ∧ Y = a)) ∧
        s'.Parent X = Y ∧ isRep s' Y ∧ ¬ isRep s' X ∧
        (∀ r, isRep s' r → X ∉ (s'.overlaps r).keys) ∧
        (∀ c, c ∈ (stateAfterOne.overlaps X).keys → c ≠ Y →
          c ∈ (s'.overlaps Y).keys ∧ Y ∈ (s'.overlaps c).keys)) :=
  ⟨stateAfterOne_reachable, C16_keys_are_live 2 stateAfterOne stateAfterOne_reachable⟩

/-- C17: in every state reachable from initialisation, for distinct live representatives
`R` and `R'` the stored overlap weight between them (0 if `overlaps[R]` has no key
`R'`) is the number of entities `i` in `1 .. N` with one role node in the component of
`R` and the other in the component of `R'`, i.e. `{Find(i), Find(N+i)} = {R, R'}`. -/
theorem C17_weight_counts_straddlers (N : Nat) (s : State) (hR : Reachable N s) :
    ∀ R R', isRep s R → isRep s R' → R ≠ R' →
      weight s.overlaps R R' = ((straddlers s R R').card : Int) := by
  obtain ⟨_, E, root, d, F, S, _⟩ := hR.inv
  intro R R' hR1 _ hne
  rw [straddlers_eq F R R']
  exact S.weight_eq R R' hR1.1 hR1.2 (fun e => hne e.symm)

theorem C17_witness :
    Reachable 2 stateAfterOne ∧
    ∀ R R', isRep stateAfterOne R → isRep stateAfterOne R' → R ≠ R' →
      weight stateAfterOne.overlaps R R' = ((straddlers stateAfterOne R R').card : Int) :=
  ⟨stateAfterOne_reachable, C17_weight_counts_straddlers 2 stateAfterOne stateAfterOne_reachable⟩

/-- C18, as stated, fails: in the initial state for `N = 1` node 1 is a live
representative with `clique_size[1] = 1`, while no entity has both role nodes in its
component. -/
theorem C18_counterexample :
    Reachable 1 (init 1) ∧ isRep (init 1) 1 ∧ (init 1).clique_size 1 = 1 ∧
    (insiders (init 1) 1).card = 0 ∧
    (init 1).clique_size 1 ≠ ((insiders (init 1) 1).card : Int) := by
  refine ⟨Reachable.init, by decide, by decide, by decide, by decide⟩

/-- C18, amended: in every state reachable from initialisation, `clique_size[r]` of a
live representative `r` is the number of entities with both role nodes in the component
of `r` plus the number of entities with exactly one role node in it. -/
theorem C18_clique_size_counts_touching (N : Nat) (s : State) (hR : Reachable N s) :
    ∀ r, isRep s r →
      s.clique_size r = ((insiders s r).card : Int) + ((halfInsiders s r).card : Int) := by
  obtain ⟨_, E, root, d, F, S, _⟩ := hR.inv
  intro r hr
  obtain ⟨h1, h2⟩ := insiders_union F r
  rw [S.cs r hr.1 hr.2, h1, Finset.card_union_of_disjoint h2]
  push_cast
  rfl

theorem C18_witness :
    Reachable 2 stateAfterOne ∧
    ∀ r, isRep stateAfterOne r →
      stateAfterOne.clique_size r
        = ((insiders stateAfterOne r).card : Int) + ((halfInsiders stateAfterOne r).card : Int) :=
  ⟨stateAfterOne_reachable,
    C18_clique_size_counts_touching 2 stateAfterOne stateAfterOne_reachable⟩

/-- C19: for every reachable state and all nodes `u, v` in `1 .. 2N`, `Union(u, v)`
terminates, and afterwards two nodes `x, y` are in the same component
(`Find(x) = Find(y)`) if and only if they were in the same component before, or one of
them was in the component of `u` and the other in the component of `v`; in particular
`Find(u) = Find(v)` afterwards, and no component is split. -/
theorem C19_union_merges_exactly_two_components (en : Enumeration) (N : Nat) (s : State)
    (u v : Nat) (hR : Reachable N s) (hu : inRange N u) (hv : inRange N v) :
    ∃ s', Union en s u v = some s' ∧
      (∀ x y, inRange N x → inRange N y →
        (findRep s' x = findRep s' y ↔
          (findRep s x = findRep s y ∨
            (findRep s x = findRep s u ∧ findRep s y = findRep s v) ∨
            (findRep s x = findRep s v ∧ findRep s y = findRep s u)))) ∧
      findRep s' u = findRep s' v ∧
      (∀ x y, inRange N x → inRange N y → findRep s x = findRep s y →
        findRep s' x = findRep s' y) := by
  obtain ⟨hN, E, root, d, F, S, _⟩ := hR.inv
  subst hN
  obtain ⟨s', root2, d2, hU, hN', F2, _, hiff⟩ := Union_partition en s root d F S u v hu hv
  have key : ∀ x y, inRange s.N x → inRange s.N y →
      (findRep s' x = findRep s' y ↔
        (findRep s x = findRep s y ∨
          (findRep s x = findRep s u ∧ findRep s y = findRep s v) ∨
          (findRep s x = findRep s v ∧ findRep s y = findRep s u))) := by
    intro x y hx hy
    rw [findRep_root F2 x (hN' ▸ hx), findRep_root F2 y (hN' ▸ hy), findRep_root F x hx,
      findRep_root F y hy, findRep_root F u hu, findRep_root F v hv]
    simp only [Option.some.injEq]
    exact hiff x y
  refine ⟨s', hU, key, ?_, fun x y hx hy h => (key x y hx hy).2 (Or.inl h)⟩
  exact (key u v hu hv).2 (Or.inr (Or.inl ⟨rfl, rfl⟩))

theorem C19_witness :
    Reachable 2 stateAfterOne ∧ inRange 2 2 ∧ inRange 2 4 ∧
    ∃ s', Union Enumeration.reversed stateAfterOne 2 4 = some s' ∧
      (∀ x y, inRange 2 x → inRange 2 y →
        (findRep s' x = findRep s' y ↔
          (findRep stateAfterOne x = findRep stateAfterOne y ∨
            (findRep stateAfterOne x = findRep stateAfterOne 2 ∧
              findRep stateAfterOne y = findRep stateAfterOne 4) ∨
            (findRep stateAfterOne x = findRep stateAfterOne 4 ∧
              findRep stateAfterOne y = findRep stateAfterOne 2)))) ∧
      findRep s' 2 = findRep s' 4 ∧
      (∀ x y, inRange 2 x → inRange 2 y → findRep stateAfterOne x = findRep stateAfterOne y →
        findRep s' x = findRep s' y) :=
  ⟨stateAfterOne_reachable, by decide, by decide,
    C19_union_merges_exactly_two_components Enumeration.reversed 2 stateAfterOne 2 4
      stateAfterOne_reachable (by decide) (by decide)⟩

/-- C20: for every reachable state and every node `i` in `1 .. 2N`, `Find(i)`
terminates and returns the root `r` of the `Parent` tree of `i` (following `Parent`
from `i` reaches `r`, `Parent[r] = r` and `Find(r) = r`); the path compression it
performs changes no representative: for every node `j`, `Find(j)` after the call
equals `Find(j)` before it. -/
theorem C20_find_returns_root (N : Nat) (s : State) (i : Nat) (hR : Reachable N s)
    (hi : inRange N i) :
    ∃ r P', Find (2 * s.N + 1) s.Parent i = some (r, P') ∧
      inRange N r ∧ s.Parent r = r ∧ (∃ k, s.Parent^[k] i = r) ∧ findRep s r = some r ∧
      ∀ j, inRange N j → ∃ q, findRep s j = some q ∧
        findRep { s with Parent := P' } j = some q := by
  obtain ⟨hN, E, root, d, F, S, _⟩ := hR.inv
  subst hN
  obtain ⟨P1, hF1, F1, _⟩ := Find_total F i hi
  refine ⟨root i, P1, hF1, F.root_range i hi, F.root_fix i hi,
    F.root_iterate (d i) i rfl hi, ?_, fun j hj => ⟨root j, findRep_root F j hj, ?_⟩⟩
  · rw [findRep_root F _ (F.root_range i hi), F.root_idem i hi]
  · have F1' : Forest ({ s with Parent := P1 } : State).N
        ({ s with Parent := P1 } : State).Parent root d := F1
    exact findRep_root F1' j hj

theorem C20_witness :
    Reachable 2 stateAfterOne ∧ inRange 2 1 ∧
    ∃ r P', Find (2 * stateAfterOne.N + 1) stateAfterOne.Parent 1 = some (r, P') ∧
      inRange 2 r ∧ stateAfterOne.Parent r = r ∧ (∃ k, stateAfterOne.Parent^[k] 1 = r) ∧
      findRep stateAfterOne r = some r ∧
      ∀ j, inRange 2 j → ∃ q, findRep stateAfterOne j = some q ∧
        findRep { stateAfterOne with Parent := P' } j = some q :=
  ⟨stateAfterOne_reachable, by decide,
    C20_find_returns_root 2 stateAfterOne 1 stateAfterOne_reachable (by decide)⟩

/-! ## Bounds and the data moved by an effective merge -/

theorem clique_card_le (N : Nat) (root : Nat → Nat) (r : Nat) : (clique N root r).card ≤ N := by
  unfold clique
  calc ((Finset.Icc 1 N).filter _).card ≤ (Finset.Icc 1 N).card := Finset.card_filter_le _ _
    _ = N := by simp

theorem bridge_card_le (N : Nat) (root : Nat → Nat) (r c : Nat) :
    (bridge N root r c).card ≤ N := by
  unfold bridge
  calc ((Finset.Icc 1 N).filter _).card ≤ (Finset.Icc 1 N).card := Finset.card_filter_le _ _
    _ = N := by simp

/-- The clique of a live representative is not empty: it holds the entity owning the
representative node itself. -/
theorem clique_live_pos {N : Nat} {P root d : Nat → Nat} (F : Forest N P root d) (r : Nat)
    (hr : inRange N r) (hP : P r = r) : 0 < (clique N root r).card := by
  have hroot := F.root_self r hr hP
  unfold inRange at hr
  apply Finset.card_pos.2
  by_cases h : r ≤ N
  · refine ⟨r, ?_⟩
    simp only [clique, Finset.mem_filter, Finset.mem_Icc]
    exact ⟨⟨hr.1, h⟩, Or.inl hroot⟩
  · refine ⟨r - N, ?_⟩
    simp only [clique, Finset.mem_filter, Finset.mem_Icc]
    have e : N + (r - N) = r := by omega
    exact ⟨⟨by omega, by omega⟩, Or.inr (by rw [e]; exact hroot)⟩

/-- A reachable state stays reachable-from-initialisation along an execution. -/
theorem ReachableFrom.reachable {N : Nat} {s t : State} (hs : Reachable N s)
    (h : ReachableFrom N s t) : Reachable N t := by
  induction h with
  | refl => exact hs
  | step en t t' a b _ h1 h2 h3 h4 hU ih => exact Reachable.step en t t' a b ih h1 h2 h3 h4 hU

/-- A call of `Union` revives no node: a node in range that is not a representative
before the call is not one after it. -/
theorem Union_keeps_retired (en : Enumeration) (s : State) (root d : Nat → Nat)
    (F : Forest s.N s.Parent root d) (u v : Nat) (hu : inRange s.N u) (hv : inRange s.N v)
    (r : Nat) (hr : s.Parent r ≠ r) :
    ∃ s', Union en s u v = some s' ∧ s'.N = s.N ∧ s'.Parent r ≠ r := by
  obtain ⟨P2, F2, fix, h⟩ := Union_cases en s root d F u v hu hv
  have hP2 : P2 r ≠ r := fun e => hr ((fix r).1 e)
  rcases h with ⟨_, hU⟩ | ⟨hne, _, hU⟩ | ⟨hne, _, hU⟩
  · exact ⟨_, hU, rfl, hP2⟩
  · refine ⟨_, hU, rfl, ?_⟩
    rw [absorb_Parent]
    by_cases e : r = root u
    · rw [e, setAt_same]; exact fun h => hne h.symm
    · rw [setAt_other _ _ _ _ e]; exact hP2
  · refine ⟨_, hU, rfl, ?_⟩
    rw [absorb_Parent]
    by_cases e : r = root v
    · rw [e, setAt_same]; exact hne
    · rw [setAt_other _ _ _ _ e]; exact hP2

/-- The absorbed and the surviving representative of an effective call of `Union`,
with the size test that chose them, and the state it returns. -/
theorem Union_merge (en : Enumeration) (s : State) (root d : Nat → Nat)
    (F : Forest s.N s.Parent root d) (u v : Nat) (hu : inRange s.N u) (hv : inRange s.N v)
    (hne : root u ≠ root v) :
    ∃ P2 X Y, Forest s.N P2 root d ∧ (∀ j, P2 j = j ↔ s.Parent j = j) ∧
      Union en s u v = some (absorb en s P2 X Y) ∧
      ((X = root u ∧ Y = root v ∧ (s.overlaps (root u)).size ≤ (s.overlaps (root v)).size) ∨
       (X = root v ∧ Y = root u ∧ (s.overlaps (root v)).size < (s.overlaps (root u)).size)) ∧
      inRange s.N X ∧ inRange s.N Y ∧ P2 X = X ∧ P2 Y = Y ∧ X ≠ Y := by
  obtain ⟨P2, F2, fix, h⟩ := Union_cases en s root d F u v hu hv
  have hru := F.root_range u hu
  have hrv := F.root_range v hv
  have hPu : P2 (root u) = root u := F2.root_fix u hu
  have hPv : P2 (root v) = root v := F2.root_fix v hv
  rcases h with ⟨heq, _⟩ | ⟨_, hsz, hU⟩ | ⟨_, hsz, hU⟩
  · exact absurd heq hne
  · exact ⟨P2, root u, root v, F2, fix, hU, Or.inl ⟨rfl, rfl, by omega⟩, hru, hrv, hPu, hPv, hne⟩
  · exact ⟨P2, root v, root u, F2, fix, hU, Or.inr ⟨rfl, rfl, by omega⟩, hrv, hru, hPv, hPu,
      fun e => hne e.symm⟩

/-- The overlap data after steps 1 to 6, in terms of the stored weights before. -/
theorem absorb_weights (en : Enumeration) (s : State) (P root d : Nat → Nat)
    (F : Forest s.N P root d) (hfix : ∀ j, P j = j ↔ s.Parent j = j) (S : Sem s root)
    (X Y : Nat) (hX : inRange s.N X) (hY : inRange s.N Y) (hPX : P X = X) (hPY : P Y = Y)
    (hXY : X ≠ Y) :
    (∀ C, isRep s C → C ≠ X → C ≠ Y →
      ((absorb en s P X Y).overlaps Y).find C
        = (if weight s.overlaps X C + weight s.overlaps Y C = 0 then none
           else some (weight s.overlaps X C + weight s.overlaps Y C)) ∧
      ((absorb en s P X Y).overlaps C).find Y
        = (if weight s.overlaps X C + weight s.overlaps Y C = 0 then none
           else some (weight s.overlaps X C + weight s.overlaps Y C)) ∧
      ((absorb en s P X Y).overlaps C).find X = none) ∧
    (absorb en s P X Y).E_O = s.E_O - binom2 (weight s.overlaps X Y)
      + ∑ C in ((liveReps s).erase X).erase Y,
          weight s.overlaps X C * weight s.overlaps Y C := by
  have hYX : Y ≠ X := fun e => hXY e.symm
  have hsX : s.Parent X = X := (hfix X).1 hPX
  have hsY : s.Parent Y = Y := (hfix Y).1 hPY
  obtain ⟨hEO, hfB, hfr, _⟩ := absorb_loop en s P root d F hfix S X Y hX hY hPX hPY hXY
  constructor
  · intro C hC hCX hCY
    have wX := S.weight_eq X C hX hsX hCX
    have wY := S.weight_eq Y C hY hsY hCY
    have hz : (weight s.overlaps X C + weight s.overlaps Y C = 0)
        ↔ ¬ 0 < (bridge s.N root X C).card + (bridge s.N root Y C).card := by
      rw [wX, wY]; omega
    refine ⟨?_, ?_, ?_⟩
    · rw [hfB C, wX, wY]
      by_cases hp : 0 < (bridge s.N root X C).card + (bridge s.N root Y C).card
      · have : ¬ ((bridge s.N root X C).card + (bridge s.N root Y C).card : Int) = 0 := by omega
        rw [if_pos ⟨hCX, hCY, hp⟩, if_neg this]
      · have : ((bridge s.N root X C).card + (bridge s.N root Y C).card : Int) = 0 := by omega
        rw [if_neg (fun h => hp h.2.2), if_pos this]
    · rw [hfr C Y hCX hCY hC.2 hC.1, if_neg hYX, if_pos rfl, wX, wY,
        bridge_comm s.N root C X, bridge_comm s.N root C Y]
      by_cases hp : 0 < (bridge s.N root X C).card + (bridge s.N root Y C).card
      · have : ¬ ((bridge s.N root X C).card + (bridge s.N root Y C).card : Int) = 0 := by omega
        rw [if_pos hp, if_neg this]
      · have : ((bridge s.N root X C).card + (bridge s.N root Y C).card : Int) = 0 := by omega
        rw [if_neg hp, if_pos this]
    · rw [hfr C X hCX hCY hC.2 hC.1, if_pos rfl]
  · rw [hEO, S.weight_eq X Y hX hsX hYX]
    congr 1
    symm
    have hsub : ((liveReps s).erase X).erase Y ⊆ Finset.Icc 1 (2 * s.N) := by
      intro c hc
      obtain ⟨_, _, h3⟩ := mem_erase_two _ X Y c hc
      exact (mem_nodes _ _).2 ((mem_liveReps s c).1 h3).1
    have hcongr : ∑ C in ((liveReps s).erase X).erase Y,
          weight s.overlaps X C * weight s.overlaps Y C
        = ∑ C in ((liveReps s).erase X).erase Y, (if C = X ∨ C = Y then (0 : Int)
            else ((bridge s.N root X C).card : Int) * ((bridge s.N root Y C).card : Int)) := by
      apply Finset.sum_congr rfl
      intro c hc
      obtain ⟨h1, h2, _⟩ := mem_erase_two _ X Y c hc
      rw [if_neg (by tauto), S.weight_eq X c hX hsX h1, S.weight_eq Y c hY hsY h2]
    rw [hcongr]
    apply Finset.sum_subset hsub
    intro c hc hnot
    by_cases h1 : c = X ∨ c = Y
    · rw [if_pos h1]
    · rw [if_neg h1]
      have hz : (bridge s.N root X c).card = 0 := by
        by_contra hpos
        obtain ⟨_, hcr, hcP⟩ := bridge_pos_live F X c (Nat.pos_of_ne_zero hpos)
        apply hnot
        rw [Finset.mem_erase, Finset.mem_erase, mem_liveReps]
        exact ⟨fun e => h1 (Or.inr e), fun e => h1 (Or.inl e), hcr, (hfix c).1 hcP⟩
      rw [hz]
      simp

/-! ## Retirement of representatives and the data moved by a merge -/

/-- The `Parent` array left by `Union` does not depend on the clique sizes. -/
theorem Union_Parent_clique_size (en : Enumeration) (s : State) (cs : Nat → Int) (u v : Nat) :
    (Union en { s with clique_size := cs } u v).map State.Parent
      = (Union en s u v).map State.Parent := by
  unfold Union
  simp only []
  cases h1 : Find (2 * s.N + 1) s.Parent u with
  | none => rfl
  | some p =>
    obtain ⟨rA, P1⟩ := p
    simp only []
    cases h2 : Find (2 * s.N + 1) P1 v with
    | none => rfl
    | some q =>
      obtain ⟨rB, P2⟩ := q
      simp only []
      split_ifs <;> rfl

/-- The effect of an effective call of `Union` from a state that agrees with a
partition, with the absorbed representative `X` and the surviving one `Y` named. -/
theorem Union_merge_post (en : Enumeration) (s : State) (root d : Nat → Nat)
    (F : Forest s.N s.Parent root d) (S : Sem s root) (u v : Nat)
    (hu : inRange s.N u) (hv : inRange s.N v) (hne : root u ≠ root v) :
    ∃ P2 X Y, Forest s.N P2 root d ∧ (∀ j, P2 j = j ↔ s.Parent j = j) ∧
      Union en s u v = some (absorb en s P2 X Y) ∧
      ((X = root u ∧ Y = root v ∧ (s.overlaps (root u)).size ≤ (s.overlaps (root v)).size) ∨
       (X = root v ∧ Y = root u ∧ (s.overlaps (root v)).size < (s.overlaps (root u)).size)) ∧
      isRep s X ∧ isRep s Y ∧ P2 X = X ∧ P2 Y = Y ∧ X ≠ Y ∧
      Forest s.N (absorb en s P2 X Y).Parent (fun x => if root x = X then Y else root x)
        (fun x => if root x = X then d x + 1 else d x) ∧
      Sem (absorb en s P2 X Y) (fun x => if root x = X then Y else root x) := by
  obtain ⟨P2, X, Y, F2, fix, hU, hc, hX, hY, hPX, hPY, hXY⟩ := Union_merge en s root d F u v hu hv hne
  obtain ⟨F3, S3⟩ := absorb_post en s P2 root d F2 fix S X Y hX hY hPX hPY hXY
  exact ⟨P2, X, Y, F2, fix, hU, hc, ⟨hX, (fix X).1 hPX⟩, ⟨hY, (fix Y).1 hPY⟩, hPX, hPY, hXY,
    F3, S3⟩

theorem stateAfterTwo_later : ReachableFrom 2 stateAfterOne stateAfterTwo :=
  ReachableFrom.step Enumeration.storage stateAfterOne _ 2 1 ReachableFrom.refl (by decide)
    (by decide) (by decide) (by decide) rfl

/-- C22: in every state reachable from initialisation for `N` entities, the clique size
of every live representative `r` satisfies `1 ≤ clique_size[r] ≤ N`. -/
theorem C22_clique_size_between_one_and_N (N : Nat) (s : State) (hR : Reachable N s) :
    ∀ r, isRep s r → 1 ≤ s.clique_size r ∧ s.clique_size r ≤ (N : Int) := by
  obtain ⟨hN, E, root, d, F, S, _⟩ := hR.inv
  subst hN
  intro r hr
  rw [S.cs r hr.1 hr.2]
  have h1 := clique_live_pos F r hr.1 hr.2
  have h2 := clique_card_le s.N root r
  constructor
  · exact_mod_cast h1
  · exact_mod_cast h2

theorem C22_witness :
    Reachable 2 stateAfterOne ∧
    ∀ r, isRep stateAfterOne r →
      1 ≤ stateAfterOne.clique_size r ∧ stateAfterOne.clique_size r ≤ ((2 : Nat) : Int) :=
  ⟨stateAfterOne_reachable,
    C22_clique_size_between_one_and_N 2 stateAfterOne stateAfterOne_reachable⟩

/-- C23: along every execution, an index `r` that is not a representative in some
reachable state (`Parent[r] ≠ r`) is not one in any later state `s'` either: `Parent[r]`
is never set back to `r` by a later `Union`, and the two `Find` calls a `Union` makes in
`s'` (for any nodes `u`, `v` in `1 .. 2N`) terminate, return representatives other than
`r`, and leave `Parent[r] ≠ r` in the arrays they compress. -/
theorem C23_retired_representative_stays_retired (N : Nat) (s s' : State) (r : Nat)
    (hR : Reachable N s) (hL : ReachableFrom N s s') (hP : s.Parent r ≠ r) :
    s'.Parent r ≠ r ∧
    ∀ u v, inRange N u → inRange N v →
      ∃ rA P1 rB P2, Find (2 * s'.N + 1) s'.Parent u = some (rA, P1) ∧
        Find (2 * s'.N + 1) P1 v = some (rB, P2) ∧
        rA ≠ r ∧ rB ≠ r ∧ P1 r ≠ r ∧ P2 r ≠ r := by
  have keep : s'.Parent r ≠ r := by
    induction hL with
    | refl => exact hP
    | step en t t' a b hL' h1 h2 h3 h4 hU ih =>
      obtain ⟨hN, E, root, d, F, _, _⟩ := (hL'.reachable hR).inv
      subst hN
      obtain ⟨t2, hU2, _, hk⟩ := Union_keeps_retired en t root d F a (t.N + b)
        (by unfold inRange; omega) (by unfold inRange; omega) r ih
      rw [hU] at hU2
      injection hU2 with e
      subst e
      exact hk
  refine ⟨keep, fun u v hu hv => ?_⟩
  obtain ⟨hN, E, root, d, F, _, _⟩ := (hL.reachable hR).inv
  subst hN
  obtain ⟨P1, hF1, F1, fix1⟩ := Find_total F u hu
  obtain ⟨P2, hF2, F2, fix2⟩ := Find_total F1 v hv
  refine ⟨root u, P1, root v, P2, hF1, hF2, ?_, ?_, ?_, ?_⟩
  · intro e
    exact keep (e ▸ F.root_fix u hu)
  · intro e
    exact keep (e ▸ F.root_fix v hv)
  · exact fun e => keep ((fix1 r).1 e)
  · exact fun e => keep ((fix1 r).1 ((fix2 r).1 e))

theorem C23_witness :
    Reachable 2 stateAfterOne ∧ ReachableFrom 2 stateAfterOne stateAfterTwo ∧
    stateAfterOne.Parent 1 ≠ 1 ∧
    (stateAfterTwo.Parent 1 ≠ 1 ∧
    ∀ u v, inRange 2 u → inRange 2 v →
      ∃ rA P1 rB P2, Find (2 * stateAfterTwo.N + 1) stateAfterTwo.Parent u = some (rA, P1) ∧
        Find (2 * stateAfterTwo.N + 1) P1 v = some (rB, P2) ∧
        rA ≠ 1 ∧ rB ≠ 1 ∧ P1 1 ≠ 1 ∧ P2 1 ≠ 1) :=
  ⟨stateAfterOne_reachable, stateAfterTwo_later, by decide,
    C23_retired_representative_stays_retired 2 stateAfterOne stateAfterTwo 1
      stateAfterOne_reachable stateAfterTwo_later (by decide)⟩

/-- C25: for every reachable state and all nodes `u, v` in `1 .. 2N` with
`Find(u) ≠ Find(v)`, `Union(u, v)` absorbs the representative whose overlap map has
fewer entries into the other: when `|overlaps[Find(u)]| ≤ |overlaps[Find(v)]|` (ties
included) `Find(u)` is linked below `Find(v)`, which stays a representative and is the
representative of both nodes afterwards; otherwise `Find(v)` is linked below `Find(u)`.
The `Parent` array returned is the same whatever the contents of `clique_size`. -/
theorem C25_smaller_map_is_absorbed (en : Enumeration) (N : Nat) (s : State) (u v : Nat)
    (hR : Reachable N s) (hu : inRange N u) (hv : inRange N v)
    (hne : findRep s u ≠ findRep s v) :
    ∃ s' ru rv, findRep s u = some ru ∧ findRep s v = some rv ∧ Union en s u v = some s' ∧
      ((s.overlaps ru).size ≤ (s.overlaps rv).size →
        s'.Parent ru = rv ∧ isRep s' rv ∧ ¬ isRep s' ru ∧
          findRep s' u = some rv ∧ findRep s' v = some rv) ∧
      ((s.overlaps rv).size < (s.overlaps ru).size →
        s'.Parent rv = ru ∧ isRep s' ru ∧ ¬ isRep s' rv ∧
          findRep s' u = some ru ∧ findRep s' v = some ru) ∧
      ∀ cs : Nat → Int,
        (Union en { s with clique_size := cs } u v).map State.Parent = some s'.Parent := by
  obtain ⟨hN, E, root, d, F, S, _⟩ := hR.inv
  subst hN
  rw [findRep_root F u hu, findRep_root F v hv] at hne
  have hne' : root u ≠ root v := fun e => hne (by rw [e])
  obtain ⟨P2, X, Y, F2, fix, hU, hc, hX, hY, hPX, hPY, hXY, F3, S3⟩ :=
    Union_merge_post en s root d F S u v hu hv hne'
  obtain ⟨hp, hrY, hrX, _⟩ := absorb_edges en s P2 root d F2 fix S X Y hX.1 hY.1 hPX hPY hXY
  have F3' : Forest (absorb en s P2 X Y).N (absorb en s P2 X Y).Parent
      (fun x => if root x = X then Y else root x)
      (fun x => if root x = X then d x + 1 else d x) := F3
  have fu := findRep_root F3' u hu
  have fv := findRep_root F3' v hv
  refine ⟨absorb en s P2 X Y, root u, root v, findRep_root F u hu, findRep_root F v hv, hU,
    ?_, ?_, fun cs => ?_⟩
  · intro hle
    rcases hc with ⟨eX, eY, _⟩ | ⟨_, _, hlt⟩
    · subst eX; subst eY
      refine ⟨hp, hrY, hrX, ?_, ?_⟩
      · rw [fu]; simp only [if_true]
      · rw [fv]; simp only [if_neg (fun e : root v = root u => hne' e.symm)]
    · omega
  · intro hlt
    rcases hc with ⟨_, _, hle⟩ | ⟨eX, eY, _⟩
    · omega
    · subst eX; subst eY
      refine ⟨hp, hrY, hrX, ?_, ?_⟩
      · rw [fu]; simp only [if_neg hne']
      · rw [fv]; simp only [if_true]
  · rw [Union_Parent_clique_size, hU]
    rfl

theorem C25_witness :
    Reachable 2 stateAfterOne ∧ inRange 2 2 ∧ inRange 2 3 ∧
    findRep stateAfterOne 2 ≠ findRep stateAfterOne 3 ∧
    ∃ s' ru rv, findRep stateAfterOne 2 = some ru ∧ findRep stateAfterOne 3 = some rv ∧
      Union Enumeration.storage stateAfterOne 2 3 = some s' ∧
      ((stateAfterOne.overlaps ru).size ≤ (stateAfterOne.overlaps rv).size →
        s'.Parent ru = rv ∧ isRep s' rv ∧ ¬ isRep s' ru ∧
          findRep s' 2 = some rv ∧ findRep s' 3 = some rv) ∧
      ((stateAfterOne.overlaps rv).size < (stateAfterOne.overlaps ru).size →
        s'.Parent rv = ru ∧ isRep s' ru ∧ ¬ isRep s' rv ∧
          findRep s' 2 = some ru ∧ findRep s' 3 = some ru) ∧
      ∀ cs : Nat → Int,
        (Union Enumeration.storage { stateAfterOne with clique_size := cs } 2 3).map
          State.Parent = some s'.Parent :=
  ⟨stateAfterOne_reachable, by decide, by decide, by decide,
    C25_smaller_map_is_absorbed Enumeration.storage 2 stateAfterOne 2 3
      stateAfterOne_reachable (by decide) (by decide) (by decide)⟩

/-- C26: for every effective `Union(u, v)` from a reachable state, absorbing the
representative `X` into the surviving representative `Y`, with `k` the weight stored in
`overlaps[X]` for `Y` before the call (0 if there is no entry): afterwards
`clique_size[Y] = clique_size_before[X] + clique_size_before[Y] - k`,
`E_C = E_C_before - C(clique_size_before[X], 2) - C(clique_size_before[Y], 2)
+ C(clique_size[Y], 2)`, and `clique_size` is unchanged at every index other than `Y`. -/
theorem C26_merge_updates_clique_size_and_E_C (en : Enumeration) (N : Nat) (s : State)
    (u v : Nat) (hR : Reachable N s) (hu : inRange N u) (hv : inRange N v)
    (hne : findRep s u ≠ findRep s v) :
    ∃ s' X Y, Union en s u v = some s' ∧
      ((findRep s u = some X ∧ findRep s v = some Y) ∨
        (findRep s u = some Y ∧ findRep s v = some X)) ∧
      isRep s X ∧ isRep s Y ∧ X ≠ Y ∧ s'.Parent X = Y ∧ isRep s' Y ∧
      s'.clique_size Y = s.clique_size X + s.clique_size Y - weight s.overlaps X Y ∧
      s'.E_C = s.E_C - binom2 (s.clique_size X) - binom2 (s.clique_size Y)
        + binom2 (s'.clique_size Y) ∧
      ∀ r, r ≠ Y → s'.clique_size r = s.clique_size r := by
  obtain ⟨hN, E, root, d, F, S, _⟩ := hR.inv
  subst hN
  rw [findRep_root F u hu, findRep_root F v hv] at hne ⊢
  have hne' : root u ≠ root v := fun e => hne (by rw [e])
  obtain ⟨P2, X, Y, F2, fix, hU, hc, hX, hY, hPX, hPY, hXY, _, _⟩ :=
    Union_merge_post en s root d F S u v hu hv hne'
  obtain ⟨hp, hrY, _, _⟩ := absorb_edges en s P2 root d F2 fix S X Y hX.1 hY.1 hPX hPY hXY
  have hcs : (absorb en s P2 X Y).clique_size Y
      = s.clique_size X + s.clique_size Y - weight s.overlaps X Y := by
    rw [absorb_clique_size, setAt_same]
  refine ⟨absorb en s P2 X Y, X, Y, hU, ?_, hX, hY, hXY, hp, hrY, hcs, ?_, fun r hr => ?_⟩
  · rcases hc with ⟨eX, eY, _⟩ | ⟨eX, eY, _⟩
    · exact Or.inl ⟨by rw [eX], by rw [eY]⟩
    · exact Or.inr ⟨by rw [eY], by rw [eX]⟩
  · rw [hcs, absorb_E_C]
  · rw [absorb_clique_size, setAt_other _ _ _ _ hr]

theorem C26_witness :
    Reachable 2 stateAfterOne ∧ inRange 2 2 ∧ inRange 2 3 ∧
    findRep stateAfterOne 2 ≠ findRep stateAfterOne 3 ∧
    ∃ s' X Y, Union Enumeration.storage stateAfterOne 2 3 = some s' ∧
      ((findRep stateAfterOne 2 = some X ∧ findRep stateAfterOne 3 = some Y) ∨
        (findRep stateAfterOne 2 = some Y ∧ findRep stateAfterOne 3 = some X)) ∧
      isRep stateAfterOne X ∧ isRep stateAfterOne Y ∧ X ≠ Y ∧ s'.Parent X = Y ∧ isRep s' Y ∧
      s'.clique_size Y = stateAfterOne.clique_size X + stateAfterOne.clique_size Y
        - weight stateAfterOne.overlaps X Y ∧
      s'.E_C = stateAfterOne.E_C - binom2 (stateAfterOne.clique_size X)
        - binom2 (stateAfterOne.clique_size Y) + binom2 (s'.clique_size Y) ∧
      ∀ r, r ≠ Y → s'.clique_size r = stateAfterOne.clique_size r :=
  ⟨stateAfterOne_reachable, by decide, by decide, by decide,
    C26_merge_updates_clique_size_and_E_C Enumeration.storage 2 stateAfterOne 2 3
      stateAfterOne_reachable (by decide) (by decide) (by decide)⟩

/-- C27: for every effective `Union(u, v)` from a reachable state, absorbing the
representative `X` into the surviving representative `Y`, with `k` the weight of `X`
toward `Y` before the call (0 if none) and, for each other live representative `C`,
`w_XC` and `w_YC` the weights of `X` and `Y` toward `C` before the call (0 if absent):
afterwards `overlaps[Y]` maps `C` to `w_XC + w_YC` and `overlaps[C]` maps `Y` to the same
value, both entries being absent when the sum is 0; `overlaps[C]` has no key `X`; and
`E_O = E_O_before - C(k, 2) +` the sum over all such `C` of `w_XC * w_YC`. -/
theorem C27_merge_updates_overlaps_and_E_O (en : Enumeration) (N : Nat) (s : State)
    (u v : Nat) (hR : Reachable N s) (hu : inRange N u) (hv : inRange N v)
    (hne : findRep s u ≠ findRep s v) :
    ∃ s' X Y, Union en s u v = some s' ∧
      ((findRep s u = some X ∧ findRep s v = some Y) ∨
        (findRep s u = some Y ∧ findRep s v = some X)) ∧
      isRep s X ∧ isRep s Y ∧ X ≠ Y ∧ s'.Parent X = Y ∧ isRep s' Y ∧
      (∀ C, isRep s C → C ≠ X → C ≠ Y →
        (s'.overlaps Y).find C
          = (if weight s.overlaps X C + weight s.overlaps Y C = 0 then none
             else some (weight s.overlaps X C + weight s.overlaps Y C)) ∧
        (s'.overlaps C).find Y
          = (if weight s.overlaps X C + weight s.overlaps Y C = 0 then none
             else some (weight s.overlaps X C + weight s.overlaps Y C)) ∧
        (s'.overlaps C).find X = none) ∧
      s'.E_O = s.E_O - binom2 (weight s.overlaps X Y)
        + ∑ C in ((liveReps s).erase X).erase Y,
            weight s.overlaps X C * weight s.overlaps Y C := by
  obtain ⟨hN, E, root, d, F, S, _⟩ := hR.inv
  subst hN
  rw [findRep_root F u hu, findRep_root F v hv] at hne ⊢
  have hne' : root u ≠ root v := fun e => hne (by rw [e])
  obtain ⟨P2, X, Y, F2, fix, hU, hc, hX, hY, hPX, hPY, hXY, _, _⟩ :=
    Union_merge_post en s root d F S u v hu hv hne'
  obtain ⟨hp, hrY, _, _⟩ := absorb_edges en s P2 root d F2 fix S X Y hX.1 hY.1 hPX hPY hXY
  obtain ⟨hw, hE⟩ := absorb_weights en s P2 root d F2 fix S X Y hX.1 hY.1 hPX hPY hXY
  refine ⟨absorb en s P2 X Y, X, Y, hU, ?_, hX, hY, hXY, hp, hrY, hw, hE⟩
  rcases hc with ⟨eX, eY, _⟩ | ⟨eX, eY, _⟩
  · exact Or.inl ⟨by rw [eX], by rw [eY]⟩
  · exact Or.inr ⟨by rw [eY], by rw [eX]⟩

theorem C27_witness :
    Reachable 2 stateAfterOne ∧ inRange 2 2 ∧ inRange 2 3 ∧
    findRep stateAfterOne 2 ≠ findRep stateAfterOne 3 ∧
    ∃ s' X Y, Union Enumeration.storage stateAfterOne 2 3 = some s' ∧
      ((findRep stateAfterOne 2 = some X ∧ findRep stateAfterOne 3 = some Y) ∨
        (findRep stateAfterOne 2 = some Y ∧ findRep stateAfterOne 3 = some X)) ∧
      isRep stateAfterOne X ∧ isRep stateAfterOne Y ∧ X ≠ Y ∧ s'.Parent X = Y ∧ isRep s' Y ∧
      (∀ C, isRep stateAfterOne C → C ≠ X → C ≠ Y →
        (s'.overlaps Y).find C
          = (if weight stateAfterOne.overlaps X C + weight stateAfterOne.overlaps Y C = 0
             then none
             else some (weight stateAfterOne.overlaps X C + weight stateAfterOne.overlaps Y C)) ∧
        (s'.overlaps C).find Y
          = (if weight stateAfterOne.overlaps X C + weight stateAfterOne.overlaps Y C = 0
             then none
             else some (weight stateAfterOne.overlaps X C + weight stateAfterOne.overlaps Y C)) ∧
        (s'.overlaps C).find X = none) ∧
      s'.E_O = stateAfterOne.E_O - binom2 (weight stateAfterOne.overlaps X Y)
        + ∑ C in ((liveReps stateAfterOne).erase X).erase Y,
            weight stateAfterOne.overlaps X C * weight stateAfterOne.overlaps Y C :=
  ⟨stateAfterOne_reachable, by decide, by decide, by decide,
    C27_merge_updates_overlaps_and_E_O Enumeration.storage 2 stateAfterOne 2 3
      stateAfterOne_reachable (by decide) (by decide) (by decide)⟩

/-! ## Counting the effective merges -/

theorem liveReps_congr (s s' : State) (hN : s'.N = s.N)
    (h : ∀ j, s'.Parent j = j ↔ s.Parent j = j) : liveReps s' = liveReps s := by
  unfold liveReps
  rw [hN]
  exact Finset.filter_congr (fun j _ => h j)

theorem liveReps_absorb (en : Enumeration) (s : State) (P : Nat → Nat)
    (hfix : ∀ j, P j = j ↔ s.Parent j = j) (X Y : Nat) (hXY : X ≠ Y) :
    liveReps (absorb en s P X Y) = (liveReps s).erase X := by
  ext r
  rw [Finset.mem_erase, mem_liveReps, mem_liveReps]
  unfold isRep
  rw [absorb_N, absorb_Parent]
  by_cases e : r = X
  · subst e
    rw [setAt_same]
    constructor
    · intro h; exact absurd h.2.symm hXY
    · intro h; exact absurd rfl h.1
  · rw [setAt_other _ _ _ _ e, hfix r]
    constructor
    · intro h; exact ⟨e, h⟩
    · intro h; exact h.2

theorem liveReps_card_pos {s : State} {root d : Nat → Nat} (F : Forest s.N s.Parent root d)
    (hN : 1 ≤ s.N) : 1 ≤ (liveReps s).card := by
  have h1 : inRange s.N 1 := by unfold inRange; omega
  apply Finset.card_pos.2
  exact ⟨root 1, (mem_liveReps s _).2 ⟨F.root_range 1 h1, F.root_fix 1 h1⟩⟩

theorem liveReps_init (N : Nat) : liveReps (init N) = Finset.Icc 1 (2 * N) := by
  obtain ⟨hN, _, _, hP, _, _⟩ := init_fields N
  unfold liveReps
  rw [hN]
  apply Finset.filter_true_of_mem
  intro j hj
  rw [hP, if_pos ((mem_nodes N j).1 hj)]

/-- One call of `Union` from a state satisfying the invariant: the number of live
representatives drops by one exactly when the two representatives differ. -/
theorem Union_liveReps (en : Enumeration) (E : List (Nat × Nat)) (s : State) (u v : Nat)
    (hI : Inv E s) (hu : inRange s.N u) (hv : inRange s.N v) :
    ∃ s', Union en s u v = some s' ∧ Inv ((u, v) :: E) s' ∧ s'.N = s.N ∧
      (if findRep s u = findRep s v then 0 else 1) + (liveReps s').card = (liveReps s).card := by
  obtain ⟨s', hU, hI', hN'⟩ := Union_inv en E s u v hI hu hv
  refine ⟨s', hU, hI', hN', ?_⟩
  obtain ⟨root, d, F, S, _⟩ := hI
  rw [findRep_root F u hu, findRep_root F v hv]
  obtain ⟨P2, F2, fix, h⟩ := Union_cases en s root d F u v hu hv
  have hru := F.root_range u hu
  have hrv := F.root_range v hv
  have hPu : s.Parent (root u) = root u := F.root_fix u hu
  have hPv : s.Parent (root v) = root v := F.root_fix v hv
  rcases h with ⟨heq, hU2⟩ | ⟨hne, _, hU2⟩ | ⟨hne, _, hU2⟩
  · rw [hU] at hU2
    injection hU2 with e
    subst e
    rw [if_pos (by rw [heq]), liveReps_congr s { s with Parent := P2 } rfl fix]
    omega
  · rw [hU] at hU2
    injection hU2 with e
    subst e
    rw [if_neg (fun e => hne (Option.some.inj e)), liveReps_absorb en s P2 fix _ _ hne,
      Finset.card_erase_of_mem ((mem_liveReps s _).2 ⟨hru, hPu⟩)]
    have := Finset.card_pos.2 ⟨root u, (mem_liveReps s _).2 ⟨hru, hPu⟩⟩
    omega
  · rw [hU] at hU2
    injection hU2 with e
    subst e
    rw [if_neg (fun e => hne (Option.some.inj e)),
      liveReps_absorb en s P2 fix _ _ (fun e => hne e.symm),
      Finset.card_erase_of_mem ((mem_liveReps s _).2 ⟨hrv, hPv⟩)]
    have := Finset.card_pos.2 ⟨root v, (mem_liveReps s _).2 ⟨hrv, hPv⟩⟩
    omega

/-- Along the request loop every effective merge removes one live representative. -/
theorem effectiveCount_liveReps (en : Nat → Enumeration) (N : Nat) :
    ∀ (reqs : List (Nat × Nat)) (t : Nat) (s : State) (E : List (Nat × Nat)),
      s.N = N → Inv E s → validReqs N reqs →
      ∃ s' out E', process en t s reqs = some (s', out) ∧ s'.N = N ∧ Inv E' s' ∧
        effectiveCount en t s reqs + (liveReps s').card = (liveReps s).card := by
  intro reqs
  induction reqs with
  | nil =>
    intro t s E hN hI _
    exact ⟨s, [], E, rfl, hN, hI, by simp [effectiveCount]⟩
  | cons q rest ih =>
    obtain ⟨A, B⟩ := q
    intro t s E hN hI hv
    have hq := hv (A, B) (List.mem_cons_self _ _)
    simp only at hq
    have hA : inRange s.N A := by unfold inRange; omega
    have hB : inRange s.N (s.N + B) := by unfold inRange; omega
    obtain ⟨s1, hU, hI1, hN1, hcard⟩ := Union_liveReps (en t) E s A (s.N + B) hI hA hB
    obtain ⟨s2, out, E2, hP, hN2, hI2, hc2⟩ := ih (t + 1) s1 _ (hN1.trans hN) hI1
      (fun p hp => hv p (List.mem_cons_of_mem _ hp))
    refine ⟨s2, (s1.E_C - s1.E_O) :: out, E2, ?_, hN2, hI2, ?_⟩
    · simp only [process, hU, hP]
    · simp only [effectiveCount, hU]
      omega

/-- A call of `Union` on two nodes of one component changes nothing but `Parent`, and
that by path compression only. -/
theorem Union_noop (en : Enumeration) (N : Nat) (s : State) (u v : Nat) (hR : Reachable N s)
    (hu : inRange N u) (hv : inRange N v) (he : findRep s u = findRep s v) :
    ∃ P, Union en s u v = some { s with Parent := P } ∧
      (∀ j, P j = j ↔ s.Parent j = j) ∧
      ∀ j, inRange N j → findRep { s with Parent := P } j = findRep s j := by
  obtain ⟨hN, E, root, d, F, S, _⟩ := hR.inv
  subst hN
  rw [findRep_root F u hu, findRep_root F v hv] at he
  have he' : root u = root v := Option.some.inj he
  obtain ⟨P2, F2, fix, h⟩ := Union_cases en s root d F u v hu hv
  rcases h with ⟨_, hU⟩ | ⟨hne, _, _⟩ | ⟨hne, _, _⟩
  · refine ⟨P2, hU, fix, fun j hj => ?_⟩
    have F2' : Forest ({ s with Parent := P2 } : State).N
        ({ s with Parent := P2 } : State).Parent root d := F2
    rw [findRep_root F2' j hj, findRep_root F j hj]
  · exact absurd he' hne
  · exact absurd he' hne

/-- The bound `2N - 1` on the effective merges is attained: for `N = 2` the requests
`(1, 2)`, `(2, 1)`, `(1, 1)` are three effective merges. -/
theorem effectiveCount_bound_attained :
    effectiveCount storageOrder 0 (init 2) [(1, 2), (2, 1), (1, 1)] = 2 * 2 - 1 := by
  decide

/-- C29, as stated, fails: for `N = 2` both requests of the sequence `(1, 2)`, `(2, 1)`
are effective merges (the first joins nodes 1 and 4, the second nodes 2 and 3), which is
more than `N - 1 = 1`. -/
theorem C29_counterexample :
    validReqs 2 [(1, 2), (2, 1)] ∧
    effectiveCount storageOrder 0 (init 2) [(1, 2), (2, 1)] = 2 ∧
    ¬ effectiveCount storageOrder 0 (init 2) [(1, 2), (2, 1)] ≤ 2 - 1 := by
  decide

/-! ## Neighbour sets and neighbour counts -/

theorem mem_neighbours (s : State) (r c : Nat) :
    c ∈ neighbours s r ↔ ∃ w, (s.overlaps r).find c = some w := by
  unfold neighbours
  rw [List.mem_toFinset]
  exact mem_keys_iff _ c

theorem degree_eq_card (s : State) (r : Nat) (h : (s.overlaps r).keys.Nodup) :
    degree s r = (neighbours s r).card := by
  unfold degree neighbours HashMap.size
  rw [List.toFinset_card_of_nodup h]
  simp [HashMap.keys]

theorem Sem.neighbours_iff {s : State} {root : Nat → Nat} (S : Sem s root) (r c : Nat)
    (hr : isRep s r) :
    c ∈ neighbours s r ↔ c ≠ r ∧ 0 < (bridge s.N root r c).card := by
  rw [RoleGraph.mem_neighbours, S.find r c hr.1 hr.2]
  by_cases h : c ≠ r ∧ 0 < (bridge s.N root r c).card
  · rw [if_pos h]
    exact ⟨fun _ => h, fun _ => ⟨_, rfl⟩⟩
  · rw [if_neg h]
    exact ⟨fun ⟨w, hw⟩ => Option.noConfusion hw, fun h' => absurd h' h⟩

/-- Between live representatives the neighbour relation is symmetric. -/
theorem Sem.neighbours_symm {s : State} {root : Nat → Nat} (S : Sem s root) (r c : Nat)
    (hr : isRep s r) (hc : isRep s c) : c ∈ neighbours s r ↔ r ∈ neighbours s c := by
  rw [S.neighbours_iff r c hr, S.neighbours_iff c r hc, bridge_comm s.N root c r]
  constructor
  · intro h; exact ⟨fun e => h.1 e.symm, h.2⟩
  · intro h; exact ⟨fun e => h.1 e.symm, h.2⟩

theorem Sem.neighbours_live {s : State} {root d : Nat → Nat} (F : Forest s.N s.Parent root d)
    (S : Sem s root) (r c : Nat) (hr : isRep s r) (hc : c ∈ neighbours s r) :
    isRep s c ∧ c ≠ r := by
  have h := (S.neighbours_iff r c hr).1 hc
  exact ⟨(bridge_pos_live F r c h.2).2, h.1⟩

/-- The neighbours of the survivor after a merge: those of either side, without the two
merged representatives. -/
theorem neighbours_absorb_survivor (en : Enumeration) (s : State) (P root d : Nat → Nat)
    (F : Forest s.N P root d) (hfix : ∀ j, P j = j ↔ s.Parent j = j) (S : Sem s root)
    (X Y : Nat) (hX : inRange s.N X) (hY : inRange s.N Y) (hPX : P X = X) (hPY : P Y = Y)
    (hXY : X ≠ Y) :
    neighbours (absorb en s P X Y) Y
      = ((neighbours s X ∪ neighbours s Y).erase X).erase Y := by
  have hsX : isRep s X := ⟨hX, (hfix X).1 hPX⟩
  have hsY : isRep s Y := ⟨hY, (hfix Y).1 hPY⟩
  obtain ⟨_, hfB, _, _⟩ := absorb_loop en s P root d F hfix S X Y hX hY hPX hPY hXY
  ext x
  rw [RoleGraph.mem_neighbours, hfB x, Finset.mem_erase, Finset.mem_erase, Finset.mem_union,
    S.neighbours_iff X x hsX, S.neighbours_iff Y x hsY]
  by_cases h : x ≠ X ∧ x ≠ Y ∧ 0 < (bridge s.N root X x).card + (bridge s.N root Y x).card
  · rw [if_pos h]
    refine ⟨fun _ => ⟨h.2.1, h.1, ?_⟩, fun _ => ⟨_, rfl⟩⟩
    by_cases h0 : 0 < (bridge s.N root X x).card
    · exact Or.inl ⟨h.1, h0⟩
    · exact Or.inr ⟨h.2.1, by omega⟩
  · rw [if_neg h]
    refine ⟨fun ⟨w, hw⟩ => Option.noConfusion hw, fun h' => absurd ?_ h⟩
    refine ⟨h'.2.1, h'.1, ?_⟩
    rcases h'.2.2 with a | a
    · omega
    · omega

/-- The neighbours of another live representative after a merge: the absorbed
representative, if present, is replaced by the survivor. -/
theorem neighbours_absorb_other (en : Enumeration) (s : State) (P root d : Nat → Nat)
    (F : Forest s.N P root d) (hfix : ∀ j, P j = j ↔ s.Parent j = j) (S : Sem s root)
    (X Y : Nat) (hX : inRange s.N X) (hY : inRange s.N Y) (hPX : P X = X) (hPY : P Y = Y)
    (hXY : X ≠ Y) (r : Nat) (hr : isRep s r) (hrX : r ≠ X) (hrY : r ≠ Y) :
    neighbours (absorb en s P X Y) r
      = if X ∈ neighbours s r then insert Y ((neighbours s r).erase X) else neighbours s r := by
  have hYX : Y ≠ X := fun e => hXY e.symm
  obtain ⟨_, _, hfr, _⟩ := absorb_loop en s P root d F hfix S X Y hX hY hPX hPY hXY
  have hXm := S.neighbours_iff r X hr
  have hYm := S.neighbours_iff r Y hr
  ext x
  rw [RoleGraph.mem_neighbours, hfr r x hrX hrY hr.2 hr.1]
  by_cases hxX : x = X
  · subst hxX
    rw [if_pos rfl]
    constructor
    · rintro ⟨w, hw⟩; exact Option.noConfusion hw
    · intro h
      exfalso
      by_cases hm : x ∈ neighbours s r
      · rw [if_pos hm, Finset.mem_insert, Finset.mem_erase] at h
        rcases h with h | h
        · exact hXY h
        · exact h.1 rfl
      · rw [if_neg hm] at h
        exact hm h
  · rw [if_neg hxX]
    by_cases hxY : x = Y
    · subst hxY
      rw [if_pos rfl]
      by_cases hp : 0 < (bridge s.N root r X).card + (bridge s.N root r x).card
      · rw [if_pos hp]
        refine ⟨fun _ => ?_, fun _ => ⟨_, rfl⟩⟩
        by_cases hm : X ∈ neighbours s r
        · rw [if_pos hm]; exact Finset.mem_insert_self _ _
        · rw [if_neg hm, hYm]
          refine ⟨fun e => hrY e.symm, ?_⟩
          have : ¬ 0 < (bridge s.N root r X).card := fun h0 =>
            hm (hXm.2 ⟨fun e => hrX e.symm, h0⟩)
          omega
      · rw [if_neg hp]
        refine ⟨fun ⟨w, hw⟩ => Option.noConfusion hw, fun h => ?_⟩
        exfalso
        have hm : X ∉ neighbours s r := fun hm => hp (by have := (hXm.1 hm).2; omega)
        rw [if_neg hm, hYm] at h
        omega
    · rw [if_neg hxY, ← RoleGraph.mem_neighbours]
      by_cases hm : X ∈ neighbours s r
      · rw [if_pos hm, Finset.mem_insert, Finset.mem_erase]
        constructor
        · intro h; exact Or.inr ⟨hxX, h⟩
        · intro h
          rcases h with h | h
          · exact absurd h hxY
          · exact h.2
      · rw [if_neg hm]

/-- Cardinality of a union of two sets without two points `X`, `Y`, where `X` is outside
the first set, `Y` outside the second, and `X` is in the second exactly when `Y` is in
the first. -/
theorem card_union_erase_two (KX KY : Finset Nat) (X Y : Nat) (hXY : X ≠ Y) (hX : X ∉ KX)
    (hY : Y ∉ KY) (hsym : Y ∈ KX ↔ X ∈ KY) :
    (((KX ∪ KY).erase X).erase Y).card + 2 * (if Y ∈ KX then 1 else 0) + (KX ∩ KY).card
      = KX.card + KY.card := by
  have hu := Finset.card_union_add_card_inter KX KY
  by_cases h : Y ∈ KX
  · have hXm : X ∈ KX ∪ KY := Finset.mem_union_right _ (hsym.1 h)
    have hYm : Y ∈ (KX ∪ KY).erase X :=
      Finset.mem_erase.2 ⟨fun e => hXY e.symm, Finset.mem_union_left _ h⟩
    rw [if_pos h, Finset.card_erase_of_mem hYm, Finset.card_erase_of_mem hXm]
    have : 2 ≤ (KX ∪ KY).card := by
      have := Finset.card_pos.2 ⟨Y, hYm⟩
      rw [Finset.card_erase_of_mem hXm] at this
      omega
    omega
  · have hXm : X ∉ KX ∪ KY := by
      rw [Finset.mem_union]
      exact fun h' => h'.elim hX (fun h2 => h (hsym.2 h2))
    have hYm : Y ∉ (KX ∪ KY).erase X := by
      rw [Finset.mem_erase, Finset.mem_union]
      exact fun h' => h'.2.elim h hY
    rw [if_neg h, Finset.erase_eq_of_not_mem hYm, Finset.erase_eq_of_not_mem hXm]
    omega

/-- The common neighbours, and the survivor when it is a neighbour, are neighbours of
the absorbed representative. -/
theorem card_common_le (KX KY : Finset Nat) (Y : Nat) (hY : Y ∉ KY) :
    (KX ∩ KY).card + (if Y ∈ KX then 1 else 0) ≤ KX.card := by
  by_cases h : Y ∈ KX
  · rw [if_pos h]
    have hsub : insert Y (KX ∩ KY) ⊆ KX := by
      intro x hx
      rw [Finset.mem_insert] at hx
      rcases hx with e | hx
      · rw [e]; exact h
      · exact (Finset.mem_inter.1 hx).1
    have hn : Y ∉ KX ∩ KY := fun h' => hY (Finset.mem_inter.1 h').2
    have := Finset.card_le_card hsub
    rw [Finset.card_insert_of_not_mem hn] at this
    exact this
  · rw [if_neg h]
    exact Finset.card_le_card Finset.inter_subset_left

/-- The neighbour count of the survivor after an effective merge. -/
theorem degree_absorb_survivor (en : Enumeration) (s : State) (P root d : Nat → Nat)
    (F : Forest s.N P root d) (hfix : ∀ j, P j = j ↔ s.Parent j = j) (S : Sem s root)
    (X Y : Nat) (hX : inRange s.N X) (hY : inRange s.N Y) (hPX : P X = X) (hPY : P Y = Y)
    (hXY : X ≠ Y) :
    degree (absorb en s P X Y) Y + 2 * adjacency s X Y + (commonNeighbours s X Y).card
        = degree s X + degree s Y ∧
      (commonNeighbours s X Y).card + adjacency s X Y ≤ degree s X := by
  have hsX : isRep s X := ⟨hX, (hfix X).1 hPX⟩
  have hsY : isRep s Y := ⟨hY, (hfix Y).1 hPY⟩
  obtain ⟨_, _, _, hnd⟩ := absorb_loop en s P root d F hfix S X Y hX hY hPX hPY hXY
  have hXn : X ∉ neighbours s X := fun h => ((S.neighbours_iff X X hsX).1 h).1 rfl
  have hYn : Y ∉ neighbours s Y := fun h => ((S.neighbours_iff Y Y hsY).1 h).1 rfl
  rw [degree_eq_card _ Y (hnd Y), degree_eq_card s X (S.nodup X), degree_eq_card s Y (S.nodup Y),
    neighbours_absorb_survivor en s P root d F hfix S X Y hX hY hPX hPY hXY]
  unfold adjacency commonNeighbours
  exact ⟨card_union_erase_two _ _ X Y hXY hXn hYn (S.neighbours_symm X Y hsX hsY),
    card_common_le _ _ Y hYn⟩

/-- C28, as stated, fails: for `N = 2`, after the request `(1, 2)` the call
`Union(2, 3)` absorbs representative 2, which has one neighbour (node 4), into
representative 3, whose neighbour is the same node 4; the merged component has one
neighbour, not two. -/
theorem C28_counterexample :
    Reachable 2 stateAfterOne ∧
    findRep stateAfterOne 2 = some 2 ∧ findRep stateAfterOne 3 = some 3 ∧
    Union Enumeration.storage stateAfterOne 2 3 = some stateAfterTwo ∧
    stateAfterTwo.Parent 2 = 3 ∧ isRep stateAfterTwo 3 ∧
    degree stateAfterOne 2 = 1 ∧ degree stateAfterTwo 3 = 1 ∧
    ¬ 2 * degree stateAfterOne 2 ≤ degree stateAfterTwo 3 :=
  ⟨stateAfterOne_reachable, by decide, by decide, rfl, by decide, by decide, by decide,
    by decide, by decide⟩

/-- C28, amended: for every effective `Union(u, v)` from a reachable state, absorbing
the representative `X` into the surviving representative `Y`: `X` had at most as many
neighbours as `Y`; the neighbour count of `Y` after the merge is the sum of the two
counts before, minus 2 if `X` and `Y` were neighbours, minus the number of their common
neighbours; it is at least the count of `Y` before minus 1 (hence at least the count of
`X` before minus 1) and at most the sum of the two counts. -/
theorem C28_neighbour_count_after_merge (en : Enumeration) (N : Nat) (s : State)
    (u v : Nat) (hR : Reachable N s) (hu : inRange N u) (hv : inRange N v)
    (hne : findRep s u ≠ findRep s v) :
    ∃ s' X Y, Union en s u v = some s' ∧
      ((findRep s u = some X ∧ findRep s v = some Y) ∨
        (findRep s u = some Y ∧ findRep s v = some X)) ∧
      s'.Parent X = Y ∧ isRep s' Y ∧
      degree s X ≤ degree s Y ∧
      degree s' Y + 2 * adjacency s X Y + (commonNeighbours s X Y).card
        = degree s X + degree s Y ∧
      degree s Y ≤ degree s' Y + adjacency s X Y ∧ adjacency s X Y ≤ 1 ∧
      degree s X ≤ degree s' Y + 1 ∧ degree s' Y ≤ degree s X + degree s Y := by
  obtain ⟨hN, E, root, d, F, S, _⟩ := hR.inv
  subst hN
  rw [findRep_root F u hu, findRep_root F v hv] at hne ⊢
  have hne' : root u ≠ root v := fun e => hne (by rw [e])
  obtain ⟨P2, X, Y, F2, fix, hU, hc, hX, hY, hPX, hPY, hXY, _, _⟩ :=
    Union_merge_post en s root d F S u v hu hv hne'
  obtain ⟨hp, hrY, _, _⟩ := absorb_edges en s P2 root d F2 fix S X Y hX.1 hY.1 hPX hPY hXY
  obtain ⟨h1, h2⟩ := degree_absorb_survivor en s P2 root d F2 fix S X Y hX.1 hY.1 hPX hPY hXY
  have hadj : adjacency s X Y ≤ 1 := by
    unfold adjacency
    split <;> omega
  have hle : degree s X ≤ degree s Y := by
    unfold degree
    rcases hc with ⟨eX, eY, h⟩ | ⟨eX, eY, h⟩
    · rw [eX, eY]; exact h
    · rw [eX, eY]; omega
  refine ⟨absorb en s P2 X Y, X, Y, hU, ?_, hp, hrY, hle, h1, by omega, hadj, by omega,
    by omega⟩
  rcases hc with ⟨eX, eY, _⟩ | ⟨eX, eY, _⟩
  · exact Or.inl ⟨by rw [eX], by rw [eY]⟩
  · exact Or.inr ⟨by rw [eY], by rw [eX]⟩

theorem C28_witness :
    Reachable 2 stateAfterOne ∧ inRange 2 2 ∧ inRange 2 3 ∧
    findRep stateAfterOne 2 ≠ findRep stateAfterOne 3 ∧
    ∃ s' X Y, Union Enumeration.storage stateAfterOne 2 3 = some s' ∧
      ((findRep stateAfterOne 2 = some X ∧ findRep stateAfterOne 3 = some Y) ∨
        (findRep stateAfterOne 2 = some Y ∧ findRep stateAfterOne 3 = some X)) ∧
      s'.Parent X = Y ∧ isRep s' Y ∧
      degree stateAfterOne X ≤ degree stateAfterOne Y ∧
      degree s' Y + 2 * adjacency stateAfterOne X Y + (commonNeighbours stateAfterOne X Y).card
        = degree stateAfterOne X + degree stateAfterOne Y ∧
      degree stateAfterOne Y ≤ degree s' Y + adjacency stateAfterOne X Y ∧
      adjacency stateAfterOne X Y ≤ 1 ∧
      degree stateAfterOne X ≤ degree s' Y + 1 ∧
      degree s' Y ≤ degree stateAfterOne X + degree stateAfterOne Y :=
  ⟨stateAfterOne_reachable, by decide, by decide, by decide,
    C28_neighbour_count_after_merge Enumeration.storage 2 stateAfterOne 2 3
      stateAfterOne_reachable (by decide) (by decide) (by decide)⟩

/-! ## Array indices -/

theorem Find_fst {N : Nat} {P root d : Nat → Nat} (F : Forest N P root d) :
    ∀ (fuel : Nat) (i r : Nat) (P' : Nat → Nat), inRange N i →
      Find fuel P i = some (r, P') → r = root i := by
  intro fuel
  induction fuel with
  | zero => intro i r P' _ h; simp [Find] at h
  | succ fuel ih =>
    intro i r P' hi h
    by_cases hP : P i = i
    · simp only [Find, hP, if_true, Option.some.injEq, Prod.mk.injEq] at h
      rw [← h.1, F.root_self i hi hP]
    · simp only [Find, hP, if_false] at h
      cases hf : Find fuel P (P i) with
      | none => rw [hf] at h; exact Option.noConfusion h
      | some q =>
        obtain ⟨r', P2⟩ := q
        rw [hf] at h
        simp only [Option.some.injEq, Prod.mk.injEq] at h
        rw [← h.1, ih (P i) r' P2 (F.parent_range i hi) hf, F.root_parent i hi]

theorem FindIndices_range {N : Nat} {P root d : Nat → Nat} (F : Forest N P root d) :
    ∀ (fuel : Nat) (i : Nat), inRange N i → ∀ x ∈ FindIndices fuel P i, inRange N x := by
  intro fuel
  induction fuel with
  | zero => intro i _ x hx; simp [FindIndices] at hx
  | succ fuel ih =>
    intro i hi x hx
    by_cases hP : P i = i
    · simp only [FindIndices, hP, if_true, List.mem_singleton] at hx
      rw [hx]; exact hi
    · simp only [FindIndices, hP, if_false, List.mem_cons] at hx
      rcases hx with e | hx
      · rw [e]; exact hi
      · exact ih (P i) (F.parent_range i hi) x hx

theorem FindStores_range {N : Nat} {P root d : Nat → Nat} (F : Forest N P root d) :
    ∀ (fuel : Nat) (i : Nat), inRange N i → ∀ x ∈ FindStores fuel P i, inRange N x := by
  intro fuel
  induction fuel with
  | zero => intro i _ x hx; simp [FindStores] at hx
  | succ fuel ih =>
    intro i hi x hx
    have hPi := F.parent_range i hi
    by_cases hP : P i = i
    · simp [FindStores, hP] at hx
    · simp only [FindStores, hP, if_false] at hx
      cases hf : Find fuel P (P i) with
      | none =>
        rw [hf] at hx
        exact ih (P i) hPi x hx
      | some q =>
        obtain ⟨r, P2⟩ := q
        rw [hf] at hx
        simp only [List.mem_cons] at hx
        rcases hx with e | hx
        · rw [e, Find_fst F fuel (P i) r P2 hPi hf]
          exact F.root_range _ hPi
        · exact ih (P i) hPi x hx

/-- The entries visited by the step-5 loop: entries of `overlaps[X]` before the call,
toward live representatives other than `X` and `Y`, with the bridge count as weight. -/
theorem absorb_run_entry (en : Enumeration) (s : State) (P root d : Nat → Nat)
    (F : Forest s.N P root d) (hfix : ∀ j, P j = j ↔ s.Parent j = j) (S : Sem s root)
    (X Y : Nat) (hX : inRange s.N X) (hPX : P X = X) (hXY : X ≠ Y) (p : Nat × Int)
    (hp : p ∈ en.run (unlink s.overlaps X Y (weight s.overlaps X Y) X)) :
    isRep s p.1 ∧ p.1 ≠ X ∧ p.1 ≠ Y ∧ (s.overlaps X).find p.1 = some p.2 ∧
      p.2 = ((bridge s.N root X p.1).card : Int) ∧ 0 < (bridge s.N root X p.1).card := by
  have hYX : Y ≠ X := fun e => hXY e.symm
  have hsX : s.Parent X = X := (hfix X).1 hPX
  have hk : weight s.overlaps X Y = ((bridge s.N root X Y).card : Int) :=
    S.weight_eq X Y hX hsX hYX
  have hcA : weight s.overlaps X Y > 0 ∨ (s.overlaps X).find Y = none := by
    by_cases h : 0 < (bridge s.N root X Y).card
    · left; rw [hk]; exact_mod_cast h
    · right; exact S.find_none X Y hX hsX (by omega)
  have hmem : p ∈ unlink s.overlaps X Y (weight s.overlaps X Y) X := (en.perm _).mem_iff.1 hp
  have hnd := unlink_nodup s.overlaps X Y (weight s.overlaps X Y) S.nodup X
  obtain ⟨c, k⟩ := p
  have hf := find_of_mem _ hnd c k hmem
  rw [unlink_find_A s.overlaps X Y _ hcA c] at hf
  by_cases hcY : c = Y
  · rw [if_pos hcY] at hf; exact Option.noConfusion hf
  · rw [if_neg hcY] at hf
    rw [S.find X c hX hsX] at hf
    by_cases hc : c ≠ X ∧ 0 < (bridge s.N root X c).card
    · rw [if_pos hc] at hf
      injection hf with hf
      obtain ⟨_, hcr, hcP⟩ := bridge_pos_live F X c hc.2
      refine ⟨⟨hcr, (hfix c).1 hcP⟩, hc.1, hcY, ?_, hf.symm, hc.2⟩
      rw [S.find X c hX hsX, if_pos hc, hf]
    · rw [if_neg hc] at hf
      exact Option.noConfusion hf

theorem initIndices_range (N : Nat) : ∀ i ∈ initIndices N, inRange N i := by
  intro i hi
  unfold initIndices at hi
  unfold inRange
  rw [List.mem_append] at hi
  rcases hi with h | h
  · rw [List.mem_range'_1] at h
    omega
  · rw [List.mem_flatMap] at h
    obtain ⟨j, hj, hij⟩ := h
    rw [List.mem_range'_1] at hj
    simp only [List.mem_cons, List.mem_singleton, List.not_mem_nil, or_false] at hij
    rcases hij with e | e <;> omega

theorem absorbIndices_range (en : Enumeration) (s : State) (P root d : Nat → Nat)
    (F : Forest s.N P root d) (hfix : ∀ j, P j = j ↔ s.Parent j = j) (S : Sem s root)
    (X Y : Nat) (hX : inRange s.N X) (hY : inRange s.N Y) (hPX : P X = X) (hXY : X ≠ Y) :
    ∀ i ∈ absorbIndices en s X Y, inRange s.N i := by
  intro i hi
  unfold absorbIndices at hi
  simp only [List.mem_append, List.mem_cons, List.mem_singleton, List.not_mem_nil, or_false,
    List.mem_flatMap] at hi
  rcases hi with (e | e) | ⟨p, hp, e | e⟩
  · rw [e]; exact hX
  · rw [e]; exact hY
  · rw [e]; exact hY
  · rw [e]
    exact (absorb_run_entry en s P root d F hfix S X Y hX hPX hXY p hp).1.1

/-- The indices used and the values stored into `Parent` by one call of `Union` from a
state that agrees with a partition are node ids in `1 .. 2N`. -/
theorem Union_indices_range (en : Enumeration) (s : State) (root d : Nat → Nat)
    (F : Forest s.N s.Parent root d) (S : Sem s root) (u v : Nat)
    (hu : inRange s.N u) (hv : inRange s.N v) :
    (∀ i ∈ UnionIndices en s u v, inRange s.N i) ∧
    (∀ i ∈ UnionStores s u v, inRange s.N i) := by
  obtain ⟨P1, hF1, F1, fix1⟩ := Find_total F u hu
  obtain ⟨P2, hF2, F2, fix2⟩ := Find_total F1 v hv
  have fix : ∀ j, P2 j = j ↔ s.Parent j = j := fun j => (fix2 j).trans (fix1 j)
  have hru := F.root_range u hu
  have hrv := F.root_range v hv
  have hPu : P2 (root u) = root u := F2.root_fix u hu
  have hPv : P2 (root v) = root v := F2.root_fix v hv
  have i1 := FindIndices_range F (2 * s.N + 1) u hu
  have i2 := FindIndices_range F1 (2 * s.N + 1) v hv
  have s1 := FindStores_range F (2 * s.N + 1) u hu
  have s2 := FindStores_range F1 (2 * s.N + 1) v hv
  constructor
  · intro i hi
    unfold UnionIndices at hi
    simp only [hF1, hF2, List.mem_append] at hi
    rcases hi with hi | hi | hi
    · exact i1 i hi
    · exact i2 i hi
    · by_cases he : root u = root v
      · rw [if_pos he] at hi
        exact absurd hi (List.not_mem_nil _)
      · rw [if_neg he] at hi
        by_cases hsz : (s.overlaps (root u)).size > (s.overlaps (root v)).size
        · rw [if_pos hsz] at hi
          simp only [List.mem_cons] at hi
          rcases hi with e | e | hi
          · rw [e]; exact hru
          · rw [e]; exact hrv
          · exact absorbIndices_range en s P2 root d F2 fix S _ _ hrv hru hPv
              (fun e => he e.symm) i hi
        · rw [if_neg hsz] at hi
          simp only [List.mem_cons] at hi
          rcases hi with e | e | hi
          · rw [e]; exact hru
          · rw [e]; exact hrv
          · exact absorbIndices_range en s P2 root d F2 fix S _ _ hru hrv hPu he i hi
  · intro i hi
    unfold UnionStores at hi
    simp only [hF1, hF2, List.mem_append] at hi
    rcases hi with hi | hi | hi
    · exact s1 i hi
    · exact s2 i hi
    · by_cases he : root u = root v
      · rw [if_pos he] at hi
        exact absurd hi (List.not_mem_nil _)
      · rw [if_neg he] at hi
        by_cases hsz : (s.overlaps (root u)).size > (s.overlaps (root v)).size
        · rw [if_pos hsz, List.mem_singleton] at hi
          rw [hi]; exact hru
        · rw [if_neg hsz, List.mem_singleton] at hi
          rw [hi]; exact hrv

theorem inBounds_of_inRange (N i : Nat) (hN : N ≤ MAXN) (h : inRange N i) : inBounds N i := by
  unfold inRange at h
  unfold inBounds MAX_NODES
  omega

/-- C24: for every `N ≤ 200005`, every state reachable from initialisation and every
request `(a, b)` with `1 ≤ a, b ≤ N`: `2N ≤ MAX_NODES`, and every index used to
address `Parent`, `clique_size` and `overlaps` by the initialisation loops and by
`Union(a, N + b)` with its two `Find` calls (the keys `R_C` read in the loop included),
and every value stored into `Parent`, lies in `1 .. 2N`, hence inside the arrays of
`MAX_NODES + 1` slots and inside the `2N + 1` slots of `overlaps`; moreover every value
held in `Parent[1 .. 2N]` and every key of the map of a live representative is in
`1 .. 2N`. -/
theorem C24_indices_stay_in_bounds (en : Enumeration) (N : Nat) (s : State) (a b : Nat)
    (hN : N ≤ MAXN) (hR : Reachable N s) (ha1 : 1 ≤ a) (ha : a ≤ N) (hb1 : 1 ≤ b)
    (hb : b ≤ N) :
    2 * N ≤ MAX_NODES ∧
    (∀ i ∈ initIndices N, inRange N i ∧ inBounds N i) ∧
    (∀ i ∈ initStores N, inRange N i ∧ inBounds N i) ∧
    (∀ i ∈ UnionIndices en s a (N + b), inRange N i ∧ inBounds N i) ∧
    (∀ i ∈ UnionStores s a (N + b), inRange N i ∧ inBounds N i) ∧
    (∀ i, inRange N i → inRange N (s.Parent i) ∧ inBounds N (s.Parent i)) ∧
    (∀ r, isRep s r → ∀ c ∈ (s.overlaps r).keys, inRange N c ∧ inBounds N c) := by
  obtain ⟨hNs, E, root, d, F, S, _⟩ := hR.inv
  subst hNs
  have hA : inRange s.N a := by unfold inRange; omega
  have hB : inRange s.N (s.N + b) := by unfold inRange; omega
  obtain ⟨hi, hs⟩ := Union_indices_range en s root d F S a (s.N + b) hA hB
  have up : ∀ i, inRange s.N i → inRange s.N i ∧ inBounds s.N i :=
    fun i h => ⟨h, inBounds_of_inRange s.N i hN h⟩
  refine ⟨by unfold MAX_NODES; omega, fun i h => up i (initIndices_range s.N i h), ?_,
    fun i h => up i (hi i h), fun i h => up i (hs i h),
    fun i h => up _ (F.parent_range i h),
    fun r hr c hc => up c (S.keys_live F r c hr hc).1.1⟩
  intro i h
  apply up
  unfold initStores at h
  rw [List.mem_range'_1] at h
  unfold inRange
  omega

theorem C24_witness :
    2 ≤ MAXN ∧ Reachable 2 stateAfterOne ∧ 1 ≤ 2 ∧ 2 ≤ 2 ∧ 1 ≤ 1 ∧ 1 ≤ 2 ∧
    (2 * 2 ≤ MAX_NODES ∧
    (∀ i ∈ initIndices 2, inRange 2 i ∧ inBounds 2 i) ∧
    (∀ i ∈ initStores 2, inRange 2 i ∧ inBounds 2 i) ∧
    (∀ i ∈ UnionIndices Enumeration.storage stateAfterOne 2 (2 + 1),
      inRange 2 i ∧ inBounds 2 i) ∧
    (∀ i ∈ UnionStores stateAfterOne 2 (2 + 1), inRange 2 i ∧ inBounds 2 i) ∧
    (∀ i, inRange 2 i → inRange 2 (stateAfterOne.Parent i) ∧
      inBounds 2 (stateAfterOne.Parent i)) ∧
    (∀ r, isRep stateAfterOne r → ∀ c ∈ (stateAfterOne.overlaps r).keys,
      inRange 2 c ∧ inBounds 2 c)) :=
  ⟨by decide, stateAfterOne_reachable, by decide, by decide, by decide, by decide,
    C24_indices_stay_in_bounds Enumeration.storage 2 stateAfterOne 2 1 (by decide)
      stateAfterOne_reachable (by decide) (by decide) (by decide) (by decide)⟩

/-! ## Ranges of the computed values -/

theorem binom2_le (c N : Nat) (hc : c ≤ N) : binom2 (c : Int) ≤ (N : Int) * N := by
  have h1 := two_mul_binom2 c
  have h2 := binom2_nonneg c
  have hc' : (c : Int) ≤ N := by exact_mod_cast hc
  have h0 : (0 : Int) ≤ c := by positivity
  nlinarith

theorem binom2Longs_bound (c N : Nat) (hc : c ≤ N) (hN : 1 ≤ N) :
    ∀ x ∈ binom2Longs (c : Int), 0 ≤ x ∧ x ≤ (N : Int) * N := by
  have hc' : (c : Int) ≤ N := by exact_mod_cast hc
  have hN' : (1 : Int) ≤ N := by exact_mod_cast hN
  have h0 : (0 : Int) ≤ c := by positivity
  have hb := binom2_le c N hc
  have hb0 := binom2_nonneg c
  intro x hx
  unfold binom2Longs at hx
  by_cases h : (c : Int) < 2
  · rw [if_pos h] at hx
    simp only [List.mem_cons, List.mem_singleton, List.not_mem_nil, or_false] at hx
    rcases hx with e | e
    · rw [e]; exact ⟨h0, by nlinarith⟩
    · rw [e]; exact ⟨le_refl _, by nlinarith⟩
  · rw [if_neg h] at hx
    have hb2 : binom2 (c : Int) = Int.tdiv ((c : Int) * ((c : Int) - 1)) 2 := by
      unfold binom2
      rw [if_neg h]
    simp only [List.mem_cons, List.mem_singleton, List.not_mem_nil, or_false] at hx
    rcases hx with e | e | e | e
    · rw [e]; exact ⟨h0, by nlinarith⟩
    · rw [e]; exact ⟨by omega, by nlinarith⟩
    · rw [e]; exact ⟨by nlinarith, by nlinarith⟩
    · rw [e, ← hb2]; exact ⟨hb0, hb⟩

theorem Sem.E_C_le {s : State} {root : Nat → Nat} (S : Sem s root) :
    s.E_C ≤ 2 * (s.N : Int) * ((s.N : Int) * s.N) := by
  rw [S.eC]
  have h := Finset.sum_le_card_nsmul (Finset.Icc 1 (2 * s.N))
    (fun r => binom2 ((clique s.N root r).card : Int)) ((s.N : Int) * s.N)
    (fun r _ => binom2_le _ s.N (clique_card_le s.N root r))
  simp only [Nat.card_Icc, nsmul_eq_mul] at h
  have e : (2 * s.N + 1 - 1 : Nat) = 2 * s.N := by omega
  rw [e] at h
  push_cast at h
  exact h

/-- Ranges of the values computed by the step-5 loop, from ranges of the weights it
reads. -/
theorem loop_values_bound (A B : Nat) (M lo hi : Int) (hM : 0 ≤ M) (hlo : lo ≤ 0)
    (hhi : M * M ≤ hi) :
    ∀ (l : List (Nat × Int)) (ov : Nat → HashMap) (e : Int),
      (HashMap.keys l).Nodup → B ∉ HashMap.keys l →
      (∀ p ∈ l, 0 ≤ p.2 ∧ p.2 ≤ M ∧ 0 ≤ weight ov B p.1 ∧ weight ov B p.1 ≤ M) →
      lo ≤ e → e + (l.length : Int) * (M * M) ≤ hi →
      (∀ x ∈ loopLongs A B (ov, e) l, lo ≤ x ∧ x ≤ hi) ∧
      (∀ x ∈ loopInts A B (ov, e) l, 0 ≤ x ∧ x ≤ 2 * M) := by
  intro l
  induction l with
  | nil =>
    intro ov e _ _ _ _ _
    exact ⟨fun x hx => by simp [loopLongs] at hx, fun x hx => by simp [loopInts] at hx⟩
  | cons p t ih =>
    obtain ⟨c, k⟩ := p
    intro ov e hnd hB hw he hsum
    simp only [HashMap.keys, List.map_cons, List.nodup_cons, List.mem_cons, not_or] at hnd hB
    obtain ⟨hk0, hkM, hw0, hwM⟩ := hw (c, k) (List.mem_cons_self _ _)
    simp only at hk0 hkM hw0 hwM
    have hprod0 : 0 ≤ k * weight ov B c := mul_nonneg hk0 hw0
    have hprodM : k * weight ov B c ≤ M * M := by nlinarith
    have hlen : ((List.length ((c, k) :: t) : Nat) : Int) = (t.length : Int) + 1 := by
      simp
    rw [hlen] at hsum
    have ht0 : (0 : Int) ≤ (t.length : Int) * (M * M) := by positivity
    have hcB : c ≠ B := fun h => hB.1 h.symm
    have hw' : ∀ q ∈ t, 0 ≤ q.2 ∧ q.2 ≤ M ∧
        0 ≤ weight (mergeStep A B (ov, e) (c, k)).1 B q.1 ∧
        weight (mergeStep A B (ov, e) (c, k)).1 B q.1 ≤ M := by
      intro q hq
      obtain ⟨a1, a2, a3, a4⟩ := hw q (List.mem_cons_of_mem _ hq)
      have hqc : q.1 ≠ c := by
        intro h
        apply hnd.1
        rw [← h]
        exact List.mem_map_of_mem Prod.fst hq
      have hfind : ((mergeStep A B (ov, e) (c, k)).1 B).find q.1 = (ov B).find q.1 := by
        rw [mergeStep_find A B ov e c k hcB B q.1, if_neg (fun h => hcB h.symm), if_pos rfl,
          if_neg hqc]
      have hweq : weight (mergeStep A B (ov, e) (c, k)).1 B q.1 = weight ov B q.1 := by
        unfold weight
        rw [hfind]
      rw [hweq]
      exact ⟨a1, a2, a3, a4⟩
    have hsnd : (mergeStep A B (ov, e) (c, k)).2 = e + k * weight ov B c := rfl
    obtain ⟨ihL, ihI⟩ := ih (mergeStep A B (ov, e) (c, k)).1 (mergeStep A B (ov, e) (c, k)).2
      hnd.2 hB.2 hw' (by rw [hsnd]; linarith) (by rw [hsnd]; linarith)
    constructor
    · intro x hx
      have hx' : x = k * weight ov B c ∨ x = e + k * weight ov B c ∨
          x ∈ loopLongs A B (mergeStep A B (ov, e) (c, k)) t := by
        simpa [loopLongs, weight] using hx
      rcases hx' with h | h | h
      · rw [h]; exact ⟨by linarith, by linarith⟩
      · rw [h]; exact ⟨by linarith, by linarith⟩
      · exact ihL x h
    · intro x hx
      have hx' : x = k ∨ x = weight ov B c ∨ x = weight ov B c + k ∨
          x ∈ loopInts A B (mergeStep A B (ov, e) (c, k)) t := by
        simpa [loopInts, weight] using hx
      rcases hx' with h | h | h | h
      · rw [h]; exact ⟨hk0, by linarith⟩
      · rw [h]; exact ⟨hw0, by linarith⟩
      · rw [h]; exact ⟨by linarith, by linarith⟩
      · exact ihI x h

/-- The step-5 loop runs at most `2N` times. -/
theorem absorb_run_length (en : Enumeration) (s : State) (P root d : Nat → Nat)
    (F : Forest s.N P root d) (hfix : ∀ j, P j = j ↔ s.Parent j = j) (S : Sem s root)
    (X Y : Nat) (hX : inRange s.N X) (hPX : P X = X) (hXY : X ≠ Y) :
    (en.run (unlink s.overlaps X Y (weight s.overlaps X Y) X)).length ≤ 2 * s.N := by
  obtain ⟨hnd, _⟩ := absorb_keys en s P root d F hfix S X Y hX hPX hXY
  have hsub : (HashMap.keys (en.run (unlink s.overlaps X Y (weight s.overlaps X Y) X))).toFinset
      ⊆ Finset.Icc 1 (2 * s.N) := by
    intro c hc
    rw [List.mem_toFinset] at hc
    obtain ⟨p, hp, e⟩ := List.mem_map.1 hc
    rw [← e]
    exact (mem_nodes _ _).2 (absorb_run_entry en s P root d F hfix S X Y hX hPX hXY p hp).1.1
  have h := Finset.card_le_card hsub
  rw [List.toFinset_card_of_nodup hnd] at h
  simp only [HashMap.keys, List.length_map, Nat.card_Icc] at h
  omega

theorem absorbLongs_eq (en : Enumeration) (s : State) (X Y : Nat) :
    absorbLongs en s X Y = binom2Longs (weight s.overlaps X Y) ++
        [s.E_O - binom2 (weight s.overlaps X Y), s.clique_size X, s.clique_size Y,
          s.clique_size X + s.clique_size Y,
          s.clique_size X + s.clique_size Y - weight s.overlaps X Y] ++
        binom2Longs (s.clique_size X) ++ [s.E_C - binom2 (s.clique_size X)] ++
        binom2Longs (s.clique_size Y) ++
        [s.E_C - binom2 (s.clique_size X) - binom2 (s.clique_size Y)] ++
        binom2Longs (s.clique_size X + s.clique_size Y - weight s.overlaps X Y) ++
        [s.E_C - binom2 (s.clique_size X) - binom2 (s.clique_size Y)
          + binom2 (s.clique_size X + s.clique_size Y - weight s.overlaps X Y)] ++
        loopLongs X Y (unlink s.overlaps X Y (weight s.overlaps X Y),
          s.E_O - binom2 (weight s.overlaps X Y))
          (en.run (unlink s.overlaps X Y (weight s.overlaps X Y) X)) := rfl

theorem absorbInts_eq (en : Enumeration) (s : State) (X Y : Nat) :
    absorbInts en s X Y = [weight s.overlaps X Y, s.clique_size X, s.clique_size Y,
          s.clique_size X + s.clique_size Y - weight s.overlaps X Y] ++
        loopInts X Y (unlink s.overlaps X Y (weight s.overlaps X Y),
          s.E_O - binom2 (weight s.overlaps X Y))
          (en.run (unlink s.overlaps X Y (weight s.overlaps X Y) X)) := rfl

/-- Ranges of the scalar values of steps 1 to 4, from ranges of the quantities read. -/
theorem scalar_values_bound (n eC eO a b v bk ba bb bv : Int) (hn : 1 ≤ n)
    (hEC : eC ≤ 2 * (n * (n * n))) (hEO : 0 ≤ eO) (hle : eO ≤ eC) (ha : 0 ≤ a ∧ a ≤ n) (hb : 0 ≤ b ∧ b ≤ n) (hv : 0 ≤ v ∧ v ≤ n)
    (hbk : 0 ≤ bk ∧ bk ≤ n * n) (hba : 0 ≤ ba ∧ ba ≤ n * n) (hbb : 0 ≤ bb ∧ bb ≤ n * n)
    (hbv : 0 ≤ bv ∧ bv ≤ n * n) :
    (∀ x ∈ [eO - bk, a, b, a + b, v, eC - ba, eC - ba - bb, eC - ba - bb + bv],
      -(2 * (n * n)) ≤ x ∧ x ≤ 5 * (n * (n * n))) ∧
    (∀ x : Int, 0 ≤ x ∧ x ≤ n * n → -(2 * (n * n)) ≤ x ∧ x ≤ 5 * (n * (n * n))) := by
  have h1 : n ≤ n * n := by nlinarith
  have h2 : n * n ≤ n * (n * n) := by nlinarith
  have h3 : 0 ≤ n * n := by nlinarith
  constructor
  · intro x hx
    simp only [List.mem_cons, List.mem_singleton, List.not_mem_nil, or_false] at hx
    rcases hx with e | e | e | e | e | e | e | e <;> rw [e] <;> constructor <;> linarith
  · intro x hx
    constructor <;> linarith

/-- Ranges of the values computed by the step-5 loop of an effective merge. -/
theorem absorb_loop_values (en : Enumeration) (s : State) (P root d : Nat → Nat)
    (F : Forest s.N P root d) (hfix : ∀ j, P j = j ↔ s.Parent j = j) (S : Sem s root)
    (X Y : Nat) (hX : inRange s.N X) (hY : inRange s.N Y) (hPX : P X = X) (hPY : P Y = Y)
    (hXY : X ≠ Y) (hN : 1 ≤ s.N) (hEO : 0 ≤ s.E_O) (hle : s.E_O ≤ s.E_C) :
    (∀ x ∈ loopLongs X Y (unlink s.overlaps X Y (weight s.overlaps X Y),
          s.E_O - binom2 (weight s.overlaps X Y))
          (en.run (unlink s.overlaps X Y (weight s.overlaps X Y) X)),
      -(2 * ((s.N : Int) * s.N)) ≤ x ∧ x ≤ 5 * ((s.N : Int) * ((s.N : Int) * s.N))) ∧
    (∀ x ∈ loopInts X Y (unlink s.overlaps X Y (weight s.overlaps X Y),
          s.E_O - binom2 (weight s.overlaps X Y))
          (en.run (unlink s.overlaps X Y (weight s.overlaps X Y) X)),
      0 ≤ x ∧ x ≤ 2 * (s.N : Int)) := by
  have hYX : Y ≠ X := fun e => hXY e.symm
  have hsX : s.Parent X = X := (hfix X).1 hPX
  have hsY : s.Parent Y = Y := (hfix Y).1 hPY
  have hn1 : (1 : Int) ≤ (s.N : Int) := by exact_mod_cast hN
  have hprod : (0 : Int) ≤ (s.N : Int) * s.N := mul_nonneg (by linarith) (by linarith)
  have hnnn : (s.N : Int) * s.N ≤ (s.N : Int) * ((s.N : Int) * s.N) :=
    le_mul_of_one_le_left hprod hn1
  have hECle : s.E_C ≤ 2 * ((s.N : Int) * ((s.N : Int) * s.N)) := by
    have := S.E_C_le
    linarith
  have hk : weight s.overlaps X Y = ((bridge s.N root X Y).card : Int) :=
    S.weight_eq X Y hX hsX hYX
  have hkN := bridge_card_le s.N root X Y
  have hbk0 : 0 ≤ binom2 (weight s.overlaps X Y) := by rw [hk]; exact binom2_nonneg _
  have hbkN : binom2 (weight s.overlaps X Y) ≤ (s.N : Int) * s.N := by
    rw [hk]; exact binom2_le _ s.N hkN
  obtain ⟨hnd, hYk⟩ := absorb_keys en s P root d F hfix S X Y hX hPX hXY
  have hlen := absorb_run_length en s P root d F hfix S X Y hX hPX hXY
  have hlen' : ((en.run (unlink s.overlaps X Y (weight s.overlaps X Y) X)).length : Int)
      ≤ 2 * (s.N : Int) := by exact_mod_cast hlen
  have hcB : weight s.overlaps X Y > 0 ∨ (s.overlaps Y).find X = none := by
    by_cases h : 0 < (bridge s.N root X Y).card
    · left; rw [hk]; exact_mod_cast h
    · right
      apply S.find_none Y X hY hsY
      rw [bridge_comm]
      omega
  have hentries : ∀ p ∈ en.run (unlink s.overlaps X Y (weight s.overlaps X Y) X),
      0 ≤ p.2 ∧ p.2 ≤ (s.N : Int) ∧
      0 ≤ weight (unlink s.overlaps X Y (weight s.overlaps X Y)) Y p.1 ∧
      weight (unlink s.overlaps X Y (weight s.overlaps X Y)) Y p.1 ≤ (s.N : Int) := by
    intro p hp
    obtain ⟨hrep, hpX, hpY, _, hval, _⟩ :=
      absorb_run_entry en s P root d F hfix S X Y hX hPX hXY p hp
    have hfind := unlink_find_B s.overlaps X Y hXY (weight s.overlaps X Y) hcB p.1
    rw [if_neg hpX] at hfind
    have hw : weight (unlink s.overlaps X Y (weight s.overlaps X Y)) Y p.1
        = ((bridge s.N root Y p.1).card : Int) := by
      rw [← S.weight_eq Y p.1 hY hsY hpY]
      show ((unlink s.overlaps X Y (weight s.overlaps X Y) Y).find p.1).getD 0
        = ((s.overlaps Y).find p.1).getD 0
      rw [hfind]
    have b1 := bridge_card_le s.N root X p.1
    have b2 := bridge_card_le s.N root Y p.1
    rw [hw, hval]
    exact ⟨Int.natCast_nonneg _, by exact_mod_cast b1, Int.natCast_nonneg _,
      by exact_mod_cast b2⟩
  have hlenprod :
      ((en.run (unlink s.overlaps X Y (weight s.overlaps X Y) X)).length : Int)
        * ((s.N : Int) * s.N) ≤ 2 * (s.N : Int) * ((s.N : Int) * s.N) :=
    mul_le_mul_of_nonneg_right hlen' hprod
  exact loop_values_bound X Y (s.N : Int) (-(2 * ((s.N : Int) * s.N)))
    (5 * ((s.N : Int) * ((s.N : Int) * s.N))) (by linarith) (by linarith) (by linarith)
    (en.run (unlink s.overlaps X Y (weight s.overlaps X Y) X))
    (unlink s.overlaps X Y (weight s.overlaps X Y))
    (s.E_O - binom2 (weight s.overlaps X Y)) hnd hYk hentries
    (by linarith) (by linarith)

/-- The clique size written by an effective merge is the size of the merged clique. -/
theorem absorb_V_new (en : Enumeration) (s : State) (P root d : Nat → Nat)
    (F : Forest s.N P root d) (hfix : ∀ j, P j = j ↔ s.Parent j = j) (S : Sem s root)
    (X Y : Nat) (hX : inRange s.N X) (hY : inRange s.N Y) (hPX : P X = X) (hPY : P Y = Y)
    (hXY : X ≠ Y) :
    s.clique_size X + s.clique_size Y - weight s.overlaps X Y
      = ((clique s.N (fun x => if root x = X then Y else root x) Y).card : Int) := by
  obtain ⟨_, hrY, _, _⟩ := absorb_edges en s P root d F hfix S X Y hX hY hPX hPY hXY
  have S3 := absorb_sem en s P root d F hfix S X Y hX hY hPX hPY hXY
  have h := S3.cs Y hrY.1 hrY.2
  rw [absorb_clique_size, setAt_same] at h
  exact h

/-- Ranges of the values computed by steps 1 to 6 of `Union`. -/
theorem absorb_values_bound (en : Enumeration) (s : State) (P root d : Nat → Nat)
    (F : Forest s.N P root d) (hfix : ∀ j, P j = j ↔ s.Parent j = j) (S : Sem s root)
    (X Y : Nat) (hX : inRange s.N X) (hY : inRange s.N Y) (hPX : P X = X) (hPY : P Y = Y)
    (hXY : X ≠ Y) (hN : 1 ≤ s.N) (hEO : 0 ≤ s.E_O) (hle : s.E_O ≤ s.E_C) :
    (∀ x ∈ absorbLongs en s X Y,
      -(2 * ((s.N : Int) * s.N)) ≤ x ∧ x ≤ 5 * ((s.N : Int) * ((s.N : Int) * s.N))) ∧
    (∀ x ∈ absorbInts en s X Y, 0 ≤ x ∧ x ≤ 2 * (s.N : Int)) := by
  have hYX : Y ≠ X := fun e => hXY e.symm
  have hsX : s.Parent X = X := (hfix X).1 hPX
  have hsY : s.Parent Y = Y := (hfix Y).1 hPY
  have hn1 : (1 : Int) ≤ (s.N : Int) := by exact_mod_cast hN
  have hECle : s.E_C ≤ 2 * ((s.N : Int) * ((s.N : Int) * s.N)) := by
    have := S.E_C_le
    linarith
  obtain ⟨hLL, hLI⟩ := absorb_loop_values en s P root d F hfix S X Y hX hY hPX hPY hXY hN hEO hle
  have hVn := absorb_V_new en s P root d F hfix S X Y hX hY hPX hPY hXY
  have hk : weight s.overlaps X Y = ((bridge s.N root X Y).card : Int) :=
    S.weight_eq X Y hX hsX hYX
  have hVA : s.clique_size X = ((clique s.N root X).card : Int) := S.cs X hX hsX
  have hVB : s.clique_size Y = ((clique s.N root Y).card : Int) := S.cs Y hY hsY
  generalize hgk : (bridge s.N root X Y).card = k at hk
  generalize hga : (clique s.N root X).card = a at hVA
  generalize hgb : (clique s.N root Y).card = b at hVB
  generalize hgv : (clique s.N (fun x => if root x = X then Y else root x) Y).card = v at hVn
  have hkN : k ≤ s.N := hgk ▸ bridge_card_le s.N root X Y
  have haN : a ≤ s.N := hga ▸ clique_card_le s.N root X
  have hbN : b ≤ s.N := hgb ▸ clique_card_le s.N root Y
  have hvN : v ≤ s.N := hgv ▸ clique_card_le s.N _ Y
  obtain ⟨hsc, up⟩ := scalar_values_bound (s.N : Int) s.E_C s.E_O (a : Int) (b : Int) (v : Int)
    (binom2 (k : Int)) (binom2 (a : Int)) (binom2 (b : Int)) (binom2 (v : Int))
    hn1 hECle hEO hle ⟨Int.natCast_nonneg _, by exact_mod_cast haN⟩
    ⟨Int.natCast_nonneg _, by exact_mod_cast hbN⟩ ⟨Int.natCast_nonneg _, by exact_mod_cast hvN⟩
    ⟨binom2_nonneg k, binom2_le k s.N hkN⟩ ⟨binom2_nonneg a, binom2_le a s.N haN⟩
    ⟨binom2_nonneg b, binom2_le b s.N hbN⟩ ⟨binom2_nonneg v, binom2_le v s.N hvN⟩
  constructor
  · rw [absorbLongs_eq]
    simp only [List.forall_mem_append]
    refine ⟨⟨⟨⟨⟨⟨⟨⟨?_, ?_⟩, ?_⟩, ?_⟩, ?_⟩, ?_⟩, ?_⟩, ?_⟩, hLL⟩
    · rw [hk]; exact fun x hx => up x (binom2Longs_bound k s.N hkN hN x hx)
    · rw [hVn, hk, hVA, hVB]
      intro x hx
      apply hsc x
      simp only [List.mem_cons, List.mem_singleton, List.not_mem_nil, or_false] at hx ⊢
      tauto
    · rw [hVA]; exact fun x hx => up x (binom2Longs_bound a s.N haN hN x hx)
    · rw [hVA]
      intro x hx
      apply hsc x
      simp only [List.mem_cons, List.mem_singleton, List.not_mem_nil, or_false] at hx ⊢
      tauto
    · rw [hVB]; exact fun x hx => up x (binom2Longs_bound b s.N hbN hN x hx)
    · rw [hVA, hVB]
      intro x hx
      apply hsc x
      simp only [List.mem_cons, List.mem_singleton, List.not_mem_nil, or_false] at hx ⊢
      tauto
    · rw [hVn]; exact fun x hx => up x (binom2Longs_bound v s.N hvN hN x hx)
    · rw [hVn, hVA, hVB]
      intro x hx
      apply hsc x
      simp only [List.mem_cons, List.mem_singleton, List.not_mem_nil, or_false] at hx ⊢
      tauto
  · rw [absorbInts_eq]
    intro x hx
    rw [List.mem_append] at hx
    rcases hx with hx | hx
    · simp only [List.mem_cons, List.mem_singleton, List.not_mem_nil, or_false] at hx
      have hk' : (k : Int) ≤ s.N := by exact_mod_cast hkN
      have ha' : (a : Int) ≤ s.N := by exact_mod_cast haN
      have hb' : (b : Int) ≤ s.N := by exact_mod_cast hbN
      have hv' : (v : Int) ≤ s.N := by exact_mod_cast hvN
      rcases hx with e | e | e | e
      · rw [e, hk]; exact ⟨Int.natCast_nonneg _, by linarith⟩
      · rw [e, hVA]; exact ⟨Int.natCast_nonneg _, by linarith⟩
      · rw [e, hVB]; exact ⟨Int.natCast_nonneg _, by linarith⟩
      · rw [e, hVn]; exact ⟨Int.natCast_nonneg _, by linarith⟩
    · exact hLI x hx

/-! ## Machine integers -/

/-- Ranges of the values computed by one call of `Union` from a state that agrees with a
partition. -/
theorem Union_values_bound (en : Enumeration) (s : State) (root d : Nat → Nat)
    (F : Forest s.N s.Parent root d) (S : Sem s root) (u v : Nat)
    (hu : inRange s.N u) (hv : inRange s.N v) (hN : 1 ≤ s.N) (hEO : 0 ≤ s.E_O)
    (hle : s.E_O ≤ s.E_C) :
    (∀ x ∈ UnionLongs en s u v,
      -(2 * ((s.N : Int) * s.N)) ≤ x ∧ x ≤ 5 * ((s.N : Int) * ((s.N : Int) * s.N))) ∧
    (∀ x ∈ UnionInts en s u v, 0 ≤ x ∧ x ≤ 2 * (s.N : Int)) := by
  obtain ⟨P1, hF1, F1, fix1⟩ := Find_total F u hu
  obtain ⟨P2, hF2, F2, fix2⟩ := Find_total F1 v hv
  have fix : ∀ j, P2 j = j ↔ s.Parent j = j := fun j => (fix2 j).trans (fix1 j)
  have hru := F.root_range u hu
  have hrv := F.root_range v hv
  have hPu : P2 (root u) = root u := F2.root_fix u hu
  have hPv : P2 (root v) = root v := F2.root_fix v hv
  have cast : ∀ i : Nat, inRange s.N i → (0 : Int) ≤ (i : Int) ∧ (i : Int) ≤ 2 * (s.N : Int) := by
    intro i hi
    unfold inRange at hi
    exact ⟨Int.natCast_nonneg _, by exact_mod_cast hi.2⟩
  by_cases he : root u = root v
  · constructor
    · intro x hx
      unfold UnionLongs at hx
      simp only [hF1, hF2, if_pos he] at hx
      exact absurd hx (List.not_mem_nil _)
    · intro x hx
      unfold UnionInts at hx
      simp only [hF1, hF2, if_pos he, List.mem_append, List.mem_cons, List.mem_singleton,
        List.not_mem_nil, or_false] at hx
      rcases hx with (e | e) | (e | e)
      · rw [e]; exact cast u hu
      · rw [e]; exact cast v hv
      · rw [e]; exact cast _ hru
      · rw [e]; exact cast _ hrv
  · by_cases hsz : (s.overlaps (root u)).size > (s.overlaps (root v)).size
    · obtain ⟨hL, hI⟩ := absorb_values_bound en s P2 root d F2 fix S (root v) (root u) hrv hru
        hPv hPu (fun e => he e.symm) hN hEO hle
      constructor
      · intro x hx
        unfold UnionLongs at hx
        simp only [hF1, hF2, if_neg he, if_pos hsz] at hx
        exact hL x hx
      · intro x hx
        unfold UnionInts at hx
        simp only [hF1, hF2, if_neg he, if_pos hsz, List.mem_append, List.mem_cons,
          List.mem_singleton, List.not_mem_nil, or_false] at hx
        rcases hx with (e | e) | (e | e) | hx
        · rw [e]; exact cast u hu
        · rw [e]; exact cast v hv
        · rw [e]; exact cast _ hru
        · rw [e]; exact cast _ hrv
        · exact hI x hx
    · obtain ⟨hL, hI⟩ := absorb_values_bound en s P2 root d F2 fix S (root u) (root v) hru hrv
        hPu hPv he hN hEO hle
      constructor
      · intro x hx
        unfold UnionLongs at hx
        simp only [hF1, hF2, if_neg he, if_neg hsz] at hx
        exact hL x hx
      · intro x hx
        unfold UnionInts at hx
        simp only [hF1, hF2, if_neg he, if_neg hsz, List.mem_append, List.mem_cons,
          List.mem_singleton, List.not_mem_nil, or_false] at hx
        rcases hx with (e | e) | (e | e) | hx
        · rw [e]; exact cast u hu
        · rw [e]; exact cast v hv
        · rw [e]; exact cast _ hru
        · rw [e]; exact cast _ hrv
        · exact hI x hx

/-- The accumulators of a state satisfying the invariant: `0 ≤ E_O ≤ E_C ≤ 2 N³`. -/
theorem Inv.acc_bounds {E : List (Nat × Nat)} {s : State} (hI : Inv E s) :
    0 ≤ s.E_O ∧ s.E_O ≤ s.E_C ∧ s.E_C ≤ 2 * ((s.N : Int) * ((s.N : Int) * s.N)) := by
  obtain ⟨_, h2, h3⟩ := hI.nonneg
  obtain ⟨root, d, F, S, _⟩ := hI
  have := S.E_C_le
  exact ⟨h2, by linarith, by linarith⟩

theorem square_cube_bound (n : Int) (h0 : 0 ≤ n) (h : n ≤ 200000) :
    n * n ≤ 40000000000 ∧ n * (n * n) ≤ 8000000000000000 := by
  have h1 : n * n ≤ 40000000000 := by nlinarith
  have h2 : 0 ≤ n * n := mul_nonneg h0 h0
  exact ⟨h1, by nlinarith⟩

theorem fitsLong_of_bound (n x : Int) (h0 : 0 ≤ n) (h : n ≤ 200000)
    (hx : -(2 * (n * n)) ≤ x ∧ x ≤ 5 * (n * (n * n))) : fitsLong x := by
  obtain ⟨h1, h2⟩ := square_cube_bound n h0 h
  unfold fitsLong
  constructor
  · have : -(2 : Int) ^ 63 ≤ -(2 * 40000000000) := by norm_num
    linarith
  · have : 5 * (8000000000000000 : Int) ≤ 2 ^ 63 - 1 := by norm_num
    linarith

theorem fitsInt_of_bound (n x : Int) (h : n ≤ 200000) (hx : 0 ≤ x ∧ x ≤ 2 * n + 1) :
    fitsInt x := by
  unfold fitsInt
  constructor
  · have : -(2 : Int) ^ 31 ≤ 0 := by norm_num
    linarith
  · have : 2 * (200000 : Int) + 1 ≤ 2 ^ 31 - 1 := by norm_num
    linarith

/-- C21: for every `N ≤ 200000`, every state reachable from initialisation and every
request `(a, b)` with `1 ≤ a, b ≤ N`: the call `Union(a, N + b)` returns, and every
`long long` value computed by it and by the output that follows (arguments,
intermediate products and results of `binom2`, `E_O` after step 2, `V_A`, `V_B`,
`V_A + V_B`, `V_new`, `E_C` after each of its three updates, every product
`k_AC * k_BC` and every value of `E_O` in the loop, and `E_C`, `E_O`, `E_C - E_O` at the
output) lies in the signed 64-bit range, while every `int` value (`2N`, `2N + 1`, the
node ids, `k_AB`, the clique sizes read, `(int)V_new`, and `k_AC`, `k_BC`,
`k_BC + k_AC` of every iteration) lies in the signed 32-bit range; so do the accumulators,
the clique sizes and the overlap weights of the live representatives of the state. -/
theorem C21_values_fit_machine_integers (en : Enumeration) (N : Nat) (s : State) (a b : Nat)
    (hN : N ≤ 200000) (hR : Reachable N s) (ha1 : 1 ≤ a) (ha : a ≤ N) (hb1 : 1 ≤ b)
    (hb : b ≤ N) :
    (∃ s1, Union en s a (N + b) = some s1 ∧ fitsLong (s1.E_C - s1.E_O)) ∧
    (∀ x ∈ requestLongs en s a b, fitsLong x) ∧
    (∀ x ∈ requestInts en s a b, fitsInt x) ∧
    fitsLong s.E_C ∧ fitsLong s.E_O ∧
    (∀ r, isRep s r → fitsInt (s.clique_size r)) ∧
    (∀ r, isRep s r → ∀ p ∈ s.overlaps r, fitsInt p.2) := by
  obtain ⟨hNs, E, hI⟩ := hR.inv
  subst hNs
  have hA : inRange s.N a := by unfold inRange; omega
  have hB : inRange s.N (s.N + b) := by unfold inRange; omega
  have hn0 : (0 : Int) ≤ (s.N : Int) := Int.natCast_nonneg _
  have hn : (s.N : Int) ≤ 200000 := by exact_mod_cast hN
  have hnn : (0 : Int) ≤ (s.N : Int) * s.N := mul_nonneg hn0 hn0
  have hnnn : (0 : Int) ≤ (s.N : Int) * ((s.N : Int) * s.N) := mul_nonneg hn0 hnn
  obtain ⟨s1, hU, hI1, hN1⟩ := Union_inv en E s a (s.N + b) hI hA hB
  obtain ⟨e1, e2, e3⟩ := hI.acc_bounds
  obtain ⟨f1, f2, f3⟩ := hI1.acc_bounds
  rw [hN1] at f3
  obtain ⟨root, d, F, S, _⟩ := hI
  obtain ⟨hL, hIn⟩ := Union_values_bound en s root d F S a (s.N + b) hA hB (by omega) e1 e2
  have long : ∀ x : Int, -(2 * ((s.N : Int) * s.N)) ≤ x ∧
      x ≤ 5 * ((s.N : Int) * ((s.N : Int) * s.N)) → fitsLong x :=
    fun x hx => fitsLong_of_bound (s.N : Int) x hn0 hn hx
  have int : ∀ x : Int, 0 ≤ x ∧ x ≤ 2 * (s.N : Int) + 1 → fitsInt x :=
    fun x hx => fitsInt_of_bound (s.N : Int) x hn hx
  refine ⟨⟨s1, hU, long _ ⟨by linarith, by linarith⟩⟩, ?_, ?_, long _ ⟨by linarith, by linarith⟩,
    long _ ⟨by linarith, by linarith⟩, ?_, ?_⟩
  · intro x hx
    unfold requestLongs at hx
    simp only [hU, List.mem_append, List.mem_cons, List.mem_singleton, List.not_mem_nil,
      or_false] at hx
    rcases hx with hx | e | e | e
    · exact long x (hL x hx)
    · rw [e]; exact long _ ⟨by linarith, by linarith⟩
    · rw [e]; exact long _ ⟨by linarith, by linarith⟩
    · rw [e]; exact long _ ⟨by linarith, by linarith⟩
  · intro x hx
    unfold requestInts at hx
    have ha' : (a : Int) ≤ s.N := by exact_mod_cast ha
    have hb' : (b : Int) ≤ s.N := by exact_mod_cast hb
    have ha0 : (0 : Int) ≤ (a : Int) := Int.natCast_nonneg _
    have hb0 : (0 : Int) ≤ (b : Int) := Int.natCast_nonneg _
    simp only [List.mem_append, List.mem_cons, List.mem_singleton, List.not_mem_nil,
      or_false] at hx
    rcases hx with (e | e | e | e | e) | hx
    · rw [e]; exact int _ ⟨by linarith, by linarith⟩
    · rw [e]; exact int _ ⟨by linarith, by linarith⟩
    · rw [e]; exact int _ ⟨by linarith, by linarith⟩
    · rw [e]; exact int _ ⟨by linarith, by linarith⟩
    · rw [e]; exact int _ ⟨by linarith, by linarith⟩
    · have := hIn x hx
      exact int x ⟨this.1, by linarith⟩
  · intro r hr
    rw [S.cs r hr.1 hr.2]
    have h := clique_card_le s.N root r
    have h' : ((clique s.N root r).card : Int) ≤ s.N := by exact_mod_cast h
    exact int _ ⟨Int.natCast_nonneg _, by linarith⟩
  · intro r hr p hp
    obtain ⟨c, w⟩ := p
    have hf := find_of_mem _ (S.nodup r) c w hp
    obtain ⟨_, _, hw, _⟩ := S.entry F r c w hr hf
    have h := bridge_card_le s.N root r c
    have h' : ((bridge s.N root r c).card : Int) ≤ s.N := by exact_mod_cast h
    show fitsInt w
    rw [hw]
    exact int _ ⟨Int.natCast_nonneg _, by linarith⟩

theorem C21_witness :
    2 ≤ 200000 ∧ Reachable 2 stateAfterOne ∧ 1 ≤ 2 ∧ 2 ≤ 2 ∧ 1 ≤ 1 ∧ 1 ≤ 2 ∧
    ((∃ s1, Union Enumeration.storage stateAfterOne 2 (2 + 1) = some s1 ∧
      fitsLong (s1.E_C - s1.E_O)) ∧
    (∀ x ∈ requestLongs Enumeration.storage stateAfterOne 2 1, fitsLong x) ∧
    (∀ x ∈ requestInts Enumeration.storage stateAfterOne 2 1, fitsInt x) ∧
    fitsLong stateAfterOne.E_C ∧ fitsLong stateAfterOne.E_O ∧
    (∀ r, isRep stateAfterOne r → fitsInt (stateAfterOne.clique_size r)) ∧
    (∀ r, isRep stateAfterOne r → ∀ p ∈ stateAfterOne.overlaps r, fitsInt p.2)) :=
  ⟨by decide, stateAfterOne_reachable, by decide, by decide, by decide, by decide,
    C21_values_fit_machine_integers Enumeration.storage 2 stateAfterOne 2 1 (by decide)
      stateAfterOne_reachable (by decide) (by decide) (by decide) (by decide)⟩

/-! ## The potential of the small-to-large merges -/

theorem logSum_zero : logSum 0 = 0 := by
  simp [logSum]

theorem logSum_succ (n : Nat) : logSum (n + 1) = logSum n + (Nat.log 2 (n + 1) + 1) := by
  unfold logSum
  rw [Finset.sum_Icc_succ_top (by omega)]

theorem logSum_add_le (M : Nat) (m : Nat) :
    ∀ j, m + j ≤ M → logSum (m + j) ≤ logSum m + j * (Nat.log 2 M + 1) := by
  intro j
  induction j with
  | zero => intro _; simp
  | succ j ih =>
    intro h
    have h1 := ih (by omega)
    have h2 : Nat.log 2 (m + j + 1) ≤ Nat.log 2 M := Nat.log_mono_right h
    have e : m + (j + 1) = (m + j) + 1 := by omega
    rw [e, logSum_succ (m + j), Nat.add_mul]
    omega

theorem logSum_le (M n : Nat) (h : n ≤ M) : logSum n ≤ n * (Nat.log 2 M + 1) := by
  have := logSum_add_le M 0 n (by omega)
  rw [Nat.zero_add, logSum_zero, Nat.zero_add] at this
  exact this

/-- Joining `a` terms to `b ≥ a` terms gains at least `a`: the `j`-th new term is
`log2 (b + j) + 1 ≥ log2 (2 j) + 1 = (log2 j + 1) + 1`. -/
theorem logSum_superadd (b : Nat) :
    ∀ a, a ≤ b → logSum a + logSum b + a ≤ logSum (b + a) := by
  intro a
  induction a with
  | zero => intro _; simp [logSum_zero]
  | succ a ih =>
    intro h
    have h1 := ih (by omega)
    have h2 : Nat.log 2 ((a + 1) * 2) = Nat.log 2 (a + 1) + 1 :=
      Nat.log_mul_base (by omega) (by omega)
    have h3 : Nat.log 2 ((a + 1) * 2) ≤ Nat.log 2 (b + a + 1) :=
      Nat.log_mono_right (by omega)
    have e : b + (a + 1) = (b + a) + 1 := by omega
    rw [e, logSum_succ (b + a), logSum_succ a]
    omega

/-- The neighbour count of a live representative other than the two merged ones drops
by one exactly when it was a neighbour of both. -/
theorem degree_absorb_other (en : Enumeration) (s : State) (P root d : Nat → Nat)
    (F : Forest s.N P root d) (hfix : ∀ j, P j = j ↔ s.Parent j = j) (S : Sem s root)
    (X Y : Nat) (hX : inRange s.N X) (hY : inRange s.N Y) (hPX : P X = X) (hPY : P Y = Y)
    (hXY : X ≠ Y) (r : Nat) (hr : isRep s r) (hrX : r ≠ X) (hrY : r ≠ Y) :
    degree (absorb en s P X Y) r + (if r ∈ commonNeighbours s X Y then 1 else 0)
      = degree s r := by
  have hYX : Y ≠ X := fun e => hXY e.symm
  have hsX : isRep s X := ⟨hX, (hfix X).1 hPX⟩
  have hsY : isRep s Y := ⟨hY, (hfix Y).1 hPY⟩
  obtain ⟨_, _, _, hnd⟩ := absorb_loop en s P root d F hfix S X Y hX hY hPX hPY hXY
  have hmemD : r ∈ commonNeighbours s X Y ↔ X ∈ neighbours s r ∧ Y ∈ neighbours s r := by
    unfold commonNeighbours
    rw [Finset.mem_inter, S.neighbours_symm X r hsX hr, S.neighbours_symm Y r hsY hr]
  rw [degree_eq_card _ r (hnd r), degree_eq_card s r (S.nodup r),
    neighbours_absorb_other en s P root d F hfix S X Y hX hY hPX hPY hXY r hr hrX hrY]
  by_cases hXm : X ∈ neighbours s r
  · rw [if_pos hXm]
    by_cases hYm : Y ∈ neighbours s r
    · rw [if_pos (hmemD.2 ⟨hXm, hYm⟩)]
      have hYe : Y ∈ (neighbours s r).erase X := Finset.mem_erase.2 ⟨hYX, hYm⟩
      rw [Finset.insert_eq_of_mem hYe, Finset.card_erase_of_mem hXm]
      have := Finset.card_pos.2 ⟨X, hXm⟩
      omega
    · rw [if_neg (fun h => hYm (hmemD.1 h).2)]
      have hYe : Y ∉ (neighbours s r).erase X := fun h => hYm (Finset.mem_erase.1 h).2
      rw [Finset.card_insert_of_not_mem hYe, Finset.card_erase_of_mem hXm]
      have := Finset.card_pos.2 ⟨X, hXm⟩
      omega
  · rw [if_neg hXm, if_neg (fun h => hXm (hmemD.1 h).1)]
    rfl

/-- The step-5 loop of an effective merge runs at most as many times as the absorbed
representative has neighbours. -/
theorem absorbIterations_le (en : Enumeration) (s : State) (P root d : Nat → Nat)
    (F : Forest s.N P root d) (hfix : ∀ j, P j = j ↔ s.Parent j = j) (S : Sem s root)
    (X Y : Nat) (hX : inRange s.N X) (hPX : P X = X) (hXY : X ≠ Y) :
    absorbIterations en s X Y ≤ degree s X := by
  obtain ⟨hnd, _⟩ := absorb_keys en s P root d F hfix S X Y hX hPX hXY
  have hsub : (HashMap.keys (en.run (unlink s.overlaps X Y (weight s.overlaps X Y) X))).toFinset
      ⊆ neighbours s X := by
    intro c hc
    rw [List.mem_toFinset] at hc
    obtain ⟨p, hp, e⟩ := List.mem_map.1 hc
    rw [← e, mem_neighbours]
    exact ⟨p.2, (absorb_run_entry en s P root d F hfix S X Y hX hPX hXY p hp).2.2.2.1⟩
  have h := Finset.card_le_card hsub
  rw [List.toFinset_card_of_nodup hnd, ← degree_eq_card s X (S.nodup X)] at h
  simp only [HashMap.keys, List.length_map] at h
  exact h

theorem degree_le_totalDegree (s : State) (r : Nat) (hr : r ∈ liveReps s) :
    degree s r ≤ totalDegree s := by
  unfold totalDegree
  exact Finset.single_le_sum (f := fun r => degree s r) (fun _ _ => Nat.zero_le _) hr

/-- The arithmetic of one merge: with `y + 2 adj + dd = a + b`, the cost `a` of moving the
smaller side is paid for by the growth of the potential and the drop of the total
degree. -/
theorem potential_arith (L cost a b y adj dd A1 A2 B1 B2 Fa Fb Fab Fy : Nat)
    (h2 : y + 2 * adj + dd = a + b) (hB : B2 + dd = B1) (hA : A1 ≤ A2 + dd * L)
    (hsup : Fa + Fb + a ≤ Fab) (hFab : Fab ≤ Fy + (2 * adj + dd) * L) (hcost : cost ≤ a) :
    cost + (Fa + (Fb + A1)) + L * (y + B2) ≤ (Fy + A2) + L * (a + (b + B1)) := by
  have e : a + (b + B1) = (y + B2) + (2 * adj + dd) + dd := by omega
  have e1 : L * (y + B2 + (2 * adj + dd) + dd)
      = L * (y + B2) + (2 * adj + dd) * L + dd * L := by ring
  rw [e, e1]
  omega

/-- One effective merge, absorbing the side with fewer neighbours: the number of loop
iterations is paid for by the potential. -/
theorem absorb_potential (en : Enumeration) (s : State) (P root d : Nat → Nat)
    (Fs : Forest s.N s.Parent root d) (F : Forest s.N P root d)
    (hfix : ∀ j, P j = j ↔ s.Parent j = j) (S : Sem s root)
    (X Y : Nat) (hX : inRange s.N X) (hY : inRange s.N Y) (hPX : P X = X) (hPY : P Y = Y)
    (hXY : X ≠ Y) (hle : degree s X ≤ degree s Y) (hTD : totalDegree s ≤ 2 * s.N) :
    totalDegree (absorb en s P X Y) ≤ totalDegree s ∧
    absorbIterations en s X Y + potential s
        + (Nat.log 2 (2 * s.N) + 1) * totalDegree (absorb en s P X Y)
      ≤ potential (absorb en s P X Y) + (Nat.log 2 (2 * s.N) + 1) * totalDegree s := by
  have hYX : Y ≠ X := fun e => hXY e.symm
  have hsX : isRep s X := ⟨hX, (hfix X).1 hPX⟩
  have hsY : isRep s Y := ⟨hY, (hfix Y).1 hPY⟩
  have hXL : X ∈ liveReps s := (mem_liveReps s X).2 hsX
  have hYL : Y ∈ (liveReps s).erase X := Finset.mem_erase.2 ⟨hYX, (mem_liveReps s Y).2 hsY⟩
  have hL' := liveReps_absorb en s P hfix X Y hXY
  -- the representatives other than the merged ones
  have hM : ∀ r ∈ ((liveReps s).erase X).erase Y, isRep s r ∧ r ≠ X ∧ r ≠ Y := by
    intro r hr
    obtain ⟨h1, h2, h3⟩ := mem_erase_two _ X Y r hr
    exact ⟨(mem_liveReps s r).1 h3, h1, h2⟩
  have hdeg : ∀ r ∈ ((liveReps s).erase X).erase Y,
      degree (absorb en s P X Y) r + (if r ∈ commonNeighbours s X Y then 1 else 0)
        = degree s r := by
    intro r hr
    obtain ⟨h1, h2, h3⟩ := hM r hr
    exact degree_absorb_other en s P root d F hfix S X Y hX hY hPX hPY hXY r h1 h2 h3
  have hDsub : commonNeighbours s X Y ⊆ ((liveReps s).erase X).erase Y := by
    intro c hc
    unfold commonNeighbours at hc
    obtain ⟨h1, h2⟩ := Finset.mem_inter.1 hc
    obtain ⟨a1, a2⟩ := S.neighbours_live Fs X c hsX h1
    obtain ⟨_, b2⟩ := S.neighbours_live Fs Y c hsY h2
    exact Finset.mem_erase.2 ⟨b2, Finset.mem_erase.2 ⟨a2, (mem_liveReps s c).2 a1⟩⟩
  have hcount : ∑ r in ((liveReps s).erase X).erase Y,
      (if r ∈ commonNeighbours s X Y then 1 else 0) = (commonNeighbours s X Y).card := by
    rw [Finset.sum_boole]
    simp only [Nat.cast_id]
    congr 1
    ext c
    rw [Finset.mem_filter]
    exact ⟨fun h => h.2, fun h => ⟨hDsub h, h⟩⟩
  have hB : ∑ r in ((liveReps s).erase X).erase Y, degree (absorb en s P X Y) r
      + (commonNeighbours s X Y).card = ∑ r in ((liveReps s).erase X).erase Y, degree s r := by
    rw [← hcount, ← Finset.sum_add_distrib]
    exact Finset.sum_congr rfl hdeg
  have hA : ∑ r in ((liveReps s).erase X).erase Y, logSum (degree s r)
      ≤ ∑ r in ((liveReps s).erase X).erase Y, logSum (degree (absorb en s P X Y) r)
        + (commonNeighbours s X Y).card * (Nat.log 2 (2 * s.N) + 1) := by
    rw [← hcount, Finset.sum_mul, ← Finset.sum_add_distrib]
    apply Finset.sum_le_sum
    intro r hr
    have h1 := hdeg r hr
    have h2 : degree s r ≤ 2 * s.N :=
      le_trans (degree_le_totalDegree s r ((mem_liveReps s r).2 (hM r hr).1)) hTD
    by_cases hc : r ∈ commonNeighbours s X Y
    · rw [if_pos hc] at h1 ⊢
      rw [← h1]
      have := logSum_add_le (2 * s.N) (degree (absorb en s P X Y) r) 1 (by omega)
      omega
    · rw [if_neg hc] at h1 ⊢
      rw [← h1, Nat.add_zero, Nat.zero_mul, Nat.add_zero]
  -- the two merged representatives
  obtain ⟨h2, _⟩ := degree_absorb_survivor en s P root d F hfix S X Y hX hY hPX hPY hXY
  have hcost := absorbIterations_le en s P root d F hfix S X Y hX hPX hXY
  have hTDs : totalDegree s = degree s X + (degree s Y
      + ∑ r in ((liveReps s).erase X).erase Y, degree s r) := by
    unfold totalDegree
    rw [← Finset.add_sum_erase (liveReps s) _ hXL, ← Finset.add_sum_erase _ _ hYL]
  have hTDa : totalDegree (absorb en s P X Y) = degree (absorb en s P X Y) Y
      + ∑ r in ((liveReps s).erase X).erase Y, degree (absorb en s P X Y) r := by
    unfold totalDegree
    rw [hL', ← Finset.add_sum_erase _ _ hYL]
  have hPs : potential s = logSum (degree s X) + (logSum (degree s Y)
      + ∑ r in ((liveReps s).erase X).erase Y, logSum (degree s r)) := by
    unfold potential
    rw [← Finset.add_sum_erase (liveReps s) _ hXL, ← Finset.add_sum_erase _ _ hYL]
  have hPa : potential (absorb en s P X Y) = logSum (degree (absorb en s P X Y) Y)
      + ∑ r in ((liveReps s).erase X).erase Y, logSum (degree (absorb en s P X Y) r) := by
    unfold potential
    rw [hL', ← Finset.add_sum_erase _ _ hYL]
  have hsup := logSum_superadd (degree s Y) (degree s X) hle
  have hab : degree s X + degree s Y ≤ 2 * s.N := by
    rw [hTDs] at hTD
    omega
  have hFab := logSum_add_le (2 * s.N) (degree (absorb en s P X Y) Y)
    (2 * adjacency s X Y + (commonNeighbours s X Y).card) (by omega)
  have e : degree (absorb en s P X Y) Y + (2 * adjacency s X Y + (commonNeighbours s X Y).card)
      = degree s Y + degree s X := by omega
  rw [e] at hFab
  constructor
  · rw [hTDs, hTDa]
    omega
  · rw [hTDs, hTDa, hPs, hPa]
    exact potential_arith _ _ _ _ _ _ _ _ _ _ _ _ _ _ _ h2 hB hA hsup hFab hcost

/-! ## The total number of loop iterations -/

theorem totalDegree_init (N : Nat) : totalDegree (init N) = 2 * N := by
  obtain ⟨hN, _, _, _, _, hov⟩ := init_fields N
  unfold totalDegree
  rw [liveReps_init]
  have h1 : ∀ r ∈ Finset.Icc 1 (2 * N), degree (init N) r = 1 := by
    intro r hr
    rw [Finset.mem_Icc] at hr
    unfold degree HashMap.size
    rw [hov r]
    by_cases h : 1 ≤ r ∧ r ≤ N
    · rw [if_pos h]; rfl
    · rw [if_neg h, if_pos (by omega)]; rfl
  rw [Finset.sum_congr rfl h1]
  simp

theorem potential_le (s : State) (hTD : totalDegree s ≤ 2 * s.N) :
    potential s ≤ (Nat.log 2 (2 * s.N) + 1) * totalDegree s := by
  unfold potential totalDegree
  rw [Finset.mul_sum]
  apply Finset.sum_le_sum
  intro r hr
  have h := logSum_le (2 * s.N) (degree s r) (le_trans (degree_le_totalDegree s r hr) hTD)
  rw [Nat.mul_comm]
  exact h

/-- One call of `Union` from a state satisfying the invariant: the iterations of its
loop are paid for by the potential, and the total degree does not grow. -/
theorem Union_potential (en : Enumeration) (E : List (Nat × Nat)) (s : State) (u v : Nat)
    (hI : Inv E s) (hu : inRange s.N u) (hv : inRange s.N v)
    (hTD : totalDegree s ≤ 2 * s.N) :
    ∃ s1, Union en s u v = some s1 ∧ Inv ((u, v) :: E) s1 ∧ s1.N = s.N ∧
      totalDegree s1 ≤ totalDegree s ∧
      loopIterations en s u v + potential s + (Nat.log 2 (2 * s.N) + 1) * totalDegree s1
        ≤ potential s1 + (Nat.log 2 (2 * s.N) + 1) * totalDegree s := by
  obtain ⟨s1, hU, hI1, hN1⟩ := Union_inv en E s u v hI hu hv
  refine ⟨s1, hU, hI1, hN1, ?_⟩
  obtain ⟨root, d, F, S, _⟩ := hI
  obtain ⟨P1, hF1, F1, fix1⟩ := Find_total F u hu
  obtain ⟨P2, hF2, F2, fix2⟩ := Find_total F1 v hv
  have fix : ∀ j, P2 j = j ↔ s.Parent j = j := fun j => (fix2 j).trans (fix1 j)
  have hru := F.root_range u hu
  have hrv := F.root_range v hv
  have hPu : P2 (root u) = root u := F2.root_fix u hu
  have hPv : P2 (root v) = root v := F2.root_fix v hv
  by_cases he : root u = root v
  · have hU' : Union en s u v = some { s with Parent := P2 } := by
      unfold Union
      simp only [hF1, hF2, if_pos he]
    have hL : loopIterations en s u v = 0 := by
      unfold loopIterations
      simp only [hF1, hF2, if_pos he]
    rw [hU'] at hU
    injection hU with e
    subst e
    have hlive := liveReps_congr s { s with Parent := P2 } rfl fix
    have hT : totalDegree { s with Parent := P2 } = totalDegree s := by
      unfold totalDegree
      rw [hlive]
      rfl
    have hP : potential { s with Parent := P2 } = potential s := by
      unfold potential
      rw [hlive]
      rfl
    rw [hL, hT, hP]
    omega
  · by_cases hsz : (s.overlaps (root u)).size > (s.overlaps (root v)).size
    · have hU' : Union en s u v = some (absorb en s P2 (root v) (root u)) := by
        unfold Union
        simp only [hF1, hF2, if_neg he, if_pos hsz]
      have hL : loopIterations en s u v = absorbIterations en s (root v) (root u) := by
        unfold loopIterations
        simp only [hF1, hF2, if_neg he, if_pos hsz]
      rw [hU'] at hU
      injection hU with e
      subst e
      rw [hL]
      exact absorb_potential en s P2 root d F F2 fix S (root v) (root u) hrv hru hPv hPu
        (fun e => he e.symm) (by unfold degree; omega) hTD
    · have hU' : Union en s u v = some (absorb en s P2 (root u) (root v)) := by
        unfold Union
        simp only [hF1, hF2, if_neg he, if_neg hsz]
      have hL : loopIterations en s u v = absorbIterations en s (root u) (root v) := by
        unfold loopIterations
        simp only [hF1, hF2, if_neg he, if_neg hsz]
      rw [hU'] at hU
      injection hU with e
      subst e
      rw [hL]
      exact absorb_potential en s P2 root d F F2 fix S (root u) (root v) hru hrv hPu hPv
        he (by unfold degree; omega) hTD

/-- Along the request loop the loop iterations are paid for by the potential. -/
theorem totalIterations_potential (en : Nat → Enumeration) (N : Nat) :
    ∀ (reqs : List (Nat × Nat)) (t : Nat) (s : State) (E : List (Nat × Nat)),
      s.N = N → Inv E s → validReqs N reqs → totalDegree s ≤ 2 * N →
      ∃ s' out, process en t s reqs = some (s', out) ∧ out.length = reqs.length ∧ s'.N = N ∧
        totalDegree s' ≤ 2 * N ∧
        totalIterations en t s reqs + potential s + (Nat.log 2 (2 * N) + 1) * totalDegree s'
          ≤ potential s' + (Nat.log 2 (2 * N) + 1) * totalDegree s := by
  intro reqs
  induction reqs with
  | nil =>
    intro t s E hN _ _ hTD
    exact ⟨s, [], rfl, rfl, hN, hTD, by simp [totalIterations]⟩
  | cons q rest ih =>
    obtain ⟨A, B⟩ := q
    intro t s E hN hI hv hTD
    subst hN
    have hq := hv (A, B) (List.mem_cons_self _ _)
    simp only at hq
    have hA : inRange s.N A := by unfold inRange; omega
    have hB : inRange s.N (s.N + B) := by unfold inRange; omega
    obtain ⟨s1, hU, hI1, hN1, hT1, hstep⟩ := Union_potential (en t) E s A (s.N + B) hI hA hB hTD
    obtain ⟨s2, out, hP, hlen, hN2, hT2, hrest⟩ := ih (t + 1) s1 _ hN1 hI1
      (fun p hp => hv p (List.mem_cons_of_mem _ hp)) (by omega)
    refine ⟨s2, (s1.E_C - s1.E_O) :: out, ?_, ?_, hN2, hT2, ?_⟩
    · simp only [process, hU, hP]
    · simp only [List.length_cons, hlen]
    · simp only [totalIterations, hU]
      omega

/-! ## Map sizes, clique sizes, the forest and the number of representatives -/

theorem touching_eq {s : State} {root d : Nat → Nat} (F : Forest s.N s.Parent root d)
    (r : Nat) : touching s r = clique s.N root r := by
  unfold touching clique
  apply Finset.filter_congr
  intro i hi
  obtain ⟨h1, h2⟩ := ent_range s.N i hi
  rw [findRep_root F i h1, findRep_root F _ h2]
  simp only [Option.some.injEq]

/-- A representative has at most as many neighbours as entities touching its component:
the bridges toward distinct neighbours are disjoint non-empty sets of such entities. -/
theorem degree_le_clique {s : State} {root : Nat → Nat} (S : Sem s root) (r : Nat)
    (hr : isRep s r) : degree s r ≤ (clique s.N root r).card := by
  rw [degree_eq_card s r (S.nodup r)]
  have hdisj : ∀ x ∈ neighbours s r, ∀ y ∈ neighbours s r, x ≠ y →
      Disjoint (bridge s.N root r x) (bridge s.N root r y) := by
    intro x hx y hy hxy
    have hxr := ((S.neighbours_iff r x hr).1 hx).1
    have hyr := ((S.neighbours_iff r y hr).1 hy).1
    rw [Finset.disjoint_left]
    intro i h1 h2
    simp only [bridge, Finset.mem_filter] at h1 h2
    rcases h1.2 with ⟨a1, a2⟩ | ⟨a1, a2⟩ <;> rcases h2.2 with ⟨b1, b2⟩ | ⟨b1, b2⟩
    · exact hxy (a2.symm.trans b2)
    · exact hyr (b1.symm.trans a1)
    · exact hxr (a1.symm.trans b1)
    · exact hxy (a1.symm.trans b1)
  have hsub : (neighbours s r).biUnion (bridge s.N root r) ⊆ clique s.N root r := by
    intro i hi
    obtain ⟨c, _, hc⟩ := Finset.mem_biUnion.1 hi
    simp only [bridge, Finset.mem_filter] at hc
    simp only [clique, Finset.mem_filter]
    refine ⟨hc.1, ?_⟩
    rcases hc.2 with ⟨a1, _⟩ | ⟨_, a2⟩
    · exact Or.inl a1
    · exact Or.inr a2
  calc (neighbours s r).card = ∑ _c in neighbours s r, 1 := Finset.card_eq_sum_ones _
    _ ≤ ∑ c in neighbours s r, (bridge s.N root r c).card :=
        Finset.sum_le_sum (fun c hc => ((S.neighbours_iff r c hr).1 hc).2)
    _ = ((neighbours s r).biUnion (bridge s.N root r)).card := (Finset.card_biUnion hdisj).symm
    _ ≤ (clique s.N root r).card := Finset.card_le_card hsub

theorem Reachable.totalDegree_le {N : Nat} {s : State} (h : Reachable N s) :
    totalDegree s ≤ 2 * N := by
  induction h with
  | init => rw [totalDegree_init]
  | step en s s' a b hs h1 h2 h3 h4 hU ih =>
    obtain ⟨hN, E, hI⟩ := hs.inv
    subst hN
    obtain ⟨s1, hU1, _, _, hT, _⟩ := Union_potential en E s a (s.N + b) hI
      (by unfold inRange; omega) (by unfold inRange; omega) ih
    rw [hU] at hU1
    injection hU1 with e
    subst e
    omega

/-- The path from a node to its root: it has at most `d i` steps, stays in `1 .. 2N`,
meets no root before its end, and `d` drops along it. -/
theorem Forest.path {N : Nat} {P root d : Nat → Nat} (F : Forest N P root d) :
    ∀ n i, d i = n → inRange N i →
      ∃ k, k ≤ d i ∧ P^[k] i = root i ∧ (∀ j, j < k → P (P^[j] i) ≠ P^[j] i) ∧
        ∀ j, j ≤ k → inRange N (P^[j] i) := by
  intro n
  induction n using Nat.strong_induction_on with
  | _ n ih =>
    intro i hd hi
    by_cases hp : P i = i
    · refine ⟨0, Nat.zero_le _, (F.root_self i hi hp).symm, fun j hj => absurd hj (Nat.not_lt_zero _),
        fun j hj => ?_⟩
      have : j = 0 := by omega
      rw [this]
      exact hi
    · have hlt := F.d_parent i hi hp
      obtain ⟨k, hk, hroot, hnon, hrange⟩ :=
        ih (d (P i)) (hd ▸ hlt) (P i) rfl (F.parent_range i hi)
      refine ⟨k + 1, by omega, ?_, fun j hj => ?_, fun j hj => ?_⟩
      · rw [Function.iterate_succ_apply, hroot, F.root_parent i hi]
      · cases j with
        | zero => exact hp
        | succ j =>
          rw [Function.iterate_succ_apply]
          exact hnon j (by omega)
      · cases j with
        | zero => exact hi
        | succ j =>
          rw [Function.iterate_succ_apply]
          exact hrange j (by omega)

/-- Along a path that meets no root, `d` is strictly decreasing, so no node repeats. -/
theorem Forest.path_injective {N : Nat} {P root d : Nat → Nat} (F : Forest N P root d)
    (i k : Nat) (hnon : ∀ j, j < k → P (P^[j] i) ≠ P^[j] i)
    (hrange : ∀ j, j ≤ k → inRange N (P^[j] i)) :
    ∀ a b, a < b → b ≤ k → P^[a] i ≠ P^[b] i := by
  have hstep : ∀ j, j < k → d (P^[j + 1] i) < d (P^[j] i) := by
    intro j hj
    rw [Function.iterate_succ_apply']
    exact F.d_parent _ (hrange j (by omega)) (hnon j hj)
  have hlt : ∀ m a, a + m + 1 ≤ k → d (P^[a + m + 1] i) < d (P^[a] i) := by
    intro m
    induction m with
    | zero => intro a h; exact hstep a (by omega)
    | succ m ih =>
      intro a h
      have h1 := ih a (by omega)
      have h2 := hstep (a + m + 1) (by omega)
      have e : a + (m + 1) + 1 = a + m + 1 + 1 := by omega
      rw [e]
      omega
  intro a b hab hb heq
  have e : b = a + (b - a - 1) + 1 := by omega
  have := hlt (b - a - 1) a (by omega)
  rw [← e, ← heq] at this
  exact Nat.lt_irrefl _ this

/-- The live representatives after one call of `Union`: unchanged when the two nodes
have the same representative, one of them removed otherwise. -/
theorem Union_liveReps_set (en : Enumeration) (N : Nat) (s : State) (u v : Nat)
    (hR : Reachable N s) (hu : inRange N u) (hv : inRange N v) :
    ∃ s', Union en s u v = some s' ∧
      (findRep s u = findRep s v → liveReps s' = liveReps s) ∧
      (findRep s u ≠ findRep s v →
        ∃ X, X ∈ liveReps s ∧ liveReps s' = (liveReps s).erase X) := by
  obtain ⟨hN, E, root, d, F, S, _⟩ := hR.inv
  subst hN
  rw [findRep_root F u hu, findRep_root F v hv]
  obtain ⟨P2, F2, fix, h⟩ := Union_cases en s root d F u v hu hv
  have hLu : root u ∈ liveReps s := (mem_liveReps s _).2 ⟨F.root_range u hu, F.root_fix u hu⟩
  have hLv : root v ∈ liveReps s := (mem_liveReps s _).2 ⟨F.root_range v hv, F.root_fix v hv⟩
  rcases h with ⟨heq, hU⟩ | ⟨hne, _, hU⟩ | ⟨hne, _, hU⟩
  · refine ⟨_, hU, fun _ => liveReps_congr s { s with Parent := P2 } rfl fix,
      fun h => absurd (by rw [heq]) h⟩
  · refine ⟨_, hU, fun h => absurd (Option.some.inj h) hne,
      fun _ => ⟨root u, hLu, liveReps_absorb en s P2 fix _ _ hne⟩⟩
  · refine ⟨_, hU, fun h => absurd (Option.some.inj h) hne,
      fun _ => ⟨root v, hLv, liveReps_absorb en s P2 fix _ _ (fun e => hne e.symm)⟩⟩

/-- C31: in every state reachable from initialisation for `N` entities, the number of
entries of the overlap map of each live representative `r` is at most the number of
entities with a role node in the component of `r`, which is `clique_size[r]`; and the
sum of the overlap-map sizes over all live representatives is at most `2N`. -/
theorem C31_overlap_map_sizes_bounded (N : Nat) (s : State) (hR : Reachable N s) :
    (∀ r, isRep s r → (s.overlaps r).size ≤ (touching s r).card ∧
      (((s.overlaps r).size : Nat) : Int) ≤ s.clique_size r) ∧
    ∑ r in liveReps s, (s.overlaps r).size ≤ 2 * N := by
  obtain ⟨_, E, root, d, F, S, _⟩ := hR.inv
  refine ⟨fun r hr => ?_, hR.totalDegree_le⟩
  have h := degree_le_clique S r hr
  unfold degree at h
  rw [touching_eq F r, S.cs r hr.1 hr.2]
  exact ⟨h, by exact_mod_cast h⟩

theorem C31_witness :
    Reachable 2 stateAfterOne ∧
    ((∀ r, isRep stateAfterOne r →
      (stateAfterOne.overlaps r).size ≤ (touching stateAfterOne r).card ∧
      (((stateAfterOne.overlaps r).size : Nat) : Int) ≤ stateAfterOne.clique_size r) ∧
    ∑ r in liveReps stateAfterOne, (stateAfterOne.overlaps r).size ≤ 2 * 2) :=
  ⟨stateAfterOne_reachable, C31_overlap_map_sizes_bounded 2 stateAfterOne stateAfterOne_reachable⟩

/-- C33: in every state reachable from initialisation, `clique_size[r]` of each live
representative `r` equals the number of entities `i` in `1 .. N` with at least one role
node in the component of `r`, that is with `Find(i) = r` or `Find(N + i) = r`. -/
theorem C33_clique_size_counts_touching_entities (N : Nat) (s : State) (hR : Reachable N s) :
    ∀ r, isRep s r → s.clique_size r = ((touching s r).card : Int) := by
  obtain ⟨_, E, root, d, F, S, _⟩ := hR.inv
  intro r hr
  rw [touching_eq F r, S.cs r hr.1 hr.2]

theorem C33_witness :
    Reachable 2 stateAfterTwo ∧
    ∀ r, isRep stateAfterTwo r →
      stateAfterTwo.clique_size r = ((touching stateAfterTwo r).card : Int) :=
  ⟨stateAfterTwo_later.reachable stateAfterOne_reachable,
    C33_clique_size_counts_touching_entities 2 stateAfterTwo
      (stateAfterTwo_later.reachable stateAfterOne_reachable)⟩

/-- C34: in every state reachable from initialisation the `Parent` array is a forest:
following `Parent` from any node `i` in `1 .. 2N` reaches, after `k ≤ 2N` steps, a node
`r` in `1 .. 2N` with `Parent[r] = r`; no node before it on the path is its own parent,
and no node is visited twice; and `Find(i)` terminates, returning `r`. -/
theorem C34_parent_array_is_forest (N : Nat) (s : State) (i : Nat) (hR : Reachable N s)
    (hi : inRange N i) :
    ∃ k r, k ≤ 2 * N ∧ s.Parent^[k] i = r ∧ inRange N r ∧ s.Parent r = r ∧
      (∀ j, j < k → s.Parent (s.Parent^[j] i) ≠ s.Parent^[j] i) ∧
      (∀ a b, a < b → b ≤ k → s.Parent^[a] i ≠ s.Parent^[b] i) ∧
      ∃ P', Find (2 * s.N + 1) s.Parent i = some (r, P') := by
  obtain ⟨hN, E, root, d, F, S, _⟩ := hR.inv
  subst hN
  obtain ⟨k, hk, hroot, hnon, hrange⟩ := F.path (d i) i rfl hi
  obtain ⟨P1, hF1, _, _⟩ := Find_total F i hi
  have hd := F.d_le i hi
  have hnr := nonroots_le s.N s.Parent
  exact ⟨k, root i, by omega, hroot, F.root_range i hi, F.root_fix i hi, hnon,
    F.path_injective i k hnon hrange, P1, hF1⟩

theorem C34_witness :
    Reachable 2 stateAfterOne ∧ inRange 2 1 ∧
    ∃ k r, k ≤ 2 * 2 ∧ stateAfterOne.Parent^[k] 1 = r ∧ inRange 2 r ∧
      stateAfterOne.Parent r = r ∧
      (∀ j, j < k → stateAfterOne.Parent (stateAfterOne.Parent^[j] 1)
        ≠ stateAfterOne.Parent^[j] 1) ∧
      (∀ a b, a < b → b ≤ k → stateAfterOne.Parent^[a] 1 ≠ stateAfterOne.Parent^[b] 1) ∧
      ∃ P', Find (2 * stateAfterOne.N + 1) stateAfterOne.Parent 1 = some (r, P') :=
  ⟨stateAfterOne_reachable, by decide,
    C34_parent_array_is_forest 2 stateAfterOne 1 stateAfterOne_reachable (by decide)⟩

/-! ## The maps written by the step-5 loop -/

theorem mergeStep_untouched (A B : Nat) (ov : Nat → HashMap) (e : Int) (p : Nat × Int)
    (r : Nat) (hB : r ≠ B) (hp : r ≠ p.1) : (mergeStep A B (ov, e) p).1 r = ov r := by
  simp only [mergeStep]
  rw [setAt_other _ _ _ _ hp, setAt_other _ _ _ _ hp, setAt_other _ _ _ _ hB]

/-- The loop writes to the map of `R_B` and to the maps of the keys it visits only. -/
theorem mergeLoop_untouched (A B : Nat) (l : List (Nat × Int)) :
    ∀ (ov : Nat → HashMap) (e : Int) (r : Nat), r ≠ B → r ∉ l.map Prod.fst →
      (l.foldl (mergeStep A B) (ov, e)).1 r = ov r := by
  induction l with
  | nil => intro ov e r _ _; rfl
  | cons p t ih =>
    intro ov e r hB hr
    simp only [List.map_cons, List.mem_cons, not_or] at hr
    simp only [List.foldl_cons]
    rw [ih (mergeStep A B (ov, e) p).1 (mergeStep A B (ov, e) p).2 r hB hr.2]
    exact mergeStep_untouched A B ov e p r hB hr.1

theorem loopPrefix_zero (en : Enumeration) (s : State) (X Y : Nat) :
    loopPrefix en s X Y 0 = unlink s.overlaps X Y (weight s.overlaps X Y) := rfl

theorem loopPrefix_untouched (en : Enumeration) (s : State) (X Y : Nat) (n r : Nat)
    (hY : r ≠ Y) (hr : r ∉ (loopKeys en s X Y).take n) :
    loopPrefix en s X Y n r = loopPrefix en s X Y 0 r := by
  rw [loopPrefix_zero]
  unfold loopKeys at hr
  simp only [] at hr
  rw [← List.map_take] at hr
  exact mergeLoop_untouched X Y _ _ _ r hY hr

theorem absorb_overlaps_untouched (en : Enumeration) (s : State) (P : Nat → Nat) (X Y r : Nat)
    (hY : r ≠ Y) (hr : r ∉ loopKeys en s X Y) :
    (absorb en s P X Y).overlaps r = loopPrefix en s X Y 0 r := by
  rw [loopPrefix_zero, absorb_overlaps]
  exact mergeLoop_untouched X Y _ _ _ r hY hr

/-- C32: for every effective `Union(u, v)` from a reachable state, absorbing the
representative `X` (the `R_A` of the loop) into `Y` (the `R_B`): the keys `R_C` visited by
the step-5 loop are pairwise distinct live representatives, each different from `X` and
from `Y`; after any number `n` of iterations the map `overlaps[X]` being iterated is as it
was when the loop started, and so is every map other than `overlaps[Y]` and those of the
keys visited so far; in particular `overlaps[X]` is unchanged when the call returns. -/
theorem C32_loop_visits_distinct_representatives (en : Enumeration) (N : Nat) (s : State)
    (u v : Nat) (hR : Reachable N s) (hu : inRange N u) (hv : inRange N v)
    (hne : findRep s u ≠ findRep s v) :
    ∃ s' X Y, Union en s u v = some s' ∧
      ((findRep s u = some X ∧ findRep s v = some Y) ∨
        (findRep s u = some Y ∧ findRep s v = some X)) ∧
      s'.Parent X = Y ∧ X ≠ Y ∧
      (loopKeys en s X Y).Nodup ∧
      (∀ c ∈ loopKeys en s X Y, isRep s c ∧ c ≠ X ∧ c ≠ Y) ∧
      (∀ n, loopPrefix en s X Y n X = loopPrefix en s X Y 0 X) ∧
      (∀ n r, r ≠ Y → r ∉ (loopKeys en s X Y).take n →
        loopPrefix en s X Y n r = loopPrefix en s X Y 0 r) ∧
      s'.overlaps X = loopPrefix en s X Y 0 X ∧
      loopIterations en s u v = (loopKeys en s X Y).length := by
  obtain ⟨hN, E, root, d, F, S, _⟩ := hR.inv
  subst hN
  rw [findRep_root F u hu, findRep_root F v hv] at hne ⊢
  have hne' : root u ≠ root v := fun e => hne (by rw [e])
  obtain ⟨P1, hF1, F1, fix1⟩ := Find_total F u hu
  obtain ⟨P2, hF2, F2, fix2⟩ := Find_total F1 v hv
  have fix : ∀ j, P2 j = j ↔ s.Parent j = j := fun j => (fix2 j).trans (fix1 j)
  have hru := F.root_range u hu
  have hrv := F.root_range v hv
  have hPu : P2 (root u) = root u := F2.root_fix u hu
  have hPv : P2 (root v) = root v := F2.root_fix v hv
  have key : ∀ X Y, inRange s.N X → inRange s.N Y → P2 X = X → P2 Y = Y → X ≠ Y →
      Union en s u v = some (absorb en s P2 X Y) →
      loopIterations en s u v = absorbIterations en s X Y →
      ((some (root u) = some X ∧ some (root v) = some Y) ∨
        (some (root u) = some Y ∧ some (root v) = some X)) →
      ∃ s' X Y, Union en s u v = some s' ∧
        ((some (root u) = some X ∧ some (root v) = some Y) ∨
          (some (root u) = some Y ∧ some (root v) = some X)) ∧
        s'.Parent X = Y ∧ X ≠ Y ∧
        (loopKeys en s X Y).Nodup ∧
        (∀ c ∈ loopKeys en s X Y, isRep s c ∧ c ≠ X ∧ c ≠ Y) ∧
        (∀ n, loopPrefix en s X Y n X = loopPrefix en s X Y 0 X) ∧
        (∀ n r, r ≠ Y → r ∉ (loopKeys en s X Y).take n →
          loopPrefix en s X Y n r = loopPrefix en s X Y 0 r) ∧
        s'.overlaps X = loopPrefix en s X Y 0 X ∧
        loopIterations en s u v = (loopKeys en s X Y).length := by
    intro X Y hX hY hPX hPY hXY hU hL hid
    obtain ⟨hnd, _⟩ := absorb_keys en s P2 root d F2 fix S X Y hX hPX hXY
    have hkeys : ∀ c ∈ loopKeys en s X Y, isRep s c ∧ c ≠ X ∧ c ≠ Y := by
      intro c hc
      obtain ⟨p, hp, e⟩ := List.mem_map.1 hc
      obtain ⟨h1, h2, h3, _⟩ := absorb_run_entry en s P2 root d F2 fix S X Y hX hPX hXY p hp
      rw [← e]
      exact ⟨h1, h2, h3⟩
    have hXk : X ∉ loopKeys en s X Y := fun h => (hkeys X h).2.1 rfl
    refine ⟨absorb en s P2 X Y, X, Y, hU, hid, ?_, hXY, hnd, hkeys, fun n => ?_,
      fun n r hr hk => loopPrefix_untouched en s X Y n r hr hk,
      absorb_overlaps_untouched en s P2 X Y X hXY hXk, ?_⟩
    · rw [absorb_Parent, setAt_same]
    · exact loopPrefix_untouched en s X Y n X hXY (fun h => hXk (List.mem_of_mem_take h))
    · rw [hL]
      unfold absorbIterations loopKeys
      simp only [List.length_map]
  by_cases hsz : (s.overlaps (root u)).size > (s.overlaps (root v)).size
  · refine key (root v) (root u) hrv hru hPv hPu (fun e => hne' e.symm) ?_ ?_
      (Or.inr ⟨rfl, rfl⟩)
    · unfold Union
      simp only [hF1, hF2, if_neg hne', if_pos hsz]
    · unfold loopIterations
      simp only [hF1, hF2, if_neg hne', if_pos hsz]
  · refine key (root u) (root v) hru hrv hPu hPv hne' ?_ ?_ (Or.inl ⟨rfl, rfl⟩)
    · unfold Union
      simp only [hF1, hF2, if_neg hne', if_neg hsz]
    · unfold loopIterations
      simp only [hF1, hF2, if_neg hne', if_neg hsz]

theorem C32_witness :
    Reachable 2 stateAfterOne ∧ inRange 2 2 ∧ inRange 2 3 ∧
    findRep stateAfterOne 2 ≠ findRep stateAfterOne 3 ∧
    ∃ s' X Y, Union Enumeration.storage stateAfterOne 2 3 = some s' ∧
      ((findRep stateAfterOne 2 = some X ∧ findRep stateAfterOne 3 = some Y) ∨
        (findRep stateAfterOne 2 = some Y ∧ findRep stateAfterOne 3 = some X)) ∧
      s'.Parent X = Y ∧ X ≠ Y ∧
      (loopKeys Enumeration.storage stateAfterOne X Y).Nodup ∧
      (∀ c ∈ loopKeys Enumeration.storage stateAfterOne X Y,
        isRep stateAfterOne c ∧ c ≠ X ∧ c ≠ Y) ∧
      (∀ n, loopPrefix Enumeration.storage stateAfterOne X Y n X
        = loopPrefix Enumeration.storage stateAfterOne X Y 0 X) ∧
      (∀ n r, r ≠ Y → r ∉ (loopKeys Enumeration.storage stateAfterOne X Y).take n →
        loopPrefix Enumeration.storage stateAfterOne X Y n r
          = loopPrefix Enumeration.storage stateAfterOne X Y 0 r) ∧
      s'.overlaps X = loopPrefix Enumeration.storage stateAfterOne X Y 0 X ∧
      loopIterations Enumeration.storage stateAfterOne 2 3
        = (loopKeys Enumeration.storage stateAfterOne X Y).length :=
  ⟨stateAfterOne_reachable, by decide, by decide, by decide,
    C32_loop_visits_distinct_representatives Enumeration.storage 2 stateAfterOne 2 3
      stateAfterOne_reachable (by decide) (by decide) (by decide)⟩

/-! ## The direction of a merge -/

theorem Sem.weight_symm {s : State} {root : Nat → Nat} (S : Sem s root) (X Y : Nat)
    (hX : isRep s X) (hY : isRep s Y) (hXY : X ≠ Y) :
    weight s.overlaps X Y = weight s.overlaps Y X := by
  rw [S.weight_eq X Y hX.1 hX.2 (fun e => hXY e.symm), S.weight_eq Y X hY.1 hY.2 hXY,
    bridge_comm]

/-- The accumulators after an effective merge do not depend on the iteration order, on
the path compression done before, or on which of the two representatives survives. -/
theorem absorb_accumulators (en en2 : Enumeration) (s : State) (P Q root d : Nat → Nat)
    (F : Forest s.N P root d) (hfix : ∀ j, P j = j ↔ s.Parent j = j)
    (G : Forest s.N Q root d) (gfix : ∀ j, Q j = j ↔ s.Parent j = j) (S : Sem s root)
    (X Y : Nat) (hX : isRep s X) (hY : isRep s Y) (hXY : X ≠ Y) :
    ((absorb en2 s Q X Y).E_C = (absorb en s P X Y).E_C ∧
      (absorb en2 s Q X Y).E_O = (absorb en s P X Y).E_O) ∧
    ((absorb en2 s Q Y X).E_C = (absorb en s P X Y).E_C ∧
      (absorb en2 s Q Y X).E_O = (absorb en s P X Y).E_O) := by
  have hYX : Y ≠ X := fun e => hXY e.symm
  have hw := S.weight_symm X Y hX hY hXY
  obtain ⟨_, h1⟩ := absorb_weights en s P root d F hfix S X Y hX.1 hY.1
    ((hfix X).2 hX.2) ((hfix Y).2 hY.2) hXY
  obtain ⟨_, h2⟩ := absorb_weights en2 s Q root d G gfix S X Y hX.1 hY.1
    ((gfix X).2 hX.2) ((gfix Y).2 hY.2) hXY
  obtain ⟨_, h3⟩ := absorb_weights en2 s Q root d G gfix S Y X hY.1 hX.1
    ((gfix Y).2 hY.2) ((gfix X).2 hX.2) hYX
  refine ⟨⟨rfl, by rw [h1, h2]⟩, ?_, ?_⟩
  · rw [absorb_E_C, absorb_E_C, ← hw]
    ring_nf
  · rw [h1, h3, ← hw, Finset.erase_right_comm]
    congr 1
    exact Finset.sum_congr rfl (fun c _ => mul_comm _ _)

/-- The two directions of an effective merge give the same clique size to the survivor,
the same partition, and the same overlap weights up to the name of the survivor. -/
theorem absorb_exchanged (en en2 : Enumeration) (s : State) (P root d : Nat → Nat)
    (F : Forest s.N P root d) (hfix : ∀ j, P j = j ↔ s.Parent j = j) (S : Sem s root)
    (X Y : Nat) (hX : isRep s X) (hY : isRep s Y) (hXY : X ≠ Y) :
    (absorb en2 s P Y X).clique_size X = (absorb en s P X Y).clique_size Y ∧
    (∀ x y, inRange s.N x → inRange s.N y →
      (findRep (absorb en2 s P Y X) x = findRep (absorb en2 s P Y X) y ↔
        findRep (absorb en s P X Y) x = findRep (absorb en s P X Y) y)) ∧
    (∀ C, isRep s C → C ≠ X → C ≠ Y →
      ((absorb en2 s P Y X).overlaps X).find C = ((absorb en s P X Y).overlaps Y).find C ∧
      ((absorb en2 s P Y X).overlaps C).find X = ((absorb en s P X Y).overlaps C).find Y ∧
      ∀ D, D ≠ X → D ≠ Y →
        ((absorb en2 s P Y X).overlaps C).find D = ((absorb en s P X Y).overlaps C).find D) := by
  have hYX : Y ≠ X := fun e => hXY e.symm
  have hPX : P X = X := (hfix X).2 hX.2
  have hPY : P Y = Y := (hfix Y).2 hY.2
  have hw := S.weight_symm X Y hX hY hXY
  obtain ⟨F1, _⟩ := absorb_post en s P root d F hfix S X Y hX.1 hY.1 hPX hPY hXY
  obtain ⟨F2, _⟩ := absorb_post en2 s P root d F hfix S Y X hY.1 hX.1 hPY hPX hYX
  obtain ⟨w1, _⟩ := absorb_weights en s P root d F hfix S X Y hX.1 hY.1 hPX hPY hXY
  obtain ⟨w2, _⟩ := absorb_weights en2 s P root d F hfix S Y X hY.1 hX.1 hPY hPX hYX
  obtain ⟨_, _, r1, _⟩ := absorb_loop en s P root d F hfix S X Y hX.1 hY.1 hPX hPY hXY
  obtain ⟨_, _, r2, _⟩ := absorb_loop en2 s P root d F hfix S Y X hY.1 hX.1 hPY hPX hYX
  refine ⟨?_, fun x y hx hy => ?_, fun C hC hCX hCY => ⟨?_, ?_, fun D hDX hDY => ?_⟩⟩
  · rw [absorb_clique_size, absorb_clique_size, setAt_same, setAt_same, ← hw]
    ring
  · rw [findRep_root F1 x hx, findRep_root F1 y hy, findRep_root F2 x hx, findRep_root F2 y hy]
    simp only [Option.some.injEq]
    rw [merged_eq_iff root X Y hXY, merged_eq_iff root Y X hYX]
    tauto
  · rw [(w1 C hC hCX hCY).1, (w2 C hC hCY hCX).1, add_comm]
  · rw [(w1 C hC hCX hCY).2.1, (w2 C hC hCY hCX).2.1, add_comm]
  · rw [r1 C D hCX hCY hC.2 hC.1, r2 C D hCY hCX hC.2 hC.1, if_neg hDX, if_neg hDY,
      if_neg hDY, if_neg hDX]

/-- C35: for every reachable state and nodes `u, v` in `1 .. 2N` with different
representatives, let `Union(u, v)` absorb `X` into `Y`.  Running steps 1 to 6 with the
two representatives exchanged (`Y` absorbed into `X`, under any iteration order) yields
the same `E_C`, the same `E_O`, the same clique size for the survivor, the same
partition, and the same overlap weights with `X` in the place of `Y`; and `Union(v, u)`
leaves the same `E_C` and `E_O`, hence prints the same answer, as `Union(u, v)`. -/
theorem C35_merge_direction_does_not_affect_counts (en en2 : Enumeration) (N : Nat)
    (s : State) (u v : Nat) (hR : Reachable N s) (hu : inRange N u) (hv : inRange N v)
    (hne : findRep s u ≠ findRep s v) :
    ∃ X Y P t, Union en s u v = some (absorb en s P X Y) ∧
      ((findRep s u = some X ∧ findRep s v = some Y) ∨
        (findRep s u = some Y ∧ findRep s v = some X)) ∧
      isRep s X ∧ isRep s Y ∧ X ≠ Y ∧
      (absorb en2 s P Y X).E_C = (absorb en s P X Y).E_C ∧
      (absorb en2 s P Y X).E_O = (absorb en s P X Y).E_O ∧
      (absorb en2 s P Y X).clique_size X = (absorb en s P X Y).clique_size Y ∧
      (∀ x y, inRange N x → inRange N y →
        (findRep (absorb en2 s P Y X) x = findRep (absorb en2 s P Y X) y ↔
          findRep (absorb en s P X Y) x = findRep (absorb en s P X Y) y)) ∧
      (∀ C, isRep s C → C ≠ X → C ≠ Y →
        ((absorb en2 s P Y X).overlaps X).find C = ((absorb en s P X Y).overlaps Y).find C ∧
        ((absorb en2 s P Y X).overlaps C).find X = ((absorb en s P X Y).overlaps C).find Y ∧
        ∀ D, D ≠ X → D ≠ Y →
          ((absorb en2 s P Y X).overlaps C).find D
            = ((absorb en s P X Y).overlaps C).find D) ∧
      Union en2 s v u = some t ∧ t.E_C = (absorb en s P X Y).E_C ∧
      t.E_O = (absorb en s P X Y).E_O ∧
      t.E_C - t.E_O = (absorb en s P X Y).E_C - (absorb en s P X Y).E_O := by
  obtain ⟨hN, E, root, d, F, S, _⟩ := hR.inv
  subst hN
  rw [findRep_root F u hu, findRep_root F v hv] at hne ⊢
  have hne' : root u ≠ root v := fun e => hne (by rw [e])
  obtain ⟨P2, X, Y, F2, fix, hU, hc, hX, hY, hPX, hPY, hXY⟩ :=
    Union_merge en s root d F u v hu hv hne'
  obtain ⟨Q2, A, B, G2, gfix, hV, hc2, _, _, _, _, _⟩ :=
    Union_merge en2 s root d F v u hv hu (fun e => hne' e.symm)
  have hsX : isRep s X := ⟨hX, (fix X).1 hPX⟩
  have hsY : isRep s Y := ⟨hY, (fix Y).1 hPY⟩
  obtain ⟨⟨a1, a2⟩, ⟨a3, a4⟩⟩ := absorb_accumulators en en2 s P2 Q2 root d F2 fix G2 gfix S X Y
    hsX hsY hXY
  obtain ⟨⟨_, _⟩, ⟨b3, b4⟩⟩ := absorb_accumulators en en2 s P2 P2 root d F2 fix F2 fix S X Y
    hsX hsY hXY
  obtain ⟨c1, c2, c3⟩ := absorb_exchanged en en2 s P2 root d F2 fix S X Y hsX hsY hXY
  have hAB : (A = X ∧ B = Y) ∨ (A = Y ∧ B = X) := by
    rcases hc with ⟨e1, e2, _⟩ | ⟨e1, e2, _⟩ <;> rcases hc2 with ⟨f1, f2, _⟩ | ⟨f1, f2, _⟩
    · exact Or.inr ⟨by rw [f1, e2], by rw [f2, e1]⟩
    · exact Or.inl ⟨by rw [f1, e1], by rw [f2, e2]⟩
    · exact Or.inl ⟨by rw [f1, e1], by rw [f2, e2]⟩
    · exact Or.inr ⟨by rw [f1, e2], by rw [f2, e1]⟩
  have hid : (some (root u) = some X ∧ some (root v) = some Y) ∨
      (some (root u) = some Y ∧ some (root v) = some X) := by
    rcases hc with ⟨e1, e2, _⟩ | ⟨e1, e2, _⟩
    · exact Or.inl ⟨by rw [e1], by rw [e2]⟩
    · exact Or.inr ⟨by rw [e2], by rw [e1]⟩
  refine ⟨X, Y, P2, absorb en2 s Q2 A B, hU, hid, hsX, hsY, hXY, b3, b4, c1, c2, c3, hV, ?_⟩
  rcases hAB with ⟨e1, e2⟩ | ⟨e1, e2⟩
  · rw [e1, e2]
    exact ⟨a1, a2, by rw [a1, a2]⟩
  · rw [e1, e2]
    exact ⟨a3, a4, by rw [a3, a4]⟩

theorem C35_witness :
    Reachable 2 stateAfterOne ∧ inRange 2 2 ∧ inRange 2 3 ∧
    findRep stateAfterOne 2 ≠ findRep stateAfterOne 3 ∧
    ∃ X Y P t, Union Enumeration.storage stateAfterOne 2 3
        = some (absorb Enumeration.storage stateAfterOne P X Y) ∧
      ((findRep stateAfterOne 2 = some X ∧ findRep stateAfterOne 3 = some Y) ∨
        (findRep stateAfterOne 2 = some Y ∧ findRep stateAfterOne 3 = some X)) ∧
      isRep stateAfterOne X ∧ isRep stateAfterOne Y ∧ X ≠ Y ∧
      (absorb Enumeration.reversed stateAfterOne P Y X).E_C
        = (absorb Enumeration.storage stateAfterOne P X Y).E_C ∧
      (absorb Enumeration.reversed stateAfterOne P Y X).E_O
        = (absorb Enumeration.storage stateAfterOne P X Y).E_O ∧
      (absorb Enumeration.reversed stateAfterOne P Y X).clique_size X
        = (absorb Enumeration.storage stateAfterOne P X Y).clique_size Y ∧
      (∀ x y, inRange 2 x → inRange 2 y →
        (findRep (absorb Enumeration.reversed stateAfterOne P Y X) x
            = findRep (absorb Enumeration.reversed stateAfterOne P Y X) y ↔
          findRep (absorb Enumeration.storage stateAfterOne P X Y) x
            = findRep (absorb Enumeration.storage stateAfterOne P X Y) y)) ∧
      (∀ C, isRep stateAfterOne C → C ≠ X → C ≠ Y →
        ((absorb Enumeration.reversed stateAfterOne P Y X).overlaps X).find C
          = ((absorb Enumeration.storage stateAfterOne P X Y).overlaps Y).find C ∧
        ((absorb Enumeration.reversed stateAfterOne P Y X).overlaps C).find X
          = ((absorb Enumeration.storage stateAfterOne P X Y).overlaps C).find Y ∧
        ∀ D, D ≠ X → D ≠ Y →
          ((absorb Enumeration.reversed stateAfterOne P Y X).overlaps C).find D
            = ((absorb Enumeration.storage stateAfterOne P X Y).overlaps C).find D) ∧
      Union Enumeration.reversed stateAfterOne 3 2 = some t ∧
      t.E_C = (absorb Enumeration.storage stateAfterOne P X Y).E_C ∧
      t.E_O = (absorb Enumeration.storage stateAfterOne P X Y).E_O ∧
      t.E_C - t.E_O = (absorb Enumeration.storage stateAfterOne P X Y).E_C
        - (absorb Enumeration.storage stateAfterOne P X Y).E_O :=
  ⟨stateAfterOne_reachable, by decide, by decide, by decide,
    C35_merge_direction_does_not_affect_counts Enumeration.storage Enumeration.reversed 2
      stateAfterOne 2 3 stateAfterOne_reachable (by decide) (by decide) (by decide)⟩

/-! ## Runs of `Solve` within the capacity of the arrays -/

/-- For `N ≤ MAXN` the initialisation addresses slots of the arrays only. -/
theorem init_indices_inBounds (N : Nat) (hN : N ≤ MAXN) :
    ∀ i ∈ initIndices N, inBounds N i :=
  fun i hi => inBounds_of_inRange N i hN (initIndices_range N i hi)

/-- The bound `N ≤ MAXN` is needed: for every larger `N` the first initialisation loop
addresses `Parent[2N]`, which lies beyond slot `MAX_NODES`. -/
theorem init_out_of_bounds_above_MAXN (N : Nat) (hN : MAXN < N) :
    2 * N ∈ initIndices N ∧ ¬ inBounds N (2 * N) := by
  constructor
  · unfold initIndices
    rw [List.mem_append]
    left
    rw [List.mem_range'_1]
    unfold MAXN at hN
    omega
  · unfold inBounds MAX_NODES
    omega

theorem stateAfterTwo_reachable : Reachable 2 stateAfterTwo :=
  stateAfterTwo_later.reachable stateAfterOne_reachable

theorem fitsLong_of_acc (n x : Int) (h0 : 0 ≤ n) (h : n ≤ 200005)
    (hx : 0 ≤ x ∧ x ≤ 2 * (n * (n * n))) : fitsLong x := by
  have h1 : n * n ≤ 200005 * 200005 := by nlinarith
  have h2 : 0 ≤ n * n := mul_nonneg h0 h0
  have h3 : n * (n * n) ≤ 200005 * (200005 * 200005) := by nlinarith
  unfold fitsLong
  constructor
  · have : -(2 : Int) ^ 63 ≤ 0 := by norm_num
    linarith
  · have : 2 * ((200005 : Int) * (200005 * 200005)) ≤ 2 ^ 63 - 1 := by norm_num
    linarith

/-- C1: for every `N ≤ MAXN` (the capacity of the arrays, within which the
initialisation addresses slots of the arrays only), every iteration order and every
request sequence with `1 ≤ a, b ≤ N`, `Solve` terminates with one answer per request,
and the value printed after the k-th request is the number of unordered pairs `{i, j}`
of distinct entities for which some connected component of the role graph of the first
k requests (edges `{a, N + b}`) contains a role node of `i` and a role node of `j`. -/
theorem C1_answer_counts_pairs_sharing_component (en : Nat → Enumeration) (N : Nat)
    (reqs : List (Nat × Nat)) (hN : N ≤ MAXN) (hv : validReqs N reqs) :
    (∀ i ∈ initIndices N, inBounds N i) ∧
    ∃ out, Solve en N reqs = some out ∧ out.length = reqs.length ∧
      ∀ k, k < reqs.length → ∃ a, out[k]? = some a ∧
        IsPairCount N (roleEdges N (reqs.take (k + 1))) a :=
  ⟨init_indices_inBounds N hN, Solve_spec en N reqs hv⟩

theorem C1_witness :
    3 ≤ MAXN ∧ validReqs 3 [(1, 2), (2, 3), (1, 3)] ∧
    ((∀ i ∈ initIndices 3, inBounds 3 i) ∧
    ∃ out, Solve storageOrder 3 [(1, 2), (2, 3), (1, 3)] = some out ∧
      out.length = [(1, 2), (2, 3), (1, 3)].length ∧
      ∀ k, k < [(1, 2), (2, 3), (1, 3)].length → ∃ a, out[k]? = some a ∧
        IsPairCount 3 (roleEdges 3 ([(1, 2), (2, 3), (1, 3)].take (k + 1))) a) :=
  ⟨by decide, by decide, C1_answer_counts_pairs_sharing_component storageOrder 3
    [(1, 2), (2, 3), (1, 3)] (by decide) (by decide)⟩

/-- C2, amended: for every `N ≤ MAXN` (within which the initialisation addresses slots
of the arrays only) and every request sequence with `1 ≤ a, b ≤ N`, the value printed
after the k-th request is the number of unordered pairs of distinct entities that are
directly related (some component of the role graph contains a role node of each); this
is at most the number of pairs connected transitively in the entity graph with one edge
`{a, b}` per request. -/
theorem C2_answer_at_most_transitive_pairs (en : Nat → Enumeration) (N : Nat)
    (reqs : List (Nat × Nat)) (hN : N ≤ MAXN) (hv : validReqs N reqs) :
    (∀ i ∈ initIndices N, inBounds N i) ∧
    ∃ out, Solve en N reqs = some out ∧ out.length = reqs.length ∧
      ∀ k, k < reqs.length → ∃ a, out[k]? = some a ∧
        IsPairCount N (roleEdges N (reqs.take (k + 1))) a ∧
        ∀ t, IsEntityPairCount N (reqs.take (k + 1)) t → a ≤ t := by
  obtain ⟨out, h1, h2, h3⟩ := Solve_spec en N reqs hv
  refine ⟨init_indices_inBounds N hN, out, h1, h2, fun k hk => ?_⟩
  obtain ⟨a, ha, hc⟩ := h3 k hk
  exact ⟨a, ha, hc, fun t ht =>
    pairCount_le_entityPairCount N _ (validReqs_take N reqs hv (k + 1)) a t hc ht⟩

theorem C2_witness :
    3 ≤ MAXN ∧ validReqs 3 [(1, 2), (2, 3)] ∧
    ((∀ i ∈ initIndices 3, inBounds 3 i) ∧
    ∃ out, Solve mixedOrder 3 [(1, 2), (2, 3)] = some out ∧
      out.length = [(1, 2), (2, 3)].length ∧
      ∀ k, k < [(1, 2), (2, 3)].length → ∃ a, out[k]? = some a ∧
        IsPairCount 3 (roleEdges 3 ([(1, 2), (2, 3)].take (k + 1))) a ∧
        ∀ t, IsEntityPairCount 3 ([(1, 2), (2, 3)].take (k + 1)) t → a ≤ t) :=
  ⟨by decide, by decide, C2_answer_at_most_transitive_pairs mixedOrder 3 [(1, 2), (2, 3)]
    (by decide) (by decide)⟩

/-- C7: for every `N ≤ MAXN` (within which the initialisation addresses slots of the
arrays only), every iteration order and every request sequence with `1 ≤ a, b ≤ N`,
`Solve` terminates and the printed answers are non-decreasing: the answer after request
`k + 1` is at least the answer after request `k`. -/
theorem C7_answers_nondecreasing (en : Nat → Enumeration) (N : Nat) (reqs : List (Nat × Nat))
    (hN : N ≤ MAXN) (hv : validReqs N reqs) :
    (∀ i ∈ initIndices N, inBounds N i) ∧
    ∃ out, Solve en N reqs = some out ∧ out.length = reqs.length ∧
      ∀ k a b, out[k]? = some a → out[k + 1]? = some b → a ≤ b := by
  obtain ⟨out, h1, h2, h3⟩ := Solve_spec en N reqs hv
  refine ⟨init_indices_inBounds N hN, out, h1, h2, fun k a b ha hb => ?_⟩
  have hk1 : k + 1 < out.length := by
    by_contra hcon
    rw [List.getElem?_eq_none (by omega)] at hb
    exact Option.noConfusion hb
  obtain ⟨a', ha', hc⟩ := h3 k (by omega)
  obtain ⟨b', hb', hc'⟩ := h3 (k + 1) (by omega)
  rw [ha] at ha'
  rw [hb] at hb'
  injection ha' with ea
  injection hb' with eb
  subst ea
  subst eb
  refine IsPairCount.mono (fun p hp => ?_) hc hc'
  obtain ⟨q, hq, e⟩ := List.mem_map.1 hp
  exact List.mem_map.2 ⟨q, mem_take_succ reqs k q hq, e⟩

theorem C7_witness :
    3 ≤ MAXN ∧ validReqs 3 [(1, 2), (2, 3), (1, 3)] ∧
    ((∀ i ∈ initIndices 3, inBounds 3 i) ∧
    ∃ out, Solve mixedOrder 3 [(1, 2), (2, 3), (1, 3)] = some out ∧
      out.length = [(1, 2), (2, 3), (1, 3)].length ∧
      ∀ k a b, out[k]? = some a → out[k + 1]? = some b → a ≤ b) :=
  ⟨by decide, by decide, C7_answers_nondecreasing mixedOrder 3 [(1, 2), (2, 3), (1, 3)]
    (by decide) (by decide)⟩

/-- C8: for `N ≤ MAXN`, in every state reachable from initialisation by calls
`Union(a, N + b)` with `1 ≤ a, b ≤ N`, `E_C ≥ 0`, `E_O ≥ 0` and the emitted answer
`E_C - E_O` is `≥ 0`; the three values lie in the signed 64-bit range, so these are the
values the program holds. -/
theorem C8_accumulators_nonnegative (N : Nat) (s : State) (hN : N ≤ MAXN)
    (hR : Reachable N s) :
    0 ≤ s.E_C ∧ 0 ≤ s.E_O ∧ 0 ≤ s.E_C - s.E_O ∧
    fitsLong s.E_C ∧ fitsLong s.E_O ∧ fitsLong (s.E_C - s.E_O) := by
  obtain ⟨hNs, E, hI⟩ := hR.inv
  subst hNs
  obtain ⟨h1, h2, h3⟩ := hI.nonneg
  obtain ⟨_, b2, b3⟩ := hI.acc_bounds
  have hn0 : (0 : Int) ≤ (s.N : Int) := Int.natCast_nonneg _
  have hn : (s.N : Int) ≤ 200005 := by
    unfold MAXN at hN
    exact_mod_cast hN
  exact ⟨h1, h2, h3, fitsLong_of_acc _ _ hn0 hn ⟨h1, b3⟩,
    fitsLong_of_acc _ _ hn0 hn ⟨h2, by linarith⟩,
    fitsLong_of_acc _ _ hn0 hn ⟨h3, by linarith⟩⟩

theorem C8_witness :
    2 ≤ MAXN ∧ Reachable 2 stateAfterTwo ∧ stateAfterTwo.E_C = 2 ∧ stateAfterTwo.E_O = 1 ∧
    (0 ≤ stateAfterTwo.E_C ∧ 0 ≤ stateAfterTwo.E_O ∧
      0 ≤ stateAfterTwo.E_C - stateAfterTwo.E_O ∧
      fitsLong stateAfterTwo.E_C ∧ fitsLong stateAfterTwo.E_O ∧
      fitsLong (stateAfterTwo.E_C - stateAfterTwo.E_O)) :=
  ⟨by decide, stateAfterTwo_reachable, by decide, by decide,
    C8_accumulators_nonnegative 2 stateAfterTwo (by decide) stateAfterTwo_reachable⟩

/-- C9: for `N ≤ MAXN` (within which the initialisation addresses slots of the arrays
only) the run is a function of `N` and the requests alone: two runs on the same
well-formed input under different iteration orders of the step-5 loop print the same
answers, and after every request they agree on `E_C`, `E_O`, every clique size, the
`Parent` array (hence the partition) and every overlap weight. -/
theorem C9_run_independent_of_iteration_order (en1 en2 : Nat → Enumeration) (N : Nat)
    (reqs : List (Nat × Nat)) (hN : N ≤ MAXN) (hv : validReqs N reqs) :
    (∀ i ∈ initIndices N, inBounds N i) ∧
    Solve en1 N reqs = Solve en2 N reqs ∧
    ∀ k, ∃ s1 s2, finalState en1 N (reqs.take k) = some s1 ∧
      finalState en2 N (reqs.take k) = some s2 ∧
      s1.E_C = s2.E_C ∧ s1.E_O = s2.E_O ∧ s1.clique_size = s2.clique_size ∧
      s1.Parent = s2.Parent ∧
      ∀ r c, (s1.overlaps r).find c = (s2.overlaps r).find c := by
  refine ⟨init_indices_inBounds N hN, Solve_enum_indep en1 en2 N reqs hv, fun k => ?_⟩
  obtain ⟨t1, t2, h1, h2, _, hP, hcs, hC, hO, hf⟩ :=
    finalState_same en1 en2 N (reqs.take k) (validReqs_take N reqs hv k)
  exact ⟨t1, t2, h1, h2, hC, hO, hcs, hP, hf⟩

theorem C9_witness :
    4 ≤ MAXN ∧ validReqs 4 [(1, 2), (2, 1), (3, 1), (4, 2)] ∧
    ((∀ i ∈ initIndices 4, inBounds 4 i) ∧
      Solve storageOrder 4 [(1, 2), (2, 1), (3, 1), (4, 2)]
        = Solve mixedOrder 4 [(1, 2), (2, 1), (3, 1), (4, 2)] ∧
      ∀ k, ∃ s1 s2,
        finalState storageOrder 4 ([(1, 2), (2, 1), (3, 1), (4, 2)].take k) = some s1 ∧
        finalState mixedOrder 4 ([(1, 2), (2, 1), (3, 1), (4, 2)].take k) = some s2 ∧
        s1.E_C = s2.E_C ∧ s1.E_O = s2.E_O ∧ s1.clique_size = s2.clique_size ∧
        s1.Parent = s2.Parent ∧
        ∀ r c, (s1.overlaps r).find c = (s2.overlaps r).find c) :=
  ⟨by decide, by decide, C9_run_independent_of_iteration_order storageOrder mixedOrder 4
    [(1, 2), (2, 1), (3, 1), (4, 2)] (by decide) (by decide)⟩

/-- C10: for `N ≤ MAXN` the initialisation of `Solve` addresses slots of the arrays
only, and after it, before any request, `Parent[i] = i` and `clique_size[i] = 1` for
every node `i` in `1 .. 2N`; for every entity `i` in `1 .. N` the map `overlaps[i]` is
exactly `{N + i ↦ 1}` and `overlaps[N + i]` is exactly `{i ↦ 1}`; no other overlap
entries exist; and `E_C = E_O = 0`. -/
theorem C10_initial_state (N : Nat) (hN : N ≤ MAXN) :
    (∀ i ∈ initIndices N, inRange N i ∧ inBounds N i) ∧
    (∀ i, (1 ≤ i ∧ i ≤ 2 * N) → (init N).Parent i = i ∧ (init N).clique_size i = 1) ∧
    (∀ i, (1 ≤ i ∧ i ≤ N) →
      (init N).overlaps i = [(N + i, 1)] ∧ (init N).overlaps (N + i) = [(i, 1)]) ∧
    (∀ r, ¬ (1 ≤ r ∧ r ≤ 2 * N) → (init N).overlaps r = []) ∧
    (init N).E_C = 0 ∧ (init N).E_O = 0 := by
  obtain ⟨_, hC, hO, hP, hcs, hov⟩ := init_fields N
  refine ⟨fun i hi => ⟨initIndices_range N i hi, init_indices_inBounds N hN i hi⟩,
    fun i hi => ?_, fun i hi => ?_, fun r hr => ?_, hC, hO⟩
  · have : inRange N i := hi
    rw [hP, hcs, if_pos this, if_pos this]
    exact ⟨rfl, rfl⟩
  · constructor
    · rw [hov, if_pos hi]
    · have h1 : ¬ (1 ≤ N + i ∧ N + i ≤ N) := by omega
      have h2 : N < N + i ∧ N + i ≤ 2 * N := by omega
      rw [hov, if_neg h1, if_pos h2, Nat.add_sub_cancel_left]
  · have h1 : ¬ (1 ≤ r ∧ r ≤ N) := by omega
    have h2 : ¬ (N < r ∧ r ≤ 2 * N) := by omega
    rw [hov, if_neg h1, if_neg h2]

theorem C10_witness :
    3 ≤ MAXN ∧
    ((∀ i ∈ initIndices 3, inRange 3 i ∧ inBounds 3 i) ∧
    (∀ i, (1 ≤ i ∧ i ≤ 2 * 3) → (init 3).Parent i = i ∧ (init 3).clique_size i = 1) ∧
    (∀ i, (1 ≤ i ∧ i ≤ 3) →
      (init 3).overlaps i = [(3 + i, 1)] ∧ (init 3).overlaps (3 + i) = [(i, 1)]) ∧
    (∀ r, ¬ (1 ≤ r ∧ r ≤ 2 * 3) → (init 3).overlaps r = []) ∧
    (init 3).E_C = 0 ∧ (init 3).E_O = 0) :=
  ⟨by decide, C10_initial_state 3 (by decide)⟩

/-- C29, amended: starting from the initial state for `N` entities with
`1 ≤ N ≤ MAXN` (within which the initialisation addresses slots of the arrays only),
the run of any request sequence `(a_t, b_t)` with `1 ≤ a_t, b_t ≤ N` terminates, and at
most `2N - 1` of its requests are effective merges (requests whose two nodes have
different representatives when processed); a request whose two nodes have the same
representative is a no-op: its `Union` returns the state unchanged except for the path
compression of `Parent`, which changes no representative. -/
theorem C29_at_most_2N_minus_1_effective_merges (en : Nat → Enumeration) (N : Nat)
    (reqs : List (Nat × Nat)) (hN : 1 ≤ N) (hM : N ≤ MAXN) (hv : validReqs N reqs) :
    (∀ i ∈ initIndices N, inBounds N i) ∧
    (∃ fs, finalState en N reqs = some fs) ∧
    effectiveCount en 0 (init N) reqs ≤ 2 * N - 1 ∧
    ∀ (e : Enumeration) (s : State) (a b : Nat), Reachable N s → 1 ≤ a → a ≤ N → 1 ≤ b →
      b ≤ N → findRep s a = findRep s (N + b) →
      ∃ P, Union e s a (N + b) = some { s with Parent := P } ∧
        (∀ j, P j = j ↔ s.Parent j = j) ∧
        ∀ j, inRange N j → findRep { s with Parent := P } j = findRep s j := by
  obtain ⟨s', out, E', hP, hN', hI', hc⟩ := effectiveCount_liveReps en N reqs 0 (init N) []
    (init_fields N).1 (init_inv N) hv
  refine ⟨init_indices_inBounds N hM, ⟨s', by simp only [finalState, hP, Option.map]⟩, ?_, ?_⟩
  · obtain ⟨root, d, F, _, _⟩ := hI'
    have h1 := liveReps_card_pos F (by omega)
    rw [liveReps_init] at hc
    simp only [Nat.card_Icc] at hc
    omega
  · intro e s a b hR h1 h2 h3 h4 he
    exact Union_noop e N s a (N + b) hR (by unfold inRange; omega) (by unfold inRange; omega) he

theorem C29_witness :
    1 ≤ 2 ∧ 2 ≤ MAXN ∧ validReqs 2 [(1, 2), (2, 1), (2, 2)] ∧
    ((∀ i ∈ initIndices 2, inBounds 2 i) ∧
    (∃ fs, finalState mixedOrder 2 [(1, 2), (2, 1), (2, 2)] = some fs) ∧
    effectiveCount mixedOrder 0 (init 2) [(1, 2), (2, 1), (2, 2)] ≤ 2 * 2 - 1 ∧
    ∀ (e : Enumeration) (s : State) (a b : Nat), Reachable 2 s → 1 ≤ a → a ≤ 2 → 1 ≤ b →
      b ≤ 2 → findRep s a = findRep s (2 + b) →
      ∃ P, Union e s a (2 + b) = some { s with Parent := P } ∧
        (∀ j, P j = j ↔ s.Parent j = j) ∧
        ∀ j, inRange 2 j → findRep { s with Parent := P } j = findRep s j) :=
  ⟨by decide, by decide, by decide,
    C29_at_most_2N_minus_1_effective_merges mixedOrder 2 [(1, 2), (2, 1), (2, 2)] (by decide)
      (by decide) (by decide)⟩

/-- C30: for every `N` with `1 ≤ N ≤ MAXN` (within which the initialisation addresses
slots of the arrays only) and every request sequence with `1 ≤ a_t, b_t ≤ N`, `Solve`
processes all requests, and the total number of iterations of the step-5 loop, summed
over all `Union` calls, is at most `2 N (log2 (2N) + 1)`, hence at most
`4 N log2 (2N)` (logarithm rounded down): the constant `c = 4` works. -/
theorem C30_loop_iterations_N_log_N (en : Nat → Enumeration) (N : Nat)
    (reqs : List (Nat × Nat)) (hN : 1 ≤ N) (hM : N ≤ MAXN) (hv : validReqs N reqs) :
    (∀ i ∈ initIndices N, inBounds N i) ∧
    (∃ out, Solve en N reqs = some out ∧ out.length = reqs.length) ∧
    totalIterations en 0 (init N) reqs ≤ 2 * N * (Nat.log 2 (2 * N) + 1) ∧
    totalIterations en 0 (init N) reqs ≤ 4 * N * Nat.log 2 (2 * N) := by
  have hN0 := (init_fields N).1
  obtain ⟨s', out, hP, hlen, hN', hT', hpot⟩ := totalIterations_potential en N reqs 0 (init N) []
    hN0 (init_inv N) hv (by rw [totalDegree_init])
  have hle := potential_le s' (by rw [hN']; exact hT')
  rw [hN'] at hle
  rw [totalDegree_init] at hpot
  have hlog : 1 ≤ Nat.log 2 (2 * N) := Nat.log_pos (by omega) (by omega)
  have hmain : totalIterations en 0 (init N) reqs ≤ 2 * N * (Nat.log 2 (2 * N) + 1) := by
    have e : (Nat.log 2 (2 * N) + 1) * (2 * N) = 2 * N * (Nat.log 2 (2 * N) + 1) :=
      Nat.mul_comm _ _
    omega
  refine ⟨init_indices_inBounds N hM, ⟨out, by simp only [Solve, hP, Option.map], hlen⟩,
    hmain, le_trans hmain ?_⟩
  have h2 : Nat.log 2 (2 * N) + 1 ≤ 2 * Nat.log 2 (2 * N) := by omega
  calc 2 * N * (Nat.log 2 (2 * N) + 1) ≤ 2 * N * (2 * Nat.log 2 (2 * N)) :=
        Nat.mul_le_mul_left _ h2
    _ = 4 * N * Nat.log 2 (2 * N) := by ring

theorem C30_witness :
    1 ≤ 2 ∧ 2 ≤ MAXN ∧ validReqs 2 [(1, 2), (2, 1), (1, 1)] ∧
    ((∀ i ∈ initIndices 2, inBounds 2 i) ∧
    (∃ out, Solve mixedOrder 2 [(1, 2), (2, 1), (1, 1)] = some out ∧
      out.length = [(1, 2), (2, 1), (1, 1)].length) ∧
    totalIterations mixedOrder 0 (init 2) [(1, 2), (2, 1), (1, 1)]
      ≤ 2 * 2 * (Nat.log 2 (2 * 2) + 1) ∧
    totalIterations mixedOrder 0 (init 2) [(1, 2), (2, 1), (1, 1)]
      ≤ 4 * 2 * Nat.log 2 (2 * 2)) :=
  ⟨by decide, by decide, by decide,
    C30_loop_iterations_N_log_N mixedOrder 2 [(1, 2), (2, 1), (1, 1)] (by decide) (by decide)
      (by decide)⟩

/-- C36: for `N` entities with `1 ≤ N ≤ MAXN` (within which the initialisation
addresses slots of the arrays only) and every request sequence with
`1 ≤ a_t, b_t ≤ N`, the state reached has `2N` minus the number of effective `Union`
calls many live representatives among the nodes `1 .. 2N`; at most `2N - 1` requests
are effective; and every call `Union(a, N + b)` from a reachable state leaves the set
of live representatives unchanged when the two nodes have the same representative, and
removes exactly one representative from it otherwise. -/
theorem C36_live_representatives_counted (en : Nat → Enumeration) (N : Nat)
    (reqs : List (Nat × Nat)) (hN : 1 ≤ N) (hM : N ≤ MAXN) (hv : validReqs N reqs) :
    (∀ i ∈ initIndices N, inBounds N i) ∧
    (∃ fs, finalState en N reqs = some fs ∧
      (liveReps fs).card + effectiveCount en 0 (init N) reqs = 2 * N) ∧
    effectiveCount en 0 (init N) reqs ≤ 2 * N - 1 ∧
    ∀ (e : Enumeration) (s : State) (a b : Nat), Reachable N s → 1 ≤ a → a ≤ N → 1 ≤ b →
      b ≤ N →
      ∃ s', Union e s a (N + b) = some s' ∧
        (findRep s a = findRep s (N + b) → liveReps s' = liveReps s) ∧
        (findRep s a ≠ findRep s (N + b) →
          ∃ X, X ∈ liveReps s ∧ liveReps s' = (liveReps s).erase X ∧
            (liveReps s').card + 1 = (liveReps s).card) := by
  obtain ⟨s', out, E', hP, hN', hI', hc⟩ := effectiveCount_liveReps en N reqs 0 (init N) []
    (init_fields N).1 (init_inv N) hv
  obtain ⟨root, d, F, _, _⟩ := hI'
  have h1 := liveReps_card_pos F (by omega)
  rw [liveReps_init] at hc
  simp only [Nat.card_Icc] at hc
  refine ⟨init_indices_inBounds N hM, ⟨s', by simp only [finalState, hP, Option.map], by omega⟩,
    by omega, ?_⟩
  intro e s a b hR ha1 ha hb1 hb
  obtain ⟨s1, hU, heq, hne⟩ := Union_liveReps_set e N s a (N + b) hR
    (by unfold inRange; omega) (by unfold inRange; omega)
  refine ⟨s1, hU, heq, fun h => ?_⟩
  obtain ⟨X, hX, hL⟩ := hne h
  refine ⟨X, hX, hL, ?_⟩
  rw [hL, Finset.card_erase_of_mem hX]
  have := Finset.card_pos.2 ⟨X, hX⟩
  omega

theorem C36_witness :
    1 ≤ 2 ∧ 2 ≤ MAXN ∧ validReqs 2 [(1, 2), (2, 2), (2, 1)] ∧
    ((∀ i ∈ initIndices 2, inBounds 2 i) ∧
    (∃ fs, finalState storageOrder 2 [(1, 2), (2, 2), (2, 1)] = some fs ∧
      (liveReps fs).card + effectiveCount storageOrder 0 (init 2) [(1, 2), (2, 2), (2, 1)]
        = 2 * 2) ∧
    effectiveCount storageOrder 0 (init 2) [(1, 2), (2, 2), (2, 1)] ≤ 2 * 2 - 1 ∧
    ∀ (e : Enumeration) (s : State) (a b : Nat), Reachable 2 s → 1 ≤ a → a ≤ 2 → 1 ≤ b →
      b ≤ 2 →
      ∃ s', Union e s a (2 + b) = some s' ∧
        (findRep s a = findRep s (2 + b) → liveReps s' = liveReps s) ∧
        (findRep s a ≠ findRep s (2 + b) →
          ∃ X, X ∈ liveReps s ∧ liveReps s' = (liveReps s).erase X ∧
            (liveReps s').card + 1 = (liveReps s).card)) :=
  ⟨by decide, by decide, by decide,
    C36_live_representatives_counted storageOrder 2 [(1, 2), (2, 2), (2, 1)] (by decide)
      (by decide) (by decide)⟩

end RoleGraph

namespace OddSubsetSum

/-! ## The achievable sums of the first `K` odd numbers -/

theorem IsAchievable_iff (K : Nat) (T : Int) :
    IsAchievable (K : Int) T = true ↔ inClosedForm K T := by
  unfold IsAchievable inClosedForm
  have hk0 : (0 : Int) ≤ (K : Int) := Int.natCast_nonneg _
  have h0 : (K : Int) = 0 → (K : Int) * K = 0 := by intro h; rw [h]; norm_num
  have h1 : (K : Int) = 1 → (K : Int) * K = 1 := by intro h; rw [h]; norm_num
  have h2 : (2 : Int) ≤ K → 2 * (K : Int) ≤ (K : Int) * K := by intro h; nlinarith
  simp only []
  generalize (K : Int) * K = q at h0 h1 h2 ⊢
  split_ifs <;> simp <;> omega

theorem IsAchievable_neg (K : Int) (T : Int) (h : K < 0) : IsAchievable K T = false := by
  unfold IsAchievable
  rw [if_pos (Or.inl h)]

/-- For an `int` argument `K` the `long long` values `K * K` and `K * K - 2` computed by
`IsAchievable` are in range, so the exact arithmetic of the embedding is the machine
arithmetic. -/
theorem IsAchievable_values_fit (K : Int) (h : RoleGraph.fitsInt K) :
    RoleGraph.fitsLong (K * K) ∧ RoleGraph.fitsLong (K * K - 2) := by
  unfold RoleGraph.fitsInt at h
  unfold RoleGraph.fitsLong
  obtain ⟨h1, h2⟩ := h
  have h1' : (-2147483648 : Int) ≤ K := by norm_num at h1; linarith
  have h2' : K ≤ (2147483647 : Int) := by norm_num at h2; linarith
  have hsq : K * K ≤ 2147483648 * 2147483648 := by nlinarith
  have hnn : 0 ≤ K * K := mul_self_nonneg K
  norm_num
  constructor <;> constructor <;> linarith

/-- The closed form obeys the recurrence of subset sums: a value is reached with the first
`K + 1` odd numbers if and only if it, or it minus `2K + 1`, is reached with the first
`K`. -/
theorem closed_succ (K : Nat) (T : Int) :
    inClosedForm (K + 1) T ↔ inClosedForm K T ∨ inClosedForm K (T - (2 * (K : Int) + 1)) := by
  unfold inClosedForm
  have e : (((K + 1 : Nat) : Int)) * ((K + 1 : Nat) : Int) = (K : Int) * K + 2 * K + 1 := by
    push_cast
    ring
  rw [e]
  have hk0 : (0 : Int) ≤ (K : Int) := Int.natCast_nonneg _
  have h0 : (K : Int) = 0 → (K : Int) * K = 0 := by intro h; rw [h]; norm_num
  have h1 : (K : Int) = 1 → (K : Int) * K = 1 := by intro h; rw [h]; norm_num
  have h2 : (K : Int) = 2 → (K : Int) * K = 4 := by intro h; rw [h]; norm_num
  have h3 : (K : Int) = 3 → (K : Int) * K = 9 := by intro h; rw [h]; norm_num
  have h4 : (4 : Int) ≤ K → 4 * (K : Int) ≤ (K : Int) * K := by intro h; nlinarith
  generalize (K : Int) * K = q at h0 h1 h2 h3 h4 ⊢
  omega

theorem IsOddSubsetSum_zero (T : Int) : IsOddSubsetSum 0 T ↔ T = 0 := by
  unfold IsOddSubsetSum
  constructor
  · rintro ⟨S, hS, hsum⟩
    have : S = ∅ := by
      apply Finset.eq_empty_of_forall_not_mem
      intro x hx
      have := hS hx
      simp at this
    rw [this] at hsum
    simpa using hsum.symm
  · intro h
    exact ⟨∅, by simp, by simp [h]⟩

theorem IsOddSubsetSum_succ (K : Nat) (T : Int) :
    IsOddSubsetSum (K + 1) T ↔
      IsOddSubsetSum K T ∨ IsOddSubsetSum K (T - (2 * (K : Int) + 1)) := by
  unfold IsOddSubsetSum
  constructor
  · rintro ⟨S, hS, hsum⟩
    by_cases hm : K + 1 ∈ S
    · right
      refine ⟨S.erase (K + 1), ?_, ?_⟩
      · intro x hx
        obtain ⟨h1, h2⟩ := Finset.mem_erase.1 hx
        have := Finset.mem_Icc.1 (hS h2)
        exact Finset.mem_Icc.2 ⟨this.1, by omega⟩
      · have := Finset.add_sum_erase S (fun i => 2 * (i : Int) - 1) hm
        push_cast at this
        linarith
    · left
      refine ⟨S, ?_, hsum⟩
      intro x hx
      have := Finset.mem_Icc.1 (hS hx)
      have hne : x ≠ K + 1 := fun e => hm (e ▸ hx)
      exact Finset.mem_Icc.2 ⟨this.1, by omega⟩
  · rintro (⟨S, hS, hsum⟩ | ⟨S, hS, hsum⟩)
    · refine ⟨S, ?_, hsum⟩
      intro x hx
      have := Finset.mem_Icc.1 (hS hx)
      exact Finset.mem_Icc.2 ⟨this.1, by omega⟩
    · have hn : K + 1 ∉ S := by
        intro h
        have := Finset.mem_Icc.1 (hS h)
        omega
      refine ⟨insert (K + 1) S, ?_, ?_⟩
      · intro x hx
        rcases Finset.mem_insert.1 hx with e | hx
        · rw [e]; exact Finset.mem_Icc.2 ⟨by omega, le_refl _⟩
        · have := Finset.mem_Icc.1 (hS hx)
          exact Finset.mem_Icc.2 ⟨this.1, by omega⟩
      · rw [Finset.sum_insert hn, hsum]
        push_cast
        ring

/-- The closed form describes exactly the subset sums of the first `K` odd numbers. -/
theorem closed_iff_subsetSum : ∀ (K : Nat) (T : Int), inClosedForm K T ↔ IsOddSubsetSum K T := by
  intro K
  induction K with
  | zero =>
    intro T
    rw [IsOddSubsetSum_zero]
    unfold inClosedForm
    simp only [Nat.cast_zero, mul_zero]
    omega
  | succ K ih =>
    intro T
    rw [closed_succ, IsOddSubsetSum_succ, ih T, ih (T - (2 * (K : Int) + 1))]

/-! ## The greedy reconstruction -/

theorem heightSum_append (S : List Int) (i : Int) :
    heightSum (S ++ [i]) = heightSum S + (2 * i - 1) := by
  unfold heightSum
  simp

/-- The loop of `SSO_indices` started at index `i` with an achievable remainder `T` and
indices above `i` already chosen: it ends with remainder 0, and the indices it adds are
decreasing, in `1 .. i`, with heights summing to `T`. -/
theorem SSO_loop_spec :
    ∀ (i : Nat) (S : List Int) (T : Int), IsAchievable (i : Int) T = true →
      (∀ x ∈ S, (i : Int) < x) → S.Pairwise (fun a b => a > b) →
      (SSO_loop i (S, T)).2 = 0 ∧
      (SSO_loop i (S, T)).1.Pairwise (fun a b => a > b) ∧
      (∀ x ∈ (SSO_loop i (S, T)).1, x ∈ S ∨ (1 ≤ x ∧ x ≤ (i : Int))) ∧
      heightSum (SSO_loop i (S, T)).1 = heightSum S + T := by
  intro i
  induction i with
  | zero =>
    intro S T h _ hp
    have hT : T = 0 := by
      have := (IsAchievable_iff 0 T).1 h
      unfold inClosedForm at this
      simp only [Nat.cast_zero, mul_zero] at this
      omega
    simp only [SSO_loop]
    exact ⟨hT, hp, fun x hx => Or.inl hx, by rw [hT, add_zero]⟩
  | succ i ih =>
    intro S T h hS hp
    have hc := (closed_succ i T).1 ((IsAchievable_iff (i + 1) T).1 h)
    have hidx : (((i + 1 : Nat) : Int)) - 1 = (i : Int) := by push_cast; ring
    have hL : 2 * (((i + 1 : Nat) : Int)) - 1 = 2 * (i : Int) + 1 := by push_cast; ring
    have hS' : ∀ x ∈ S, (i : Int) < x := by
      intro x hx
      have := hS x hx
      push_cast at this
      omega
    simp only [SSO_loop, hidx, hL]
    by_cases hge : T ≥ 2 * (i : Int) + 1
    · rw [if_pos hge]
      by_cases ha : IsAchievable (i : Int) (T - (2 * (i : Int) + 1)) = true
      · rw [if_pos ha]
        have hS2 : ∀ x ∈ S ++ [((i + 1 : Nat) : Int)], (i : Int) < x := by
          intro x hx
          rcases List.mem_append.1 hx with hx | hx
          · exact hS' x hx
          · rw [List.mem_singleton] at hx
            rw [hx]
            push_cast
            omega
        have hp2 : (S ++ [((i + 1 : Nat) : Int)]).Pairwise (fun a b => a > b) := by
          rw [List.pairwise_append]
          refine ⟨hp, List.pairwise_singleton _ _, fun a ha b hb => ?_⟩
          rw [List.mem_singleton] at hb
          rw [hb]
          exact hS a ha
        obtain ⟨r1, r2, r3, r4⟩ := ih _ _ ha hS2 hp2
        refine ⟨r1, r2, fun x hx => ?_, ?_⟩
        · rcases r3 x hx with h1 | h1
          · rcases List.mem_append.1 h1 with h2 | h2
            · exact Or.inl h2
            · rw [List.mem_singleton] at h2
              right
              rw [h2]
              push_cast
              omega
          · right
            push_cast
            omega
        · rw [r4, heightSum_append, hL]
          ring
      · rw [if_neg ha]
        have hT : IsAchievable (i : Int) T = true := by
          rw [IsAchievable_iff] at ha ⊢
          exact hc.resolve_right ha
        obtain ⟨r1, r2, r3, r4⟩ := ih S T hT hS' hp
        refine ⟨r1, r2, fun x hx => ?_, r4⟩
        rcases r3 x hx with h1 | h1
        · exact Or.inl h1
        · right
          push_cast
          omega
    · rw [if_neg hge]
      have hT : IsAchievable (i : Int) T = true := by
        rw [IsAchievable_iff]
        refine hc.resolve_right (fun h2 => ?_)
        unfold inClosedForm at h2
        omega
      obtain ⟨r1, r2, r3, r4⟩ := ih S T hT hS' hp
      refine ⟨r1, r2, fun x hx => ?_, r4⟩
      rcases r3 x hx with h1 | h1
      · exact Or.inl h1
      · right
        push_cast
        omega

/-- C37: for every integer `K ≥ 0` and every integer `T`, `IsAchievable(K, T)` returns
true if and only if `T` is the sum of a subset of the first `K` odd numbers
`1, 3, .., 2K - 1` (each used at most once); equivalently, if and only if `0 ≤ T ≤ K²`,
`T ≠ 2` and, for `K ≥ 2`, `T ≠ K² - 2`. -/
theorem C37_IsAchievable_iff_odd_subset_sum (K : Int) (T : Int) (hK : 0 ≤ K) :
    (IsAchievable K T = true ↔ IsOddSubsetSum K.toNat T) ∧
    (IsAchievable K T = true ↔
      (0 ≤ T ∧ T ≤ K * K ∧ T ≠ 2 ∧ (2 ≤ K → T ≠ K * K - 2))) := by
  obtain ⟨n, rfl⟩ := Int.eq_ofNat_of_zero_le hK
  rw [Int.toNat_ofNat]
  constructor
  · rw [IsAchievable_iff, closed_iff_subsetSum]
  · rw [IsAchievable_iff]
    unfold inClosedForm
    have h0 : (n : Int) = 0 → (n : Int) * n = 0 := by intro h; rw [h]; norm_num
    have h1 : (n : Int) = 1 → (n : Int) * n = 1 := by intro h; rw [h]; norm_num
    have hn0 : (0 : Int) ≤ (n : Int) := Int.natCast_nonneg _
    generalize (n : Int) * n = q at h0 h1 ⊢
    omega

theorem C37_witness :
    (0 : Int) ≤ 3 ∧
    ((IsAchievable 3 8 = true ↔ IsOddSubsetSum (3 : Int).toNat 8) ∧
    (IsAchievable 3 8 = true ↔
      ((0 : Int) ≤ 8 ∧ (8 : Int) ≤ 3 * 3 ∧ (8 : Int) ≠ 2 ∧ ((2 : Int) ≤ 3 → (8 : Int) ≠ 3 * 3 - 2)))) :=
  ⟨by decide, C37_IsAchievable_iff_odd_subset_sum 3 8 (by decide)⟩

/-- C38: for every integer `K ≥ 0` and every `T` with `IsAchievable(K, T)` true,
`SSO_indices(K, T)` returns a strictly decreasing list of indices in `1 .. K` whose heights
`2 i - 1` sum to exactly `T`, and the local `T` is 0 when the loop ends. -/
theorem C38_SSO_indices_sums_to_T (K : Int) (T : Int) (hK : 0 ≤ K)
    (hT : IsAchievable K T = true) :
    (SSO_indices K T).Pairwise (fun a b => a > b) ∧
    (∀ i ∈ SSO_indices K T, 1 ≤ i ∧ i ≤ K) ∧
    heightSum (SSO_indices K T) = T ∧
    SSO_remainder K T = 0 := by
  obtain ⟨n, rfl⟩ := Int.eq_ofNat_of_zero_le hK
  unfold SSO_indices SSO_remainder
  rw [Int.toNat_ofNat]
  obtain ⟨r1, r2, r3, r4⟩ := SSO_loop_spec n [] T hT (fun x hx => absurd hx (List.not_mem_nil _))
    List.Pairwise.nil
  refine ⟨r2, fun i hi => ?_, ?_, r1⟩
  · rcases r3 i hi with h | h
    · exact absurd h (List.not_mem_nil _)
    · exact h
  · rw [r4]
    simp [heightSum]

theorem C38_witness :
    (0 : Int) ≤ 4 ∧ IsAchievable 4 11 = true ∧
    ((SSO_indices 4 11).Pairwise (fun a b => a > b) ∧
    (∀ i ∈ SSO_indices 4 11, 1 ≤ i ∧ i ≤ 4) ∧
    heightSum (SSO_indices 4 11) = 11 ∧
    SSO_remainder 4 11 = 0) :=
  ⟨by decide, by decide, C38_SSO_indices_sums_to_T 4 11 (by decide) (by decide)⟩

end OddSubsetSum
